import Mathlib

/-!
# S2AFL: coverage bitmap, scoring, state selection, mutation stages and queue of `afl-fuzz.c`

A shallow embedding of the parts of `src/S2AFL/afl-fuzz.c` that the specification's
testable properties talk about, followed by the theorems that settle them.

Conventions of the embedding.

* A byte buffer (`u8 *`) is a `List Nat` whose elements are below 256; the hypotheses
  of the theorems say so explicitly.
* The 64-bit flavour (`WORD_SIZE_64`) of the word-at-a-time loops is modelled. A word is
  read from eight consecutive bytes in little-endian order (`load_le`) and written back
  with `store_le`; `u64` negation is `(2 ^ 64 - 1) ^^^ x`.
* `MAP_SIZE`, `HAVOC_MAX_MULT` and the other constants of `config.h` are parameters:
  `config.h` is not part of the sources at hand.
* Pointers to queue entries are indices into the list of entries; `NULL` is `none`.
* A call of `UR(limit)` is `UR rnd limit` for the value `rnd` that `random()` returns;
  the values drawn are arguments of the functions that draw them.
* Loops whose number of iterations is not fixed take a bound on the number of
  iterations as their first argument; the theorems show that the bound used is enough.
* The message list `kl_messages` is a heap of numbered nodes with `next` pointers
  (`klist`); node 0 is `NULL`.
* Where a claim is about faults, the operation that can fault returns an `Option`:
  `UR_draw` for a call `UR(0)`, `memcpy_at` and `memset_at` for an access outside a
  buffer, `none` for a read through a null pointer or a `PFATAL`.
* Library functions (`qsort`, `tolower`, `net_send`, `net_recv`) are parameters or
  inputs of the functions that call them.
-/

namespace S2AFL

/-! ## Definitions -/

/-! ### Machine words over byte lists -/

/-- Little-endian value of a sequence of bytes: what `*(u64 *)p` or `*(u16 *)p` reads. -/
def load_le : List Nat → Nat
  | [] => 0
  | b :: bs => b + 256 * load_le bs

/-- Little-endian bytes of the low `n` bytes of `w`: what a store of an `n`-byte word writes. -/
def store_le : Nat → Nat → List Nat
  | 0, _ => []
  | n + 1, w => (w % 256) :: store_le n (w / 256)

/-- The loop `while (i--) { body(mem); mem++; }` over `u64 *mem`: `body` rewrites the eight
bytes of the current word, the remaining words follow. -/
def for_each_word64 (body : List Nat → List Nat) : Nat → List Nat → List Nat
  | 0, mem => mem
  | i + 1, mem => body (mem.take 8) ++ for_each_word64 body i (mem.drop 8)

/-! ### simplify_trace (afl-fuzz.c 2287-2330) -/

/-- Table `simplify_lookup[256] = { [0] = 1, [1 ... 255] = 128 }`. -/
def simplify_lookup : List Nat := [1] ++ List.replicate 255 128

/-- Body of `simplify_trace` for a non-zero word: `mem8[k] = simplify_lookup[mem8[k]]`
for `k = 0 .. 7`. -/
def simplify_word (mem8 : List Nat) : List Nat :=
  let mem8 := mem8.set 0 (simplify_lookup.getD (mem8.getD 0 0) 0)
  let mem8 := mem8.set 1 (simplify_lookup.getD (mem8.getD 1 0) 0)
  let mem8 := mem8.set 2 (simplify_lookup.getD (mem8.getD 2 0) 0)
  let mem8 := mem8.set 3 (simplify_lookup.getD (mem8.getD 3 0) 0)
  let mem8 := mem8.set 4 (simplify_lookup.getD (mem8.getD 4 0) 0)
  let mem8 := mem8.set 5 (simplify_lookup.getD (mem8.getD 5 0) 0)
  let mem8 := mem8.set 6 (simplify_lookup.getD (mem8.getD 6 0) 0)
  mem8.set 7 (simplify_lookup.getD (mem8.getD 7 0) 0)

/-- Function `simplify_trace(u64 *mem)`: `MAP_SIZE >> 3` words; a non-zero word is rewritten
through the table, an all-zero word is overwritten with `0x0101010101010101`. -/
def simplify_trace (MAP_SIZE : Nat) (mem : List Nat) : List Nat :=
  for_each_word64
    (fun w => if load_le w ≠ 0 then simplify_word w else store_le 8 0x0101010101010101)
    (MAP_SIZE >>> 3) mem

/-! ### classify_counts (afl-fuzz.c 2363-2420) -/

/-- Table `count_class_lookup8[256]`, written with the ranges of its designated
initialisers: `[0]=0, [1]=1, [2]=2, [3]=4, [4 ... 7]=8, [8 ... 15]=16, [16 ... 31]=32,
[32 ... 127]=64, [128 ... 255]=128`. -/
def count_class_lookup8 : List Nat :=
  [0, 1, 2, 4] ++ List.replicate 4 8 ++ List.replicate 8 16 ++ List.replicate 16 32 ++
    List.replicate 96 64 ++ List.replicate 128 128

/-- Function `init_count_class16`: fills the zero-initialised `u16 count_class_lookup16[65536]`
with `(count_class_lookup8[b1] << 8) | count_class_lookup8[b2]` at `(b1 << 8) + b2`. -/
def init_count_class16 : Array Nat :=
  (List.range 256).foldl
    (fun t b1 => (List.range 256).foldl
      (fun t b2 => t.setD ((b1 <<< 8) + b2)
        ((count_class_lookup8.getD b1 0 <<< 8) ||| count_class_lookup8.getD b2 0)) t)
    (Array.mkArray 65536 0)

/-- Read of `mem16[k]` where `u16 *mem16 = (u16 *)mem`. -/
def mem16 (w : List Nat) (k : Nat) : Nat := load_le ((w.drop (2 * k)).take 2)

/-- Write of `mem16[k] = v`. -/
def set_mem16 (w : List Nat) (k v : Nat) : List Nat :=
  w.take (2 * k) ++ store_le 2 v ++ w.drop (2 * k + 2)

/-- Body of `classify_counts` for a non-zero word: four 16-bit table lookups. -/
def classify_word (count_class_lookup16 : Array Nat) (w : List Nat) : List Nat :=
  let w := set_mem16 w 0 (count_class_lookup16.getD (mem16 w 0) 0)
  let w := set_mem16 w 1 (count_class_lookup16.getD (mem16 w 1) 0)
  let w := set_mem16 w 2 (count_class_lookup16.getD (mem16 w 2) 0)
  set_mem16 w 3 (count_class_lookup16.getD (mem16 w 3) 0)

/-- Function `classify_counts(u64 *mem)`: `MAP_SIZE >> 3` words, all-zero words are skipped. -/
def classify_counts (MAP_SIZE : Nat) (count_class_lookup16 : Array Nat) (mem : List Nat) :
    List Nat :=
  for_each_word64 (fun w => if load_le w ≠ 0 then classify_word count_class_lookup16 w else w)
    (MAP_SIZE >>> 3) mem

/-- The bucket function as the specification words it: 0, 1, 2, 3, 4-7, 8-15, 16-31, 32-127,
128-255 go to 0, 1, 2, 4, 8, 16, 32, 64, 128. -/
def bucket (b : Nat) : Nat :=
  if b = 0 then 0 else if b = 1 then 1 else if b = 2 then 2 else if b = 3 then 4
  else if b ≤ 7 then 8 else if b ≤ 15 then 16 else if b ≤ 31 then 32
  else if b ≤ 127 then 64 else 128

/-! ### has_new_bits (afl-fuzz.c 2107-2187) -/

/-- What a call of `has_new_bits` leaves behind: its return value, the virgin map it was
given and the trace bitmap `trace_bits` (which the function only reads). -/
structure has_new_bits_result where
  ret : Nat
  virgin_map : List Nat
  trace_bits : List Nat
deriving DecidableEq

/-- The `while (i--)` loop of `has_new_bits`: `current` and `virgin` are the bytes from the
two running pointers on, `ret` the running result. Returns the final `ret` and the bytes of
the virgin map from the running pointer on. -/
def has_new_bits_loop : Nat → List Nat → List Nat → Nat → Nat × List Nat
  | 0, _, virgin, ret => (ret, virgin)
  | i + 1, current, virgin, ret =>
    let cur := current.take 8
    let vir := virgin.take 8
    if load_le cur ≠ 0 ∧ load_le cur &&& load_le vir ≠ 0 then
      let ret1 :=
        if ret < 2 then
          if (cur.getD 0 0 ≠ 0 ∧ vir.getD 0 0 = 0xff) ∨ (cur.getD 1 0 ≠ 0 ∧ vir.getD 1 0 = 0xff) ∨
             (cur.getD 2 0 ≠ 0 ∧ vir.getD 2 0 = 0xff) ∨ (cur.getD 3 0 ≠ 0 ∧ vir.getD 3 0 = 0xff) ∨
             (cur.getD 4 0 ≠ 0 ∧ vir.getD 4 0 = 0xff) ∨ (cur.getD 5 0 ≠ 0 ∧ vir.getD 5 0 = 0xff) ∨
             (cur.getD 6 0 ≠ 0 ∧ vir.getD 6 0 = 0xff) ∨ (cur.getD 7 0 ≠ 0 ∧ vir.getD 7 0 = 0xff)
          then 2 else 1
        else ret
      let r := has_new_bits_loop i (current.drop 8) (virgin.drop 8) ret1
      (r.1, store_le 8 (load_le vir &&& ((2 ^ 64 - 1) ^^^ load_le cur)) ++ r.2)
    else
      let r := has_new_bits_loop i (current.drop 8) (virgin.drop 8) ret
      (r.1, vir ++ r.2)

/-- Function `has_new_bits(virgin_map)` run on the trace bitmap `trace_bits`. The flag
`bitmap_changed`, which no property below mentions, is left out. -/
def has_new_bits (MAP_SIZE : Nat) (trace_bits virgin_map : List Nat) : has_new_bits_result :=
  let r := has_new_bits_loop (MAP_SIZE >>> 3) trace_bits virgin_map 0
  { ret := r.1, virgin_map := r.2, trace_bits := trace_bits }

/-- Byte-wise reference for the return value of `has_new_bits`, over the pairs
`(current[i], virgin[i])`: 2 when a non-zero trace byte meets a pristine virgin byte,
else 1 when some trace bit is still set in the virgin map, else 0. -/
def novelty_class (ps : List (Nat × Nat)) : Nat :=
  if ∃ p ∈ ps, p.1 ≠ 0 ∧ p.2 = 0xff then 2
  else if ∃ p ∈ ps, p.1 &&& p.2 ≠ 0 then 1 else 0

/-! ### Queue entries, favourites and culling (afl-fuzz.c 243-285, 2457-2601) -/

/-- The fields of `struct queue_entry` that scoring, culling, `calculate_score`, the end
of `fuzz_one` and `calibrate_case` use. -/
structure queue_entry where
  len : Nat
  favored : Nat
  fs_redundant : Nat
  bitmap_size : Nat
  exec_us : Nat
  handicap : Nat
  depth : Nat
  trace_mini : Option (List Nat)
  tc_ref : Nat
  index : Nat
  generating_state_id : Nat
  is_initial_seed : Nat
  unique_state_count : Nat
  was_fuzzed : Nat := 0
  cal_failed : Nat := 0
  exec_cksum : Nat := 0
  var_behavior : Nat := 0
  has_new_cov : Nat := 0
deriving DecidableEq

/-- The globals that `update_bitmap_score` and `cull_queue` touch. A pointer to a queue
entry is its position in the linked list that starts at `queue` and follows `next`;
`queue k` is the entry behind pointer `k`, for `k < queued_paths`. -/
structure fuzz_state where
  queue : Nat → queue_entry
  queued_paths : Nat
  top_rated : Nat → Option Nat
  score_changed : Nat
  dumb_mode : Nat
  queued_favored : Nat
  pending_favored : Nat
  target_state_id : Nat
  state_ids : List Nat
  was_fuzzed_map : Nat → Nat → Int

/-- Test `a[i >> 3] & (1 << (i & 7))` on a bit array stored in bytes. -/
def bit_set (a : List Nat) (i : Nat) : Prop := a.getD (i >>> 3) 0 &&& (1 <<< (i &&& 7)) ≠ 0

instance (a : List Nat) (i : Nat) : Decidable (bit_set a i) := by
  unfold bit_set; infer_instance

/-- Function `minimize_bits(dst, src)`: `dst[i >> 3] |= 1 << (i & 7)` for every non-zero
`src[i]`, `i < MAP_SIZE`. -/
def minimize_bits (MAP_SIZE : Nat) (dst src : List Nat) : List Nat :=
  (List.range MAP_SIZE).foldl
    (fun dst i =>
      if src.getD i 0 ≠ 0 then
        dst.set (i >>> 3) ((dst.getD (i >>> 3) 0 ||| (1 <<< (i &&& 7))) % 256)
      else dst)
    dst

/-- Store through a queue-entry pointer. -/
def set_entry (s : fuzz_state) (k : Nat) (e : queue_entry) : fuzz_state :=
  { s with queue := Function.update s.queue k e }

/-- The part of `update_bitmap_score` after the comparison: `top_rated[i] = q; q->tc_ref++;`
allocate and fill `q->trace_mini` if there is none (`ck_alloc` returns zeroed memory);
`score_changed = 1`. -/
def insert_winner (MAP_SIZE : Nat) (trace_bits : List Nat) (q i : Nat) (s : fuzz_state) :
    fuzz_state :=
  let s := { s with top_rated := Function.update s.top_rated i (some q) }
  let s := set_entry s q { s.queue q with tc_ref := ((s.queue q).tc_ref + 1) % 2 ^ 32 }
  let s :=
    match (s.queue q).trace_mini with
    | none => set_entry s q { s.queue q with
        trace_mini := some (minimize_bits MAP_SIZE (List.replicate (MAP_SIZE >>> 3) 0) trace_bits) }
    | some _ => s
  { s with score_changed := 1 }

/-- The statement `if (!--top_rated[i]->tc_ref) { ck_free(trace_mini); trace_mini = 0; }`
for the previous winner `w`. -/
def drop_winner (w : Nat) (s : fuzz_state) : fuzz_state :=
  let s := set_entry s w { s.queue w with tc_ref := ((s.queue w).tc_ref + 2 ^ 32 - 1) % 2 ^ 32 }
  if (s.queue w).tc_ref = 0 then set_entry s w { s.queue w with trace_mini := none } else s

/-- One iteration of the `for` loop of `update_bitmap_score`, at bitmap index `i`. Both
`continue` tests are kept as the source has them. -/
def update_bitmap_score_at (MAP_SIZE : Nat) (trace_bits : List Nat) (q fav_factor : Nat)
    (s : fuzz_state) (i : Nat) : fuzz_state :=
  if trace_bits.getD i 0 ≠ 0 then
    match s.top_rated i with
    | some w =>
      if (s.queue q).unique_state_count < (s.queue w).unique_state_count then s
      else if (s.queue q).unique_state_count < (s.queue w).unique_state_count ∧
          fav_factor > ((s.queue w).exec_us * (s.queue w).len) % 2 ^ 64 then s
      else insert_winner MAP_SIZE trace_bits q i (drop_winner w s)
    | none => insert_winner MAP_SIZE trace_bits q i s
  else s

/-- Function `update_bitmap_score(q)` with the trace of the last run in `trace_bits`. -/
def update_bitmap_score (MAP_SIZE : Nat) (trace_bits : List Nat) (s : fuzz_state) (q : Nat) :
    fuzz_state :=
  (List.range MAP_SIZE).foldl
    (update_bitmap_score_at MAP_SIZE trace_bits q (((s.queue q).exec_us * (s.queue q).len) % 2 ^ 64))
    s

/-- Function `get_state_index`: the first position of `state_id` in `state_ids`, or
`state_ids_count` when it is absent. -/
def get_state_index (state_ids : List Nat) (state_id : Nat) : Nat :=
  match state_ids with
  | [] => 0
  | x :: xs => if x = state_id then 0 else get_state_index xs state_id + 1

/-- The inner loop `while (j--) if (trace_mini[j]) temp_v[j] &= ~trace_mini[j];` of
`cull_queue`, started with the counter at `j`. -/
def cull_clear : Nat → List Nat → List Nat → List Nat
  | 0, _, temp_v => temp_v
  | j + 1, trace_mini, temp_v =>
    cull_clear j trace_mini
      (if trace_mini.getD j 0 ≠ 0 then
        temp_v.set j (temp_v.getD j 0 &&& (0xff ^^^ trace_mini.getD j 0))
      else temp_v)

/-- Loop state of the walk over `top_rated[]` in `cull_queue`. -/
structure cull_walk where
  temp_v : List Nat
  st : fuzz_state

/-- The statements `top_rated[i]->favored = 1; queued_favored++;` and the conditional
`pending_favored++` of `cull_queue`, for the winner `w = top_rated[i]`. -/
def favor_winner (s : fuzz_state) (w : Nat) : fuzz_state :=
  let s := set_entry s w { s.queue w with favored := 1 }
  let s := { s with queued_favored := (s.queued_favored + 1) % 2 ^ 32 }
  if ((s.queue w).generating_state_id = s.target_state_id ∨ (s.queue w).is_initial_seed ≠ 0) ∧
      s.was_fuzzed_map (get_state_index s.state_ids s.target_state_id) (s.queue w).index = 0
  then { s with pending_favored := (s.pending_favored + 1) % 2 ^ 32 }
  else s

/-- One iteration of `for (i = 0; i < MAP_SIZE; i++)` in `cull_queue`. Reading
`top_rated[i]->trace_mini[j]` through a null `trace_mini` is a fault (`none`). -/
def cull_queue_at (MAP_SIZE : Nat) (c : cull_walk) (i : Nat) : Option cull_walk :=
  match c.st.top_rated i with
  | none => some c
  | some w =>
    if bit_set c.temp_v i then
      match (c.st.queue w).trace_mini with
      | none => none
      | some tm =>
        some { temp_v := cull_clear (MAP_SIZE >>> 3) tm c.temp_v, st := favor_winner c.st w }
    else some c

/-- The walk of `cull_queue` over the bitmap indices in `is`. -/
def cull_queue_walk (MAP_SIZE : Nat) : List Nat → cull_walk → Option cull_walk
  | [], c => some c
  | i :: is, c =>
    match cull_queue_at MAP_SIZE c i with
    | none => none
    | some c1 => cull_queue_walk MAP_SIZE is c1

/-- Apply `f` to every entry of the queue, from `queue` along `next`. -/
def for_each_entry (f : queue_entry → queue_entry) (s : fuzz_state) : fuzz_state :=
  (List.range s.queued_paths).foldl (fun s k => set_entry s k (f (s.queue k))) s

/-- Function `mark_as_redundant(q, state)`, without the file it creates or removes. -/
def mark_as_redundant (q : queue_entry) (state : Nat) : queue_entry :=
  if state = q.fs_redundant then q else { q with fs_redundant := state }

/-- Function `cull_queue`. -/
def cull_queue (MAP_SIZE : Nat) (s : fuzz_state) : Option fuzz_state :=
  if s.dumb_mode ≠ 0 ∨ s.score_changed = 0 then some s
  else
    let s := { s with score_changed := 0 }
    let temp_v := List.replicate (MAP_SIZE >>> 3) 255
    let s := { s with queued_favored := 0 }
    let s := { s with pending_favored := 0 }
    let s := for_each_entry (fun q => if q.is_initial_seed = 0 then { q with favored := 0 } else q) s
    match cull_queue_walk MAP_SIZE (List.range MAP_SIZE) { temp_v := temp_v, st := s } with
    | none => none
    | some c =>
      some (for_each_entry (fun q => mark_as_redundant q (if q.favored = 0 then 1 else 0)) c.st)

/-- The winner of bitmap index `p` has bit `i` in its `trace_mini`. -/
def covers (s : fuzz_state) (p i : Nat) : Bool :=
  match s.top_rated p with
  | some w =>
    match (s.queue w).trace_mini with
    | some tm => decide (bit_set tm i)
    | none => false
  | none => false

/-- Index `i` is picked when it has a winner and no earlier pick covers bit `i`, that is when
its bit is still uncovered at the time it is visited. -/
def greedy_step (s : fuzz_state) (ps : List Nat) (i : Nat) : List Nat :=
  if s.top_rated i ≠ none ∧ ∀ p ∈ ps, covers s p i = false then ps ++ [i] else ps

/-- The bitmap indices picked by a walk over `0 .. MAP_SIZE - 1`, in the order of the walk. -/
def greedy_picks (s : fuzz_state) (MAP_SIZE : Nat) : List Nat :=
  (List.range MAP_SIZE).foldl (greedy_step s) []

/-- The winner `w` of a picked index counts for `pending_favored`:
`(w.generating_state_id == target_state_id || w.is_initial_seed)` and
`was_fuzzed_map[get_state_index(target_state_id)][w.index] == 0`. -/
def pending_pick (s : fuzz_state) (p : Nat) : Bool :=
  match s.top_rated p with
  | some w =>
    decide (((s.queue w).generating_state_id = s.target_state_id ∨ (s.queue w).is_initial_seed ≠ 0) ∧
      s.was_fuzzed_map (get_state_index s.state_ids s.target_state_id) (s.queue w).index = 0)
  | none => false

/-- The state of the walk of `cull_queue` after the picks `ps`, starting from `sb`: every
winner of a pick is favored and the two counters have been incremented once per pick. -/
def walk_state (sb : fuzz_state) (ps : List Nat) : fuzz_state :=
  { sb with
    queue := fun e =>
      if ∃ p ∈ ps, sb.top_rated p = some e then { sb.queue e with favored := 1 } else sb.queue e
    queued_favored := (sb.queued_favored + ps.length) % 2 ^ 32
    pending_favored := (sb.pending_favored + (ps.filter (pending_pick sb)).length) % 2 ^ 32 }

/-- Loop invariant of the walk of `cull_queue`: `temp_v` has the right size, and a bit of
`temp_v` is still set exactly when no pick made so far covers it. -/
def temp_v_ok (MAP_SIZE : Nat) (sb : fuzz_state) (ps : List Nat) (tv : List Nat) : Prop :=
  tv.length = MAP_SIZE >>> 3 ∧
  ∀ i, i >>> 3 < MAP_SIZE >>> 3 → (bit_set tv i ↔ ∀ p ∈ ps, covers sb p i = false)

/-- The state in which `cull_queue` starts its walk: `score_changed`, `queued_favored` and
`pending_favored` are zero and `favored` is cleared on every entry that is not an initial
seed. -/
def cull_reset (s : fuzz_state) : fuzz_state :=
  for_each_entry (fun q => if q.is_initial_seed = 0 then { q with favored := 0 } else q)
    { s with score_changed := 0, queued_favored := 0, pending_favored := 0 }

/-! ### Concrete inputs used to evaluate the model -/

/-- A queue entry as `add_to_queue` leaves it after `ck_alloc`: every field zero. -/
def blank_entry : queue_entry :=
  { len := 0, favored := 0, fs_redundant := 0, bitmap_size := 0, exec_us := 0, handicap := 0,
    depth := 0, trace_mini := none, tc_ref := 0, index := 0, generating_state_id := 0,
    is_initial_seed := 0, unique_state_count := 0 }

/-- A state with two queue entries and no winners: entry 0 ran in 10 us on 10 bytes, entry 1 in
100 us on 100 bytes, both with `unique_state_count == 1`. -/
def two_entries : fuzz_state :=
  { queue := fun k =>
      { blank_entry with
        index := k, unique_state_count := 1,
        exec_us := if k = 0 then 10 else 100, len := if k = 0 then 10 else 100 }
    queued_paths := 2
    top_rated := fun _ => none
    score_changed := 0
    dumb_mode := 0
    queued_favored := 0
    pending_favored := 0
    target_state_id := 0
    state_ids := [0]
    was_fuzzed_map := fun _ _ => 0 }

/-- A state on an 8-byte map in which entry 1 is the winner of bytes 0 and 2 (its `trace_mini`
is the single byte 5), entry 0 is favored from an earlier round, and scoring has changed. -/
def cull_example : fuzz_state :=
  { two_entries with
    queue := fun k =>
      if k = 1 then { two_entries.queue 1 with trace_mini := some [5], tc_ref := 2 }
      else { two_entries.queue k with favored := 1 }
    top_rated := fun i => if i = 0 ∨ i = 2 then some 1 else none
    score_changed := 1 }

/-! ### Bookkeeping of scoring used by the proofs -/

/-- Number of bitmap indices below `n` whose winner is `e`: what `tc_ref` is meant to count. -/
def wins (top_rated : Nat → Option Nat) (e : Nat) : Nat → Nat
  | 0 => 0
  | n + 1 => wins top_rated e n + (if top_rated n = some e then 1 else 0)

/-- Invariant of `top_rated[]` under scoring, for entries whose trace is `tr e`: a winner of
index `i` has a non-zero trace byte `i`; `tc_ref` counts the indices an entry wins; and an
entry holds a `trace_mini` (the minimised form of its trace) exactly while it wins some index. -/
def score_inv (MAP_SIZE : Nat) (tr : Nat → List Nat) (s : fuzz_state) : Prop :=
  (∀ i < MAP_SIZE, ∀ e, s.top_rated i = some e → (tr e).getD i 0 ≠ 0) ∧
  (∀ e, (s.queue e).tc_ref = wins s.top_rated e MAP_SIZE) ∧
  (∀ e, (s.queue e).trace_mini =
    if (s.queue e).tc_ref = 0 then none
    else some (minimize_bits MAP_SIZE (List.replicate (MAP_SIZE >>> 3) 0) (tr e)))

/-- The winner of index `i` after `update_bitmap_score(q)` ran with trace `tb`, read off the
state before the call: a hit byte goes to `q` unless the previous winner has a strictly higher
`unique_state_count`. -/
def new_winner (tb : List Nat) (q : Nat) (s : fuzz_state) (i : Nat) : Option Nat :=
  if tb.getD i 0 ≠ 0 then
    (match s.top_rated i with
      | some w =>
        if (s.queue q).unique_state_count < (s.queue w).unique_state_count then some w
        else some q
      | none => some q)
  else s.top_rated i

/-- Scoring of the whole queue: every entry `k < n` is passed once to `update_bitmap_score`,
in queue order, with its own trace `tr k` in `trace_bits` (as `calibrate_case` does for each
entry). -/
def score_all (MAP_SIZE : Nat) (tr : Nat → List Nat) (s : fuzz_state) (n : Nat) : fuzz_state :=
  (List.range n).foldl (fun s k => update_bitmap_score MAP_SIZE (tr k) s k) s

/-- A state on an 8-byte map in which entry 0 (10 us, 10 bytes) is the winner of byte 0. -/
def tie_state : fuzz_state :=
  { two_entries with
    queue := fun k =>
      if k = 0 then { two_entries.queue 0 with trace_mini := some [1], tc_ref := 1 }
      else two_entries.queue k
    top_rated := fun i => if i = 0 then some 0 else none
    score_changed := 1 }

/-! ### calculate_score (afl-fuzz.c 6411-6502) -/

/-- Outcomes of the comparisons that `calculate_score` makes in double precision:
`mul_gt x c y` stands for `x * c > y` and `mul_lt x c y` for `x * c < y`, where `x` and `y` are
unsigned integers and `c` is the decimal literal of the source. How these round is left open:
the theorems hold for every outcome. -/
structure double_cmp where
  mul_gt : Nat → Rat → Nat → Bool
  mul_lt : Nat → Rat → Nat → Bool

/-- The comparisons carried out in exact arithmetic, one possible `double_cmp`. -/
def exact_cmp : double_cmp :=
  { mul_gt := fun x c y => decide ((x : Rat) * c > (y : Rat))
    mul_lt := fun x c y => decide ((x : Rat) * c < (y : Rat)) }

/-- First stage of `calculate_score`: the score from the execution speed of the entry against
the average, starting from `perf_score = 100`. -/
def score_speed (cmp : double_cmp) (exec_us avg_exec_us : Nat) : Nat :=
  if cmp.mul_gt exec_us 0.1 avg_exec_us then 10
  else if cmp.mul_gt exec_us 0.25 avg_exec_us then 25
  else if cmp.mul_gt exec_us 0.5 avg_exec_us then 50
  else if cmp.mul_gt exec_us 0.75 avg_exec_us then 75
  else if (exec_us * 4) % 2 ^ 64 < avg_exec_us then 300
  else if (exec_us * 3) % 2 ^ 64 < avg_exec_us then 200
  else if (exec_us * 2) % 2 ^ 64 < avg_exec_us then 150
  else 100

/-- Second stage of `calculate_score`: the adjustment by bitmap size. The products with 1.5,
0.25, 0.5 and 0.75 are exact in double precision (the operand is below 2^32 and the factors
are dyadic), so their truncation to `u32` is the integer quotient. -/
def score_bitmap (cmp : double_cmp) (perf_score bitmap_size avg_bitmap_size : Nat) : Nat :=
  if cmp.mul_gt bitmap_size 0.3 avg_bitmap_size then (perf_score * 3) % 2 ^ 32
  else if cmp.mul_gt bitmap_size 0.5 avg_bitmap_size then (perf_score * 2) % 2 ^ 32
  else if cmp.mul_gt bitmap_size 0.75 avg_bitmap_size then (perf_score * 3 / 2) % 2 ^ 32
  else if (bitmap_size * 3) % 2 ^ 32 < avg_bitmap_size then (perf_score / 4) % 2 ^ 32
  else if (bitmap_size * 2) % 2 ^ 32 < avg_bitmap_size then (perf_score / 2) % 2 ^ 32
  else if cmp.mul_lt bitmap_size 1.5 avg_bitmap_size then (perf_score * 3 / 4) % 2 ^ 32
  else perf_score

/-- Third stage of `calculate_score`: the handicap bonus, which also lowers `q->handicap`. -/
def score_handicap (perf_score : Nat) (q : queue_entry) : Nat × queue_entry :=
  if q.handicap ≥ 4 then ((perf_score * 4) % 2 ^ 32, { q with handicap := q.handicap - 4 })
  else if q.handicap ≠ 0 then ((perf_score * 2) % 2 ^ 32, { q with handicap := q.handicap - 1 })
  else (perf_score, q)

/-- Fourth stage of `calculate_score`: the `switch (q->depth)`. -/
def score_depth (perf_score depth : Nat) : Nat :=
  if depth ≤ 3 then perf_score
  else if depth ≤ 7 then (perf_score * 2) % 2 ^ 32
  else if depth ≤ 13 then (perf_score * 3) % 2 ^ 32
  else if depth ≤ 25 then (perf_score * 4) % 2 ^ 32
  else (perf_score * 5) % 2 ^ 32

/-- Function `calculate_score(q)`. Returns the score and the entry with its updated
`handicap`; a division by zero in one of the two averages is a fault (`none`). -/
def calculate_score (HAVOC_MAX_MULT : Nat) (cmp : double_cmp)
    (total_cal_us total_cal_cycles total_bitmap_size total_bitmap_entries : Nat)
    (q : queue_entry) : Option (Nat × queue_entry) :=
  if total_cal_cycles = 0 ∨ total_bitmap_entries = 0 then none
  else
    let avg_exec_us := (total_cal_us / total_cal_cycles) % 2 ^ 32
    let avg_bitmap_size := (total_bitmap_size / total_bitmap_entries) % 2 ^ 32
    let perf_score := score_speed cmp q.exec_us avg_exec_us
    let perf_score := score_bitmap cmp perf_score q.bitmap_size avg_bitmap_size
    let r := score_handicap perf_score q
    let perf_score := score_depth r.1 r.2.depth
    let perf_score :=
      if perf_score > HAVOC_MAX_MULT * 100 then HAVOC_MAX_MULT * 100 else perf_score
    some (perf_score, r.2)

/-! ### is_state_sequence_interesting (afl-fuzz.c 732-762) -/

/-- The first loop of `is_state_sequence_interesting`: element `i` is skipped when `i >= 2`
and it equals both elements before it, otherwise it is appended to `trimmed_state_sequence`. -/
def trim_state_sequence (state_sequence : List Nat) (state_count : Nat) : List Nat :=
  (List.range state_count).foldl
    (fun trimmed i =>
      if i ≥ 2 ∧ state_sequence.getD i 0 = state_sequence.getD (i - 1) 0 ∧
          state_sequence.getD i 0 = state_sequence.getD (i - 2) 0 then trimmed
      else trimmed ++ [state_sequence.getD i 0])
    []

/-- Function `is_state_sequence_interesting`. The hash `hash32(key, len, 0)` of `hash.h` is a
parameter on the sequence of `u32` values hashed; the set `khs_ipsm_paths` is the list of its
keys. Returns the verdict and the set after the call. -/
def is_state_sequence_interesting (hash32 : List Nat → Nat) (khs_ipsm_paths : List Nat)
    (state_sequence : List Nat) (state_count : Nat) : Nat × List Nat :=
  let hashKey := hash32 (trim_state_sequence state_sequence state_count)
  if hashKey ∈ khs_ipsm_paths then (0, khs_ipsm_paths) else (1, hashKey :: khs_ipsm_paths)

/-- The form of a state sequence with consecutive duplicates collapsed, as the specification
words it: every run of equal states becomes a single state. -/
def collapse_duplicates : List Nat → List Nat
  | [] => []
  | [x] => [x]
  | x :: y :: rest =>
    if x = y then collapse_duplicates (y :: rest) else x :: collapse_duplicates (y :: rest)

/-- The form of a state sequence with every run of three or more equal states cut down to
two: a self-loop is kept once. -/
def cap_runs : List Nat → List Nat
  | x :: y :: z :: rest =>
    if x = y ∧ y = z then cap_runs (y :: z :: rest) else x :: cap_runs (y :: z :: rest)
  | l => l

/-! ### State selection (afl-fuzz.c 855-917) -/

/-- Loop of `index_search` (afl-fuzz.c 855-865): `index` runs upwards from its
start value and the loop is left at the first `index` with `val <= A[index]`,
or when `index` reaches `n`.  The first argument bounds the number of
iterations. -/
def index_search_from (A : List Nat) (n val : Nat) : Nat → Nat → Nat
  | 0, index => index
  | fuel + 1, index =>
    if index < n then
      if val ≤ A.getD index 0 then index
      else index_search_from A n val fuel (index + 1)
    else index

/-- Function `index_search` (afl-fuzz.c 855-865). -/
def index_search (A : List Nat) (n val : Nat) : Nat :=
  index_search_from A n val n 0

/-- The array `state_scores` filled by `update_scores_and_select_next_state`
(afl-fuzz.c 883-908) from the scores of the states, every state being present
in `khms_states`: entry 0 is the first score and entry `i` is entry `i - 1`
plus score `i`, in 32-bit arithmetic.  `prev` is the entry written last
(0 before the first). -/
def fill_state_scores : Nat → List Nat → List Nat
  | _, [] => []
  | prev, score :: rest =>
    let v := (prev + score) % 2 ^ 32
    v :: fill_state_scores v rest

/-- The array `state_scores` of `update_scores_and_select_next_state`. -/
def state_scores (scores : List Nat) : List Nat :=
  fill_state_scores 0 scores

/-- Macro `UR` (afl-fuzz.c 1522-1537) on the value `rnd` returned by
`random()`: `rnd % limit`. -/
def UR (rnd limit : Nat) : Nat :=
  rnd % limit

/-- The index chosen by `update_scores_and_select_next_state`
(afl-fuzz.c 910-911) when `random()` returns `rnd`:
`index_search(state_scores, state_ids_count, UR(state_scores[state_ids_count - 1]))`. -/
def select_state_index (scores : List Nat) (rnd : Nat) : Nat :=
  let A := state_scores scores
  let n := scores.length
  index_search A n (UR rnd (A.getD (n - 1) 0))

/-- The number of draws `r` in `[0, T)`, `T` the last entry of `state_scores`,
for which `update_scores_and_select_next_state` chooses index `i`. -/
def draws_selecting (scores : List Nat) (i : Nat) : Nat :=
  let T := (state_scores scores).getD (scores.length - 1) 0
  ((List.range T).filter (fun r => select_state_index scores r = i)).length

/-- The fields of `state_info_t` read by the `FAVOR` score of
`update_scores_and_select_next_state` (afl-fuzz.c 893). -/
structure state_info_t where
  fuzzs : Nat
  selected_times : Nat
  paths_discovered : Nat
deriving DecidableEq

/-- The scores assigned by the first loop of
`update_scores_and_select_next_state` (afl-fuzz.c 883-908) in mode `FAVOR`.
The value of the `double` expression
`ceil(1000 * pow(2, -log10(log10(fuzzs + 1) * selected_times + 1)) * pow(2, log(paths_discovered + 1)))`
is computed by the C library and is the parameter `favor_score`, a function
of `fuzzs`, `selected_times` and `paths_discovered`. -/
def favor_scores (favor_score : Nat → Nat → Nat → Nat)
    (states : List state_info_t) : List Nat :=
  states.map (fun s => favor_score s.fuzzs s.selected_times s.paths_discovered)

/-- The bound of the draw of `update_scores_and_select_next_state`
(afl-fuzz.c 910): `state_scores[state_ids_count - 1]`. -/
def total_score (scores : List Nat) : Nat :=
  (state_scores scores).getD (scores.length - 1) 0

/-- The states of scenario S4: `selected_times = [10, 0, 10]`,
`fuzzs = [100, 0, 100]`, `paths_discovered = [1, 5, 1]`. -/
def scenario_S4 : List state_info_t :=
  [⟨100, 10, 1⟩, ⟨0, 0, 5⟩, ⟨100, 10, 1⟩]

/-! ### Selection of the subsequence M2 (afl-fuzz.c 6790-6859) -/

/-- The fields of `region_t` used by `afl-fuzz.c`: the byte range of the
region in the seed file and the state annotation of the region. -/
structure region_t where
  start_byte : Nat
  end_byte : Nat
  state_sequence : List Nat
  state_count : Nat
deriving DecidableEq

/-- Element `regions[i]`; an index outside the array reads a blank region. -/
def region_at (regions : List region_t) (i : Nat) : region_t :=
  regions.getD i ⟨0, 0, [], 0⟩

/-- How the selection of M2 in `fuzz_one` ends: `return 1` (the entry is
skipped), `PFATAL` (the program stops) or the code goes on with
`M2_start_region_ID` and `M2_region_count`. -/
inductive M2_selection where
  | skip : M2_selection
  | abort : M2_selection
  | proceed (M2_start_region_ID M2_region_count : Nat) : M2_selection
deriving DecidableEq

/-- The loop of `fuzz_one` that identifies `M2_start_region_ID` from
`target_state_id` (afl-fuzz.c 6826-6842): `none` is `return 1`, otherwise the
value of `M2_start_region_ID` after the loop.  The first argument bounds the
number of iterations. -/
def M2_start_loop (regions : List region_t) (region_count target_state_id : Nat) :
    Nat → Nat → Nat → Option Nat
  | 0, _, M2_start_region_ID => some M2_start_region_ID
  | fuel + 1, i, M2_start_region_ID =>
    if i < region_count then
      let regionalStateCount := (region_at regions i).state_count
      if regionalStateCount > 0 then
        let reachableStateID :=
          (region_at regions i).state_sequence.getD (regionalStateCount - 1) 0
        if reachableStateID = target_state_id then some (M2_start_region_ID + 1)
        else M2_start_loop regions region_count target_state_id fuel (i + 1)
          (M2_start_region_ID + 1)
      else none
    else some M2_start_region_ID

/-- The loop of `fuzz_one` that identifies `M2_region_count`
(afl-fuzz.c 6812-6817 and 6846-6851): `i` runs from its start value and the
loop is left at the first region whose `state_count` differs from that of
region `first`.  The first argument bounds the number of iterations. -/
def M2_count_loop (regions : List region_t) (region_count first : Nat) :
    Nat → Nat → Nat → Nat
  | 0, _, M2_region_count => M2_region_count
  | fuel + 1, i, M2_region_count =>
    if i < region_count then
      if (region_at regions i).state_count ≠ (region_at regions first).state_count then
        M2_region_count
      else M2_count_loop regions region_count first fuel (i + 1) (M2_region_count + 1)
    else M2_region_count

/-- The selection of M2 in `fuzz_one` (afl-fuzz.c 6790-6859) for the queue
entry with the given `regions` and `region_count`; `rnd1` and `rnd2` are the
values of `random()` of the two calls of `UR`. -/
def select_M2 (state_aware_mode : Bool) (target_state_id : Nat)
    (regions : List region_t) (region_count rnd1 rnd2 : Nat) : M2_selection :=
  if state_aware_mode then
    if region_count = 0 then M2_selection.abort
    else if target_state_id = 0 then
      M2_selection.proceed 0 (M2_count_loop regions region_count 0 region_count 0 0)
    else
      match M2_start_loop regions region_count target_state_id region_count 0 0 with
      | none => M2_selection.skip
      | some M2_start_region_ID =>
        let M2_region_count :=
          M2_count_loop regions region_count M2_start_region_ID region_count
            M2_start_region_ID 0
        if M2_start_region_ID ≥ region_count then M2_selection.skip
        else M2_selection.proceed M2_start_region_ID M2_region_count
  else
    if region_count = 0 then M2_selection.abort
    else
      let M2_start_region_ID := UR rnd1 region_count
      let M2_region_count := UR rnd2 (region_count - M2_start_region_ID)
      let M2_region_count := if M2_region_count = 0 then M2_region_count + 1 else M2_region_count
      M2_selection.proceed M2_start_region_ID M2_region_count

/-- The state id reached by region `i`: the last id of its annotation. -/
def reachable_state (regions : List region_t) (i : Nat) : Nat :=
  (region_at regions i).state_sequence.getD ((region_at regions i).state_count - 1) 0

/-- Reference count for M2: the number of regions from index `first` up to
`region_count` before the first one whose `state_count` differs from that of
region `first`. -/
def M2_run_length (regions : List region_t) (region_count first : Nat) : Nat :=
  (((List.range region_count).drop first).takeWhile
    (fun i => (region_at regions i).state_count = (region_at regions first).state_count)).length

/-- Three regions whose annotations end in the states 1, 2 and 3. -/
def regions_123 : List region_t :=
  [⟨0, 3, [0, 1], 2⟩, ⟨4, 7, [0, 1, 2], 3⟩, ⟨8, 11, [0, 1, 2, 3], 4⟩]

/-! ### The effector map (afl-fuzz.c 7369-7465) and the arith 8/8 stage -/

/-- Macro `EFF_APOS`: position of a file offset in the effector map.
`EFF_MAP_SCALE2` is a constant of `config.h`. -/
def EFF_APOS (EFF_MAP_SCALE2 p : Nat) : Nat :=
  p >>> EFF_MAP_SCALE2

/-- Macro `EFF_REM`. -/
def EFF_REM (EFF_MAP_SCALE2 x : Nat) : Nat :=
  x &&& ((1 <<< EFF_MAP_SCALE2) - 1)

/-- Macro `EFF_ALEN`: length of a map for a number of bytes. -/
def EFF_ALEN (EFF_MAP_SCALE2 l : Nat) : Nat :=
  EFF_APOS EFF_MAP_SCALE2 l + (if EFF_REM EFF_MAP_SCALE2 l ≠ 0 then 1 else 0)

/-- The variables `eff_map` and `eff_cnt` of `fuzz_one`. -/
structure eff_state where
  eff_map : List Nat
  eff_cnt : Nat
deriving DecidableEq

/-- Set-up of the effector map (afl-fuzz.c 7384-7393): a zeroed map of
`EFF_ALEN(len)` bytes with entry 0 and the entry of the last byte set;
`eff_cnt` is 1 from its declaration. -/
def eff_init (EFF_MAP_SCALE2 len : Nat) : eff_state :=
  let eff_map := (List.replicate (EFF_ALEN EFF_MAP_SCALE2 len) 0).set 0 1
  if EFF_APOS EFF_MAP_SCALE2 (len - 1) ≠ 0 then
    ⟨eff_map.set (EFF_APOS EFF_MAP_SCALE2 (len - 1)) 1, 1 + 1⟩
  else ⟨eff_map, 1⟩

/-- The bookkeeping of one step of the bitflip 8/8 loop (afl-fuzz.c 7423-7442)
after `common_fuzz_stuff` returned 0; `trace_hash` is
`hash32(trace_bits, MAP_SIZE, HASH_CONST)` of that run. -/
def flip8_mark (EFF_MAP_SCALE2 EFF_MIN_LEN : Nat) (dumb_mode : Bool)
    (len exec_cksum stage_cur trace_hash : Nat) (st : eff_state) : eff_state :=
  if st.eff_map.getD (EFF_APOS EFF_MAP_SCALE2 stage_cur) 0 = 0 then
    let cksum :=
      if !dumb_mode ∧ len ≥ EFF_MIN_LEN then trace_hash
      else 2 ^ 32 - 1 - exec_cksum
    if cksum ≠ exec_cksum then
      ⟨st.eff_map.set (EFF_APOS EFF_MAP_SCALE2 stage_cur) 1, st.eff_cnt + 1⟩
    else st
  else st

/-- The bitflip 8/8 loop (afl-fuzz.c 7405-7446).  `flip_run stage_cur` is the
run of the buffer with byte `stage_cur` flipped: `none` when
`common_fuzz_stuff` returns non-zero (`goto abandon_entry`), otherwise the
hash of the trace of that run.  The first argument bounds the number of
iterations. -/
def flip8_loop (EFF_MAP_SCALE2 EFF_MIN_LEN : Nat) (dumb_mode : Bool)
    (len exec_cksum : Nat) (flip_run : Nat → Option Nat) :
    Nat → Nat → eff_state → Option eff_state
  | 0, _, st => some st
  | fuel + 1, stage_cur, st =>
    if stage_cur < len then
      match flip_run stage_cur with
      | none => none
      | some trace_hash =>
        flip8_loop EFF_MAP_SCALE2 EFF_MIN_LEN dumb_mode len exec_cksum flip_run fuel
          (stage_cur + 1)
          (flip8_mark EFF_MAP_SCALE2 EFF_MIN_LEN dumb_mode len exec_cksum stage_cur
            trace_hash st)
    else some st

/-- The density test after the loop (afl-fuzz.c 7452-7457): a map more than
`EFF_MAX_PERC` percent dense is flagged as a whole. -/
def eff_finish (EFF_MAP_SCALE2 EFF_MAX_PERC len : Nat) (st : eff_state) : List Nat :=
  if st.eff_cnt ≠ EFF_ALEN EFF_MAP_SCALE2 len ∧
      st.eff_cnt * 100 / EFF_ALEN EFF_MAP_SCALE2 len > EFF_MAX_PERC then
    List.replicate (EFF_ALEN EFF_MAP_SCALE2 len) 1
  else st.eff_map

/-- The state after the loop of the bitflip 8/8 stage, before the density
test. -/
def flip8_scan (EFF_MAP_SCALE2 EFF_MIN_LEN : Nat) (dumb_mode : Bool)
    (len exec_cksum : Nat) (flip_run : Nat → Option Nat) : Option eff_state :=
  flip8_loop EFF_MAP_SCALE2 EFF_MIN_LEN dumb_mode len exec_cksum flip_run len 0
    (eff_init EFF_MAP_SCALE2 len)

/-- The effector map after the bitflip 8/8 stage (afl-fuzz.c 7384-7457);
`none` when the stage is left through `abandon_entry`. -/
def flip8_eff_map (EFF_MAP_SCALE2 EFF_MIN_LEN EFF_MAX_PERC : Nat) (dumb_mode : Bool)
    (len exec_cksum : Nat) (flip_run : Nat → Option Nat) : Option (List Nat) :=
  (flip8_scan EFF_MAP_SCALE2 EFF_MIN_LEN dumb_mode len exec_cksum flip_run).map
    (eff_finish EFF_MAP_SCALE2 EFF_MAX_PERC len)

/-- The loop of `could_be_bitflip` that shifts `xor_val` right until its
lowest bit is set (afl-fuzz.c 6520-6524); returns `sh` and `xor_val`. -/
def shift_to_first_bit : Nat → Nat → Nat → Nat × Nat
  | 0, sh, xor_val => (sh, xor_val)
  | fuel + 1, sh, xor_val =>
    if xor_val &&& 1 = 0 then shift_to_first_bit fuel (sh + 1) (xor_val >>> 1)
    else (sh, xor_val)

/-- Function `could_be_bitflip` (afl-fuzz.c 6511-6541) on a 32-bit value. -/
def could_be_bitflip (xor_val : Nat) : Bool :=
  if xor_val = 0 then true
  else
    let (sh, xor_val) := shift_to_first_bit 32 0 xor_val
    if xor_val = 1 ∨ xor_val = 3 ∨ xor_val = 15 then true
    else if sh &&& 7 ≠ 0 then false
    else if xor_val = 0xff ∨ xor_val = 0xffff ∨ xor_val = 0xffffffff then true
    else false

/-- The executions of the arith 8/8 stage at position `i` with original byte
`orig` (afl-fuzz.c 7609-7648), each given as the position and the byte
written there, for `j` from `j` up to `ARITH_MAX`; every call of
`common_fuzz_stuff` is taken to return 0. -/
def arith8_at (ARITH_MAX i orig : Nat) : Nat → Nat → List (Nat × Nat)
  | 0, _ => []
  | fuel + 1, j =>
    if j ≤ ARITH_MAX then
      let up := (orig + j) % 256
      let down := (orig + 256 - j % 256) % 256
      (if !could_be_bitflip (orig ^^^ up) then [(i, up)] else []) ++
      (if !could_be_bitflip (orig ^^^ down) then [(i, down)] else []) ++
      arith8_at ARITH_MAX i orig fuel (j + 1)
    else []

/-- The executions of the arith 8/8 stage (afl-fuzz.c 7592-7650): positions
whose effector map entry is 0 are passed over. -/
def arith8 (EFF_MAP_SCALE2 ARITH_MAX : Nat) (eff_map out_buf : List Nat) :
    List (Nat × Nat) :=
  (List.range out_buf.length).flatMap (fun i =>
    if eff_map.getD (EFF_APOS EFF_MAP_SCALE2 i) 0 = 0 then []
    else arith8_at ARITH_MAX i (out_buf.getD i 0) ARITH_MAX 1)
/-- Whether the checksum compared at step `k` of the bitflip 8/8 loop differs
from `exec_cksum`: the hash of the trace of the run with byte `k` flipped, or
the complement of `exec_cksum` in dumb mode and for a buffer shorter than
`EFF_MIN_LEN`. -/
def flip_changes (EFF_MIN_LEN : Nat) (dumb_mode : Bool) (len exec_cksum : Nat)
    (flip_run : Nat → Option Nat) (k : Nat) : Bool :=
  match flip_run k with
  | none => false
  | some trace_hash =>
    decide ((if !dumb_mode ∧ len ≥ EFF_MIN_LEN then trace_hash
      else 2 ^ 32 - 1 - exec_cksum) ≠ exec_cksum)

/-- Reference description of the flagged blocks: block `b` of the effector
map is flagged after the first `m` steps when it is the first block, the
block of the last byte, or holds a byte below `m` whose flip changed the
checksum. -/
def block_flagged (EFF_MAP_SCALE2 EFF_MIN_LEN : Nat) (dumb_mode : Bool)
    (len exec_cksum : Nat) (flip_run : Nat → Option Nat) (m b : Nat) : Prop :=
  b = 0 ∨ b = EFF_APOS EFF_MAP_SCALE2 (len - 1) ∨
  ∃ k, k < m ∧ EFF_APOS EFF_MAP_SCALE2 k = b ∧
    flip_changes EFF_MIN_LEN dumb_mode len exec_cksum flip_run k = true

/-- The density test of `eff_finish`. -/
def eff_dense (EFF_MAP_SCALE2 EFF_MAX_PERC len : Nat) (st : eff_state) : Prop :=
  st.eff_cnt ≠ EFF_ALEN EFF_MAP_SCALE2 len ∧
    st.eff_cnt * 100 / EFF_ALEN EFF_MAP_SCALE2 len > EFF_MAX_PERC

/-- Invariant of the bitflip 8/8 loop before step `m`: the map has its length
and its entries are 1 on the flagged blocks and 0 elsewhere. -/
def eff_inv (S MIN : Nat) (dumb : Bool) (len exec : Nat) (flip_run : Nat → Option Nat)
    (m : Nat) (st : eff_state) : Prop :=
  st.eff_map.length = EFF_ALEN S len ∧
  ∀ b, b < EFF_ALEN S len →
    (st.eff_map.getD b 0 = 1 ∧ block_flagged S MIN dumb len exec flip_run m b) ∨
    (st.eff_map.getD b 0 = 0 ∧ ¬ block_flagged S MIN dumb len exec flip_run m b)

/-! ### Splicing (afl-fuzz.c 1680-1706, 9165-9266) -/

/-- Loop of `locate_diffs` (afl-fuzz.c 1689-1699); `f_loc` and `l_loc` are
signed.  The first argument bounds the number of iterations. -/
def locate_diffs_loop (ptr1 ptr2 : List Nat) (len : Nat) :
    Nat → Nat → Int → Int → Int × Int
  | 0, _, f_loc, l_loc => (f_loc, l_loc)
  | fuel + 1, pos, f_loc, l_loc =>
    if pos < len then
      if ptr1.getD pos 0 ≠ ptr2.getD pos 0 then
        locate_diffs_loop ptr1 ptr2 len fuel (pos + 1)
          (if f_loc = -1 then (pos : Int) else f_loc) (pos : Int)
      else locate_diffs_loop ptr1 ptr2 len fuel (pos + 1) f_loc l_loc
    else (f_loc, l_loc)

/-- Function `locate_diffs` (afl-fuzz.c 1683-1706): the first and the last
differing offset of two buffers. -/
def locate_diffs (ptr1 ptr2 : List Nat) (len : Nat) : Int × Int :=
  locate_diffs_loop ptr1 ptr2 len len 0 (-1) (-1)

/-- Call `memcpy(dst, src, n)` on buffers that hold at least `n` bytes. -/
def memcpy (dst src : List Nat) (n : Nat) : List Nat :=
  src.take n ++ dst.drop n

/-- The splice of `fuzz_one` (afl-fuzz.c 9233-9262) of the buffer `in_buf` of
`len` bytes with the file `new_buf` of the target entry, of `target_len`
bytes; `rnd` is the value of `random()` for the split point.  The result is
`none` for `goto retry_splicing`, otherwise `split_at` and the new `out_buf`
of `len = target->len` bytes. -/
def splice (in_buf new_buf : List Nat) (len target_len rnd : Nat) :
    Option (Nat × List Nat) :=
  let (f_diff, l_diff) := locate_diffs in_buf new_buf (min len target_len)
  if f_diff < 0 ∨ l_diff < 2 ∨ f_diff = l_diff then none
  else
    let split_at := (f_diff + (UR rnd (l_diff - f_diff).toNat : Int)).toNat
    let len := target_len
    let new_buf := memcpy new_buf in_buf split_at
    let in_buf := new_buf
    let out_buf := memcpy (List.replicate len 0) in_buf len
    some (split_at, out_buf)
/-- Reference description of the result of `locate_diffs` after the first
`n` offsets: `(-1, -1)` when the buffers agree there, otherwise the first and
the last offset below `n` at which they differ. -/
def diffs_located (ptr1 ptr2 : List Nat) (n : Nat) (f l : Int) : Prop :=
  (f = -1 ∧ l = -1 ∧ ∀ p, p < n → ptr1.getD p 0 = ptr2.getD p 0) ∨
  (∃ a b : Nat, f = (a : Int) ∧ l = (b : Int) ∧ a ≤ b ∧ b < n ∧
    ptr1.getD a 0 ≠ ptr2.getD a 0 ∧ ptr1.getD b 0 ≠ ptr2.getD b 0 ∧
    (∀ p, p < a → ptr1.getD p 0 = ptr2.getD p 0) ∧
    (∀ p, b < p → p < n → ptr1.getD p 0 = ptr2.getD p 0))

/-! ### The end of `fuzz_one` (afl-fuzz.c 9272-9291) -/

/-- The assignments `queue_cur->was_fuzzed = 1` and
`was_fuzzed_map[get_state_index(target_state_id)][queue_cur->index] = 1`
(afl-fuzz.c 9282-9284). -/
def mark_fuzzed (s : fuzz_state) (queue_cur : Nat) : fuzz_state :=
  let s := set_entry s queue_cur { s.queue queue_cur with was_fuzzed := 1 }
  let row := get_state_index s.state_ids s.target_state_id
  let col := (s.queue queue_cur).index
  { s with
    was_fuzzed_map := Function.update s.was_fuzzed_map row
      (Function.update (s.was_fuzzed_map row) col 1) }

/-- The bookkeeping at label `abandon_entry` of `fuzz_one`
(afl-fuzz.c 9279-9291) for the entry `queue_cur`; `pending_not_fuzzed` is
passed along with the state.  The counters are 32-bit. -/
def abandon_entry (stop_soon : Nat) (s : fuzz_state) (queue_cur pending_not_fuzzed : Nat) :
    fuzz_state × Nat :=
  if stop_soon = 0 ∧ (s.queue queue_cur).cal_failed = 0 ∧
      (s.queue queue_cur).was_fuzzed = 0 then
    let s := mark_fuzzed s queue_cur
    let pending_not_fuzzed := (pending_not_fuzzed + (2 ^ 32 - 1)) % 2 ^ 32
    if (s.queue queue_cur).favored ≠ 0 then
      ({ s with pending_favored := (s.pending_favored + (2 ^ 32 - 1)) % 2 ^ 32 },
        pending_not_fuzzed)
    else (s, pending_not_fuzzed)
  else (s, pending_not_fuzzed)

/-- Two entries and the two target states 1 and 2, both reachable and not
yet fuzzed by any entry; the target state is 1. -/
def two_targets : fuzz_state :=
  { two_entries with target_state_id := 1, state_ids := [1, 2] }

/-- The state `two_targets` after entry 0 was fuzzed under target state 1 and
the target state was changed to 2. -/
def second_target : fuzz_state :=
  { (abandon_entry 0 two_targets 0 2).1 with target_state_id := 2 }

/-! ### calibrate_case (afl-fuzz.c 4040-4194) -/

/-- Loop of `count_bytes` (afl-fuzz.c 2234-2249) over the 32-bit words of the
map: a zero word is passed over, otherwise each non-zero byte of the word
counts. -/
def count_bytes_loop : Nat → List Nat → Nat → Nat
  | 0, _, ret => ret
  | i + 1, mem, ret =>
    let v := mem.take 4
    if v.all (fun b => b = 0) then count_bytes_loop i (mem.drop 4) ret
    else
      count_bytes_loop i (mem.drop 4)
        (ret + (if v.getD 0 0 ≠ 0 then 1 else 0) + (if v.getD 1 0 ≠ 0 then 1 else 0)
          + (if v.getD 2 0 ≠ 0 then 1 else 0) + (if v.getD 3 0 ≠ 0 then 1 else 0))

/-- Function `count_bytes` (afl-fuzz.c 2227-2252): the number of non-zero
bytes of a map. -/
def count_bytes (MAP_SIZE : Nat) (mem : List Nat) : Nat :=
  count_bytes_loop (MAP_SIZE >>> 2) mem 0

/-- What one call of `run_target` gives the calibration: the flag `stop_soon`
as the loop finds it after the run, the fault code returned and the trace
bitmap `trace_bits` left by the run. -/
structure run_result where
  stop_soon : Nat
  fault : Nat
  trace_bits : List Nat
deriving DecidableEq

/-- The constants, settings and the target that `calibrate_case` depends on.
`MAP_SIZE`, `CAL_CYCLES` and `CAL_CYCLES_LONG` are constants of `config.h`,
`hash32` stands for `hash32(., MAP_SIZE, HASH_CONST)` of `hash.h`, and
`runs k` is the result of the call number `k` of `run_target`. -/
structure cal_env where
  MAP_SIZE : Nat
  CAL_CYCLES : Nat
  CAL_CYCLES_LONG : Nat
  hash32 : List Nat → Nat
  fast_cal : Nat
  dumb_mode : Nat
  crash_mode : Nat
  runs : Nat → run_result

/-- The globals that `calibrate_case` reads and writes, with its static
buffer `first_trace`. -/
structure cal_globals where
  first_trace : List Nat
  var_bytes : List Nat
  virgin_bits : List Nat
  trace_bits : List Nat
  queued_with_cov : Nat
  queued_variable : Nat
  var_byte_count : Nat
deriving DecidableEq

/-- The entry, the globals and the locals `stage_max`, `new_bits` and
`var_detected` while the calibration loop runs. -/
structure cal_loop_state where
  q : queue_entry
  g : cal_globals
  stage_max : Nat
  new_bits : Nat
  var_detected : Nat
deriving DecidableEq

/-- How the calibration loop ends: the state, the number of calls of
`run_target` made, the value of `fault`, and whether the loop was left by
`goto abort_calibration`. -/
structure cal_loop_end where
  st : cal_loop_state
  runs_made : Nat
  fault : Nat
  aborted : Bool
deriving DecidableEq

/-- The loop over the map that flags variable bytes (afl-fuzz.c 4112-4121),
on the pair of `var_bytes` and `stage_max`. -/
def flag_var_bytes (MAP_SIZE CAL_CYCLES_LONG : Nat) (first_trace trace_bits : List Nat)
    (var_bytes : List Nat) (stage_max : Nat) : List Nat × Nat :=
  (List.range MAP_SIZE).foldl
    (fun (acc : List Nat × Nat) i =>
      if acc.1.getD i 0 = 0 ∧ first_trace.getD i 0 ≠ trace_bits.getD i 0 then
        (acc.1.set i 1, CAL_CYCLES_LONG)
      else acc)
    (var_bytes, stage_max)

/-- The body of the calibration loop after a run that did not abort
(afl-fuzz.c 4101-4133), for the checksum `cksum` of the trace of the run. -/
def calibrate_check (env : cal_env) (cksum : Nat) (st : cal_loop_state) : cal_loop_state :=
  if st.q.exec_cksum ≠ cksum then
    let r := has_new_bits env.MAP_SIZE st.g.trace_bits st.g.virgin_bits
    let st := { st with g := { st.g with virgin_bits := r.virgin_map } }
    let st := if r.ret > st.new_bits then { st with new_bits := r.ret } else st
    if st.q.exec_cksum ≠ 0 then
      let f := flag_var_bytes env.MAP_SIZE env.CAL_CYCLES_LONG st.g.first_trace
        st.g.trace_bits st.g.var_bytes st.stage_max
      { st with g := { st.g with var_bytes := f.1 }, stage_max := f.2, var_detected := 1 }
    else
      { st with
        q := { st.q with exec_cksum := cksum }
        g := { st.g with first_trace := st.g.trace_bits.take env.MAP_SIZE } }
  else st

/-- The calibration loop (afl-fuzz.c 4080-4134) from `stage_cur` on; `fault`
is the value of the local before the iteration.  The first argument bounds
the number of iterations and `none` means that the bound was reached. -/
def calibrate_loop (env : cal_env) :
    Nat → Nat → cal_loop_state → Nat → Option cal_loop_end
  | 0, _, _, _ => none
  | fuel + 1, stage_cur, st, fault =>
    if stage_cur < st.stage_max then
      let r := env.runs stage_cur
      let st := { st with g := { st.g with trace_bits := r.trace_bits } }
      let fault := r.fault
      if r.stop_soon ≠ 0 ∨ fault ≠ env.crash_mode then
        some ⟨st, stage_cur + 1, fault, true⟩
      else if env.dumb_mode = 0 ∧ stage_cur = 0 ∧
          count_bytes env.MAP_SIZE st.g.trace_bits = 0 then
        some ⟨st, stage_cur + 1, 4, true⟩
      else
        calibrate_loop env fuel (stage_cur + 1)
          (calibrate_check env (env.hash32 st.g.trace_bits) st) fault
    else some ⟨st, stage_cur, fault, false⟩

/-- The code of `calibrate_case` from label `abort_calibration` on
(afl-fuzz.c 4164-4185). -/
def abort_calibration (env : cal_env) (st : cal_loop_state) : queue_entry × cal_globals :=
  let st :=
    if st.new_bits = 2 ∧ st.q.has_new_cov = 0 then
      { st with
        q := { st.q with has_new_cov := 1 }
        g := { st.g with queued_with_cov := (st.g.queued_with_cov + 1) % 2 ^ 32 } }
    else st
  if st.var_detected ≠ 0 then
    let g := { st.g with var_byte_count := count_bytes env.MAP_SIZE st.g.var_bytes }
    if st.q.var_behavior = 0 then
      ({ st.q with var_behavior := 1 },
        { g with queued_variable := (g.queued_variable + 1) % 2 ^ 32 })
    else (st.q, g)
  else (st.q, st.g)

/-- What `calibrate_case` returns and leaves behind, with the number of calls
of `run_target` it made. -/
structure cal_result where
  fault : Nat
  q : queue_entry
  g : cal_globals
  runs_made : Nat
deriving DecidableEq

/-- Function `calibrate_case` (afl-fuzz.c 4040-4194) on the entry `q`.  The
time measurements and what is computed from them (`exec_us`, the totals of
`calculate_score`, `update_bitmap_score`) and the status screen are left
out; no other statement reads what they write.  `none` means that the loop
did not end within `stage_max + CAL_CYCLES_LONG + 1` iterations. -/
def calibrate_case (env : cal_env) (q : queue_entry) (g : cal_globals) (handicap : Nat) :
    Option cal_result :=
  let first_run := q.exec_cksum = 0
  let q := { q with cal_failed := (q.cal_failed + 1) % 256 }
  let stage_max := if env.fast_cal ≠ 0 then 3 else env.CAL_CYCLES
  let g := if q.exec_cksum ≠ 0 then { g with first_trace := g.trace_bits.take env.MAP_SIZE }
    else g
  match calibrate_loop env (stage_max + env.CAL_CYCLES_LONG + 1) 0
      ⟨q, g, stage_max, 0, 0⟩ 0 with
  | none => none
  | some e =>
    if e.aborted then
      let r := abort_calibration env e.st
      some ⟨e.fault, r.1, r.2, e.runs_made⟩
    else
      let st := e.st
      let st := { st with
        q := { st.q with
          bitmap_size := count_bytes env.MAP_SIZE st.g.trace_bits
          handicap := handicap
          cal_failed := 0 } }
      let fault :=
        if env.dumb_mode = 0 ∧ first_run ∧ e.fault = 0 ∧ st.new_bits = 0 then 5 else e.fault
      let r := abort_calibration env st
      some ⟨fault, r.1, r.2, e.runs_made⟩
/-- Run number `j` of the target does not end the calibration: no stop
request, the fault code expected by `crash_mode`, and for the first run an
instrumented trace (or dumb mode). -/
def run_ok (env : cal_env) (j : Nat) : Prop :=
  (env.runs j).stop_soon = 0 ∧ (env.runs j).fault = env.crash_mode ∧
  (j = 0 → env.dumb_mode ≠ 0 ∨ count_bytes env.MAP_SIZE (env.runs j).trace_bits ≠ 0)

/-- A target for examples: a map of 8 bytes, `CAL_CYCLES = 8`,
`CAL_CYCLES_LONG = 40`, a polynomial checksum in place of `hash32`, and the
runs `runs`. -/
def cal_env_example (runs : Nat → run_result) : cal_env :=
  { MAP_SIZE := 8, CAL_CYCLES := 8, CAL_CYCLES_LONG := 40
    hash32 := fun l => l.foldl (fun a b => (a * 31 + b) % 1000003) 7
    fast_cal := 0, dumb_mode := 0, crash_mode := 0, runs := runs }

/-- Globals for examples: zeroed maps of 8 bytes and a pristine virgin map. -/
def cal_globals_example : cal_globals :=
  { first_trace := List.replicate 8 0, var_bytes := List.replicate 8 0
    virgin_bits := List.replicate 8 255, trace_bits := List.replicate 8 0
    queued_with_cov := 0, queued_variable := 0, var_byte_count := 0 }

/-! ### Havoc: choice of a range and the fixed-width operations (afl-fuzz.c 8425-8653) -/

/-- A range of a decomposition, with the fields of `range` that `afl-fuzz.c`
reads and writes. -/
structure range where
  start : Nat
  len : Nat
  mutable : Nat
deriving DecidableEq

/-- The range `ranges[range_choice]` with `range_choice = UR(rc)`
(afl-fuzz.c 8477): `rc` is the number of ranges and `rnd` the value of
`random()`.  The loop that would draw again on a range whose flag `mutable`
is clear is commented out in the source (afl-fuzz.c 8479-8481). -/
def havoc_range_choice (ranges : List range) (rnd : Nat) : range :=
  ranges.getD (UR rnd ranges.length) ⟨0, 0, 0⟩

/-- Macro `FLIP_BIT(_ar, _b)` (afl-fuzz.c 7185-7191) on the array that starts
at offset `base` of `out_buf`. -/
def FLIP_BIT (out_buf : List Nat) (base b : Nat) : List Nat :=
  out_buf.set (base + (b >>> 3))
    (out_buf.getD (base + (b >>> 3)) 0 ^^^ (128 >>> (b &&& 7)))

/-- The word of `n` bytes read at offset `pos`: `*(u16 *)(out_buf + pos)` for
`n = 2`, `*(u32 *)(out_buf + pos)` for `n = 4`. -/
def load_word (out_buf : List Nat) (pos n : Nat) : Nat :=
  load_le ((out_buf.drop pos).take n)

/-- The store of the word `v` of `n` bytes at offset `pos`. -/
def store_word (out_buf : List Nat) (pos n v : Nat) : List Nat :=
  out_buf.take pos ++ store_le n v ++ out_buf.drop (pos + n)

/-- What the fixed-width havoc operations take from outside `afl-fuzz.c`: the
entries of the tables `interesting_8`, `interesting_16` and `interesting_32`
and the constant `ARITH_MAX`, given by `config.h`, and the macros `SWAP16`
and `SWAP32` of `types.h`. -/
structure havoc_env where
  interesting_8 : List Int
  interesting_16 : List Int
  interesting_32 : List Int
  ARITH_MAX : Nat
  SWAP16 : Nat → Nat
  SWAP32 : Nat → Nat

/-- The fixed-width operations of the havoc switch on the chosen range `r`
(afl-fuzz.c 8487-8653): case 0 flips a bit, cases 1 to 3 store an
interesting value of 8, 16 or 32 bits, cases 4 to 9 subtract from or add to
a byte, a word or a dword, case 10 xors a byte; the operations on 16 and 32
bits draw an endianness first.  `rnd k` is the value of `random()` of call
number `k` of `UR` in the operation (for cases 4, 5 and 10 the position is
taken from the first call); `none` stands for the cases that this function
leaves out. -/
def havoc_byte_op (env : havoc_env) (op : Nat) (r : range) (out_buf : List Nat)
    (rnd : Nat → Nat) : Option (List Nat) :=
  match op with
  | 0 =>
    if r.len < 1 then some out_buf
    else some (FLIP_BIT out_buf r.start (UR (rnd 0) (r.len <<< 3)))
  | 1 =>
    if r.len < 1 then some out_buf
    else
      some (out_buf.set (r.start + UR (rnd 0) r.len)
        ((env.interesting_8.getD (UR (rnd 1) env.interesting_8.length) 0 % 256).toNat))
  | 2 =>
    if r.len < 2 then some out_buf
    else
      let plain := UR (rnd 0) 2
      let offset := r.start + UR (rnd 1) (r.len - 1)
      let v := (env.interesting_16.getD (UR (rnd 2) env.interesting_16.length) 0
        % 65536).toNat
      some (store_word out_buf offset 2 (if plain ≠ 0 then v else env.SWAP16 v))
  | 3 =>
    if r.len < 4 then some out_buf
    else
      let plain := UR (rnd 0) 2
      let offset := r.start + UR (rnd 1) (r.len - 3)
      let v := (env.interesting_32.getD (UR (rnd 2) env.interesting_32.length) 0
        % 2 ^ 32).toNat
      some (store_word out_buf offset 4 (if plain ≠ 0 then v else env.SWAP32 v))
  | 4 =>
    if r.len < 1 then some out_buf
    else
      let pos := r.start + UR (rnd 0) r.len
      some (out_buf.set pos
        ((out_buf.getD pos 0 + 256 - (1 + UR (rnd 1) env.ARITH_MAX) % 256) % 256))
  | 5 =>
    if r.len < 1 then some out_buf
    else
      let pos := r.start + UR (rnd 0) r.len
      some (out_buf.set pos ((out_buf.getD pos 0 + (1 + UR (rnd 1) env.ARITH_MAX)) % 256))
  | 6 =>
    if r.len < 2 then some out_buf
    else
      let little := UR (rnd 0) 2
      let pos := r.start + UR (rnd 1) (r.len - 1)
      let num := (1 + UR (rnd 2) env.ARITH_MAX) % 65536
      let old := load_word out_buf pos 2
      some (store_word out_buf pos 2
        (if little ≠ 0 then (old + 65536 - num) % 65536
         else env.SWAP16 ((env.SWAP16 old + 65536 - num) % 65536)))
  | 7 =>
    if r.len < 2 then some out_buf
    else
      let little := UR (rnd 0) 2
      let pos := r.start + UR (rnd 1) (r.len - 1)
      let num := (1 + UR (rnd 2) env.ARITH_MAX) % 65536
      let old := load_word out_buf pos 2
      some (store_word out_buf pos 2
        (if little ≠ 0 then (old + num) % 65536
         else env.SWAP16 ((env.SWAP16 old + num) % 65536)))
  | 8 =>
    if r.len < 4 then some out_buf
    else
      let little := UR (rnd 0) 2
      let pos := r.start + UR (rnd 1) (r.len - 3)
      let num := (1 + UR (rnd 2) env.ARITH_MAX) % 2 ^ 32
      let old := load_word out_buf pos 4
      some (store_word out_buf pos 4
        (if little ≠ 0 then (old + 2 ^ 32 - num) % 2 ^ 32
         else env.SWAP32 ((env.SWAP32 old + 2 ^ 32 - num) % 2 ^ 32)))
  | 9 =>
    if r.len < 4 then some out_buf
    else
      let little := UR (rnd 0) 2
      let pos := r.start + UR (rnd 1) (r.len - 3)
      let num := (1 + UR (rnd 2) env.ARITH_MAX) % 2 ^ 32
      let old := load_word out_buf pos 4
      some (store_word out_buf pos 4
        (if little ≠ 0 then (old + num) % 2 ^ 32
         else env.SWAP32 ((env.SWAP32 old + num) % 2 ^ 32)))
  | 10 =>
    if r.len < 1 then some out_buf
    else
      let pos := r.start + UR (rnd 0) r.len
      some (out_buf.set pos (out_buf.getD pos 0 ^^^ (1 + UR (rnd 1) 255)))
  | _ => none

/-- One stacked fixed-width operation of a havoc trial in exploit mode
(afl-fuzz.c 8477-8483): a range is drawn, then the operation `op` acts on
it. -/
def havoc_step (env : havoc_env) (ranges : List range) (out_buf : List Nat)
    (rnd_range op : Nat) (rnd : Nat → Nat) : Option (List Nat) :=
  havoc_byte_op env op (havoc_range_choice ranges rnd_range) out_buf rnd

/-- Modelled from the spec: a decomposition of an 8-byte buffer as
`parse_buffer` gives it for a matching pattern, the header of 4 bytes as a
range that is not mutable and the 4 bytes after it as a mutable range
(`starts_with` and `get_mutable_ranges` belong to a file that is not part of
the sources at hand). -/
def header_decomposition : List range :=
  [⟨0, 4, 0⟩, ⟨4, 4, 1⟩]

/-- Tables and macros for examples: two interesting values per width and
the byte swaps. -/
def havoc_env_example : havoc_env :=
  { interesting_8 := [1, -1], interesting_16 := [1, -1], interesting_32 := [1, -1]
    ARITH_MAX := 35
    SWAP16 := fun x => (x % 256) * 256 + x / 256 % 256
    SWAP32 := fun x =>
      (x % 256) * 2 ^ 24 + (x / 256 % 256) * 2 ^ 16 + (x / 2 ^ 16 % 256) * 256
        + x / 2 ^ 24 % 256 }

/-! ### The message list `kl_messages` and its update in `common_fuzz_stuff`
(afl-fuzz.c 6222-6309, 6874-6899) -/

/-- Modelled from the spec: `klist.h` is not among the sources and the spec
leaves the list abstract, so the list type follows what `common_fuzz_stuff`
uses of it: nodes with a `next` pointer and a message as value (`kl_next`,
`kl_val`), the pointers `head` and `tail` (`kl_begin`, `kl_end`), the
counter `size`, and the pool `mp` of freed nodes.  A node is named by a
positive number, 0 is `NULL`; `fresh` is the first number that no node has
used yet.  The value of a node is the byte sequence `mdata` of its message. -/
structure klist where
  next : Nat → Nat
  data : Nat → List Nat
  head : Nat
  tail : Nat
  size : Nat
  pool : List Nat
  fresh : Nat

/-- Modelled from the spec: `kmp_alloc` of `klist.h` (not among the sources),
which hands out the node freed last, or a new zeroed node when the pool is
empty. -/
def kmp_alloc (kl : klist) : Nat × klist :=
  match kl.pool with
  | p :: rest => (p, { kl with pool := rest })
  | [] =>
    (kl.fresh,
      { kl with
        fresh := kl.fresh + 1
        next := Function.update kl.next kl.fresh 0
        data := Function.update kl.data kl.fresh [] })

/-- Modelled from the spec: `*kl_pushp(lms, kl) = m` of `klist.h` (not among
the sources), as the comment in `common_fuzz_stuff` describes it
(afl-fuzz.c 6260-6262): the old tail storage is used to store the newly
added entry and a new tail is created. -/
def kl_pushp (kl : klist) (m : List Nat) : klist :=
  let (p, kl) := kmp_alloc kl
  let q := kl.tail
  let kl := { kl with next := Function.update kl.next p 0 }
  let kl := { kl with next := Function.update kl.next kl.tail p }
  let kl := { kl with tail := p, size := kl.size + 1 }
  { kl with data := Function.update kl.data q m }

/-- Modelled from the spec: the loop of `get_last_message` (a function of
`aflnet.c`, not among the sources), which follows `next` from `it` while the
next node is not the tail.  The first argument bounds the number of steps. -/
def get_last_message_from (kl : klist) : Nat → Nat → Nat
  | 0, it => it
  | fuel + 1, it =>
    if it ≠ 0 ∧ kl.next it ≠ kl.tail then get_last_message_from kl fuel (kl.next it)
    else it

/-- Modelled from the spec: `get_last_message(kl_messages)`, the node of the
last message of the list. -/
def get_last_message (kl : klist) : Nat :=
  get_last_message_from kl kl.size kl.head

/-- The messages cut from `out_buf` by the loop of `common_fuzz_stuff`
(afl-fuzz.c 6235-6267) from region `i` on: one message per region, the
message of region `max_seed_region_count` reaching to the end of the last
region and ending the loop. -/
def new_messages (out_buf : List Nat) (regions : List region_t)
    (region_count max_seed_region_count : Nat) : Nat → Nat → List (List Nat)
  | 0, _ => []
  | fuel + 1, i =>
    if i < region_count then
      let len :=
        if i = max_seed_region_count then
          (region_at regions (region_count - 1)).end_byte - (region_at regions i).start_byte + 1
        else (region_at regions i).end_byte - (region_at regions i).start_byte + 1
      let m := (out_buf.drop (region_at regions i).start_byte).take len
      if i = max_seed_region_count then [m]
      else m :: new_messages out_buf regions region_count max_seed_region_count fuel (i + 1)
    else []

/-- The pushes of the loop of `common_fuzz_stuff` (afl-fuzz.c 6258-6264) for
the messages `msgs`, on the list and `M2_next`: after each push `M2_next` is
moved to the new tail when its `next` is the new tail. -/
def push_messages (kl : klist) (M2_next : Nat) : List (List Nat) → klist × Nat
  | [] => (kl, M2_next)
  | m :: msgs =>
    let kl := kl_pushp kl m
    let M2_next := if kl.next M2_next = kl.tail then kl.tail else M2_next
    push_messages kl M2_next msgs

/-- The `do ... while (cur_it != M2_next)` loop of `common_fuzz_stuff` that
frees the previous M2 (afl-fuzz.c 6294-6306).  The first argument bounds the
number of iterations. -/
def free_previous_M2 (M2_next : Nat) : Nat → klist → Nat → Nat → klist
  | 0, kl, _, _ => kl
  | fuel + 1, kl, cur_it, next_it =>
    let kl := { kl with
      data := Function.update kl.data cur_it []
      pool := cur_it :: kl.pool
      size := kl.size - 1 }
    let cur_it := next_it
    let next_it := kl.next next_it
    if cur_it ≠ M2_next then free_previous_M2 M2_next fuel kl cur_it next_it
    else kl

/-- The relinking of `common_fuzz_stuff` (afl-fuzz.c 6277-6290): the head,
or the `next` of `M2_prev`, is set to the node after `prev_last_message`,
the `next` of `cur_last_message` to `M2_next` and the `next` of
`prev_last_message` to the tail. -/
def relink_M2 (kl : klist) (M2_prev prev_last_message cur_last_message M2_next : Nat) :
    klist :=
  let kl :=
    if M2_prev = 0 then { kl with head := kl.next prev_last_message }
    else { kl with next := Function.update kl.next M2_prev (kl.next prev_last_message) }
  let kl := { kl with next := Function.update kl.next cur_last_message M2_next }
  { kl with next := Function.update kl.next prev_last_message kl.tail }

/-- The update of `kl_messages` in `common_fuzz_stuff`
(afl-fuzz.c 6233-6306) with the messages `msgs` cut from `out_buf`: the
messages are pushed at the end, linked in between `M2_prev` and `M2_next`
in place of the previous M2, and the previous M2 is freed.  Returns the
list and `M2_next`. -/
def update_kl_messages (kl : klist) (M2_prev M2_next : Nat) (msgs : List (List Nat)) :
    klist × Nat :=
  let prev_last_message := get_last_message kl
  let old_size := kl.size
  let pushed := push_messages kl M2_next msgs
  let kl := pushed.1
  let M2_next := pushed.2
  let cur_last_message := get_last_message kl
  let old_M2_start := if M2_prev = 0 then kl.head else kl.next M2_prev
  let kl := relink_M2 kl M2_prev prev_last_message cur_last_message M2_next
  let kl := free_previous_M2 M2_next (old_size + 1) kl old_M2_start (kl.next old_M2_start)
  (kl, M2_next)

/-- The messages of the list from node `it` up to the tail, in order.  The
first argument bounds the number of nodes. -/
def kl_messages_from (kl : klist) : Nat → Nat → List (List Nat)
  | 0, _ => []
  | fuel + 1, it =>
    if it = kl.tail ∨ it = 0 then []
    else kl.data it :: kl_messages_from kl fuel (kl.next it)

/-- The messages of the list, in order. -/
def kl_messages_of (kl : klist) : List (List Nat) :=
  kl_messages_from kl kl.size kl.head

/-- Modelled from the spec: `kl_init` of `klist.h` (not among the sources),
an empty list whose head and tail are one node. -/
def kl_init : klist :=
  { next := fun _ => 0, data := fun _ => [], head := 1, tail := 1, size := 0,
    pool := [], fresh := 2 }

/-- Modelled from the spec: the list that `construct_kl_messages` (a function
of `aflnet.c`, not among the sources) builds from the messages of a seed. -/
def construct_kl_messages (msgs : List (List Nat)) : klist :=
  msgs.foldl kl_pushp kl_init

/-- The loop of `fuzz_one` that sets `M2_prev` and `M2_next`
(afl-fuzz.c 6884-6899) from node `it` and counter `count` on; the
subtraction `M2_start_region_ID - 1` is 32-bit.  The first argument bounds
the number of nodes. -/
def find_M2_bounds (kl : klist) (M2_start_region_ID M2_region_count : Nat) :
    Nat → Nat → Nat → Nat × Nat → Nat × Nat
  | 0, _, _, b => b
  | fuel + 1, it, count, b =>
    if it ≠ kl.tail then
      let b := if count = (M2_start_region_ID + (2 ^ 32 - 1)) % 2 ^ 32 then (it, b.2) else b
      let b := if count = M2_start_region_ID + M2_region_count then (b.1, it) else b
      find_M2_bounds kl M2_start_region_ID M2_region_count fuel (kl.next it) (count + 1) b
    else b

/-- The nodes `l` are linked by `next` in this order from `s`, and the node
after the last one is `e`. -/
def linked (next : Nat → Nat) : Nat → List Nat → Nat → Prop
  | s, [], e => s = e
  | s, a :: rest, e => s = a ∧ linked next (next a) rest e

/-- The list `kl` holds exactly the nodes `nodes` in this order: they are
linked from the head to the tail, the nodes, the tail and the pooled nodes
are pairwise different used nodes, and `size` counts the nodes. -/
def kl_wf (kl : klist) (nodes : List Nat) : Prop :=
  linked kl.next kl.head nodes kl.tail ∧
  (nodes ++ kl.tail :: kl.pool).Nodup ∧
  (∀ a, a ∈ nodes ++ kl.tail :: kl.pool → 0 < a ∧ a < kl.fresh) ∧
  kl.size = nodes.length

/-- The list is `M1 ++ M2 ++ M3` with the nodes `n1`, `n2`, `n3`, M2 is not
empty, `M2_prev` is the last node of M1 (`NULL` when M1 is empty) and
`M2_next` the first node of M3 (the tail when M3 is empty). -/
def M2_delimited (kl : klist) (n1 n2 n3 : List Nat) (M2_prev M2_next : Nat) : Prop :=
  kl_wf kl (n1 ++ n2 ++ n3) ∧ n2 ≠ [] ∧ M2_prev = n1.getLastD 0 ∧
  M2_next = n3.headD kl.tail

instance linked_decidable (next : Nat → Nat) :
    ∀ (l : List Nat) (s e : Nat), Decidable (linked next s l e)
  | [], s, e => by unfold linked; infer_instance
  | a :: l, s, e => by
    unfold linked
    exact @instDecidableAnd _ _ _ (linked_decidable next l (next a) e)

instance (kl : klist) (nodes : List Nat) : Decidable (kl_wf kl nodes) := by
  unfold kl_wf; infer_instance

instance (kl : klist) (n1 n2 n3 : List Nat) (M2_prev M2_next : Nat) :
    Decidable (M2_delimited kl n1 n2 n3 M2_prev M2_next) := by
  unfold M2_delimited; infer_instance

/-- One call of `common_fuzz_stuff`, as far as the message list goes: the
buffer and the regions that `extract_requests` finds in it. -/
structure fuzz_call where
  out_buf : List Nat
  regions : List region_t
  region_count : Nat

/-- The part of `common_fuzz_stuff(out_buf, len)` that rebuilds M2
(afl-fuzz.c 6222-6306) on the list, `M2_prev` and `M2_next`, for a call that
passes the test on `region_count`.  The early return for a post handler that
gives no buffer, before the list is touched, and the run of the target after
it are not part of this function. -/
def common_fuzz_stuff_list (max_seed_region_count : Nat) (s : klist × Nat × Nat)
    (c : fuzz_call) : klist × Nat × Nat :=
  let r := update_kl_messages s.1 s.2.1 s.2.2
    (new_messages c.out_buf c.regions c.region_count max_seed_region_count c.region_count 0)
  (r.1, s.2.1, r.2)

/-- A sequence of calls of `common_fuzz_stuff` in one run of `fuzz_one`. -/
def common_fuzz_stuff_calls (max_seed_region_count : Nat) (s : klist × Nat × Nat)
    (calls : List fuzz_call) : klist × Nat × Nat :=
  calls.foldl (common_fuzz_stuff_list max_seed_region_count) s

/-! ### choose_block_len (afl-fuzz.c 6364-6409) -/

/-- The block sizes `HAVOC_BLK_SMALL`, `HAVOC_BLK_MEDIUM`, `HAVOC_BLK_LARGE`
and `HAVOC_BLK_XL` of `config.h`. -/
structure block_env where
  HAVOC_BLK_SMALL : Nat
  HAVOC_BLK_MEDIUM : Nat
  HAVOC_BLK_LARGE : Nat
  HAVOC_BLK_XL : Nat

/-- A call `UR(limit)` that can fault: `random() % limit` is undefined for
`limit = 0`, which is `none`. -/
def UR_draw (rnd limit : Nat) : Option Nat :=
  if limit = 0 then none else some (UR rnd limit)

/-- The `switch (UR(rlim))` of `choose_block_len` (afl-fuzz.c 6376-6401):
the pair `(min_value, max_value)` of the size class; `rnd0` and `rnd1` are
the values of `random()` for `UR(rlim)` and for `UR(10)`. -/
def block_class (env : block_env) (rlim rnd0 rnd1 : Nat) : Option (Nat × Nat) :=
  match UR_draw rnd0 rlim with
  | none => none
  | some 0 => some (1, env.HAVOC_BLK_SMALL)
  | some 1 => some (env.HAVOC_BLK_SMALL, env.HAVOC_BLK_MEDIUM)
  | some _ =>
    match UR_draw rnd1 10 with
    | none => none
    | some d =>
      if d ≠ 0 then some (env.HAVOC_BLK_MEDIUM, env.HAVOC_BLK_LARGE)
      else some (env.HAVOC_BLK_LARGE, env.HAVOC_BLK_XL)

/-- Function `choose_block_len(limit)` with the globals `queue_cycle` and
`run_over10m`; `rnd 0`, `rnd 1` and `rnd 2` are the values of `random()` for
the draw of the class, for `UR(10)` when it is made, and for the length.  The
arithmetic is that of `u32`; `none` is a call `UR(0)`. -/
def choose_block_len (env : block_env) (queue_cycle run_over10m limit : Nat)
    (rnd : Nat → Nat) : Option Nat :=
  let rlim := min queue_cycle 3
  let rlim := if run_over10m = 0 then 1 else rlim
  match block_class env rlim (rnd 0) (rnd 1) with
  | none => none
  | some (min_value, max_value) =>
    let min_value := if min_value ≥ limit then 1 else min_value
    match UR_draw (rnd 2) ((min max_value limit + 2 ^ 32 - min_value + 1) % 2 ^ 32) with
    | none => none
    | some r => some ((min_value + r) % 2 ^ 32)

/-- Block sizes for examples: 32, 128, 1500 and 32768 bytes. -/
def block_env_example : block_env :=
  { HAVOC_BLK_SMALL := 32, HAVOC_BLK_MEDIUM := 128, HAVOC_BLK_LARGE := 1500
    HAVOC_BLK_XL := 32768 }

/-! ### could_be_arith (afl-fuzz.c 6544-6637) -/

/-- The two scanning loops of `could_be_arith` (afl-fuzz.c 6556-6568 with
`w = 8`, 6587-6599 with `w = 16`): `n` units of `w` bits of `old_val` and
`new_val` are compared; the state is `(diffs, ov, nv)`. -/
def arith_scan (w n old_val new_val : Nat) (st : Nat × Nat × Nat) : Nat × Nat × Nat :=
  (List.range n).foldl
    (fun st i =>
      let a := (old_val >>> (w * i)) % 2 ^ w
      let b := (new_val >>> (w * i)) % 2 ^ w
      if a ≠ b then (st.1 + 1, a, b) else st)
    st

/-- The test `(uN)(ov - nv) <= ARITH_MAX || (uN)(nv - ov) <= ARITH_MAX` on
`u32` values, for `N = w`. -/
def arith_near (ARITH_MAX w ov nv : Nat) : Prop :=
  (ov + 2 ^ 32 - nv) % 2 ^ 32 % 2 ^ w ≤ ARITH_MAX ∨
    (nv + 2 ^ 32 - ov) % 2 ^ 32 % 2 ^ w ≤ ARITH_MAX

instance (ARITH_MAX w ov nv : Nat) : Decidable (arith_near ARITH_MAX w ov nv) := by
  unfold arith_near; infer_instance

/-- Function `could_be_arith(old_val, new_val, blen)` on `u32` values. -/
def could_be_arith (env : havoc_env) (old_val new_val blen : Nat) : Nat :=
  if old_val = new_val then 1
  else
    let s8 := arith_scan 8 blen old_val new_val (0, 0, 0)
    if s8.1 = 1 ∧ arith_near env.ARITH_MAX 8 s8.2.1 s8.2.2 then 1
    else if blen = 1 then 0
    else
      let s16 := arith_scan 16 (blen / 2) old_val new_val (0, s8.2.1, s8.2.2)
      if s16.1 = 1 ∧ arith_near env.ARITH_MAX 16 s16.2.1 s16.2.2 then 1
      else if s16.1 = 1 ∧
          arith_near env.ARITH_MAX 16 (env.SWAP16 s16.2.1) (env.SWAP16 s16.2.2) then 1
      else if blen = 4 ∧ arith_near env.ARITH_MAX 32 old_val new_val then 1
      else if blen = 4 ∧
          arith_near env.ARITH_MAX 32 (env.SWAP32 old_val) (env.SWAP32 new_val) then 1
      else 0

/-- The value `orig + j` stored by the arithmetic stages in a unit of `w` bits
(afl-fuzz.c 7620, 7713, 7838). -/
def arith_add (w old j : Nat) : Nat := (old + j) % 2 ^ w

/-- The value `orig - j` stored by the arithmetic stages in a unit of `w` bits
(afl-fuzz.c 7638, 7728, 7853). -/
def arith_sub (w old j : Nat) : Nat := (old + (2 ^ w - j % 2 ^ w)) % 2 ^ w

/-! ### The trial budget of the havoc stage (afl-fuzz.c 8377-8404, 9114-9129) -/

/-- The constants `HAVOC_CYCLES_INIT`, `HAVOC_CYCLES`, `SPLICE_HAVOC`,
`HAVOC_MIN` and `HAVOC_MAX_MULT` of `config.h`. -/
structure budget_env where
  HAVOC_CYCLES_INIT : Nat
  HAVOC_CYCLES : Nat
  SPLICE_HAVOC : Nat
  HAVOC_MIN : Nat
  HAVOC_MAX_MULT : Nat

/-- The value of type `s32` with the bit pattern of `x` modulo `2 ^ 32`. -/
def to_s32 (x : Int) : Int :=
  (x + 2 ^ 31) % 2 ^ 32 - 2 ^ 31

/-- The first value of `stage_max` in the havoc stage (afl-fuzz.c 8381-8382
without splicing, 8397 with it): a product and two divisions in `u32`,
stored in the `s32` variable `stage_max`. -/
def havoc_stage_init (env : budget_env) (doing_det splice_cycle perf_score havoc_div : Nat) :
    Int :=
  let cycles :=
    if splice_cycle = 0 then
      (if doing_det ≠ 0 then env.HAVOC_CYCLES_INIT else env.HAVOC_CYCLES)
    else env.SPLICE_HAVOC
  to_s32 (((cycles * perf_score) % 2 ^ 32 / havoc_div / 100 : Nat) : Int)

/-- The value of `stage_max` at the start of the trial loop, after
`if (stage_max < HAVOC_MIN) stage_max = HAVOC_MIN;` (afl-fuzz.c 8401-8402). -/
def havoc_stage_max (env : budget_env) (doing_det splice_cycle perf_score havoc_div : Nat) :
    Int :=
  let stage_max := havoc_stage_init env doing_det splice_cycle perf_score havoc_div
  if stage_max < (env.HAVOC_MIN : Int) then (env.HAVOC_MIN : Int) else stage_max

/-- What one havoc trial reports to the budget: the return value of
`common_fuzz_stuff` and the value of `queued_paths` after the run. -/
structure havoc_trial where
  bail : Nat
  queued_paths : Nat

/-- The variables of the trial loop that the budget depends on; `doublings`
counts the executions of `stage_max *= 2; perf_score *= 2;` and is not a
variable of the source. -/
structure havoc_budget where
  stage_cur : Int
  stage_max : Int
  perf_score : Nat
  havoc_queued : Nat
  doublings : Nat
deriving DecidableEq

/-- The end of one trial (afl-fuzz.c 9114-9128): when `queued_paths` has
moved, the budget is doubled if `perf_score <= HAVOC_MAX_MULT * 100`, and
`havoc_queued` follows. -/
def havoc_extend (env : budget_env) (queued_paths : Nat) (st : havoc_budget) : havoc_budget :=
  if queued_paths ≠ st.havoc_queued then
    let st :=
      if st.perf_score ≤ env.HAVOC_MAX_MULT * 100 then
        { st with
          stage_max := to_s32 (st.stage_max * 2)
          perf_score := (st.perf_score * 2) % 2 ^ 32
          doublings := st.doublings + 1 }
      else st
    { st with havoc_queued := queued_paths }
  else st

/-- The trial loop `for (stage_cur = 0; stage_cur < stage_max; stage_cur++)`
of the havoc stage (afl-fuzz.c 8462-9129) as far as the budget goes: trial
number `n` reports `trial n`; a non-zero return value of `common_fuzz_stuff`
leaves the loop (`goto abandon_entry`).  The first argument bounds the
number of iterations; `none` means that the bound was reached. -/
def havoc_loop (env : budget_env) (trial : Nat → havoc_trial) :
    Nat → Nat → havoc_budget → Option havoc_budget
  | 0, _, _ => none
  | fuel + 1, n, st =>
    if st.stage_cur < st.stage_max then
      if (trial n).bail ≠ 0 then some st
      else
        let st := havoc_extend env (trial n).queued_paths st
        havoc_loop env trial fuel (n + 1) { st with stage_cur := to_s32 (st.stage_cur + 1) }
    else some st

/-- Budget constants for examples: 256 and 1024 havoc cycles, 32 cycles per
splice, at least 16 trials, and a multiplier of 16. -/
def budget_env_example : budget_env :=
  { HAVOC_CYCLES_INIT := 1024, HAVOC_CYCLES := 256, SPLICE_HAVOC := 32, HAVOC_MIN := 16
    HAVOC_MAX_MULT := 16 }

/-- The regions `regions[0 .. region_count)` cut `[0, len)` into consecutive
pieces that are not empty: the first starts at 0, each starts right after
the end of the one before, and the last ends at `len - 1`. -/
def regions_partition (regions : List region_t) (region_count len : Nat) : Prop :=
  1 ≤ region_count ∧ (region_at regions 0).start_byte = 0 ∧
    (∀ i, i < region_count →
      (region_at regions i).start_byte ≤ (region_at regions i).end_byte) ∧
    (∀ i, i < region_count - 1 →
      (region_at regions (i + 1)).start_byte = (region_at regions i).end_byte + 1) ∧
    (region_at regions (region_count - 1)).end_byte + 1 = len

instance (regions : List region_t) (region_count len : Nat) :
    Decidable (regions_partition regions region_count len) := by
  unfold regions_partition; infer_instance

/-- The bytes `out_buf[start_byte .. end_byte]` of region `i`. -/
def region_bytes (out_buf : List Nat) (regions : List region_t) (i : Nat) : List Nat :=
  (out_buf.drop (region_at regions i).start_byte).take
    ((region_at regions i).end_byte - (region_at regions i).start_byte + 1)

/-! ### send_over_network: the flag likely_buggy (afl-fuzz.c 1420-1476) -/

/-- What the network reports for one message of `kl_messages`: the return
value `n` of `net_send`, the size `msize` of the message, the return value
of the call of `net_recv` after it and the value of `response_buf_size`
after that call. -/
structure message_io where
  n : Nat
  msize : Nat
  recv_failed : Nat
  response_buf_size : Nat
deriving DecidableEq

/-- The loop over `kl_messages` in `send_over_network` (afl-fuzz.c
1425-1454): the state is `response_buf_size` and `likely_buggy`; an
incomplete send or a failed receive goes to `HANDLE_RESPONSES` with the flag
as it stands. -/
def send_messages : List message_io → Nat → Nat → Nat
  | [], _, likely_buggy => likely_buggy
  | m :: ms, response_buf_size, likely_buggy =>
    if m.n ≠ m.msize then likely_buggy
    else
      let prev_buf_size := response_buf_size
      if m.recv_failed ≠ 0 then likely_buggy
      else
        send_messages ms m.response_buf_size
          (if prev_buf_size = m.response_buf_size then 1 else 0)

/-- How `send_over_network` ends, once connected: the flag `likely_buggy`
and whether the function returns at `if (likely_buggy &&
false_negative_reduction) return 0;` (afl-fuzz.c 1470-1471), before the
child is signalled and waited for. -/
structure send_result where
  likely_buggy : Nat
  early_return : Bool
deriving DecidableEq

/-- Function `send_over_network` from the first `net_recv` on: `early_failed`
is the return value of that call and `early_size` the value of
`response_buf_size` after it; a non-zero value skips the messages. -/
def send_over_network (false_negative_reduction early_failed early_size : Nat)
    (msgs : List message_io) : send_result :=
  let likely_buggy := if early_failed ≠ 0 then 0 else send_messages msgs early_size 0
  { likely_buggy := likely_buggy
    early_return := decide (likely_buggy ≠ 0 ∧ false_negative_reduction ≠ 0) }

/-- A session in which every message is sent in full and answered: the
values of `response_buf_size` after the messages, in order. -/
def full_session (sizes : List Nat) : List message_io :=
  sizes.map (fun s => { n := 1, msize := 1, recv_failed := 0, response_buf_size := s })

/-- The size of the response buffer before message `i` of a session that
starts at `early_size`: the size after the message before it. -/
def size_before (early_size : Nat) (sizes : List Nat) (i : Nat) : Nat :=
  (early_size :: sizes).getD i 0

/-- Some message of the session added no byte to the response buffer. -/
def some_silent (early_size : Nat) (sizes : List Nat) : Prop :=
  ∃ i, i < sizes.length ∧ size_before early_size sizes i = sizes.getD i 0

/-- The last message of the session added no byte to the response buffer. -/
def last_silent (early_size : Nat) (sizes : List Nat) : Prop :=
  sizes ≠ [] ∧
    size_before early_size sizes (sizes.length - 1) = sizes.getD (sizes.length - 1) 0

instance (early_size : Nat) (sizes : List Nat) : Decidable (some_silent early_size sizes) := by
  unfold some_silent; infer_instance

instance (early_size : Nat) (sizes : List Nat) : Decidable (last_silent early_size sizes) := by
  unfold last_silent; infer_instance

/-- The messages of a session that are sent in full and answered: the ones
before the first incomplete send or failed receive. -/
def answered (msgs : List message_io) : List message_io :=
  msgs.takeWhile (fun m => decide (m.n = m.msize ∧ m.recv_failed = 0))

/-! ### The queue as a linked list and the seek of the splice
(afl-fuzz.c 1951-1989, 9185-9203) -/

/-- The fields of `struct queue_entry` that link the queue: `index`, `next`
and `next_100`.  A pointer is the number of the allocation, `none` is the
null pointer. -/
structure queue_node where
  index : Nat
  next : Option Nat
  next_100 : Option Nat
deriving DecidableEq

/-- The memory of the queue entries and the globals of `add_to_queue`:
`node p` is the entry behind pointer `p`, `allocated` counts the entries
handed out by `ck_alloc`. -/
structure queue_list where
  node : Nat → queue_node
  allocated : Nat
  queue : Option Nat
  queue_top : Option Nat
  q_prev100 : Option Nat
  queued_paths : Nat

/-- The state before the first call of `add_to_queue`: no entry, null
pointers. -/
def queue_empty : queue_list :=
  { node := fun _ => ⟨0, none, none⟩, allocated := 0, queue := none, queue_top := none
    q_prev100 := none, queued_paths := 0 }

/-- Function `add_to_queue` on the links of the queue (afl-fuzz.c
1951-1989): the new entry gets `index = queued_paths`, it is appended after
`queue_top`, and when the new value of `queued_paths` is a multiple of 100,
`q_prev100->next_100` is set to it.  A store through a null `q_prev100` is a
fault (`none`). -/
def add_to_queue (s : queue_list) : Option queue_list :=
  let q := s.allocated
  let s := { s with
    allocated := s.allocated + 1
    node := Function.update s.node q { index := s.queued_paths, next := none, next_100 := none } }
  let s :=
    match s.queue_top with
    | some top =>
      { s with
        node := Function.update s.node top { s.node top with next := some q }
        queue_top := some q }
    | none => { s with q_prev100 := some q, queue := some q, queue_top := some q }
  let s := { s with queued_paths := (s.queued_paths + 1) % 2 ^ 32 }
  if s.queued_paths % 100 = 0 then
    match s.q_prev100 with
    | some p =>
      some { s with
        node := Function.update s.node p { s.node p with next_100 := some q }
        q_prev100 := some q }
    | none => none
  else some s

/-- The queue after `n` calls of `add_to_queue`. -/
def build_queue : Nat → Option queue_list
  | 0 => some queue_empty
  | n + 1 =>
    match build_queue n with
    | some s => add_to_queue s
    | none => none

/-- The loop `while (tid >= 100) { target = target->next_100; tid -= 100; }`
of the splice (afl-fuzz.c 9196-9200).  The first argument bounds the number
of iterations; reading through a null `target` is a fault (`none`). -/
def seek_next_100 (s : queue_list) : Nat → Option Nat → Nat → Option (Option Nat × Nat)
  | 0, _, _ => none
  | fuel + 1, target, tid =>
    if tid ≥ 100 then
      match target with
      | some p => seek_next_100 s fuel (s.node p).next_100 (tid - 100)
      | none => none
    else some (target, tid)

/-- The loop `while (tid--) target = target->next;` of the splice
(afl-fuzz.c 9201-9202), by recursion on `tid`. -/
def seek_next (s : queue_list) : Nat → Option Nat → Option (Option Nat)
  | 0, target => some target
  | tid + 1, target =>
    match target with
    | some p => seek_next s tid (s.node p).next
    | none => none

/-- The seek of the splice to entry number `tid` (afl-fuzz.c 9194-9202):
from `queue`, first along `next_100`, then along `next`.  The result is the
pointer `target`; `none` is a read through a null pointer. -/
def splice_seek (s : queue_list) (tid : Nat) : Option (Option Nat) :=
  match seek_next_100 s (tid / 100 + 1) s.queue tid with
  | some (target, tid) => seek_next s tid target
  | none => none

/-- The value of `index` of the entry that the seek of the splice arrives
at, in a queue of `n` entries. -/
def splice_seek_index (n tid : Nat) : Option Nat :=
  match build_queue n with
  | some s =>
    match splice_seek s tid with
    | some (some p) => some (s.node p).index
    | _ => none
  | none => none
/-- The entry that `next_100` of entry `k` points to in a queue of `n`
entries built by `add_to_queue`: entry 99 for the first entry, entry
`k + 100` for the entries 99, 199, ... -/
def next_100_built (n k : Nat) : Option Nat :=
  if k = 0 then (if 100 ≤ n then some 99 else none)
  else if (k + 1) % 100 = 0 ∧ k + 100 < n then some (k + 100)
  else none

/-- The value of `q_prev100` in a queue of `n` entries built by
`add_to_queue`. -/
def q_prev100_built (n : Nat) : Nat :=
  if n < 100 then 0 else 100 * (n / 100) - 1

/-- The shape of a queue of `n` entries built by `add_to_queue`: entry `k`
is allocation `k`, has index `k` and is followed by entry `k + 1`. -/
def queue_built (n : Nat) (s : queue_list) : Prop :=
  s.allocated = n ∧ s.queue = some 0 ∧ s.queue_top = some (n - 1) ∧
    s.q_prev100 = some (q_prev100_built n) ∧ s.queued_paths = n ∧
    ∀ k, k < n →
      (s.node k).index = k ∧
        (s.node k).next = (if k + 1 < n then some (k + 1) else none) ∧
        (s.node k).next_100 = next_100_built n k

/-! ### maybe_add_auto (afl-fuzz.c 2952-2967, 3224-3344) -/

/-- Structure `extra_data`: a dictionary token, its length and its use
count. -/
structure extra_data where
  data : List Nat
  len : Nat
  hit_cnt : Nat
deriving DecidableEq

/-- What `maybe_add_auto` takes from outside `afl-fuzz.c`: the constants
`MAX_AUTO_EXTRAS` and `USE_AUTO_EXTRAS` of `config.h`, and the functions
`tolower` and `qsort` of the C library, the latter on an array of
`extra_data` with a comparison that returns an `int`. -/
structure auto_env where
  MAX_AUTO_EXTRAS : Nat
  USE_AUTO_EXTRAS : Nat
  tolower : Nat → Nat
  qsort : (extra_data → extra_data → Int) → List extra_data → List extra_data

/-- Function `compare_extras_len`: `e1->len - e2->len` in `u32`, returned as
an `int`. -/
def compare_extras_len (e1 e2 : extra_data) : Int :=
  to_s32 (((e1.len + 2 ^ 32 - e2.len % 2 ^ 32) % 2 ^ 32 : Nat) : Int)

/-- Function `compare_extras_use_d`: `e2->hit_cnt - e1->hit_cnt` in `u32`,
returned as an `int`. -/
def compare_extras_use_d (e1 e2 : extra_data) : Int :=
  to_s32 (((e2.hit_cnt + 2 ^ 32 - e1.hit_cnt % 2 ^ 32) % 2 ^ 32 : Nat) : Int)

/-- Function `memcmp_nocase(m1, m2, len)`: 1 when some of the first `len`
bytes differ after `tolower`, otherwise 0. -/
def memcmp_nocase (tolower : Nat → Nat) (m1 m2 : List Nat) (len : Nat) : Nat :=
  if (List.range len).any
      (fun i => decide (tolower (m1.getD i 0) ^^^ tolower (m2.getD i 0) ≠ 0)) then 1
  else 0

/-- The loop `for (i = 1; i < len; i++) if (mem[0] ^ mem[i]) break;` of
`maybe_add_auto` (afl-fuzz.c 3247-3249): the value of `i` after it. -/
def same_byte_run (mem : List Nat) (len : Nat) : Nat → Nat → Nat
  | 0, i => i
  | fuel + 1, i =>
    if i < len then
      (if mem.getD 0 0 ^^^ mem.getD i 0 ≠ 0 then i else same_byte_run mem len fuel (i + 1))
    else i

/-- The tests of `maybe_add_auto` that return before `a_extras` is looked
at (afl-fuzz.c 3242-3284): auto extras switched off, a run of identical
bytes, a built-in interesting value of 16 or 32 bits in either byte order,
or a token of `extras[]`, compared without case among the entries of the
same length that follow the shorter ones. -/
def auto_rejected (env : auto_env) (tables : havoc_env) (extras : List extra_data)
    (mem : List Nat) (len : Nat) : Bool :=
  if env.MAX_AUTO_EXTRAS = 0 ∨ env.USE_AUTO_EXTRAS = 0 then true
  else if same_byte_run mem len len 1 = len then true
  else if len = 2 ∧ tables.interesting_16.any (fun v =>
      decide ((load_word mem 0 2 : Int) = v ∨
        load_word mem 0 2 = tables.SWAP16 (v % 2 ^ 16).toNat)) then true
  else if len = 4 ∧ tables.interesting_32.any (fun v =>
      decide (load_word mem 0 4 = (v % 2 ^ 32).toNat ∨
        load_word mem 0 4 = tables.SWAP32 (v % 2 ^ 32).toNat)) then true
  else
    ((extras.dropWhile (fun e => decide (e.len < len))).takeWhile
      (fun e => decide (e.len = len))).any
      (fun e => decide (memcmp_nocase env.tolower e.data mem len = 0))

/-- The loop of `maybe_add_auto` over `a_extras[]` (afl-fuzz.c 3291-3300):
the first index whose entry has length `len` and the bytes of `mem` up to
case, from index `i` on. -/
def auto_find (env : auto_env) (mem : List Nat) (len : Nat) : List extra_data → Nat → Option Nat
  | [], _ => none
  | e :: es, i =>
    if e.len = len ∧ memcmp_nocase env.tolower e.data mem len = 0 then some i
    else auto_find env mem len es (i + 1)

/-- The index `MAX_AUTO_EXTRAS / 2 + UR((MAX_AUTO_EXTRAS + 1) / 2)` of the
entry that `maybe_add_auto` overwrites in a full array (afl-fuzz.c
3323-3324); `rnd` is the value of `random()`. -/
def auto_evict_index (env : auto_env) (rnd : Nat) : Nat :=
  env.MAX_AUTO_EXTRAS / 2 + UR rnd ((env.MAX_AUTO_EXTRAS + 1) / 2)

/-- The two calls of `qsort` at label `sort_a_extras` (afl-fuzz.c
3334-3343): all entries by use count, descending, then the first
`MIN(USE_AUTO_EXTRAS, a_extras_cnt)` entries by size. -/
def sort_a_extras (env : auto_env) (a_extras : List extra_data) : List extra_data :=
  let sorted := env.qsort compare_extras_use_d a_extras
  let n := min env.USE_AUTO_EXTRAS sorted.length
  env.qsort compare_extras_len (sorted.take n) ++ sorted.drop n

/-- Function `maybe_add_auto(mem, len)` on the array `a_extras`, whose
length is `a_extras_cnt`; `extras` is the user dictionary and `rnd` the
value of `random()` for the eviction.  The entry appended to the array is
in memory that `ck_realloc_block` has zeroed, so its `hit_cnt` is 0. -/
def maybe_add_auto (env : auto_env) (tables : havoc_env) (extras : List extra_data)
    (a_extras : List extra_data) (mem : List Nat) (len rnd : Nat) : List extra_data :=
  if auto_rejected env tables extras mem len then a_extras
  else
    match auto_find env mem len a_extras 0 with
    | some i =>
      let e := a_extras.getD i ⟨[], 0, 0⟩
      sort_a_extras env (a_extras.set i { e with hit_cnt := (e.hit_cnt + 1) % 2 ^ 32 })
    | none =>
      if a_extras.length < env.MAX_AUTO_EXTRAS then
        sort_a_extras env (a_extras ++ [{ data := mem.take len, len := len, hit_cnt := 0 }])
      else
        sort_a_extras env
          (a_extras.set (auto_evict_index env rnd)
            { data := mem.take len, len := len, hit_cnt := 0 })

/-- One call of `maybe_add_auto`: the token and the value of `random()`. -/
structure auto_call where
  mem : List Nat
  rnd : Nat

/-- A sequence of calls of `maybe_add_auto`, each with the whole of `mem`
as token. -/
def maybe_add_auto_calls (env : auto_env) (tables : havoc_env) (extras : List extra_data)
    (a_extras : List extra_data) (calls : List auto_call) : List extra_data :=
  calls.foldl (fun a c => maybe_add_auto env tables extras a c.mem c.mem.length c.rnd) a_extras

/-- Settings for examples: room for four auto extras of which two are used,
`tolower` of the C locale, and `qsort` as an insertion sort. -/
def auto_env_example : auto_env :=
  { MAX_AUTO_EXTRAS := 4, USE_AUTO_EXTRAS := 2
    tolower := fun c => if 65 ≤ c ∧ c ≤ 90 then c + 32 else c
    qsort := fun cmp l => l.insertionSort (fun a b => cmp a b ≤ 0) }

/-- Calls for examples: four tokens are added, then the first is seen three
more times, the second twice and the third once, and a fifth token arrives
with the draw `rnd`. -/
def auto_calls_example (rnd : Nat) : List auto_call :=
  [⟨[97, 98], 0⟩, ⟨[99, 100], 0⟩, ⟨[101, 102], 0⟩, ⟨[103, 104], 0⟩,
    ⟨[97, 98], 0⟩, ⟨[97, 98], 0⟩, ⟨[97, 98], 0⟩, ⟨[99, 100], 0⟩, ⟨[99, 100], 0⟩,
    ⟨[101, 102], 0⟩, ⟨[105, 106], rnd⟩]

/-! ### Havoc: the operations that change the length (afl-fuzz.c 8657-8761,
8855-8934, 9036-9083) -/

/-- The variables of a havoc trial that the operations changing the length
work on: the buffer `out_buf`, whose first `temp_len` bytes are the test
case, and the array `ranges`, whose length is `rc`. -/
structure havoc_state where
  out_buf : List Nat
  temp_len : Nat
  ranges : List range
deriving DecidableEq

/-- What these operations read besides: the block sizes and `MAX_FILE` of
`config.h`, the globals `queue_cycle` and `run_over10m`, and the two
dictionaries. -/
structure havoc_ctx where
  blk : block_env
  MAX_FILE : Nat
  queue_cycle : Nat
  run_over10m : Nat
  extras : List extra_data
  a_extras : List extra_data

/-- Subtraction `a - b` in `u32`. -/
def u32_sub (a b : Nat) : Nat :=
  (a + (2 ^ 32 - b % 2 ^ 32)) % 2 ^ 32

/-- Call `memcpy(dst + d, src + s, n)` or `memmove` with the same arguments:
the `n` bytes from offset `s` of `src` replace those from offset `d` of
`dst`.  An access outside one of the two buffers is a fault (`none`). -/
def memcpy_at (dst : List Nat) (d : Nat) (src : List Nat) (s n : Nat) : Option (List Nat) :=
  if d + n ≤ dst.length ∧ s + n ≤ src.length then
    some (dst.take d ++ (src.drop s).take n ++ dst.drop (d + n))
  else none

/-- Call `memset(dst + d, v, n)`; an access outside the buffer is a fault
(`none`). -/
def memset_at (dst : List Nat) (d v n : Nat) : Option (List Nat) :=
  if d + n ≤ dst.length then some (dst.take d ++ List.replicate n v ++ dst.drop (d + n))
  else none

/-- The loop `for (i = range_choice + 1; i < rc; i++) ranges[i].start = f
(ranges[i].start)` that follows a change of length (afl-fuzz.c 8683-8686,
8750-8753, 8922-8925, 9073-9076). -/
def move_starts (f : Nat → Nat) (ranges : List range) (range_choice : Nat) : List range :=
  ranges.take (range_choice + 1) ++
    (ranges.drop (range_choice + 1)).map (fun r => { r with start := f r.start })

/-- The assignment to `ranges[range_choice].len`. -/
def set_len (ranges : List range) (range_choice len : Nat) : List range :=
  ranges.set range_choice { ranges.getD range_choice ⟨0, 0, 0⟩ with len := len }

/-- The block that the delete operation removes from the range `r`
(afl-fuzz.c 8670-8673): `(del_from, del_len)`; `rnd 0` to `rnd 2` are the
values of `random()` in `choose_block_len`, `rnd 3` the one for the
position. -/
def havoc_delete_block (ctx : havoc_ctx) (r : range) (rnd : Nat → Nat) : Option (Nat × Nat) :=
  match choose_block_len ctx.blk ctx.queue_cycle ctx.run_over10m (u32_sub r.len 1) rnd with
  | none => none
  | some del_len =>
    match UR_draw (rnd 3) ((u32_sub r.len del_len + 1) % 2 ^ 32) with
    | none => none
    | some off => some ((r.start + off) % 2 ^ 32, del_len)

/-- Havoc cases 11 and 12 (afl-fuzz.c 8657-8692): delete a block of the
range `ranges[range_choice]`. -/
def havoc_delete (ctx : havoc_ctx) (st : havoc_state) (range_choice : Nat)
    (rnd : Nat → Nat) : Option havoc_state :=
  match st.ranges[range_choice]? with
  | none => none
  | some r =>
    if r.len < 2 then some st
    else
      match havoc_delete_block ctx r rnd with
      | none => none
      | some (del_from, del_len) =>
        match memcpy_at st.out_buf del_from st.out_buf (del_from + del_len)
            (u32_sub (u32_sub st.temp_len del_from) del_len) with
        | none => none
        | some out_buf =>
          some { out_buf := out_buf.take (st.temp_len - del_len)
                 temp_len := st.temp_len - del_len
                 ranges := set_len (move_starts (fun s => s - del_len) st.ranges range_choice)
                   range_choice (r.len - del_len) }

/-- The byte of the constant block of cases 13 and 14: `UR(2) ? UR(256) :
out_buf[UR(temp_len)]`, with the three values of `random()`. -/
def havoc_fill_byte (st : havoc_state) (rnd2 rnd256 rnd_pos : Nat) : Option Nat :=
  if UR rnd2 2 ≠ 0 then some (UR rnd256 256)
  else
    match UR_draw rnd_pos st.temp_len with
    | none => none
    | some i => if i < st.temp_len then st.out_buf[i]? else none

/-- The buffer that an insertion builds (afl-fuzz.c 8727-8745 and
8881-8917): `new_buf` of `temp_len + n` bytes from `ck_alloc_nozero`, the
head `memcpy(new_buf, out_buf, pos)`, the inserted part, written by `ins`,
and the tail `memcpy(new_buf + pos + n, out_buf + pos, temp_len - pos)`.
The bytes of the new buffer are all written before they are read, so it
starts as zeros here. -/
def insert_block (st : havoc_state) (pos n : Nat) (ins : List Nat → Option (List Nat)) :
    Option (List Nat) :=
  match memcpy_at (List.replicate ((st.temp_len + n) % 2 ^ 32) 0) 0 st.out_buf 0 pos with
  | none => none
  | some new_buf =>
    match ins new_buf with
    | none => none
    | some new_buf => memcpy_at new_buf (pos + n) st.out_buf pos (u32_sub st.temp_len pos)

/-- The assignments after an insertion of `n` bytes into the range
`r = ranges[range_choice]` (afl-fuzz.c 8744-8758, 8919-8930): the new buffer
replaces `out_buf`, `temp_len` grows by `n`, the ranges after the chosen one
move by `n` and the chosen one grows by `n`. -/
def grow_range (st : havoc_state) (range_choice : Nat) (r : range) (new_buf : List Nat)
    (n : Nat) : havoc_state :=
  { out_buf := new_buf
    temp_len := st.temp_len + n
    ranges := set_len (move_starts (fun s => s + n) st.ranges range_choice)
      range_choice (r.len + n) }

/-- The block of havoc case 13 (afl-fuzz.c 8706-8719): `(clone_len,
clone_from)`, drawn from the buffer when `actually_clone` is set and of a
length up to `HAVOC_BLK_XL` otherwise. -/
def havoc_clone_block (ctx : havoc_ctx) (st : havoc_state) (actually_clone : Nat)
    (rnd : Nat → Nat) : Option (Nat × Nat) :=
  if actually_clone ≠ 0 then
    match choose_block_len ctx.blk ctx.queue_cycle ctx.run_over10m st.temp_len rnd with
    | none => none
    | some clone_len =>
      match UR_draw (rnd 4) ((u32_sub st.temp_len clone_len + 1) % 2 ^ 32) with
      | none => none
      | some clone_from => some (clone_len, clone_from)
  else
    match choose_block_len ctx.blk ctx.queue_cycle ctx.run_over10m ctx.blk.HAVOC_BLK_XL rnd with
    | none => none
    | some clone_len => some (clone_len, 0)

/-- The inserted part of havoc case 13 (afl-fuzz.c 8730-8736): a copy of
`clone_len` bytes of `out_buf` from `clone_from`, or `clone_len` times one
byte value. -/
def havoc_clone_part (st : havoc_state) (actually_clone clone_to clone_len clone_from : Nat)
    (rnd : Nat → Nat) (new_buf : List Nat) : Option (List Nat) :=
  if actually_clone ≠ 0 then memcpy_at new_buf clone_to st.out_buf clone_from clone_len
  else
    match havoc_fill_byte st (rnd 6) (rnd 7) (rnd 8) with
    | none => none
    | some v => memset_at new_buf clone_to v clone_len

/-- Havoc case 13 (afl-fuzz.c 8694-8761): clone a block of the buffer, or
insert a block of one byte value, at a position of the range
`ranges[range_choice]`.  `rnd 0` to `rnd 2` go to `choose_block_len`,
`rnd 3` decides between clone and constant, `rnd 4` and `rnd 5` give
`clone_from` and `clone_to`, `rnd 6` to `rnd 8` the byte of the constant
block. -/
def havoc_clone (ctx : havoc_ctx) (st : havoc_state) (range_choice : Nat)
    (rnd : Nat → Nat) : Option havoc_state :=
  match st.ranges[range_choice]? with
  | none => none
  | some r =>
    if to_s32 ((st.temp_len : Int) + (ctx.blk.HAVOC_BLK_XL : Int)) < (ctx.MAX_FILE : Int) then
      let actually_clone := UR (rnd 3) 4 % 256
      match havoc_clone_block ctx st actually_clone rnd with
      | none => none
      | some (clone_len, clone_from) =>
        match (if r.len = 0 then some 0 else UR_draw (rnd 5) r.len) with
        | none => none
        | some off =>
          match insert_block st (r.start + off) clone_len
              (havoc_clone_part st actually_clone (r.start + off) clone_len clone_from rnd) with
          | none => none
          | some new_buf => some (grow_range st range_choice r new_buf clone_len)
    else some st

/-- The dictionary entry drawn by cases 15 and 16 (afl-fuzz.c 8866-8869,
8886-8889): an auto extra when there is no user extra or when there are
auto extras and `UR(2)` says so, otherwise a user extra; `rnd2` and
`rnd_use` are the values of `random()`. -/
def havoc_pick_extra (ctx : havoc_ctx) (rnd2 rnd_use : Nat) : Option extra_data :=
  if ctx.extras.length = 0 ∨ (ctx.a_extras.length ≠ 0 ∧ UR rnd2 2 ≠ 0) then
    match UR_draw rnd_use ctx.a_extras.length with
    | none => none
    | some use_extra => ctx.a_extras[use_extra]?
  else
    match UR_draw rnd_use ctx.extras.length with
    | none => none
    | some use_extra => ctx.extras[use_extra]?

/-- Havoc case 16 (afl-fuzz.c 8855-8934): insert a dictionary entry at a
position of the range `ranges[range_choice]`; `rnd 0` gives the position,
`rnd 1` and `rnd 2` the entry. -/
def havoc_insert_extra (ctx : havoc_ctx) (st : havoc_state) (range_choice : Nat)
    (rnd : Nat → Nat) : Option havoc_state :=
  if (ctx.extras.length + ctx.a_extras.length) % 2 ^ 32 = 0 then some st
  else
    match st.ranges[range_choice]? with
    | none => none
    | some r =>
      match UR_draw (rnd 0) ((r.len + 1) % 2 ^ 32) with
      | none => none
      | some off =>
        match havoc_pick_extra ctx (rnd 1) (rnd 2) with
        | none => none
        | some e =>
          if (st.temp_len + e.len) % 2 ^ 32 ≥ ctx.MAX_FILE then some st
          else
            match insert_block st (r.start + off) e.len
                (fun new_buf => memcpy_at new_buf (r.start + off) e.data 0 e.len) with
            | none => none
            | some new_buf => some (grow_range st range_choice r new_buf e.len)

/-- The buffer of havoc cases 23 and 24 (afl-fuzz.c 9041-9068): `new_buf` of
`temp_len + len` bytes, then the bytes before the range, the range, the
range once more and the bytes after it. -/
def duplicate_block (st : havoc_state) (r : range) : Option (List Nat) :=
  match memcpy_at (List.replicate ((st.temp_len + r.len) % 2 ^ 32) 0) 0 st.out_buf 0 r.start with
  | none => none
  | some new_buf =>
    match memcpy_at new_buf r.start st.out_buf r.start r.len with
    | none => none
    | some new_buf =>
      match memcpy_at new_buf (r.start + r.len) st.out_buf r.start r.len with
      | none => none
      | some new_buf =>
        memcpy_at new_buf (r.start + r.len + r.len) st.out_buf (r.start + r.len)
          (u32_sub st.temp_len (r.start + r.len))

/-- Havoc cases 23 and 24 (afl-fuzz.c 9036-9083): duplicate the range
`ranges[range_choice]`. -/
def havoc_duplicate (ctx : havoc_ctx) (st : havoc_state) (range_choice : Nat) :
    Option havoc_state :=
  match st.ranges[range_choice]? with
  | none => none
  | some r =>
    if (st.temp_len + r.len) % 2 ^ 32 ≥ ctx.MAX_FILE then some st
    else
      match duplicate_block st r with
      | none => none
      | some new_buf =>
        some { out_buf := new_buf
               temp_len := st.temp_len + r.len
               ranges := set_len (move_starts (fun s => s + r.len) st.ranges range_choice)
                 range_choice (r.len * 2) }

/-- The ranges `rs` lie one after the other from offset `pos` to offset
`stop`. -/
def ranges_from : List range → Nat → Nat → Prop
  | [], pos, stop => pos = stop
  | r :: rs, pos, stop => r.start = pos ∧ ranges_from rs (pos + r.len) stop

instance ranges_from_decidable :
    (rs : List range) → (pos stop : Nat) → Decidable (ranges_from rs pos stop)
  | [], pos, stop => by unfold ranges_from; infer_instance
  | r :: rs, pos, stop =>
    have := ranges_from_decidable rs (pos + r.len) stop
    by unfold ranges_from; infer_instance

/-- The precondition of the operations that change the length: the buffer
holds `temp_len >= 1` bytes, at most `MAX_FILE`, and the ranges are
contiguous, start at 0 and end at `temp_len`. -/
def havoc_inv (ctx : havoc_ctx) (st : havoc_state) : Prop :=
  st.out_buf.length = st.temp_len ∧ 1 ≤ st.temp_len ∧ st.temp_len ≤ ctx.MAX_FILE ∧
    ranges_from st.ranges 0 st.temp_len

instance (ctx : havoc_ctx) (st : havoc_state) : Decidable (havoc_inv ctx st) := by
  unfold havoc_inv; infer_instance

/-- The constants and tokens fit: the block sizes are ordered, `MAX_FILE`
plus the largest block is a positive `int`, the queue cycle has started,
and every dictionary entry holds `len` bytes, fewer than `2 ^ 31`. -/
def havoc_ctx_ok (ctx : havoc_ctx) : Prop :=
  1 ≤ ctx.blk.HAVOC_BLK_SMALL ∧ ctx.blk.HAVOC_BLK_SMALL ≤ ctx.blk.HAVOC_BLK_MEDIUM ∧
    ctx.blk.HAVOC_BLK_MEDIUM ≤ ctx.blk.HAVOC_BLK_LARGE ∧
    ctx.blk.HAVOC_BLK_LARGE ≤ ctx.blk.HAVOC_BLK_XL ∧
    ctx.MAX_FILE + ctx.blk.HAVOC_BLK_XL < 2 ^ 31 ∧ 1 ≤ ctx.queue_cycle ∧
    ctx.extras.length + ctx.a_extras.length < 2 ^ 32 ∧
    (∀ e ∈ ctx.extras ++ ctx.a_extras, e.data.length = e.len ∧ e.len < 2 ^ 31)

instance (ctx : havoc_ctx) : Decidable (havoc_ctx_ok ctx) := by
  unfold havoc_ctx_ok; infer_instance

/-- A context for examples: the block sizes of the examples, files of at
most 1 MB, the first queue cycle, and one token in each dictionary. -/
def havoc_ctx_example : havoc_ctx :=
  { blk := block_env_example, MAX_FILE := 1048576, queue_cycle := 1, run_over10m := 0
    extras := [⟨[71, 69, 84], 3, 0⟩], a_extras := [⟨[72, 84, 84, 80], 4, 0⟩] }

/-! ### The state-aware main loop (afl-fuzz.c 11112-11165) and the
bookkeeping it drives -/

/-- The globals of the state-aware loop besides those of `fuzz_state`.
Modelled from the spec: `khash.h` and the graph library are not among the
sources, so the table `khms_states` is the map from a state id to the array
`seeds` of its entry (`none` for an id without entry), the set
`khs_ipsm_paths` is the list of its keys, and the nodes of the graph `ipsm`
are the list `ipsm_nodes` of their state ids.  `regions q` is the array
`q->regions` of the queue entry behind pointer `q`. -/
structure aware_state where
  fs : fuzz_state
  pending_not_fuzzed : Nat
  fuzzed_map_states : Nat
  fuzzed_map_qentries : Nat
  khs_ipsm_paths : List Nat
  ipsm_nodes : List Nat
  khms_states : Nat → Option (List Nat)
  selected_state_index : Nat
  regions : Nat → List region_t

/-- Function `expand_was_fuzzed_map(new_states, new_qentries)` (afl-fuzz.c
683-701): the new cells hold -1, the other cells are kept. -/
def expand_was_fuzzed_map (s : aware_state) (new_states new_qentries : Nat) : aware_state :=
  { s with
    fs := { s.fs with
      was_fuzzed_map := fun i j =>
        if i < s.fuzzed_map_states + new_states ∧ j < s.fuzzed_map_qentries + new_qentries ∧
            (i ≥ s.fuzzed_map_states ∨ j ≥ s.fuzzed_map_qentries) then -1
        else s.fs.was_fuzzed_map i j }
    fuzzed_map_states := s.fuzzed_map_states + new_states
    fuzzed_map_qentries := s.fuzzed_map_qentries + new_qentries }

/-- The store `was_fuzzed_map[row][col] = v`. -/
def set_was_fuzzed (s : aware_state) (row col : Nat) (v : Int) : aware_state :=
  { s with
    fs := { s.fs with
      was_fuzzed_map := Function.update s.fs.was_fuzzed_map row
        (Function.update (s.fs.was_fuzzed_map row) col v) } }

/-- Function `add_to_queue(fname, len, passed_det)` on the fields of the
new entry and on the counters (afl-fuzz.c 1951-2037; the links `next` and
`next_100` are the subject of `add_to_queue`): the entry is zeroed by
`ck_alloc`, gets `len`, `depth`, `index` and `generating_state_id`, the two
counters grow, the regions are stored, and the map gets a column (and its
first row when it has none). -/
def add_to_queue_fields (s : aware_state) (len cur_depth : Nat) (regions : List region_t) :
    aware_state :=
  let q := s.fs.queued_paths
  let e := { blank_entry with
    len := len, depth := cur_depth + 1, index := s.fs.queued_paths
    generating_state_id := s.fs.target_state_id, is_initial_seed := 0
    unique_state_count := 0 }
  let s : aware_state := { s with
    fs := { set_entry s.fs q e with queued_paths := (s.fs.queued_paths + 1) % 2 ^ 32 }
    pending_not_fuzzed := (s.pending_not_fuzzed + 1) % 2 ^ 32
    regions := Function.update s.regions q regions }
  if s.fuzzed_map_states ≠ 0 then expand_was_fuzzed_map s 0 1
  else expand_was_fuzzed_map s 1 1

/-- Function `get_unique_state_count` (afl-fuzz.c 704-729): the number of
different ids in the sequence. -/
def get_unique_state_count (state_sequence : List Nat) : Nat :=
  (state_sequence.foldl
    (fun (acc : List Nat × Nat) state_id =>
      if state_id ∈ acc.1 then acc else (state_id :: acc.1, acc.2 + 1))
    ([], 0)).2

/-- The insertion of a new state into `khms_states` and `state_ids`
(afl-fuzz.c 1121-1139, 1155-1173, 1260-1281): the entry starts with the
array `seeds`, the id is appended to `state_ids`, and for an id other than 0
the map gets a row. -/
def insert_state (s : aware_state) (state_id : Nat) (seeds : List Nat) : aware_state :=
  let s := { s with
    khms_states := Function.update s.khms_states state_id (some seeds)
    fs := { s.fs with state_ids := s.fs.state_ids ++ [state_id] } }
  if state_id ≠ 0 then expand_was_fuzzed_map s 1 0 else s

/-- The test `agnode(ipsm, ..., FALSE)` and the block that follows it when
the graph has no node of the state (afl-fuzz.c 1109-1140, 1142-1174). -/
def ipsm_add (s : aware_state) (state_id : Nat) : aware_state :=
  if state_id ∈ s.ipsm_nodes then s
  else insert_state { s with ipsm_nodes := state_id :: s.ipsm_nodes } state_id []

/-- The loop `for (i = 1; i < state_count; i++)` over a state sequence that
is new to the graph (afl-fuzz.c 1093-1190), from the pair that starts with
`prevStateID`. -/
def ipsm_walk (s : aware_state) (prevStateID : Nat) : List Nat → aware_state
  | [] => s
  | curStateID :: rest => ipsm_walk (ipsm_add (ipsm_add s prevStateID) curStateID) curStateID rest

/-- One iteration of the loop over the regions in
`update_state_aware_variables` (afl-fuzz.c 1236-1286): the entry `q` joins
the seeds of the state that the region reaches, which is inserted when the
table does not have it, and its cell of the map becomes 0. -/
def note_region (q : Nat) (s : aware_state) (r : region_t) : aware_state :=
  if r.state_count > 0 then
    let reachable_state_id := r.state_sequence.getD (r.state_count - 1) 0
    let s :=
      match s.khms_states reachable_state_id with
      | some seeds =>
        { s with khms_states := Function.update s.khms_states reachable_state_id (some (seeds ++ [q])) }
      | none => insert_state s reachable_state_id [q]
    set_was_fuzzed s (get_state_index s.fs.state_ids reachable_state_id) (s.fs.queue q).index 0
  else s

/-- Function `update_state_aware_variables(q, dry_run)` (afl-fuzz.c
1062-1325) for a run with responses, whose state sequence is
`state_sequence` and which annotates the regions of `q` as `regions`; the
counters `paths` and `paths_discovered` of the states and the files written
are left out.  `none` is the `PFATAL` for a table without the initial
state. -/
def update_state_aware_variables (hash32 : List Nat → Nat) (s : aware_state) (q : Nat)
    (state_sequence : List Nat) (regions : List region_t) : Option aware_state :=
  let s := { s with
    fs := set_entry s.fs q
      { s.fs.queue q with unique_state_count := get_unique_state_count state_sequence } }
  let r := is_state_sequence_interesting hash32 s.khs_ipsm_paths state_sequence
    state_sequence.length
  let s := { s with khs_ipsm_paths := r.2 }
  let s :=
    if r.1 ≠ 0 ∧ state_sequence.length > 1 then
      ipsm_walk s (state_sequence.getD 0 0) (state_sequence.drop 1)
    else s
  let s := { s with regions := Function.update s.regions q regions }
  match s.khms_states 0 with
  | none => none
  | some seeds =>
    let s := { s with khms_states := Function.update s.khms_states 0 (some (seeds ++ [q])) }
    let s := set_was_fuzzed s 0 (s.fs.queue q).index 0
    some (regions.foldl (note_region q) s)

/-- A test case with what a run of it gives: the trace, the run time that
`calibrate_case` measures, the state sequence of the responses and the
regions with their annotations. -/
structure test_case where
  len : Nat
  exec_us : Nat
  trace_bits : List Nat
  state_sequence : List Nat
  regions : List region_t

/-- The effect of a calibration that succeeds (afl-fuzz.c 4040-4194) on the
entry `q` and on scoring: `exec_us` is stored and `update_bitmap_score(q)`
runs on the trace. -/
def calibrate_entry (MAP_SIZE : Nat) (s : aware_state) (q : Nat) (t : test_case) :
    aware_state :=
  let fs := set_entry s.fs q { s.fs.queue q with exec_us := t.exec_us }
  { s with fs := update_bitmap_score MAP_SIZE t.trace_bits fs q }

/-- An initial seed: `add_to_queue` in `read_testcases`, then in
`perform_dry_run` (afl-fuzz.c 4219-4256) the flag `is_initial_seed`, the
calibration and `update_state_aware_variables(q, 1)`. -/
def dry_run_seed (MAP_SIZE : Nat) (hash32 : List Nat → Nat) (s : aware_state)
    (t : test_case) : Option aware_state :=
  let q := s.fs.queued_paths
  let s := add_to_queue_fields s t.len 0 t.regions
  let s := { s with fs := set_entry s.fs q { s.fs.queue q with is_initial_seed := 1 } }
  let s := calibrate_entry MAP_SIZE s q t
  update_state_aware_variables hash32 s q t.state_sequence t.regions

/-- The part of `save_if_interesting` that keeps a test case with new
coverage (afl-fuzz.c 4716-4738): `add_to_queue`,
`update_state_aware_variables(queue_top, 0)` and the calibration, in this
order. -/
def save_if_interesting (MAP_SIZE : Nat) (hash32 : List Nat → Nat) (cur_depth : Nat)
    (s : aware_state) (t : test_case) : Option aware_state :=
  let q := s.fs.queued_paths
  let s := add_to_queue_fields s t.len cur_depth t.regions
  match update_state_aware_variables hash32 s q t.state_sequence t.regions with
  | none => none
  | some s => some (calibrate_entry MAP_SIZE s q t)

/-- Function `choose_target_state` for `ROUND_ROBIN`, the default of
`state_selection_algo` (afl-fuzz.c 930-935). -/
def choose_target_state (s : aware_state) : Nat × aware_state :=
  let result := s.fs.state_ids.getD s.selected_state_index 0
  let selected_state_index := s.selected_state_index + 1
  (result,
    { s with
      selected_state_index :=
        if selected_state_index = s.fs.state_ids.length then 0 else selected_state_index })

/-- Function `choose_seed` for `RANDOM_SELECTION`, the default of
`seed_selection_algo` (afl-fuzz.c 960-977); `rnd` is the value of
`random()`.  The outer `none` is the `PFATAL` for a state without entry,
the inner one the null pointer returned for a state without seeds. -/
def choose_seed (s : aware_state) (target_state_id rnd : Nat) : Option (Option Nat) :=
  match s.khms_states target_state_id with
  | none => none
  | some seeds =>
    if seeds.length = 0 then some none
    else some (seeds[UR rnd seeds.length]?)

/-- What a call of `fuzz_one` leaves: the state, the return value, and the
value that `pending_favored` had right before the statement
`pending_favored--` when the call executed it. -/
structure fuzz_one_result where
  s : aware_state
  ret_val : Nat
  pending_favored_before : Option Nat

/-- Function `fuzz_one` in state-aware mode, as far as the queue and the
counters go: the selection of M2 may return 1 (afl-fuzz.c 6826, 6838); past
it the stages run, each test case with new coverage goes through
`save_if_interesting` (`found` lists them), and every way out passes the
bookkeeping at `abandon_entry` (afl-fuzz.c 9279-9291).  `none` is a
`PFATAL`. -/
def fuzz_one (MAP_SIZE : Nat) (hash32 : List Nat → Nat) (s : aware_state) (queue_cur : Nat)
    (found : List test_case) : Option fuzz_one_result :=
  match select_M2 true s.fs.target_state_id (s.regions queue_cur)
      (s.regions queue_cur).length 0 0 with
  | M2_selection.abort => none
  | M2_selection.skip => some { s := s, ret_val := 1, pending_favored_before := none }
  | M2_selection.proceed _ _ =>
    match found.foldlM (save_if_interesting MAP_SIZE hash32 (s.fs.queue queue_cur).depth) s with
    | none => none
    | some s =>
      let r := abandon_entry 0 s.fs queue_cur s.pending_not_fuzzed
      some
        { s := { s with fs := r.1, pending_not_fuzzed := r.2 }
          ret_val := 0
          pending_favored_before :=
            if (s.fs.queue queue_cur).cal_failed = 0 ∧ (s.fs.queue queue_cur).was_fuzzed = 0 ∧
                (s.fs.queue queue_cur).favored ≠ 0 then some s.fs.pending_favored
            else none }

/-- One pass of the state-aware loop of `main` (afl-fuzz.c 11119-11165)
whose first choice of a seed has regions: `choose_target_state`,
`cull_queue`, `choose_seed` with the value `rnd` of `random()`, and
`fuzz_one` on the seed, during which the test cases `found` are kept.
`none` is a `PFATAL`, a fault, or a seed that is null or without regions. -/
def main_loop_pass (MAP_SIZE : Nat) (hash32 : List Nat → Nat) (s : aware_state) (rnd : Nat)
    (found : List test_case) : Option fuzz_one_result :=
  let c := choose_target_state s
  let s := { c.2 with fs := { c.2.fs with target_state_id := c.1 } }
  match cull_queue MAP_SIZE s.fs with
  | none => none
  | some fs =>
    let s := { s with fs := fs }
    match choose_seed s s.fs.target_state_id rnd with
    | some (some selected_seed) =>
      if (s.regions selected_seed).length = 0 then none
      else fuzz_one MAP_SIZE hash32 s selected_seed found
    | _ => none

/-- The state at the start of `main`: an empty queue, no state known. -/
def aware_start : aware_state :=
  { fs :=
      { queue := fun _ => blank_entry, queued_paths := 0, top_rated := fun _ => none
        score_changed := 0, dumb_mode := 0, queued_favored := 0, pending_favored := 0
        target_state_id := 0, state_ids := [], was_fuzzed_map := fun _ _ => 0 }
    pending_not_fuzzed := 0, fuzzed_map_states := 0, fuzzed_map_qentries := 0
    khs_ipsm_paths := [], ipsm_nodes := [], khms_states := fun _ => none
    selected_state_index := 0, regions := fun _ => [] }

/-- The start of a session with the test cases `seeds` as input directory:
the dry run of each, then the call of `cull_queue` before the loop
(afl-fuzz.c 11087-11089). -/
def aware_setup (MAP_SIZE : Nat) (hash32 : List Nat → Nat) (seeds : List test_case) :
    Option aware_state :=
  match seeds.foldlM (dry_run_seed MAP_SIZE hash32) aware_start with
  | none => none
  | some s =>
    match cull_queue MAP_SIZE s.fs with
    | none => none
    | some fs => some { s with fs := fs }

/-- A seed of two messages on an 8-byte map: the responses lead through the
states 0, 5 and 7, the first region reaches state 5 and the second state 7,
and the run sets byte 0 of the trace. -/
def seed_example : test_case :=
  { len := 10, exec_us := 100, trace_bits := [1, 0, 0, 0, 0, 0, 0, 0]
    state_sequence := [0, 5, 7]
    regions := [⟨0, 3, [0, 5], 2⟩, ⟨4, 9, [0, 5, 7], 3⟩] }

/-- A test case found from `seed_example`: the same states and regions, and
a trace with the bytes 0 and 1. -/
def found_example : test_case :=
  { len := 10, exec_us := 100, trace_bits := [1, 1, 0, 0, 0, 0, 0, 0]
    state_sequence := [0, 5, 7]
    regions := [⟨0, 3, [0, 5], 2⟩, ⟨4, 9, [0, 5, 7], 3⟩] }

/-- The session of the example: the dry run of `seed_example`; a first pass
of the loop, on state 0, that fuzzes the seed and keeps `found_example`; a
second pass, on state 5, in which `choose_seed` draws the new entry. -/
def session_example : Option (aware_state × fuzz_one_result × fuzz_one_result) :=
  match aware_setup 8 (fun l => l.foldl (fun a b => (a * 31 + b) % 1000003) 7)
      [seed_example] with
  | none => none
  | some s0 =>
    match main_loop_pass 8 (fun l => l.foldl (fun a b => (a * 31 + b) % 1000003) 7) s0 0
        [found_example] with
    | none => none
    | some r1 =>
      match main_loop_pass 8 (fun l => l.foldl (fun a b => (a * 31 + b) % 1000003) 7) r1.s 1
          [] with
      | none => none
      | some r2 => some (s0, r1, r2)

/-! ## Theorems -/

/-! ### Lemmas on words, tables and the word loops -/

theorem getD_setD (a : Array Nat) (i j v : Nat) :
    (a.setD i v).getD j 0 = if i = j ∧ i < a.size then v else a.getD j 0 := by
  simp only [Array.getD, Array.size_setD]
  by_cases hj : j < a.size
  · simp only [hj, dite_true, Array.get_eq_getElem]
    by_cases hi : i < a.size
    · simp only [Array.setD, hi, dite_true]
      rw [Array.getElem_set]
      by_cases hij : i = j
      · simp [hij, hj]
      · simp [hij]
    · simp only [Array.setD, hi, dite_false, and_false, if_false]
  · simp only [hj, dite_false]
    split
    · omega
    · rfl

theorem inner_spec (f : Nat → Nat) (b1 n : Nat) (t : Array Nat) (k : Nat) (hn : b1 * 256 + n ≤ t.size) :
    ((List.range n).foldl (fun t b2 => t.setD ((b1 <<< 8) + b2) (f b2)) t).getD k 0
      = (if b1 * 256 ≤ k ∧ k < b1 * 256 + n then f (k - b1 * 256) else t.getD k 0) ∧
    ((List.range n).foldl (fun t b2 => t.setD ((b1 <<< 8) + b2) (f b2)) t).size = t.size := by
  induction n with
  | zero => exact ⟨by rw [if_neg (by omega)]; rfl, rfl⟩
  | succ n ih =>
    have ih' := ih (by omega)
    rw [List.range_succ, List.foldl_append]
    simp only [List.foldl_cons, List.foldl_nil, Array.size_setD, ih'.2, and_true]
    rw [getD_setD, ih'.1, ih'.2, Nat.shiftLeft_eq]
    by_cases h1 : b1 * 2 ^ 8 + n = k
    · have h2 : n = k - b1 * 256 := by omega
      have h3 : b1 * 256 ≤ k ∧ k < b1 * 256 + (n + 1) := by omega
      have h4 : b1 * 2 ^ 8 + n < t.size := by omega
      rw [if_pos ⟨h1, h4⟩, if_pos h3, h2]
    · have h5 : ¬ (b1 * 2 ^ 8 + n = k ∧ b1 * 2 ^ 8 + n < t.size) := fun h => h1 h.1
      rw [if_neg h5]
      by_cases h6 : b1 * 256 ≤ k ∧ k < b1 * 256 + n
      · rw [if_pos h6, if_pos (by omega)]
      · rw [if_neg h6, if_neg (by omega)]

theorem outer_spec (g : Nat → Nat → Nat) (m : Nat) (t : Array Nat) (k : Nat) (hm : m * 256 ≤ t.size) :
    ((List.range m).foldl (fun t b1 => (List.range 256).foldl
        (fun t b2 => t.setD ((b1 <<< 8) + b2) (g b1 b2)) t) t).getD k 0
      = (if k < m * 256 then g (k / 256) (k % 256) else t.getD k 0) ∧
    ((List.range m).foldl (fun t b1 => (List.range 256).foldl
        (fun t b2 => t.setD ((b1 <<< 8) + b2) (g b1 b2)) t) t).size = t.size := by
  induction m with
  | zero => simp
  | succ m ih =>
    have ih' := ih (by omega)
    rw [show List.range (m + 1) = List.range m ++ [m] from List.range_succ m, List.foldl_append]
    simp only [List.foldl_cons, List.foldl_nil]
    have hs := inner_spec (g m) m 256 _ k (by rw [ih'.2]; omega)
    rw [hs.1, hs.2, ih'.1, ih'.2]
    refine ⟨?_, rfl⟩
    by_cases h1 : m * 256 ≤ k ∧ k < m * 256 + 256
    · rw [if_pos h1, if_pos (by omega)]
      have h2 : k / 256 = m := by omega
      have h3 : k % 256 = k - m * 256 := by omega
      rw [h2, h3]
    · rw [if_neg h1]
      by_cases h4 : k < m * 256
      · rw [if_pos h4, if_pos (by omega)]
      · rw [if_neg h4, if_neg (by omega)]

theorem count_class_lookup16_spec (b1 b2 : Nat) (h1 : b1 < 256) (h2 : b2 < 256) :
    init_count_class16.getD ((b1 <<< 8) + b2) 0 =
      ((count_class_lookup8.getD b1 0 <<< 8) ||| count_class_lookup8.getD b2 0) := by
  unfold init_count_class16
  rw [(outer_spec (fun b1 b2 => (count_class_lookup8.getD b1 0 <<< 8) ||| count_class_lookup8.getD b2 0)
    256 (Array.mkArray 65536 0) _ (by simp)).1, Nat.shiftLeft_eq]
  have h3 : b1 * 2 ^ 8 + b2 < 256 * 256 := by omega
  have h4 : (b1 * 2 ^ 8 + b2) / 256 = b1 := by omega
  have h5 : (b1 * 2 ^ 8 + b2) % 256 = b2 := by omega
  rw [if_pos h3, h4, h5]

theorem list_length_eight (w : List Nat) (h : w.length = 8) :
    ∃ a b c d e f g k, w = [a, b, c, d, e, f, g, k] := by
  match w, h with
  | [a, b, c, d, e, f, g, k], _ => exact ⟨a, b, c, d, e, f, g, k, rfl⟩

theorem load_le_eq_zero (l : List Nat) : load_le l = 0 ↔ ∀ b ∈ l, b = 0 := by
  induction l with
  | nil => simp [load_le]
  | cons a l ih =>
    simp only [load_le, List.mem_cons, forall_eq_or_imp]
    rw [← ih]; omega

theorem for_each_word64_map (body : List Nat → List Nat) (g : Nat → Nat)
    (hbody : ∀ w : List Nat, w.length = 8 → (∀ b ∈ w, b < 256) → body w = w.map g) :
    ∀ (i : Nat) (mem : List Nat), mem.length = 8 * i → (∀ b ∈ mem, b < 256) →
      for_each_word64 body i mem = mem.map g := by
  intro i
  induction i with
  | zero =>
    intro mem hl _
    have : mem = [] := List.length_eq_zero.mp (by omega)
    subst this; rfl
  | succ i ih =>
    intro mem hl hb
    simp only [for_each_word64]
    rw [hbody (mem.take 8) (by simp; omega) (fun b hb' => hb b (List.mem_of_mem_take hb')),
      ih (mem.drop 8) (by simp; omega) (fun b hb' => hb b (List.mem_of_mem_drop hb')),
      ← List.map_append, List.take_append_drop]

set_option maxRecDepth 100000 in
theorem simplify_lookup_spec : ∀ b < 256, simplify_lookup.getD b 0 = if b = 0 then 1 else 128 := by
  decide

set_option maxRecDepth 100000 in
theorem count_class_lookup8_lt : ∀ b < 256, count_class_lookup8.getD b 0 < 256 := by
  decide

theorem simplify_word_eq (w : List Nat) (hl : w.length = 8) (hb : ∀ b ∈ w, b < 256) :
    (if load_le w ≠ 0 then simplify_word w else store_le 8 0x0101010101010101)
      = w.map (fun b => if b = 0 then 1 else 128) := by
  obtain ⟨a, b, c, d, e, f, g, k, rfl⟩ := list_length_eight w hl
  simp only [List.mem_cons, forall_eq_or_imp, List.mem_singleton, List.not_mem_nil] at hb
  obtain ⟨ha, hb, hc, hd, he, hf, hg, hk, -⟩ := hb
  split
  · simp only [simplify_word, List.set, List.getD_cons_zero, List.getD_cons_succ, List.map,
      simplify_lookup_spec _ ha, simplify_lookup_spec _ hb, simplify_lookup_spec _ hc,
      simplify_lookup_spec _ hd, simplify_lookup_spec _ he, simplify_lookup_spec _ hf,
      simplify_lookup_spec _ hg, simplify_lookup_spec _ hk]
  · rename_i h0
    have hz := (load_le_eq_zero _).mp (not_not.mp h0)
    simp only [List.mem_cons, forall_eq_or_imp, List.mem_singleton, List.not_mem_nil] at hz
    obtain ⟨rfl, rfl, rfl, rfl, rfl, rfl, rfl, rfl, -⟩ := hz
    decide

set_option maxRecDepth 100000 in
theorem count_class_lookup8_bucket : ∀ b < 256, count_class_lookup8.getD b 0 = bucket b := by
  decide

theorem lookup16_store (a b : Nat) (ha : a < 256) (hb : b < 256) :
    init_count_class16.getD (load_le [a, b]) 0 % 256 = count_class_lookup8.getD a 0 ∧
    init_count_class16.getD (load_le [a, b]) 0 / 256 % 256 = count_class_lookup8.getD b 0 := by
  have h1 : load_le [a, b] = (b <<< 8) + a := by
    simp only [load_le, Nat.shiftLeft_eq]; omega
  have h2 := count_class_lookup8_lt a ha
  have h3 := count_class_lookup8_lt b hb
  rw [h1, count_class_lookup16_spec b a hb ha, Nat.shiftLeft_eq, Nat.mul_comm,
    ← Nat.mul_add_lt_is_or (by simpa using h2)]
  omega

theorem classify_word_eq (w : List Nat) (hl : w.length = 8) (hb : ∀ b ∈ w, b < 256) :
    (if load_le w ≠ 0 then classify_word init_count_class16 w else w)
      = w.map (fun b => count_class_lookup8.getD b 0) := by
  obtain ⟨a, b, c, d, e, f, g, k, rfl⟩ := list_length_eight w hl
  simp only [List.mem_cons, forall_eq_or_imp, List.mem_singleton, List.not_mem_nil] at hb
  obtain ⟨ha, hb, hc, hd, he, hf, hg, hk, -⟩ := hb
  split
  · simp only [classify_word, set_mem16, mem16, List.take, List.drop, Nat.mul_zero, Nat.mul_one,
      List.nil_append, List.cons_append, store_le, List.map,
      (lookup16_store _ _ ha hb).1, (lookup16_store _ _ ha hb).2,
      (lookup16_store _ _ hc hd).1, (lookup16_store _ _ hc hd).2,
      (lookup16_store _ _ he hf).1, (lookup16_store _ _ he hf).2,
      (lookup16_store _ _ hg hk).1, (lookup16_store _ _ hg hk).2]
  · rename_i h0
    have hz := (load_le_eq_zero _).mp (not_not.mp h0)
    simp only [List.mem_cons, forall_eq_or_imp, List.mem_singleton, List.not_mem_nil] at hz
    obtain ⟨rfl, rfl, rfl, rfl, rfl, rfl, rfl, rfl, -⟩ := hz
    decide

theorem classify_counts_eq_map (MAP_SIZE : Nat) (mem : List Nat) (h8 : 8 ∣ MAP_SIZE)
    (hl : mem.length = MAP_SIZE) (hb : ∀ b ∈ mem, b < 256) :
    classify_counts MAP_SIZE init_count_class16 mem
      = mem.map (fun b => count_class_lookup8.getD b 0) := by
  unfold classify_counts
  apply for_each_word64_map _ _ classify_word_eq _ _ _ hb
  rw [hl, Nat.shiftRight_eq_div_pow]
  omega

theorem and_split (a b x y : Nat) (ha : a < 256) (hb : b < 256) :
    (a + 256 * x) &&& (b + 256 * y) = (a &&& b) + 256 * (x &&& y) := by
  have hab : a &&& b < 2 ^ 8 := Nat.and_lt_two_pow a (by simpa using hb)
  apply Nat.eq_of_testBit_eq
  intro i
  rw [Nat.add_comm a, Nat.add_comm b, Nat.add_comm (a &&& b)]
  rw [Nat.testBit_and, show (256 : Nat) = 2 ^ 8 from rfl,
    Nat.testBit_mul_pow_two_add x (by simpa using ha),
    Nat.testBit_mul_pow_two_add y (by simpa using hb),
    Nat.testBit_mul_pow_two_add _ hab]
  split <;> simp [Nat.testBit_and]

theorem xor_split (a b x y : Nat) (ha : a < 256) (hb : b < 256) :
    (a + 256 * x) ^^^ (b + 256 * y) = (a ^^^ b) + 256 * (x ^^^ y) := by
  have hab : a ^^^ b < 2 ^ 8 := Nat.xor_lt_two_pow (by simpa using ha) (by simpa using hb)
  apply Nat.eq_of_testBit_eq
  intro i
  rw [Nat.add_comm a, Nat.add_comm b, Nat.add_comm (a ^^^ b)]
  rw [Nat.testBit_xor, show (256 : Nat) = 2 ^ 8 from rfl,
    Nat.testBit_mul_pow_two_add x (by simpa using ha),
    Nat.testBit_mul_pow_two_add y (by simpa using hb),
    Nat.testBit_mul_pow_two_add _ hab]
  split <;> simp [Nat.testBit_xor]

theorem load_le_and (l1 l2 : List Nat) (hl : l1.length = l2.length)
    (h1 : ∀ b ∈ l1, b < 256) (h2 : ∀ b ∈ l2, b < 256) :
    load_le l1 &&& load_le l2 = load_le (List.zipWith (fun a b => a &&& b) l1 l2) := by
  induction l1 generalizing l2 with
  | nil => simp [load_le]
  | cons a l1 ih =>
    cases l2 with
    | nil => simp at hl
    | cons b l2 =>
      simp only [List.mem_cons, forall_eq_or_imp] at h1 h2
      simp only [load_le, List.zipWith_cons_cons]
      rw [and_split _ _ _ _ h1.1 h2.1, ih l2 (by simpa using hl) h1.2 h2.2]

theorem load_le_not (l : List Nat) (h : ∀ b ∈ l, b < 256) :
    (2 ^ (8 * l.length) - 1) ^^^ load_le l = load_le (l.map (fun c => 0xff ^^^ c)) := by
  induction l with
  | nil => simp [load_le]
  | cons a l ih =>
    simp only [List.mem_cons, forall_eq_or_imp] at h
    simp only [load_le, List.map_cons, List.length_cons]
    have hp : 0 < 2 ^ (8 * l.length) := Nat.pos_pow_of_pos _ (by decide)
    have : 2 ^ (8 * (l.length + 1)) - 1 = 255 + 256 * (2 ^ (8 * l.length) - 1) := by
      rw [Nat.mul_add, Nat.pow_add]; omega
    rw [this, xor_split _ _ _ _ (by decide) h.1, ih h.2]

theorem store_le_load_le (l : List Nat) (h : ∀ b ∈ l, b < 256) :
    store_le l.length (load_le l) = l := by
  induction l with
  | nil => rfl
  | cons a l ih =>
    simp only [List.mem_cons, forall_eq_or_imp] at h
    simp only [load_le, List.length_cons, store_le]
    have h1 : (a + 256 * load_le l) % 256 = a := by omega
    have h2 : (a + 256 * load_le l) / 256 = load_le l := by omega
    rw [h1, h2, ih h.2]

theorem load_le_lt (l : List Nat) (h : ∀ b ∈ l, b < 256) : load_le l < 2 ^ (8 * l.length) := by
  induction l with
  | nil => simp [load_le]
  | cons a l ih =>
    simp only [List.mem_cons, forall_eq_or_imp] at h
    simp only [load_le, List.length_cons]
    have := ih h.2
    rw [Nat.mul_add, Nat.pow_add]; omega

theorem zipWith_and_lt (l1 l2 : List Nat) (h1 : ∀ b ∈ l1, b < 256) :
    ∀ b ∈ List.zipWith (fun a b => a &&& b) l1 l2, b < 256 := by
  induction l1 generalizing l2 with
  | nil => simp
  | cons a l1 ih =>
    cases l2 with
    | nil => simp
    | cons c l2 =>
      simp only [List.mem_cons, forall_eq_or_imp] at h1
      simp only [List.zipWith_cons_cons, List.mem_cons, forall_eq_or_imp]
      exact ⟨Nat.lt_of_le_of_lt Nat.and_le_left h1.1, ih l2 h1.2⟩

theorem word_clear (cur vir : List Nat) (hl : vir.length = cur.length)
    (hc : ∀ b ∈ cur, b < 256) (hv : ∀ b ∈ vir, b < 256) :
    store_le cur.length (load_le vir &&& ((2 ^ (8 * cur.length) - 1) ^^^ load_le cur))
      = List.zipWith (fun v c => v &&& (0xff ^^^ c)) vir cur := by
  have hm : ∀ b ∈ cur.map (fun c => 0xff ^^^ c), b < 256 := by
    intro b hb
    obtain ⟨c, hc', rfl⟩ := List.mem_map.mp hb
    exact Nat.xor_lt_two_pow (n := 8) (by decide) (by simpa using hc c hc')
  have hz : ∀ b ∈ List.zipWith (fun a b => a &&& b) vir (cur.map (fun c => 0xff ^^^ c)), b < 256 := by
    exact zipWith_and_lt _ _ hv
  rw [load_le_not cur hc, load_le_and vir _ (by simpa using hl) hv hm]
  have hlen : cur.length = (List.zipWith (fun a b => a &&& b) vir (cur.map (fun c => 0xff ^^^ c))).length := by
    simp [hl]
  rw [hlen, store_le_load_le _ hz, List.zipWith_map_right]

theorem novelty_class_append (l1 l2 : List (Nat × Nat)) :
    novelty_class (l1 ++ l2) = max (novelty_class l1) (novelty_class l2) := by
  unfold novelty_class
  simp only [List.mem_append, or_and_right, exists_or]
  by_cases h1 : ∃ p ∈ l1, p.1 ≠ 0 ∧ p.2 = 0xff <;>
  by_cases h2 : ∃ p ∈ l2, p.1 ≠ 0 ∧ p.2 = 0xff <;>
  by_cases h3 : ∃ p ∈ l1, p.1 &&& p.2 ≠ 0 <;>
  by_cases h4 : ∃ p ∈ l2, p.1 &&& p.2 ≠ 0 <;>
  simp [h1, h2, h3, h4]

theorem fresh_overlap (c v : Nat) (hc : c < 256) (h : c ≠ 0 ∧ v = 0xff) : c &&& v ≠ 0 := by
  obtain ⟨h0, rfl⟩ := h
  have : c &&& 2 ^ 8 - 1 = c := Nat.and_pow_two_sub_one_of_lt_two_pow (by simpa using hc)
  have h255 : (2 : Nat) ^ 8 - 1 = 0xff := by decide
  rw [h255] at this
  rw [this]; exact h0

theorem byte_clear_of_disjoint (c v : Nat) (hv : v < 256) (h : c &&& v = 0) : v &&& (0xff ^^^ c) = v := by
  apply Nat.eq_of_testBit_eq
  intro i
  have h1 : (c &&& v).testBit i = false := by rw [h]; simp
  rw [Nat.testBit_and] at h1
  rw [Nat.testBit_and, Nat.testBit_xor, show (0xff : Nat) = 2 ^ 8 - 1 from rfl,
    Nat.testBit_two_pow_sub_one]
  by_cases hi : i < 8
  · cases hvb : v.testBit i <;> cases hcb : c.testBit i <;> simp_all
  · have : v.testBit i = false :=
      Nat.testBit_lt_two_pow (Nat.lt_of_lt_of_le (show v < 2 ^ 8 from hv)
        (Nat.pow_le_pow_right (by decide) (by omega)))
    simp [this]

theorem zipWith_clear_id (vir cur : List Nat) (hl : vir.length = cur.length)
    (hv : ∀ b ∈ vir, b < 256) (h : ∀ p ∈ List.zip cur vir, p.1 &&& p.2 = 0) :
    List.zipWith (fun v c => v &&& (0xff ^^^ c)) vir cur = vir := by
  induction vir generalizing cur with
  | nil => simp
  | cons v vir ih =>
    cases cur with
    | nil => simp at hl
    | cons c cur =>
      simp only [List.mem_cons, forall_eq_or_imp, List.zip_cons_cons] at hv h
      simp only [List.zipWith_cons_cons]
      rw [byte_clear_of_disjoint c v hv.1 h.1, ih cur (by simpa using hl) hv.2 h.2]

theorem zipWith_all_zero_iff (l1 l2 : List Nat) :
    (∀ b ∈ List.zipWith (fun a b => a &&& b) l1 l2, b = 0) ↔
      ∀ p ∈ List.zip l1 l2, p.1 &&& p.2 = 0 := by
  induction l1 generalizing l2 with
  | nil => simp
  | cons a l1 ih =>
    cases l2 with
    | nil => simp
    | cons c l2 =>
      simp only [List.zipWith_cons_cons, List.zip_cons_cons, List.mem_cons, forall_eq_or_imp, ih l2]

theorem word_overlap_iff (cur vir : List Nat) (hl : cur.length = vir.length)
    (hc : ∀ b ∈ cur, b < 256) (hv : ∀ b ∈ vir, b < 256) :
    (load_le cur ≠ 0 ∧ load_le cur &&& load_le vir ≠ 0) ↔ ∃ p ∈ List.zip cur vir, p.1 &&& p.2 ≠ 0 := by
  rw [load_le_and cur vir hl hc hv]
  have hz : load_le (List.zipWith (fun a b => a &&& b) cur vir) ≠ 0 ↔
      ∃ p ∈ List.zip cur vir, p.1 &&& p.2 ≠ 0 := by
    rw [Ne, load_le_eq_zero, zipWith_all_zero_iff]
    simp
  rw [← hz]
  constructor
  · exact fun h => h.2
  · intro h
    refine ⟨?_, h⟩
    intro h0
    rw [← load_le_and cur vir hl hc hv, h0] at h
    simp at h

theorem word_fresh_iff (cur vir : List Nat) (hc : cur.length = 8) (hv : vir.length = 8) :
    ((cur.getD 0 0 ≠ 0 ∧ vir.getD 0 0 = 0xff) ∨ (cur.getD 1 0 ≠ 0 ∧ vir.getD 1 0 = 0xff) ∨
     (cur.getD 2 0 ≠ 0 ∧ vir.getD 2 0 = 0xff) ∨ (cur.getD 3 0 ≠ 0 ∧ vir.getD 3 0 = 0xff) ∨
     (cur.getD 4 0 ≠ 0 ∧ vir.getD 4 0 = 0xff) ∨ (cur.getD 5 0 ≠ 0 ∧ vir.getD 5 0 = 0xff) ∨
     (cur.getD 6 0 ≠ 0 ∧ vir.getD 6 0 = 0xff) ∨ (cur.getD 7 0 ≠ 0 ∧ vir.getD 7 0 = 0xff))
      ↔ ∃ p ∈ List.zip cur vir, p.1 ≠ 0 ∧ p.2 = 0xff := by
  obtain ⟨a, b, c, d, e, f, g, k, rfl⟩ := list_length_eight cur hc
  obtain ⟨a', b', c', d', e', f', g', k', rfl⟩ := list_length_eight vir hv
  simp

theorem novelty_class_le (ps : List (Nat × Nat)) : novelty_class ps ≤ 2 := by
  unfold novelty_class
  split
  · exact Nat.le_refl 2
  · split <;> omega

theorem has_new_bits_loop_spec : ∀ (i : Nat) (current virgin : List Nat) (ret : Nat),
    current.length = 8 * i → virgin.length = 8 * i →
    (∀ b ∈ current, b < 256) → (∀ b ∈ virgin, b < 256) → ret ≤ 2 →
    has_new_bits_loop i current virgin ret =
      (max ret (novelty_class (List.zip current virgin)),
        List.zipWith (fun v c => v &&& (0xff ^^^ c)) virgin current) := by
  intro i
  induction i with
  | zero =>
    intro current virgin ret hc hv _ _ _
    have h1 : current = [] := List.length_eq_zero.mp (by omega)
    have h2 : virgin = [] := List.length_eq_zero.mp (by omega)
    subst h1 h2
    simp [has_new_bits_loop, novelty_class]
  | succ i ih =>
    intro current virgin ret hc hv hcb hvb hret
    have hlc : (current.take 8).length = 8 := by simp; omega
    have hlv : (virgin.take 8).length = 8 := by simp; omega
    have hcb1 : ∀ b ∈ current.take 8, b < 256 := fun b hb => hcb b (List.mem_of_mem_take hb)
    have hvb1 : ∀ b ∈ virgin.take 8, b < 256 := fun b hb => hvb b (List.mem_of_mem_take hb)
    have hcb2 : ∀ b ∈ current.drop 8, b < 256 := fun b hb => hcb b (List.mem_of_mem_drop hb)
    have hvb2 : ∀ b ∈ virgin.drop 8, b < 256 := fun b hb => hvb b (List.mem_of_mem_drop hb)
    have hzip : List.zip current virgin =
        List.zip (current.take 8) (virgin.take 8) ++ List.zip (current.drop 8) (virgin.drop 8) := by
      rw [← List.zip_append (by rw [hlc, hlv]), List.take_append_drop, List.take_append_drop]
    have hzw : List.zipWith (fun v c => v &&& (0xff ^^^ c)) virgin current =
        List.zipWith (fun v c => v &&& (0xff ^^^ c)) (virgin.take 8) (current.take 8) ++
        List.zipWith (fun v c => v &&& (0xff ^^^ c)) (virgin.drop 8) (current.drop 8) := by
      rw [← List.zipWith_append _ _ _ _ _ (by rw [hlc, hlv]), List.take_append_drop,
        List.take_append_drop]
    have hfo : (∃ p ∈ List.zip (current.take 8) (virgin.take 8), p.1 ≠ 0 ∧ p.2 = 0xff) →
        ∃ p ∈ List.zip (current.take 8) (virgin.take 8), p.1 &&& p.2 ≠ 0 := by
      rintro ⟨p, hp, hf⟩
      exact ⟨p, hp, fresh_overlap p.1 p.2 (hcb1 _ (List.of_mem_zip hp).1) hf⟩
    have hcond := word_overlap_iff _ _ (by rw [hlc, hlv]) hcb1 hvb1
    have hfr := word_fresh_iff _ _ hlc hlv
    simp only [has_new_bits_loop, hcond, hfr]
    rw [hzip, novelty_class_append, hzw]
    by_cases hov : ∃ p ∈ List.zip (current.take 8) (virgin.take 8), p.1 &&& p.2 ≠ 0
    · rw [if_pos hov]
      have hclr := word_clear (current.take 8) (virgin.take 8) (by rw [hlc, hlv]) hcb1 hvb1
      rw [hlc] at hclr
      have hret1 : (if ret < 2 then
            (if ∃ p ∈ List.zip (current.take 8) (virgin.take 8), p.1 ≠ 0 ∧ p.2 = 0xff then 2 else 1)
          else ret) = max ret (novelty_class (List.zip (current.take 8) (virgin.take 8))) := by
        unfold novelty_class
        by_cases hf : ∃ p ∈ List.zip (current.take 8) (virgin.take 8), p.1 ≠ 0 ∧ p.2 = 0xff
        · simp only [hf, if_true]; split <;> omega
        · simp only [hf, if_false, hov, if_true]; split <;> omega
      rw [hret1, ih _ _ _ (by simp; omega) (by simp; omega) hcb2 hvb2
        (max_le hret (novelty_class_le _))]
      simp only [Prod.mk.injEq]
      exact ⟨max_assoc _ _ _, by rw [← hclr]⟩
    · rw [if_neg hov]
      have hn0 : novelty_class (List.zip (current.take 8) (virgin.take 8)) = 0 := by
        unfold novelty_class
        rw [if_neg (fun h => hov (hfo h)), if_neg hov]
      have hid := zipWith_clear_id (virgin.take 8) (current.take 8) (by rw [hlc, hlv]) hvb1
        (by intro p hp; by_contra h; exact hov ⟨p, hp, h⟩)
      rw [ih _ _ _ (by simp; omega) (by simp; omega) hcb2 hvb2 hret, hn0, hid]
      simp

theorem exists_index_iff_zip (P : Nat → Nat → Prop) (l1 l2 : List Nat) (h : l1.length = l2.length) :
    (∃ i < l1.length, P (l1.getD i 0) (l2.getD i 0)) ↔ ∃ p ∈ List.zip l1 l2, P p.1 p.2 := by
  induction l1 generalizing l2 with
  | nil => simp
  | cons a l1 ih =>
    cases l2 with
    | nil => simp at h
    | cons b l2 =>
      have ih' := ih l2 (by simpa using h)
      simp only [List.zip_cons_cons, List.mem_cons, exists_eq_or_imp, ← ih', List.length_cons]
      constructor
      · rintro ⟨i, hi, hp⟩
        cases i with
        | zero => exact Or.inl (by simpa using hp)
        | succ j => exact Or.inr ⟨j, by omega, by simpa using hp⟩
      · rintro (hp | ⟨j, hj, hp⟩)
        · exact ⟨0, by omega, by simpa using hp⟩
        · exact ⟨j + 1, by omega, by simpa using hp⟩

theorem has_new_bits_zip_spec (MAP_SIZE : Nat) (current virgin : List Nat) (h8 : 8 ∣ MAP_SIZE)
    (hc : current.length = MAP_SIZE) (hv : virgin.length = MAP_SIZE)
    (hcb : ∀ b ∈ current, b < 256) (hvb : ∀ b ∈ virgin, b < 256) :
    has_new_bits MAP_SIZE current virgin =
      { ret := novelty_class (List.zip current virgin),
        virgin_map := List.zipWith (fun v c => v &&& (0xff ^^^ c)) virgin current,
        trace_bits := current } := by
  have hi : 8 * (MAP_SIZE >>> 3) = MAP_SIZE := by
    rw [Nat.shiftRight_eq_div_pow]; omega
  unfold has_new_bits
  rw [has_new_bits_loop_spec _ current virgin 0 (by omega) (by omega) hcb hvb (by omega)]
  simp

theorem byte_disjoint_after_clear (c v : Nat) (hc : c < 256) :
    c &&& (v &&& (0xff ^^^ c)) = 0 := by
  apply Nat.eq_of_testBit_eq
  intro i
  simp only [Nat.testBit_and, Nat.testBit_xor, Nat.zero_testBit]
  by_cases hi : i < 8
  · cases c.testBit i <;> simp
    rw [show (255 : Nat) = 2 ^ 8 - 1 from rfl, Nat.testBit_two_pow_sub_one]
    simp [hi]
  · have : c.testBit i = false :=
      Nat.testBit_lt_two_pow (Nat.lt_of_lt_of_le (show c < 2 ^ 8 from hc)
        (Nat.pow_le_pow_right (by decide) (by omega)))
    simp [this]

theorem zip_clear_disjoint (current virgin : List Nat) (hc : ∀ b ∈ current, b < 256) :
    ∀ p ∈ List.zip current (List.zipWith (fun v c => v &&& (0xff ^^^ c)) virgin current),
      p.1 &&& p.2 = 0 := by
  induction current generalizing virgin with
  | nil => simp
  | cons c current ih =>
    cases virgin with
    | nil => simp
    | cons v virgin =>
      simp only [List.mem_cons, forall_eq_or_imp] at hc
      simp only [List.zipWith_cons_cons, List.zip_cons_cons, List.mem_cons, forall_eq_or_imp]
      exact ⟨byte_disjoint_after_clear c v hc.1, ih virgin hc.2⟩

theorem zipWith_clear_lt (virgin current : List Nat) (hv : ∀ b ∈ virgin, b < 256) :
    ∀ b ∈ List.zipWith (fun v c => v &&& (0xff ^^^ c)) virgin current, b < 256 := by
  induction virgin generalizing current with
  | nil => simp
  | cons v virgin ih =>
    cases current with
    | nil => simp
    | cons c current =>
      simp only [List.mem_cons, forall_eq_or_imp] at hv
      simp only [List.zipWith_cons_cons, List.mem_cons, forall_eq_or_imp]
      exact ⟨Nat.lt_of_le_of_lt Nat.and_le_left hv.1, ih current hv.2⟩

theorem novelty_class_eq_zero (ps : List (Nat × Nat)) (hps : ∀ p ∈ ps, p.1 < 256)
    (h : ∀ p ∈ ps, p.1 &&& p.2 = 0) : novelty_class ps = 0 := by
  unfold novelty_class
  have h2 : ¬ ∃ p ∈ ps, p.1 &&& p.2 ≠ 0 := by
    rintro ⟨p, hp, hne⟩; exact hne (h p hp)
  have h1 : ¬ ∃ p ∈ ps, p.1 ≠ 0 ∧ p.2 = 0xff := by
    rintro ⟨p, hp, hf⟩
    exact fresh_overlap p.1 p.2 (hps p hp) hf (h p hp)
  rw [if_neg h1, if_neg h2]

set_option maxRecDepth 100000 in
theorem count_class_lookup8_idem_iff : ∀ b < 256,
    (count_class_lookup8.getD (count_class_lookup8.getD b 0) 0 = count_class_lookup8.getD b 0
      ↔ (b ≤ 2 ∨ 32 ≤ b)) := by
  decide

/-! ### C1 - C5: the bitmap algebra -/

/-- C1. After `init_count_class16` has filled the 16-bit table, `classify_counts` rewrites
every byte `b` of a `MAP_SIZE`-byte bitmap to `bucket b` (0, 1, 2, 3, 4-7, 8-15, 16-31, 32-127,
128-255 go to 0, 1, 2, 4, 8, 16, 32, 64, 128), and the word-at-a-time implementation with
16-bit lookups and skipped zero words yields exactly the bitmap obtained by applying
`count_class_lookup8` to each byte on its own. -/
theorem classify_counts_bucket (MAP_SIZE : Nat) (mem : List Nat) (h8 : 8 ∣ MAP_SIZE)
    (hl : mem.length = MAP_SIZE) (hb : ∀ b ∈ mem, b < 256) :
    classify_counts MAP_SIZE init_count_class16 mem = mem.map bucket ∧
    classify_counts MAP_SIZE init_count_class16 mem
      = mem.map (fun b => count_class_lookup8.getD b 0) := by
  have h := classify_counts_eq_map MAP_SIZE mem h8 hl hb
  refine ⟨?_, h⟩
  rw [h]
  apply List.map_congr_left
  intro b hb'
  exact count_class_lookup8_bucket b (hb b hb')

/-- Witness of C1 on a one-word bitmap and on a two-word bitmap with an all-zero word. -/
theorem classify_counts_bucket_witness :
    classify_counts 8 init_count_class16 [0, 1, 2, 3, 5, 9, 17, 200]
      = [0, 1, 2, 4, 8, 16, 32, 128] ∧
    classify_counts 16 init_count_class16 [0, 0, 0, 0, 0, 0, 0, 0, 255, 127, 32, 31, 7, 4, 3, 0]
      = [0, 0, 0, 0, 0, 0, 0, 0, 128, 64, 64, 32, 8, 8, 4, 0] :=
  ⟨(classify_counts_bucket 8 [0, 1, 2, 3, 5, 9, 17, 200] (by decide) (by decide)
      (by decide)).1.trans (by decide),
   (classify_counts_bucket 16 [0, 0, 0, 0, 0, 0, 0, 0, 255, 127, 32, 31, 7, 4, 3, 0] (by decide)
      (by decide) (by decide)).1.trans (by decide)⟩

/-- C2, as the code has it. Classification is not idempotent in general: the bucket values
4, 8, 16 and 32 are themselves counts of the next bucket. Classifying twice equals classifying
once on every bitmap whose bytes all lie in 0..2 or 32..255, and for a single byte value
`b` in 0..255 the equation `Classify(Classify(b)) = Classify(b)` holds exactly when
`b <= 2` or `b >= 32`. -/
theorem classify_counts_idempotent_on (MAP_SIZE : Nat) (mem : List Nat) (h8 : 8 ∣ MAP_SIZE)
    (hl : mem.length = MAP_SIZE) (hb : ∀ b ∈ mem, b < 256)
    (hfix : ∀ b ∈ mem, b ≤ 2 ∨ 32 ≤ b) :
    classify_counts MAP_SIZE init_count_class16
        (classify_counts MAP_SIZE init_count_class16 mem)
      = classify_counts MAP_SIZE init_count_class16 mem ∧
    ∀ b < 256, (count_class_lookup8.getD (count_class_lookup8.getD b 0) 0
      = count_class_lookup8.getD b 0 ↔ (b ≤ 2 ∨ 32 ≤ b)) := by
  refine ⟨?_, count_class_lookup8_idem_iff⟩
  have h := classify_counts_eq_map MAP_SIZE mem h8 hl hb
  rw [h, classify_counts_eq_map MAP_SIZE _ h8 (by simpa using hl)
    (by
      intro b hb'
      obtain ⟨a, ha, rfl⟩ := List.mem_map.mp hb'
      exact count_class_lookup8_lt a (hb a ha)), List.map_map]
  apply List.map_congr_left
  intro b hb'
  exact (count_class_lookup8_idem_iff b (hb b hb')).mpr (hfix b hb')

/-- Witness of the amended C2 on a one-word bitmap. -/
theorem classify_counts_idempotent_on_witness :
    classify_counts 8 init_count_class16
        (classify_counts 8 init_count_class16 [0, 1, 2, 32, 64, 127, 128, 255])
      = classify_counts 8 init_count_class16 [0, 1, 2, 32, 64, 127, 128, 255] :=
  (classify_counts_idempotent_on 8 [0, 1, 2, 32, 64, 127, 128, 255] (by decide) (by decide)
    (by decide) (by decide)).1

/-- Counterexample to C2 as stated: a raw count of 3 classifies to 4, and classifying the
result again gives 8. -/
theorem classify_counts_not_idempotent :
    classify_counts 8 init_count_class16 [3, 0, 0, 0, 0, 0, 0, 0] = [4, 0, 0, 0, 0, 0, 0, 0] ∧
    classify_counts 8 init_count_class16
        (classify_counts 8 init_count_class16 [3, 0, 0, 0, 0, 0, 0, 0])
      = [8, 0, 0, 0, 0, 0, 0, 0] ∧
    classify_counts 8 init_count_class16
        (classify_counts 8 init_count_class16 [3, 0, 0, 0, 0, 0, 0, 0])
      ≠ classify_counts 8 init_count_class16 [3, 0, 0, 0, 0, 0, 0, 0] := by
  have h1 : classify_counts 8 init_count_class16 [3, 0, 0, 0, 0, 0, 0, 0]
      = [4, 0, 0, 0, 0, 0, 0, 0] :=
    (classify_counts_eq_map 8 _ (by decide) (by decide) (by decide)).trans (by decide)
  have h2 : classify_counts 8 init_count_class16 [4, 0, 0, 0, 0, 0, 0, 0]
      = [8, 0, 0, 0, 0, 0, 0, 0] :=
    (classify_counts_eq_map 8 _ (by decide) (by decide) (by decide)).trans (by decide)
  refine ⟨h1, ?_, ?_⟩
  · rw [h1, h2]
  · rw [h1, h2]; decide

theorem has_new_bits_index_spec (MAP_SIZE : Nat) (current virgin : List Nat) (h8 : 8 ∣ MAP_SIZE)
    (hc : current.length = MAP_SIZE) (hv : virgin.length = MAP_SIZE)
    (hcb : ∀ b ∈ current, b < 256) (hvb : ∀ b ∈ virgin, b < 256) :
    (has_new_bits MAP_SIZE current virgin).ret =
      (if ∃ i < MAP_SIZE, current.getD i 0 ≠ 0 ∧ virgin.getD i 0 = 0xff then 2
       else if ∃ i < MAP_SIZE, current.getD i 0 &&& virgin.getD i 0 ≠ 0 then 1 else 0) ∧
    (has_new_bits MAP_SIZE current virgin).virgin_map.length = MAP_SIZE ∧
    (∀ i < MAP_SIZE, (has_new_bits MAP_SIZE current virgin).virgin_map.getD i 0
      = virgin.getD i 0 &&& (0xff ^^^ current.getD i 0)) ∧
    (has_new_bits MAP_SIZE current virgin).trace_bits = current := by
  rw [has_new_bits_zip_spec MAP_SIZE current virgin h8 hc hv hcb hvb]
  have hlen : current.length = virgin.length := by rw [hc, hv]
  have e1 := exists_index_iff_zip (fun c v => c ≠ 0 ∧ v = 0xff) current virgin hlen
  have e2 := exists_index_iff_zip (fun c v => c &&& v ≠ 0) current virgin hlen
  rw [hc] at e1 e2
  refine ⟨?_, ?_, ?_, rfl⟩
  · simp only [novelty_class, e1, e2]
  · simp [hc, hv]
  · intro i hi
    simp only
    rw [List.getD_eq_getElem?_getD, List.getD_eq_getElem?_getD, List.getD_eq_getElem?_getD,
      List.getElem?_zipWith, List.getElem?_eq_getElem (by omega : i < virgin.length),
      List.getElem?_eq_getElem (by omega : i < current.length)]
    rfl

/-- C3. For a trace bitmap `current` and a virgin map `virgin` of `MAP_SIZE` bytes,
`has_new_bits` returns 2 if some index has `current[i] != 0` and `virgin[i] == 0xff`,
otherwise 1 if some index has `(current[i] & virgin[i]) != 0`, otherwise 0; every virgin byte
becomes `virgin[i] & ~current[i]`, and the trace bitmap is unchanged. -/
theorem has_new_bits_bytewise (MAP_SIZE : Nat) (current virgin : List Nat) (h8 : 8 ∣ MAP_SIZE)
    (hc : current.length = MAP_SIZE) (hv : virgin.length = MAP_SIZE)
    (hcb : ∀ b ∈ current, b < 256) (hvb : ∀ b ∈ virgin, b < 256) :
    (has_new_bits MAP_SIZE current virgin).ret =
      (if ∃ i < MAP_SIZE, current.getD i 0 ≠ 0 ∧ virgin.getD i 0 = 0xff then 2
       else if ∃ i < MAP_SIZE, current.getD i 0 &&& virgin.getD i 0 ≠ 0 then 1 else 0) ∧
    (has_new_bits MAP_SIZE current virgin).virgin_map.length = MAP_SIZE ∧
    (∀ i < MAP_SIZE, (has_new_bits MAP_SIZE current virgin).virgin_map.getD i 0
      = virgin.getD i 0 &&& (0xff ^^^ current.getD i 0)) ∧
    (has_new_bits MAP_SIZE current virgin).trace_bits = current :=
  has_new_bits_index_spec MAP_SIZE current virgin h8 hc hv hcb hvb

/-- Witness of C3: a one-word map where byte 1 is fresh and byte 2 only adds bits. -/
theorem has_new_bits_bytewise_witness :
    (has_new_bits 8 [0, 4, 2, 0, 0, 0, 0, 0] [255, 255, 0xfd, 255, 0, 255, 255, 255]).ret =
      (if ∃ i < 8, [0, 4, 2, 0, 0, 0, 0, 0].getD i 0 ≠ 0 ∧
          [255, 255, 0xfd, 255, 0, 255, 255, 255].getD i 0 = 0xff then 2
       else if ∃ i < 8, [0, 4, 2, 0, 0, 0, 0, 0].getD i 0 &&&
          [255, 255, 0xfd, 255, 0, 255, 255, 255].getD i 0 ≠ 0 then 1 else 0) :=
  (has_new_bits_bytewise 8 [0, 4, 2, 0, 0, 0, 0, 0] [255, 255, 0xfd, 255, 0, 255, 255, 255]
    (by decide) (by decide) (by decide) (by decide) (by decide)).1

theorem has_new_bits_second_call (MAP_SIZE : Nat) (current virgin : List Nat) (h8 : 8 ∣ MAP_SIZE)
    (hc : current.length = MAP_SIZE) (hv : virgin.length = MAP_SIZE)
    (hcb : ∀ b ∈ current, b < 256) (hvb : ∀ b ∈ virgin, b < 256) :
    (has_new_bits MAP_SIZE (has_new_bits MAP_SIZE current virgin).trace_bits
        (has_new_bits MAP_SIZE current virgin).virgin_map).ret = 0 ∧
    (has_new_bits MAP_SIZE (has_new_bits MAP_SIZE current virgin).trace_bits
        (has_new_bits MAP_SIZE current virgin).virgin_map).virgin_map
      = (has_new_bits MAP_SIZE current virgin).virgin_map := by
  rw [has_new_bits_zip_spec MAP_SIZE current virgin h8 hc hv hcb hvb]
  simp only
  have hv' := zipWith_clear_lt virgin current hvb
  have hl' : (List.zipWith (fun v c => v &&& (0xff ^^^ c)) virgin current).length = MAP_SIZE := by
    simp [hc, hv]
  have hdis := zip_clear_disjoint current virgin hcb
  rw [has_new_bits_zip_spec MAP_SIZE current _ h8 hc hl' hcb hv']
  simp only
  constructor
  · apply novelty_class_eq_zero _ _ hdis
    intro p hp
    exact hcb _ (List.of_mem_zip hp).1
  · exact zipWith_clear_id _ _ (by rw [hl', hc]) hv' hdis

theorem scenario_S1_trace (MAP_SIZE : Nat) (h8 : 8 ∣ MAP_SIZE) :
    classify_counts MAP_SIZE init_count_class16 ((List.replicate MAP_SIZE 0).set 42 3)
      = (List.replicate MAP_SIZE 0).set 42 4 := by
  rw [classify_counts_eq_map MAP_SIZE _ h8 (by simp)
    (by
      intro b hb
      rcases List.mem_or_eq_of_mem_set hb with h | h
      · rw [List.eq_of_mem_replicate h]; decide
      · rw [h]; decide)]
  rw [List.map_set, List.map_replicate]
  rfl

theorem scenario_S1_virgin (n : Nat) :
    List.zipWith (fun v c => v &&& (0xff ^^^ c)) (List.replicate n 0xff)
        ((List.replicate n 0).set 42 4)
      = (List.replicate n 0xff).set 42 0xfb := by
  apply List.ext_getElem
  · simp
  · intro i h1 h2
    simp only [List.getElem_zipWith, List.getElem_replicate, List.getElem_set]
    split <;> decide

/-- C4. Novelty monotonicity: once `has_new_bits` has returned, a later call with the same
trace against the updated virgin map returns 0 and leaves the virgin map unchanged.
Scenario S1 for every map size above 42: with the virgin map all 0xff and raw `current[42] = 3`
(classified to 4), the first call returns 2 and leaves `virgin[42] == 0xfb` and every other
virgin byte 0xff; the second call returns 0. -/
theorem has_new_bits_monotone (MAP_SIZE : Nat) (current virgin : List Nat) (h8 : 8 ∣ MAP_SIZE)
    (hc : current.length = MAP_SIZE) (hv : virgin.length = MAP_SIZE)
    (hcb : ∀ b ∈ current, b < 256) (hvb : ∀ b ∈ virgin, b < 256) :
    ((has_new_bits MAP_SIZE (has_new_bits MAP_SIZE current virgin).trace_bits
        (has_new_bits MAP_SIZE current virgin).virgin_map).ret = 0 ∧
     (has_new_bits MAP_SIZE (has_new_bits MAP_SIZE current virgin).trace_bits
        (has_new_bits MAP_SIZE current virgin).virgin_map).virgin_map
      = (has_new_bits MAP_SIZE current virgin).virgin_map) ∧
    (42 < MAP_SIZE →
      classify_counts MAP_SIZE init_count_class16 ((List.replicate MAP_SIZE 0).set 42 3)
        = (List.replicate MAP_SIZE 0).set 42 4 ∧
      (has_new_bits MAP_SIZE ((List.replicate MAP_SIZE 0).set 42 4)
        (List.replicate MAP_SIZE 0xff)).ret = 2 ∧
      (has_new_bits MAP_SIZE ((List.replicate MAP_SIZE 0).set 42 4)
        (List.replicate MAP_SIZE 0xff)).virgin_map = (List.replicate MAP_SIZE 0xff).set 42 0xfb ∧
      (has_new_bits MAP_SIZE
        (has_new_bits MAP_SIZE ((List.replicate MAP_SIZE 0).set 42 4)
          (List.replicate MAP_SIZE 0xff)).trace_bits
        (has_new_bits MAP_SIZE ((List.replicate MAP_SIZE 0).set 42 4)
          (List.replicate MAP_SIZE 0xff)).virgin_map).ret = 0) := by
  refine ⟨has_new_bits_second_call MAP_SIZE current virgin h8 hc hv hcb hvb, ?_⟩
  intro h42
  have hcS : ∀ b ∈ (List.replicate MAP_SIZE 0).set 42 4, b < 256 := by
    intro b hb
    rcases List.mem_or_eq_of_mem_set hb with h | h
    · rw [List.eq_of_mem_replicate h]; decide
    · rw [h]; decide
  have hvS : ∀ b ∈ List.replicate MAP_SIZE 0xff, b < 256 := by
    intro b hb
    rw [List.eq_of_mem_replicate hb]; decide
  have hspec := has_new_bits_index_spec MAP_SIZE ((List.replicate MAP_SIZE 0).set 42 4)
    (List.replicate MAP_SIZE 0xff) h8 (by simp) (by simp) hcS hvS
  have hz := has_new_bits_zip_spec MAP_SIZE ((List.replicate MAP_SIZE 0).set 42 4)
    (List.replicate MAP_SIZE 0xff) h8 (by simp) (by simp) hcS hvS
  refine ⟨scenario_S1_trace MAP_SIZE h8, ?_, ?_, ?_⟩
  · rw [hspec.1, if_pos]
    refine ⟨42, h42, ?_, ?_⟩
    · rw [List.getD_eq_getElem?_getD, List.getElem?_set_self (by simpa using h42)]
      decide
    · rw [List.getD_eq_getElem?_getD, List.getElem?_replicate, if_pos h42]
      rfl
  · rw [hz]
    exact scenario_S1_virgin MAP_SIZE
  · exact (has_new_bits_second_call MAP_SIZE _ _ h8 (by simp) (by simp) hcS hvS).1

/-- Witness of C4 at the default map size of 2^16 bytes, for scenario S1 itself. -/
theorem has_new_bits_monotone_witness :
    (has_new_bits 65536 ((List.replicate 65536 0).set 42 4) (List.replicate 65536 0xff)).ret = 2 ∧
    (has_new_bits 65536 ((List.replicate 65536 0).set 42 4)
      (List.replicate 65536 0xff)).virgin_map = (List.replicate 65536 0xff).set 42 0xfb ∧
    (has_new_bits 65536
      (has_new_bits 65536 ((List.replicate 65536 0).set 42 4)
        (List.replicate 65536 0xff)).trace_bits
      (has_new_bits 65536 ((List.replicate 65536 0).set 42 4)
        (List.replicate 65536 0xff)).virgin_map).ret = 0 :=
  ((has_new_bits_monotone 65536 (List.replicate 65536 0) (List.replicate 65536 0xff)
    (by decide) (List.length_replicate _ _) (List.length_replicate _ _)
    (fun b hb => by rw [List.eq_of_mem_replicate hb]; decide)
    (fun b hb => by rw [List.eq_of_mem_replicate hb]; decide)).2 (by decide)).2

/-- C5. `simplify_trace` replaces each non-zero byte with 0x80 and each zero byte with 0x01,
so the result has no zero byte and only the values 0x01 and 0x80; the word-level shortcut
that stores `0x0101010101010101` for an all-zero word agrees with the per-byte table
`simplify_lookup`. -/
theorem simplify_trace_bytewise (MAP_SIZE : Nat) (mem : List Nat) (h8 : 8 ∣ MAP_SIZE)
    (hl : mem.length = MAP_SIZE) (hb : ∀ b ∈ mem, b < 256) :
    simplify_trace MAP_SIZE mem = mem.map (fun b => if b = 0 then 0x01 else 0x80) ∧
    simplify_trace MAP_SIZE mem = mem.map (fun b => simplify_lookup.getD b 0) ∧
    (∀ b ∈ simplify_trace MAP_SIZE mem, b ≠ 0 ∧ (b = 0x01 ∨ b = 0x80)) := by
  have h : simplify_trace MAP_SIZE mem = mem.map (fun b => if b = 0 then 0x01 else 0x80) := by
    unfold simplify_trace
    apply for_each_word64_map _ _ simplify_word_eq _ _ _ hb
    rw [hl, Nat.shiftRight_eq_div_pow]
    omega
  refine ⟨h, ?_, ?_⟩
  · rw [h]
    apply List.map_congr_left
    intro b hb'
    exact (simplify_lookup_spec b (hb b hb')).symm
  · intro b hb'
    rw [h] at hb'
    obtain ⟨a, -, rfl⟩ := List.mem_map.mp hb'
    split <;> simp

/-- Witness of C5 on a two-word bitmap whose second word is all zero. -/
theorem simplify_trace_bytewise_witness :
    simplify_trace 16 [0, 1, 2, 3, 0, 128, 255, 0, 0, 0, 0, 0, 0, 0, 0, 0]
      = [1, 128, 128, 128, 1, 128, 128, 1, 1, 1, 1, 1, 1, 1, 1, 1] :=
  (simplify_trace_bytewise 16 [0, 1, 2, 3, 0, 128, 255, 0, 0, 0, 0, 0, 0, 0, 0, 0] (by decide)
    (by decide) (by decide)).1.trans (by decide)

/-! ### Lemmas on `cull_queue` and the greedy walk -/

theorem bit_set_iff_testBit (a : List Nat) (i : Nat) :
    bit_set a i ↔ (a.getD (i >>> 3) 0).testBit (i &&& 7) = true := by
  unfold bit_set
  rw [Nat.one_shiftLeft, Nat.land_comm, Nat.two_pow_and]
  cases h : (a.getD (i >>> 3) 0).testBit (i &&& 7)
  · simp
  · simp

theorem and7_lt (i : Nat) : i &&& 7 < 8 := by
  have := Nat.and_pow_two_sub_one_eq_mod i 3
  have h7 : (2 : Nat) ^ 3 - 1 = 7 := by decide
  rw [h7] at this
  rw [this]
  exact Nat.mod_lt _ (by decide)

theorem index_split (i : Nat) : i = 8 * (i >>> 3) + (i &&& 7) := by
  have := Nat.and_pow_two_sub_one_eq_mod i 3
  have h7 : (2 : Nat) ^ 3 - 1 = 7 := by decide
  rw [h7] at this
  rw [this, Nat.shiftRight_eq_div_pow]
  omega

theorem bit_set_replicate_255 (n i : Nat) (h : i >>> 3 < n) : bit_set (List.replicate n 255) i := by
  rw [bit_set_iff_testBit, List.getD_eq_getElem?_getD, List.getElem?_replicate, if_pos h]
  simp only [Option.getD_some]
  rw [show (255 : Nat) = 2 ^ 8 - 1 from rfl, Nat.testBit_two_pow_sub_one]
  simpa using and7_lt i

theorem not_bit_set_replicate_zero (n i : Nat) : ¬ bit_set (List.replicate n 0) i := by
  rw [bit_set_iff_testBit, List.getD_eq_getElem?_getD, List.getElem?_replicate]
  split <;> simp

theorem cull_clear_length : ∀ (n : Nat) (tm tv : List Nat), (cull_clear n tm tv).length = tv.length := by
  intro n
  induction n with
  | zero => intro tm tv; rfl
  | succ n ih =>
    intro tm tv
    simp only [cull_clear]
    rw [ih]
    split <;> simp

theorem cull_clear_getD : ∀ (n : Nat) (tm tv : List Nat) (k : Nat), n ≤ tv.length →
    (cull_clear n tm tv).getD k 0 =
      if k < n ∧ tm.getD k 0 ≠ 0 then tv.getD k 0 &&& (0xff ^^^ tm.getD k 0) else tv.getD k 0 := by
  intro n
  induction n with
  | zero => intro tm tv k _; simp [cull_clear]
  | succ n ih =>
    intro tm tv k hn
    simp only [cull_clear]
    by_cases hz : tm.getD n 0 ≠ 0
    · rw [if_pos hz, ih _ _ _ (by simp; omega)]
      by_cases hk : k = n
      · subst hk
        have h1 : ¬ (k < k ∧ tm.getD k 0 ≠ 0) := by omega
        have h2 : k < k + 1 ∧ tm.getD k 0 ≠ 0 := ⟨by omega, hz⟩
        rw [if_neg h1, if_pos h2]
        simp only [List.getD_eq_getElem?_getD]
        rw [List.getElem?_set_self (by omega)]
        rfl
      · have h3 : (tv.set n (tv.getD n 0 &&& (0xff ^^^ tm.getD n 0))).getD k 0 = tv.getD k 0 := by
          simp only [List.getD_eq_getElem?_getD]
          rw [List.getElem?_set_ne (by omega)]
        rw [h3]
        by_cases h4 : k < n ∧ tm.getD k 0 ≠ 0
        · rw [if_pos h4, if_pos ⟨by omega, h4.2⟩]
        · rw [if_neg h4, if_neg (by omega)]
    · rw [if_neg hz, ih _ _ _ (by omega)]
      by_cases h4 : k < n ∧ tm.getD k 0 ≠ 0
      · rw [if_pos h4, if_pos ⟨by omega, h4.2⟩]
      · rw [if_neg h4, if_neg]
        rintro ⟨h5, h6⟩
        by_cases hk : k = n
        · subst hk; exact hz h6
        · exact h4 ⟨by omega, h6⟩

theorem bit_set_cull_clear (n : Nat) (tm tv : List Nat) (i : Nat) (hn : n ≤ tv.length)
    (hi : i >>> 3 < n) :
    bit_set (cull_clear n tm tv) i ↔ bit_set tv i ∧ ¬ bit_set tm i := by
  simp only [bit_set_iff_testBit]
  rw [cull_clear_getD n tm tv _ hn]
  have h8 := and7_lt i
  by_cases hz : tm.getD (i >>> 3) 0 ≠ 0
  · rw [if_pos ⟨hi, hz⟩, Nat.testBit_and, Nat.testBit_xor, show (0xff : Nat) = 2 ^ 8 - 1 from rfl,
      Nat.testBit_two_pow_sub_one]
    simp [h8]
  · rw [if_neg (fun h => hz h.2)]
    have : tm.getD (i >>> 3) 0 = 0 := not_not.mp hz
    rw [this]
    simp

theorem for_each_entry_fold (f : queue_entry → queue_entry) (s : fuzz_state) (n : Nat) :
    (List.range n).foldl (fun s k => set_entry s k (f (s.queue k))) s =
      { s with queue := fun e => if e < n then f (s.queue e) else s.queue e } := by
  induction n with
  | zero => simp
  | succ n ih =>
    rw [List.range_succ, List.foldl_append, ih]
    simp only [List.foldl_cons, List.foldl_nil, set_entry]
    congr 1
    funext e
    by_cases h : e = n
    · subst h; simp
    · rw [Function.update_noteq h]
      by_cases h2 : e < n
      · rw [if_pos h2, if_pos (by omega)]
      · rw [if_neg h2, if_neg (by omega)]

theorem for_each_entry_eq (f : queue_entry → queue_entry) (s : fuzz_state) :
    for_each_entry f s =
      { s with queue := fun e => if e < s.queued_paths then f (s.queue e) else s.queue e } :=
  for_each_entry_fold f s s.queued_paths

theorem walk_state_queue_fields (sb : fuzz_state) (ps : List Nat) (e : Nat) :
    ((walk_state sb ps).queue e).trace_mini = (sb.queue e).trace_mini ∧
    ((walk_state sb ps).queue e).generating_state_id = (sb.queue e).generating_state_id ∧
    ((walk_state sb ps).queue e).is_initial_seed = (sb.queue e).is_initial_seed ∧
    ((walk_state sb ps).queue e).index = (sb.queue e).index := by
  simp only [walk_state]
  split <;> simp

theorem fuzz_state_eq (a b : fuzz_state) (h1 : a.queue = b.queue)
    (h2 : a.queued_paths = b.queued_paths) (h3 : a.top_rated = b.top_rated)
    (h4 : a.score_changed = b.score_changed) (h5 : a.dumb_mode = b.dumb_mode)
    (h6 : a.queued_favored = b.queued_favored) (h7 : a.pending_favored = b.pending_favored)
    (h8 : a.target_state_id = b.target_state_id) (h9 : a.state_ids = b.state_ids)
    (h10 : a.was_fuzzed_map = b.was_fuzzed_map) : a = b := by
  cases a; cases b; simp_all

theorem walk_state_snoc (sb : fuzz_state) (ps : List Nat) (i w : Nat)
    (hw : sb.top_rated i = some w) :
    (if (((set_entry (walk_state sb ps) w
              { (walk_state sb ps).queue w with favored := 1 }).queue w).generating_state_id
            = sb.target_state_id ∨
          ((set_entry (walk_state sb ps) w
              { (walk_state sb ps).queue w with favored := 1 }).queue w).is_initial_seed ≠ 0) ∧
          sb.was_fuzzed_map (get_state_index sb.state_ids sb.target_state_id)
            ((set_entry (walk_state sb ps) w
              { (walk_state sb ps).queue w with favored := 1 }).queue w).index = 0
      then
        { set_entry (walk_state sb ps) w { (walk_state sb ps).queue w with favored := 1 } with
          queued_favored := ((walk_state sb ps).queued_favored + 1) % 2 ^ 32
          pending_favored := ((walk_state sb ps).pending_favored + 1) % 2 ^ 32 }
      else
        { set_entry (walk_state sb ps) w { (walk_state sb ps).queue w with favored := 1 } with
          queued_favored := ((walk_state sb ps).queued_favored + 1) % 2 ^ 32 })
      = walk_state sb (ps ++ [i]) := by
  have hf := walk_state_queue_fields sb ps w
  have hq : Function.update (walk_state sb ps).queue w
        { (walk_state sb ps).queue w with favored := 1 }
      = (walk_state sb (ps ++ [i])).queue := by
    funext e
    by_cases he : e = w
    · subst he
      rw [Function.update_same]
      have hex : ∃ p ∈ ps ++ [i], sb.top_rated p = some e := ⟨i, by simp, hw⟩
      simp only [walk_state, if_pos hex]
      split <;> rfl
    · rw [Function.update_noteq he]
      simp only [walk_state]
      have hiff : (∃ p ∈ ps ++ [i], sb.top_rated p = some e) ↔ ∃ p ∈ ps, sb.top_rated p = some e := by
        constructor
        · rintro ⟨p, hp, hpe⟩
          rcases List.mem_append.mp hp with h | h
          · exact ⟨p, h, hpe⟩
          · rw [List.mem_singleton.mp h, hw] at hpe
            exact absurd (Option.some.inj hpe).symm he
        · rintro ⟨p, hp, hpe⟩
          exact ⟨p, List.mem_append.mpr (Or.inl hp), hpe⟩
      simp only [hiff]
  have hqf : ((walk_state sb ps).queued_favored + 1) % 2 ^ 32
      = (walk_state sb (ps ++ [i])).queued_favored := by
    simp only [walk_state, List.length_append, List.length_singleton]
    omega
  have hcond : ((((set_entry (walk_state sb ps) w
              { (walk_state sb ps).queue w with favored := 1 }).queue w).generating_state_id
            = sb.target_state_id ∨
          ((set_entry (walk_state sb ps) w
              { (walk_state sb ps).queue w with favored := 1 }).queue w).is_initial_seed ≠ 0) ∧
          sb.was_fuzzed_map (get_state_index sb.state_ids sb.target_state_id)
            ((set_entry (walk_state sb ps) w
              { (walk_state sb ps).queue w with favored := 1 }).queue w).index = 0) ↔
      (((sb.queue w).generating_state_id = sb.target_state_id ∨
        (sb.queue w).is_initial_seed ≠ 0) ∧
        sb.was_fuzzed_map (get_state_index sb.state_ids sb.target_state_id)
          (sb.queue w).index = 0) := by
    simp only [set_entry, Function.update_same, hf.2.1, hf.2.2.1, hf.2.2.2]
  by_cases hc : ((sb.queue w).generating_state_id = sb.target_state_id ∨
      (sb.queue w).is_initial_seed ≠ 0) ∧
      sb.was_fuzzed_map (get_state_index sb.state_ids sb.target_state_id) (sb.queue w).index = 0
  · rw [if_pos (hcond.mpr hc)]
    have hp : pending_pick sb i = true := by simp [pending_pick, hw, hc]
    have hpf : ((walk_state sb ps).pending_favored + 1) % 2 ^ 32
        = (walk_state sb (ps ++ [i])).pending_favored := by
      simp only [walk_state, List.filter_append, List.filter_cons, hp, if_true, List.filter_nil,
        List.length_append, List.length_singleton]
      omega
    exact fuzz_state_eq _ _ hq rfl rfl rfl rfl hqf hpf rfl rfl rfl
  · rw [if_neg (fun h => hc (hcond.mp h))]
    have hp : pending_pick sb i = false := by simp [pending_pick, hw, hc]
    have hpf : (walk_state sb ps).pending_favored
        = (walk_state sb (ps ++ [i])).pending_favored := by
      simp [walk_state, List.filter_append, hp]
    exact fuzz_state_eq _ _ hq rfl rfl rfl rfl hqf hpf rfl rfl rfl

theorem cull_queue_at_spec (MAP_SIZE : Nat) (sb : fuzz_state) (ps tv : List Nat) (i : Nat)
    (hi : i >>> 3 < MAP_SIZE >>> 3) (ht : temp_v_ok MAP_SIZE sb ps tv)
    (hnn : ∀ w, sb.top_rated i = some w → (sb.queue w).trace_mini ≠ none) :
    ∃ tv', cull_queue_at MAP_SIZE { temp_v := tv, st := walk_state sb ps } i
        = some { temp_v := tv', st := walk_state sb (greedy_step sb ps i) } ∧
      temp_v_ok MAP_SIZE sb (greedy_step sb ps i) tv' := by
  cases hw : sb.top_rated i with
  | none =>
    have hg : greedy_step sb ps i = ps := by simp [greedy_step, hw]
    rw [hg]
    refine ⟨tv, ?_, ht⟩
    have htop : (walk_state sb ps).top_rated i = none := hw
    simp [cull_queue_at, htop]
  | some w =>
    have htop : (walk_state sb ps).top_rated i = some w := hw
    by_cases hb : bit_set tv i
    · have hunc : ∀ p ∈ ps, covers sb p i = false := (ht.2 i hi).mp hb
      have hg : greedy_step sb ps i = ps ++ [i] := by
        unfold greedy_step
        rw [if_pos ⟨by simp [hw], hunc⟩]
      obtain ⟨tm, htm⟩ : ∃ tm, (sb.queue w).trace_mini = some tm := by
        cases h : (sb.queue w).trace_mini with
        | none => exact absurd h (hnn w hw)
        | some tm => exact ⟨tm, rfl⟩
      have htm' : ((walk_state sb ps).queue w).trace_mini = some tm := by
        rw [(walk_state_queue_fields sb ps w).1, htm]
      rw [hg]
      refine ⟨cull_clear (MAP_SIZE >>> 3) tm tv, ?_, ?_⟩
      · have hsn : favor_winner (walk_state sb ps) w = walk_state sb (ps ++ [i]) :=
          walk_state_snoc sb ps i w hw
        simp only [cull_queue_at, htop, if_pos hb, htm', hsn]
      · refine ⟨by rw [cull_clear_length]; exact ht.1, ?_⟩
        intro k hk
        rw [bit_set_cull_clear _ _ _ _ (by rw [ht.1]) hk, ht.2 k hk]
        simp only [List.mem_append, List.mem_singleton]
        constructor
        · rintro ⟨h1, h2⟩ p (hp | rfl)
          · exact h1 p hp
          · simp [covers, hw, htm, h2]
        · intro h
          refine ⟨fun p hp => h p (Or.inl hp), ?_⟩
          have := h i (Or.inr rfl)
          simpa [covers, hw, htm] using this
    · have hcov : ¬ ∀ p ∈ ps, covers sb p i = false := fun h => hb ((ht.2 i hi).mpr h)
      have hg : greedy_step sb ps i = ps := by
        unfold greedy_step
        rw [if_neg (fun h => hcov h.2)]
      rw [hg]
      refine ⟨tv, ?_, ht⟩
      simp [cull_queue_at, htop, hb]

theorem cull_queue_walk_spec (MAP_SIZE : Nat) (sb : fuzz_state) :
    ∀ (is ps tv : List Nat), (∀ i ∈ is, i >>> 3 < MAP_SIZE >>> 3) →
      (∀ i ∈ is, ∀ w, sb.top_rated i = some w → (sb.queue w).trace_mini ≠ none) →
      temp_v_ok MAP_SIZE sb ps tv →
      ∃ tv', cull_queue_walk MAP_SIZE is { temp_v := tv, st := walk_state sb ps }
          = some { temp_v := tv', st := walk_state sb (is.foldl (greedy_step sb) ps) } ∧
        temp_v_ok MAP_SIZE sb (is.foldl (greedy_step sb) ps) tv' := by
  intro is
  induction is with
  | nil => intro ps tv _ _ ht; exact ⟨tv, rfl, ht⟩
  | cons i is ih =>
    intro ps tv hi hnn ht
    obtain ⟨tv1, h1, ht1⟩ := cull_queue_at_spec MAP_SIZE sb ps tv i
      (hi i (List.mem_cons_self _ _)) ht (hnn i (List.mem_cons_self _ _))
    obtain ⟨tv2, h2, ht2⟩ := ih (greedy_step sb ps i) tv1
      (fun j hj => hi j (List.mem_cons_of_mem _ hj))
      (fun j hj => hnn j (List.mem_cons_of_mem _ hj)) ht1
    refine ⟨tv2, ?_, ht2⟩
    simp only [cull_queue_walk, h1, List.foldl_cons]
    exact h2

theorem walk_state_nil (sb : fuzz_state) (h1 : sb.queued_favored = 0)
    (h2 : sb.pending_favored = 0) : walk_state sb [] = sb := by
  refine fuzz_state_eq _ _ ?_ rfl rfl rfl rfl ?_ ?_ rfl rfl rfl
  · funext e; simp [walk_state]
  · simp [walk_state, h1]
  · simp [walk_state, h2]

theorem shift3_lt (MAP_SIZE i : Nat) (h8 : 8 ∣ MAP_SIZE) (hi : i < MAP_SIZE) :
    i >>> 3 < MAP_SIZE >>> 3 := by
  rw [Nat.shiftRight_eq_div_pow, Nat.shiftRight_eq_div_pow]
  obtain ⟨k, rfl⟩ := h8
  have : (2 : Nat) ^ 3 = 8 := by decide
  rw [this]
  omega

theorem covers_congr (s t : fuzz_state) (h1 : t.top_rated = s.top_rated)
    (h2 : ∀ e, (t.queue e).trace_mini = (s.queue e).trace_mini) (p i : Nat) :
    covers t p i = covers s p i := by
  simp only [covers, h1, h2]

theorem greedy_picks_congr (s t : fuzz_state) (h1 : t.top_rated = s.top_rated)
    (h2 : ∀ e, (t.queue e).trace_mini = (s.queue e).trace_mini) (MAP_SIZE : Nat) :
    greedy_picks t MAP_SIZE = greedy_picks s MAP_SIZE := by
  have hstep : greedy_step t = greedy_step s := by
    funext ps i
    simp only [greedy_step, h1, covers_congr s t h1 h2]
  simp only [greedy_picks, hstep]

theorem cull_reset_fields (s : fuzz_state) :
    (cull_reset s).top_rated = s.top_rated ∧ (cull_reset s).queued_favored = 0 ∧
    (cull_reset s).pending_favored = 0 ∧ (cull_reset s).score_changed = 0 ∧
    (cull_reset s).queued_paths = s.queued_paths ∧
    (cull_reset s).target_state_id = s.target_state_id ∧
    (cull_reset s).state_ids = s.state_ids ∧
    (cull_reset s).was_fuzzed_map = s.was_fuzzed_map ∧
    ∀ e, (cull_reset s).queue e =
      if e < s.queued_paths ∧ (s.queue e).is_initial_seed = 0 then { s.queue e with favored := 0 }
      else s.queue e := by
  unfold cull_reset
  rw [for_each_entry_eq]
  refine ⟨rfl, rfl, rfl, rfl, rfl, rfl, rfl, rfl, ?_⟩
  intro e
  simp only
  by_cases h1 : e < s.queued_paths
  · by_cases h2 : (s.queue e).is_initial_seed = 0
    · rw [if_pos h1, if_pos h2, if_pos ⟨h1, h2⟩]
    · rw [if_pos h1, if_neg h2, if_neg (fun h => h2 h.2)]
  · rw [if_neg h1, if_neg (fun h => h1 h.1)]

theorem cull_queue_eq (MAP_SIZE : Nat) (s : fuzz_state) (h8 : 8 ∣ MAP_SIZE)
    (hd : s.dumb_mode = 0) (hsc : s.score_changed ≠ 0)
    (hnn : ∀ i < MAP_SIZE, ∀ w, s.top_rated i = some w → (s.queue w).trace_mini ≠ none) :
    cull_queue MAP_SIZE s =
      some (for_each_entry (fun q => mark_as_redundant q (if q.favored = 0 then 1 else 0))
        (walk_state (cull_reset s) (greedy_picks (cull_reset s) MAP_SIZE))) := by
  have hf := cull_reset_fields s
  have htm : ∀ e, ((cull_reset s).queue e).trace_mini = (s.queue e).trace_mini := by
    intro e
    rw [hf.2.2.2.2.2.2.2.2 e]
    split <;> rfl
  obtain ⟨tv', hwalk, -⟩ := cull_queue_walk_spec MAP_SIZE (cull_reset s) (List.range MAP_SIZE) []
    (List.replicate (MAP_SIZE >>> 3) 255)
    (fun i hi => shift3_lt MAP_SIZE i h8 (List.mem_range.mp hi))
    (fun i hi w hw => by
      rw [htm]
      exact hnn i (List.mem_range.mp hi) w (by rw [← hf.1]; exact hw))
    ⟨by simp, fun i hi => by
      simp only [List.not_mem_nil, false_implies, implies_true, iff_true]
      exact bit_set_replicate_255 _ _ hi⟩
  rw [walk_state_nil _ hf.2.1 hf.2.2.1] at hwalk
  have hcond : ¬ (s.dumb_mode ≠ 0 ∨ s.score_changed = 0) := by
    rintro (h | h)
    · exact h hd
    · exact hsc h
  unfold cull_queue
  rw [if_neg hcond]
  show (match cull_queue_walk MAP_SIZE (List.range MAP_SIZE)
      { temp_v := List.replicate (MAP_SIZE >>> 3) 255, st := cull_reset s } with
    | none => none
    | some c => some (for_each_entry
        (fun q => mark_as_redundant q (if q.favored = 0 then 1 else 0)) c.st)) = _
  rw [hwalk]
  rfl

theorem greedy_picks_succ (s : fuzz_state) (n : Nat) :
    greedy_picks s (n + 1) = greedy_step s (greedy_picks s n) n := by
  simp only [greedy_picks, List.range_succ, List.foldl_append, List.foldl_cons, List.foldl_nil]

theorem greedy_step_mem (s : fuzz_state) (ps : List Nat) (i p : Nat) :
    p ∈ greedy_step s ps i ↔
      p ∈ ps ∨ (p = i ∧ s.top_rated i ≠ none ∧ ∀ q ∈ ps, covers s q i = false) := by
  unfold greedy_step
  split
  · rename_i h
    simp only [List.mem_append, List.mem_singleton]
    constructor
    · rintro (h1 | h1)
      · exact Or.inl h1
      · exact Or.inr ⟨h1, h⟩
    · rintro (h1 | h1)
      · exact Or.inl h1
      · exact Or.inr h1.1
  · rename_i h
    constructor
    · exact fun h1 => Or.inl h1
    · rintro (h1 | h1)
      · exact h1
      · exact absurd h1.2 h

theorem greedy_picks_lt (s : fuzz_state) : ∀ (n p : Nat), p ∈ greedy_picks s n → p < n := by
  intro n
  induction n with
  | zero => intro p hp; simp [greedy_picks] at hp
  | succ n ih =>
    intro p hp
    rw [greedy_picks_succ, greedy_step_mem] at hp
    rcases hp with h | h
    · exact Nat.lt_succ_of_lt (ih p h)
    · rw [h.1]; exact Nat.lt_succ_self n

theorem greedy_picks_below (s : fuzz_state) (n : Nat) : ∀ (m p : Nat), n ≤ m →
    (p ∈ greedy_picks s n ↔ p ∈ greedy_picks s m ∧ p < n) := by
  intro m
  induction m with
  | zero =>
    intro p hn
    have : n = 0 := by omega
    subst this
    simp [greedy_picks]
  | succ m ih =>
    intro p hn
    by_cases hnm : n = m + 1
    · subst hnm
      exact ⟨fun h => ⟨h, greedy_picks_lt s _ p h⟩, fun h => h.1⟩
    · rw [ih p (by omega), greedy_picks_succ, greedy_step_mem]
      constructor
      · rintro ⟨h1, h2⟩; exact ⟨Or.inl h1, h2⟩
      · rintro ⟨h1 | h1, h2⟩
        · exact ⟨h1, h2⟩
        · omega

theorem greedy_picks_mem (s : fuzz_state) (MAP_SIZE i : Nat) :
    i ∈ greedy_picks s MAP_SIZE ↔
      i < MAP_SIZE ∧ s.top_rated i ≠ none ∧
        ∀ p ∈ greedy_picks s MAP_SIZE, p < i → covers s p i = false := by
  constructor
  · intro h
    have hi := greedy_picks_lt s _ i h
    have h1 : i ∈ greedy_picks s (i + 1) :=
      (greedy_picks_below s (i + 1) MAP_SIZE i (by omega)).mpr ⟨h, by omega⟩
    rw [greedy_picks_succ, greedy_step_mem] at h1
    rcases h1 with h1 | h1
    · exact absurd (greedy_picks_lt s i i h1) (by omega)
    · refine ⟨hi, h1.2.1, ?_⟩
      intro p hp hpi
      exact h1.2.2 p ((greedy_picks_below s i MAP_SIZE p (by omega)).mpr ⟨hp, hpi⟩)
  · rintro ⟨hi, htop, hunc⟩
    have h1 : i ∈ greedy_picks s (i + 1) := by
      rw [greedy_picks_succ, greedy_step_mem]
      refine Or.inr ⟨rfl, htop, ?_⟩
      intro q hq
      have := (greedy_picks_below s i MAP_SIZE q (by omega)).mp hq
      exact hunc q this.1 this.2
    exact ((greedy_picks_below s (i + 1) MAP_SIZE i (by omega)).mp h1).1

theorem greedy_picks_length_le (s : fuzz_state) (n : Nat) : (greedy_picks s n).length ≤ n := by
  induction n with
  | zero => simp [greedy_picks]
  | succ n ih =>
    rw [greedy_picks_succ]
    unfold greedy_step
    split
    · simp; omega
    · omega

theorem greedy_picks_winner_inj (s : fuzz_state) (MAP_SIZE : Nat)
    (hown : ∀ i < MAP_SIZE, s.top_rated i ≠ none → covers s i i = true) (i j : Nat)
    (hi : i ∈ greedy_picks s MAP_SIZE) (hj : j ∈ greedy_picks s MAP_SIZE)
    (hij : s.top_rated i = s.top_rated j) : i = j := by
  have key : ∀ a b, a ∈ greedy_picks s MAP_SIZE → b ∈ greedy_picks s MAP_SIZE →
      s.top_rated a = s.top_rated b → a < b → False := by
    intro a b ha hb hab hlt
    have hb' := (greedy_picks_mem s MAP_SIZE b).mp hb
    have h1 := hb'.2.2 a ha hlt
    have h2 := hown b hb'.1 hb'.2.1
    have h3 : covers s a b = covers s b b := by simp only [covers, hab]
    rw [h3, h2] at h1
    exact Bool.noConfusion h1
  rcases Nat.lt_trichotomy i j with h | h | h
  · exact absurd (key i j hi hj hij h) id
  · exact h
  · exact absurd (key j i hj hi hij.symm h) id

theorem pending_pick_congr (s t : fuzz_state) (h1 : t.top_rated = s.top_rated)
    (h2 : t.target_state_id = s.target_state_id) (h3 : t.state_ids = s.state_ids)
    (h4 : t.was_fuzzed_map = s.was_fuzzed_map)
    (h5 : ∀ e, (t.queue e).generating_state_id = (s.queue e).generating_state_id ∧
      (t.queue e).is_initial_seed = (s.queue e).is_initial_seed ∧
      (t.queue e).index = (s.queue e).index) :
    pending_pick t = pending_pick s := by
  funext p
  simp only [pending_pick, h1, h2, h3, h4]
  cases s.top_rated p with
  | none => rfl
  | some w => simp only [(h5 w).1, (h5 w).2.1, (h5 w).2.2]

theorem mark_as_redundant_fields (q : queue_entry) (st : Nat) :
    (mark_as_redundant q st).favored = q.favored ∧
    (mark_as_redundant q st).trace_mini = q.trace_mini := by
  unfold mark_as_redundant
  split <;> exact ⟨rfl, rfl⟩

theorem cull_queue_fields (MAP_SIZE : Nat) (s : fuzz_state) (h8 : 8 ∣ MAP_SIZE)
    (hd : s.dumb_mode = 0) (hsc : s.score_changed ≠ 0)
    (hnn : ∀ i < MAP_SIZE, ∀ w, s.top_rated i = some w → (s.queue w).trace_mini ≠ none) :
    ∃ s', cull_queue MAP_SIZE s = some s' ∧ s'.score_changed = 0 ∧
      s'.top_rated = s.top_rated ∧
      (∀ e, (s'.queue e).trace_mini = (s.queue e).trace_mini) ∧
      (∀ e, (s'.queue e).favored =
        if ∃ i ∈ greedy_picks s MAP_SIZE, s.top_rated i = some e then 1
        else if e < s.queued_paths ∧ (s.queue e).is_initial_seed = 0 then 0
        else (s.queue e).favored) ∧
      s'.queued_favored = (greedy_picks s MAP_SIZE).length % 2 ^ 32 ∧
      s'.pending_favored = ((greedy_picks s MAP_SIZE).filter (pending_pick s)).length % 2 ^ 32 := by
  have hf := cull_reset_fields s
  have hq := hf.2.2.2.2.2.2.2.2
  have htm : ∀ e, ((cull_reset s).queue e).trace_mini = (s.queue e).trace_mini := by
    intro e; rw [hq e]; split <;> rfl
  have hpicks : greedy_picks (cull_reset s) MAP_SIZE = greedy_picks s MAP_SIZE :=
    greedy_picks_congr s (cull_reset s) hf.1 htm MAP_SIZE
  have hpend : pending_pick (cull_reset s) = pending_pick s :=
    pending_pick_congr s (cull_reset s) hf.1 hf.2.2.2.2.2.1 hf.2.2.2.2.2.2.1 hf.2.2.2.2.2.2.2.1
      (by intro e; rw [hq e]; split <;> exact ⟨rfl, rfl, rfl⟩)
  refine ⟨_, cull_queue_eq MAP_SIZE s h8 hd hsc hnn, ?_⟩
  rw [for_each_entry_eq, hpicks]
  refine ⟨hf.2.2.2.1, hf.1, ?_, ?_, ?_, ?_⟩
  · intro e
    simp only [walk_state]
    split
    · rw [(mark_as_redundant_fields _ _).2]
      split
      · exact htm e
      · exact htm e
    · split
      · exact htm e
      · exact htm e
  · intro e
    have hfav : ((walk_state (cull_reset s) (greedy_picks s MAP_SIZE)).queue e).favored =
        if ∃ i ∈ greedy_picks s MAP_SIZE, s.top_rated i = some e then 1
        else if e < s.queued_paths ∧ (s.queue e).is_initial_seed = 0 then 0
        else (s.queue e).favored := by
      simp only [walk_state, hf.1]
      split
      · rfl
      · rw [hq e]
        split <;> rfl
    simp only
    split
    · rw [(mark_as_redundant_fields _ _).1]; exact hfav
    · exact hfav
  · simp [walk_state, hf.2.1]
  · simp [walk_state, hf.2.2.1, hpend]

/-! ### C8: cull_queue -/

/-- C8. `cull_queue` does nothing when `dumb_mode` is set or `score_changed` is 0. Otherwise
(on a map of `MAP_SIZE` bytes whose winners all have a `trace_mini`) it clears
`score_changed`; a non-initial entry of the queue ends favored (`favored == 1`) exactly when
it is the winner of a picked index and has `favored == 0` otherwise; an initial seed is set
to 1 when it is picked and keeps the flag it had otherwise; `queued_favored` is the number
of picks and `pending_favored` the number of picks whose winner satisfies the pending test.
The picks are the greedy walk: `i` is picked iff `i < MAP_SIZE`, `top_rated[i]` is not null and
no earlier pick covers bit `i`. When every winner's `trace_mini` has the bit of the index it
wins, distinct picks have distinct winners, so counting picks counts picked winners. -/
theorem cull_queue_spec (MAP_SIZE : Nat) (s : fuzz_state) (h8 : 8 ∣ MAP_SIZE)
    (hM : MAP_SIZE < 2 ^ 32)
    (hnn : ∀ i < MAP_SIZE, ∀ w, s.top_rated i = some w → (s.queue w).trace_mini ≠ none) :
    ((s.dumb_mode ≠ 0 ∨ s.score_changed = 0) → cull_queue MAP_SIZE s = some s) ∧
    (s.dumb_mode = 0 → s.score_changed ≠ 0 →
      ∃ s', cull_queue MAP_SIZE s = some s' ∧ s'.score_changed = 0 ∧
        (∀ e < s.queued_paths, (s.queue e).is_initial_seed = 0 →
          (s'.queue e).favored =
            if ∃ i ∈ greedy_picks s MAP_SIZE, s.top_rated i = some e then 1 else 0) ∧
        (∀ e, (s.queue e).is_initial_seed ≠ 0 →
          (s'.queue e).favored =
            if ∃ i ∈ greedy_picks s MAP_SIZE, s.top_rated i = some e then 1
            else (s.queue e).favored) ∧
        s'.queued_favored = (greedy_picks s MAP_SIZE).length ∧
        s'.pending_favored = ((greedy_picks s MAP_SIZE).filter (pending_pick s)).length) ∧
    (∀ i, i ∈ greedy_picks s MAP_SIZE ↔
      i < MAP_SIZE ∧ s.top_rated i ≠ none ∧
        ∀ p ∈ greedy_picks s MAP_SIZE, p < i → covers s p i = false) ∧
    ((∀ i < MAP_SIZE, s.top_rated i ≠ none → covers s i i = true) →
      ∀ i ∈ greedy_picks s MAP_SIZE, ∀ j ∈ greedy_picks s MAP_SIZE,
        s.top_rated i = s.top_rated j → i = j) := by
  refine ⟨?_, ?_, greedy_picks_mem s MAP_SIZE, ?_⟩
  · intro h
    unfold cull_queue
    rw [if_pos h]
  · intro hd hsc
    obtain ⟨s', h1, h2, -, -, hfav, hqf, hpf⟩ := cull_queue_fields MAP_SIZE s h8 hd hsc hnn
    have hlen := greedy_picks_length_le s MAP_SIZE
    have hlen2 : ((greedy_picks s MAP_SIZE).filter (pending_pick s)).length
        ≤ (greedy_picks s MAP_SIZE).length := List.length_filter_le _ _
    refine ⟨s', h1, h2, ?_, ?_, ?_, ?_⟩
    · intro e he hini
      rw [hfav e]
      split
      · rfl
      · rw [if_pos ⟨he, hini⟩]
    · intro e hini
      rw [hfav e]
      split
      · rfl
      · rw [if_neg (fun h => hini h.2)]
    · rw [hqf]; exact Nat.mod_eq_of_lt (by omega)
    · rw [hpf]; exact Nat.mod_eq_of_lt (by omega)
  · intro hown i hi j hj hij
    exact greedy_picks_winner_inj s MAP_SIZE hown i j hi hj hij

/-- Witness of C8: on `cull_example` the walk picks index 0 only, whose winner is entry 1;
entry 1 becomes favored, entry 0 loses its flag, and both counters are 1. -/
theorem cull_queue_spec_witness :
    ∃ s', cull_queue 8 cull_example = some s' ∧ s'.score_changed = 0 ∧
      (s'.queue 0).favored = 0 ∧ (s'.queue 1).favored = 1 ∧
      s'.queued_favored = 1 ∧ s'.pending_favored = 1 := by
  have hnn : ∀ i < 8, ∀ w, cull_example.top_rated i = some w →
      (cull_example.queue w).trace_mini ≠ none := by
    intro i _ w hw
    have hw1 : w = 1 := by
      simp only [cull_example] at hw
      split at hw
      · exact (Option.some.inj hw).symm
      · exact absurd hw (by simp)
    subst hw1
    simp [cull_example]
  have hpicks : greedy_picks cull_example 8 = [0] := by decide
  obtain ⟨s', h1, h2, h3, -, h5, h6⟩ :=
    (cull_queue_spec 8 cull_example (by decide) (by decide) hnn).2.1 rfl (by decide)
  refine ⟨s', h1, h2, ?_, ?_, ?_, ?_⟩
  · rw [h3 0 (by decide) rfl, hpicks]; decide
  · rw [h3 1 (by decide) rfl, hpicks]; decide
  · rw [h5, hpicks]; rfl
  · rw [h6, hpicks]; decide

/-! ### Lemmas on `update_bitmap_score` -/

theorem wins_le (tr : Nat → Option Nat) (e n : Nat) : wins tr e n ≤ n := by
  induction n with
  | zero => simp [wins]
  | succ n ih => simp only [wins]; split <;> omega

theorem wins_pos (tr : Nat → Option Nat) (e : Nat) : ∀ (n i : Nat), i < n → tr i = some e →
    1 ≤ wins tr e n := by
  intro n
  induction n with
  | zero => intro i hi; omega
  | succ n ih =>
    intro i hi he
    simp only [wins]
    by_cases h : i = n
    · subst h; rw [if_pos he]; omega
    · have := ih i (by omega) he
      omega

theorem wins_update_ge (tr : Nat → Option Nat) (e i : Nat) (v : Option Nat) :
    ∀ n, n ≤ i → wins (Function.update tr i v) e n = wins tr e n := by
  intro n
  induction n with
  | zero => intro _; rfl
  | succ n ih =>
    intro h
    simp only [wins]
    rw [ih (by omega), Function.update_noteq (by omega)]

theorem wins_update (tr : Nat → Option Nat) (e i : Nat) (v : Option Nat) :
    ∀ n, i < n → wins (Function.update tr i v) e n + (if tr i = some e then 1 else 0)
      = wins tr e n + (if v = some e then 1 else 0) := by
  intro n
  induction n with
  | zero => intro h; omega
  | succ n ih =>
    intro h
    simp only [wins]
    by_cases hin : i = n
    · subst hin
      rw [wins_update_ge tr e i v i (Nat.le_refl _), Function.update_same]
      omega
    · have := ih (by omega)
      rw [Function.update_noteq (Ne.symm hin)]
      omega

theorem drop_winner_fields (w : Nat) (s : fuzz_state) :
    (drop_winner w s).top_rated = s.top_rated ∧
    (drop_winner w s).score_changed = s.score_changed ∧
    (drop_winner w s).dumb_mode = s.dumb_mode ∧
    (drop_winner w s).queued_paths = s.queued_paths ∧
    (∀ e, ((drop_winner w s).queue e).unique_state_count = (s.queue e).unique_state_count) ∧
    (∀ e, ((drop_winner w s).queue e).tc_ref =
      if e = w then ((s.queue w).tc_ref + 2 ^ 32 - 1) % 2 ^ 32 else (s.queue e).tc_ref) ∧
    (∀ e, ((drop_winner w s).queue e).trace_mini =
      if e = w ∧ ((s.queue w).tc_ref + 2 ^ 32 - 1) % 2 ^ 32 = 0 then none
      else (s.queue e).trace_mini) := by
  unfold drop_winner
  simp only [set_entry, Function.update_same]
  by_cases h : ((s.queue w).tc_ref + 2 ^ 32 - 1) % 2 ^ 32 = 0
  · rw [if_pos h]
    refine ⟨rfl, rfl, rfl, rfl, ?_, ?_, ?_⟩ <;> intro e <;> by_cases he : e = w
    · subst he; simp only [Function.update_same]
    · simp only [Function.update_noteq he]
    · subst he; simp only [Function.update_same, if_true]
    · simp only [Function.update_noteq he, if_neg he]
    · subst he; rw [if_pos ⟨rfl, h⟩]; simp only [Function.update_same]
    · simp only [Function.update_noteq he]; rw [if_neg (fun hh => he hh.1)]
  · rw [if_neg h]
    refine ⟨rfl, rfl, rfl, rfl, ?_, ?_, ?_⟩ <;> intro e <;> by_cases he : e = w
    · subst he; simp only [Function.update_same]
    · simp only [Function.update_noteq he]
    · subst he; simp only [Function.update_same, if_true]
    · simp only [Function.update_noteq he, if_neg he]
    · subst he; rw [if_neg (fun hh => h hh.2)]; simp only [Function.update_same]
    · simp only [Function.update_noteq he]; rw [if_neg (fun hh => he hh.1)]

theorem insert_winner_fields (MAP_SIZE : Nat) (tb : List Nat) (q i : Nat) (s : fuzz_state) :
    (insert_winner MAP_SIZE tb q i s).top_rated = Function.update s.top_rated i (some q) ∧
    (insert_winner MAP_SIZE tb q i s).score_changed = 1 ∧
    (insert_winner MAP_SIZE tb q i s).dumb_mode = s.dumb_mode ∧
    (insert_winner MAP_SIZE tb q i s).queued_paths = s.queued_paths ∧
    (∀ e, ((insert_winner MAP_SIZE tb q i s).queue e).unique_state_count
      = (s.queue e).unique_state_count) ∧
    (∀ e, ((insert_winner MAP_SIZE tb q i s).queue e).tc_ref =
      if e = q then ((s.queue q).tc_ref + 1) % 2 ^ 32 else (s.queue e).tc_ref) ∧
    (∀ e, ((insert_winner MAP_SIZE tb q i s).queue e).trace_mini =
      if e = q ∧ (s.queue q).trace_mini = none then
        some (minimize_bits MAP_SIZE (List.replicate (MAP_SIZE >>> 3) 0) tb)
      else (s.queue e).trace_mini) := by
  unfold insert_winner
  cases hm : (s.queue q).trace_mini with
  | none =>
    simp only [set_entry, Function.update_same, hm]
    refine ⟨trivial, trivial, trivial, trivial, ?_, ?_, ?_⟩ <;> intro e <;> by_cases he : e = q
    · subst he; simp only [Function.update_same]
    · simp only [Function.update_noteq he]
    · subst he; simp only [Function.update_same, if_true]
    · simp only [Function.update_noteq he, if_neg he]
    · subst he; simp only [Function.update_same, and_self, if_true]
    · simp only [Function.update_noteq he]; rw [if_neg (fun hh => he hh.1)]
  | some t =>
    simp only [set_entry, Function.update_same, hm]
    refine ⟨trivial, trivial, trivial, trivial, ?_, ?_, ?_⟩ <;> intro e <;> by_cases he : e = q
    · subst he; simp only [Function.update_same]
    · simp only [Function.update_noteq he]
    · subst he; simp only [Function.update_same, if_true]
    · simp only [Function.update_noteq he, if_neg he]
    · subst he; simp only [Function.update_same, hm]; rw [if_neg (fun hh => Option.noConfusion hh.2)]
    · simp only [Function.update_noteq he]; rw [if_neg (fun hh => he hh.1)]

theorem update_bitmap_score_at_fields (MAP_SIZE : Nat) (tb : List Nat) (q ff : Nat)
    (s : fuzz_state) (i : Nat) :
    (update_bitmap_score_at MAP_SIZE tb q ff s i).top_rated =
      Function.update s.top_rated i
        (if tb.getD i 0 ≠ 0 then
          (match s.top_rated i with
            | some w =>
              if (s.queue q).unique_state_count < (s.queue w).unique_state_count then some w
              else some q
            | none => some q)
        else s.top_rated i) ∧
    (update_bitmap_score_at MAP_SIZE tb q ff s i).dumb_mode = s.dumb_mode ∧
    (update_bitmap_score_at MAP_SIZE tb q ff s i).queued_paths = s.queued_paths ∧
    (∀ e, ((update_bitmap_score_at MAP_SIZE tb q ff s i).queue e).unique_state_count
      = (s.queue e).unique_state_count) ∧
    (s.score_changed ≠ 0 → (update_bitmap_score_at MAP_SIZE tb q ff s i).score_changed ≠ 0) ∧
    (tb.getD i 0 ≠ 0 → s.top_rated i = none →
      (update_bitmap_score_at MAP_SIZE tb q ff s i).score_changed ≠ 0) := by
  unfold update_bitmap_score_at
  by_cases htb : tb.getD i 0 ≠ 0
  · rw [if_pos htb, if_pos htb]
    cases hw : s.top_rated i with
    | none =>
      have hi := insert_winner_fields MAP_SIZE tb q i s
      simp only
      refine ⟨hi.1, hi.2.2.1, hi.2.2.2.1, hi.2.2.2.2.1, ?_, ?_⟩
      · intro _; rw [hi.2.1]; decide
      · intro _ _; rw [hi.2.1]; decide
    | some w =>
      simp only
      by_cases hlt : (s.queue q).unique_state_count < (s.queue w).unique_state_count
      · rw [if_pos hlt, if_pos hlt]
        refine ⟨?_, rfl, rfl, fun _ => rfl, fun h => h, ?_⟩
        · rw [← hw, Function.update_eq_self]
        · intro _ h; exact absurd h (by simp)
      · rw [if_neg hlt, if_neg (fun h => hlt h.1), if_neg hlt]
        have hd := drop_winner_fields w s
        have hi := insert_winner_fields MAP_SIZE tb q i (drop_winner w s)
        refine ⟨?_, ?_, ?_, ?_, ?_, ?_⟩
        · rw [hi.1, hd.1]
        · rw [hi.2.2.1, hd.2.2.1]
        · rw [hi.2.2.2.1, hd.2.2.2.1]
        · intro e; rw [hi.2.2.2.2.1, hd.2.2.2.2.1]
        · intro _; rw [hi.2.1]; decide
        · intro _ h; exact absurd h (by simp)
  · rw [if_neg htb, if_neg htb]
    refine ⟨?_, rfl, rfl, fun _ => rfl, fun h => h, fun h => absurd h htb⟩
    rw [Function.update_eq_self]

theorem insert_winner_inv (MAP_SIZE : Nat) (tr : Nat → List Nat) (q i : Nat) (s : fuzz_state)
    (hM : MAP_SIZE < 2 ^ 32) (hi : i < MAP_SIZE) (htb : (tr q).getD i 0 ≠ 0)
    (j1 : ∀ i < MAP_SIZE, ∀ e, s.top_rated i = some e → (tr e).getD i 0 ≠ 0)
    (j3 : ∀ e, (s.queue e).tc_ref + (if s.top_rated i = some e then 1 else 0)
      = wins s.top_rated e MAP_SIZE)
    (j4 : ∀ e, (s.queue e).trace_mini =
      if (s.queue e).tc_ref = 0 then none
      else some (minimize_bits MAP_SIZE (List.replicate (MAP_SIZE >>> 3) 0) (tr e))) :
    score_inv MAP_SIZE tr (insert_winner MAP_SIZE (tr q) q i s) := by
  have hf := insert_winner_fields MAP_SIZE (tr q) q i s
  have hwu : ∀ e, wins (Function.update s.top_rated i (some q)) e MAP_SIZE
      = (s.queue e).tc_ref + (if e = q then 1 else 0) := by
    intro e
    have h1 := wins_update s.top_rated e i (some q) MAP_SIZE hi
    have h2 := j3 e
    have h3 : (if some q = some e then 1 else 0) = (if e = q then 1 else 0) := by
      by_cases h : e = q
      · rw [if_pos h, if_pos (by rw [h])]
      · rw [if_neg h, if_neg (fun hh => h (Option.some.inj hh).symm)]
    omega
  have hle := wins_le (Function.update s.top_rated i (some q)) q MAP_SIZE
  have htc : ∀ e, ((insert_winner MAP_SIZE (tr q) q i s).queue e).tc_ref
      = wins (Function.update s.top_rated i (some q)) e MAP_SIZE := by
    intro e
    rw [hf.2.2.2.2.2.1 e, hwu e]
    by_cases h : e = q
    · rw [if_pos h, if_pos h, h]
      rw [hwu q, if_pos rfl] at hle
      exact Nat.mod_eq_of_lt (by omega)
    · rw [if_neg h, if_neg h]; rfl
  refine ⟨?_, ?_, ?_⟩
  · intro j hj e he
    rw [hf.1] at he
    by_cases hji : j = i
    · subst hji
      rw [Function.update_same] at he
      rw [← Option.some.inj he]; exact htb
    · rw [Function.update_noteq hji] at he
      exact j1 j hj e he
  · intro e; rw [htc e, hf.1]
  · intro e
    rw [htc e, hf.2.2.2.2.2.2 e, hwu e]
    by_cases h : e = q
    · have hne : ¬ ((s.queue e).tc_ref + (if e = q then 1 else 0) = 0) := by
        rw [if_pos h]; omega
      rw [if_neg hne]
      by_cases hm : (s.queue q).trace_mini = none
      · rw [if_pos ⟨h, hm⟩, h]
      · rw [if_neg (fun hh => hm hh.2)]
        have hj := j4 e
        rw [h] at hj ⊢
        by_cases h0 : (s.queue q).tc_ref = 0
        · rw [if_pos h0] at hj; exact absurd hj hm
        · rw [if_neg h0] at hj; exact hj
    · rw [if_neg h, if_neg (fun hh => h hh.1), Nat.add_zero, j4 e]

theorem update_bitmap_score_at_inv (MAP_SIZE : Nat) (tr : Nat → List Nat) (q ff : Nat)
    (s : fuzz_state) (i : Nat) (hM : MAP_SIZE < 2 ^ 32) (hi : i < MAP_SIZE)
    (hinv : score_inv MAP_SIZE tr s) :
    score_inv MAP_SIZE tr (update_bitmap_score_at MAP_SIZE (tr q) q ff s i) := by
  unfold update_bitmap_score_at
  by_cases htb : (tr q).getD i 0 ≠ 0
  · rw [if_pos htb]
    obtain ⟨j1, j3, j4⟩ := hinv
    cases hw : s.top_rated i with
    | none =>
      simp only
      apply insert_winner_inv MAP_SIZE tr q i s hM hi htb j1 _ j4
      intro e
      rw [hw, j3 e]
      simp
    | some w =>
      simp only
      by_cases hlt : (s.queue q).unique_state_count < (s.queue w).unique_state_count
      · rw [if_pos hlt]; exact ⟨j1, j3, j4⟩
      · rw [if_neg hlt, if_neg (fun h => hlt h.1)]
        have hd := drop_winner_fields w s
        have hpos := wins_pos s.top_rated w MAP_SIZE i hi hw
        have hle := wins_le s.top_rated w MAP_SIZE
        have htw : ((s.queue w).tc_ref + 2 ^ 32 - 1) % 2 ^ 32 = (s.queue w).tc_ref - 1 := by
          have := j3 w
          rw [show (s.queue w).tc_ref + 2 ^ 32 - 1 = (s.queue w).tc_ref - 1 + 2 ^ 32 by omega,
            Nat.add_mod_right]
          exact Nat.mod_eq_of_lt (by omega)
        apply insert_winner_inv MAP_SIZE tr q i (drop_winner w s) hM hi htb
        · intro j hj e he
          rw [hd.1] at he
          exact j1 j hj e he
        · intro e
          rw [hd.1, hd.2.2.2.2.2.1 e, hw]
          by_cases he : e = w
          · rw [if_pos he, if_pos (by rw [he]), htw, he]
            have := j3 w
            omega
          · rw [if_neg he, if_neg (fun hh => he (Option.some.inj hh).symm), j3 e]
            rfl
        · intro e
          rw [hd.2.2.2.2.2.1 e, hd.2.2.2.2.2.2 e]
          by_cases he : e = w
          · rw [if_pos he, htw]
            by_cases h0 : (s.queue w).tc_ref - 1 = 0
            · rw [if_pos ⟨he, h0⟩, if_pos h0]
            · rw [if_neg (fun hh => h0 hh.2), if_neg h0, j4 e, he, if_neg (by omega)]
          · rw [if_neg he, if_neg (fun hh => he hh.1), j4 e]
  · rw [if_neg htb]; exact hinv

theorem update_bitmap_score_upto (MAP_SIZE : Nat) (tb : List Nat) (q ff : Nat)
    (s : fuzz_state) :
    ∀ n,
      (∀ j, ((List.range n).foldl (update_bitmap_score_at MAP_SIZE tb q ff) s).top_rated j
        = if j < n then new_winner tb q s j else s.top_rated j) ∧
      ((List.range n).foldl (update_bitmap_score_at MAP_SIZE tb q ff) s).dumb_mode
        = s.dumb_mode ∧
      ((List.range n).foldl (update_bitmap_score_at MAP_SIZE tb q ff) s).queued_paths
        = s.queued_paths ∧
      (∀ e, (((List.range n).foldl (update_bitmap_score_at MAP_SIZE tb q ff) s).queue
        e).unique_state_count = (s.queue e).unique_state_count) ∧
      (s.score_changed ≠ 0 →
        ((List.range n).foldl (update_bitmap_score_at MAP_SIZE tb q ff) s).score_changed
          ≠ 0) ∧
      (∀ j < n, tb.getD j 0 ≠ 0 → s.top_rated j = none →
        ((List.range n).foldl (update_bitmap_score_at MAP_SIZE tb q ff) s).score_changed
          ≠ 0) := by
  intro n
  induction n with
  | zero =>
    refine ⟨fun j => by simp, rfl, rfl, fun _ => rfl, fun h => h, ?_⟩
    intro j hj; omega
  | succ n ih =>
    obtain ⟨i2, i3, i4, i5, i6, i7⟩ := ih
    rw [List.range_succ, List.foldl_append]
    simp only [List.foldl_cons, List.foldl_nil]
    have hf := update_bitmap_score_at_fields MAP_SIZE tb q ff
      ((List.range n).foldl (update_bitmap_score_at MAP_SIZE tb q ff) s) n
    have hold : ((List.range n).foldl (update_bitmap_score_at MAP_SIZE tb q ff) s).top_rated n
        = s.top_rated n := by
      rw [i2 n, if_neg (by omega)]
    refine ⟨?_, ?_, ?_, ?_, ?_, ?_⟩
    · intro j
      rw [hf.1]
      by_cases hj : j = n
      · rw [hj, Function.update_same, if_pos (Nat.lt_succ_self n), hold]
        unfold new_winner
        simp only [i5]
      · rw [Function.update_noteq hj, i2 j]
        by_cases hjn : j < n
        · rw [if_pos hjn, if_pos (by omega)]
        · rw [if_neg hjn, if_neg (by omega)]
    · rw [hf.2.1, i3]
    · rw [hf.2.2.1, i4]
    · intro e; rw [hf.2.2.2.1 e, i5 e]
    · intro h; exact hf.2.2.2.2.1 (i6 h)
    · intro j hj htb hnone
      by_cases hjn : j = n
      · rw [hjn] at htb hnone
        exact hf.2.2.2.2.2 htb (by rw [hold]; exact hnone)
      · exact hf.2.2.2.2.1 (i7 j (by omega) htb hnone)

theorem update_bitmap_score_upto_inv (MAP_SIZE : Nat) (tr : Nat → List Nat) (q ff : Nat)
    (s : fuzz_state) (hM : MAP_SIZE < 2 ^ 32) (hinv : score_inv MAP_SIZE tr s) :
    ∀ n, n ≤ MAP_SIZE →
      score_inv MAP_SIZE tr
        ((List.range n).foldl (update_bitmap_score_at MAP_SIZE (tr q) q ff) s) := by
  intro n
  induction n with
  | zero => intro _; exact hinv
  | succ n ih =>
    intro hn
    rw [List.range_succ, List.foldl_append]
    simp only [List.foldl_cons, List.foldl_nil]
    exact update_bitmap_score_at_inv MAP_SIZE tr q ff _ n hM (by omega) (ih (by omega))

theorem update_bitmap_score_top_rated (MAP_SIZE : Nat) (tb : List Nat) (s : fuzz_state)
    (q j : Nat) :
    (update_bitmap_score MAP_SIZE tb s q).top_rated j =
      if j < MAP_SIZE then new_winner tb q s j else s.top_rated j :=
  (update_bitmap_score_upto MAP_SIZE tb q _ s MAP_SIZE).1 j

theorem bit_set_set_or (dst : List Nat) (k i : Nat) (hk : k >>> 3 < dst.length) :
    bit_set (dst.set (k >>> 3) ((dst.getD (k >>> 3) 0 ||| (1 <<< (k &&& 7))) % 256)) i ↔
      bit_set dst i ∨ i = k := by
  simp only [bit_set_iff_testBit, List.getD_eq_getElem?_getD]
  by_cases hik : i >>> 3 = k >>> 3
  · rw [hik, List.getElem?_set_self hk]
    simp only [Option.getD_some]
    rw [show (256 : Nat) = 2 ^ 8 from rfl, Nat.testBit_mod_two_pow, Nat.testBit_or,
      Nat.one_shiftLeft, Nat.testBit_two_pow]
    have h7 := and7_lt i
    have hsplit_i := index_split i
    have hsplit_k := index_split k
    by_cases hb : k &&& 7 = i &&& 7
    · have : i = k := by omega
      simp [h7, hb, this]
    · have : i ≠ k := fun h => hb (by rw [h])
      simp [h7, hb, this]
  · rw [List.getElem?_set_ne (fun h => hik h.symm)]
    have : i ≠ k := fun h => hik (by rw [h])
    simp [this]

theorem minimize_bits_upto (dst src : List Nat) (i : Nat) : ∀ n, n ≤ 8 * dst.length →
    ((List.range n).foldl
      (fun dst i =>
        if src.getD i 0 ≠ 0 then
          dst.set (i >>> 3) ((dst.getD (i >>> 3) 0 ||| (1 <<< (i &&& 7))) % 256)
        else dst) dst).length = dst.length ∧
    (bit_set ((List.range n).foldl
      (fun dst i =>
        if src.getD i 0 ≠ 0 then
          dst.set (i >>> 3) ((dst.getD (i >>> 3) 0 ||| (1 <<< (i &&& 7))) % 256)
        else dst) dst) i ↔ bit_set dst i ∨ (i < n ∧ src.getD i 0 ≠ 0)) := by
  intro n
  induction n with
  | zero => intro _; simp
  | succ n ih =>
    intro hn
    obtain ⟨hl, hb⟩ := ih (by omega)
    rw [List.range_succ, List.foldl_append]
    simp only [List.foldl_cons, List.foldl_nil]
    have hk : n >>> 3 < dst.length := by
      rw [Nat.shiftRight_eq_div_pow]
      have : (2 : Nat) ^ 3 = 8 := by decide
      rw [this]; omega
    by_cases hs : src.getD n 0 ≠ 0
    · rw [if_pos hs]
      refine ⟨by rw [List.length_set, hl], ?_⟩
      rw [bit_set_set_or _ _ _ (by rw [hl]; exact hk), hb]
      constructor
      · rintro ((h | h) | h)
        · exact Or.inl h
        · exact Or.inr ⟨by omega, h.2⟩
        · exact Or.inr ⟨by omega, by rw [h]; exact hs⟩
      · rintro (h | h)
        · exact Or.inl (Or.inl h)
        · by_cases hin : i = n
          · exact Or.inr hin
          · exact Or.inl (Or.inr ⟨by omega, h.2⟩)
    · rw [if_neg hs]
      refine ⟨hl, ?_⟩
      rw [hb]
      constructor
      · rintro (h | h)
        · exact Or.inl h
        · exact Or.inr ⟨by omega, h.2⟩
      · rintro (h | h)
        · exact Or.inl h
        · by_cases hin : i = n
          · rw [hin] at h; exact absurd h.2 hs
          · exact Or.inr ⟨by omega, h.2⟩

theorem bit_set_minimize_bits (MAP_SIZE : Nat) (src : List Nat) (i : Nat) (h8 : 8 ∣ MAP_SIZE) :
    (minimize_bits MAP_SIZE (List.replicate (MAP_SIZE >>> 3) 0) src).length = MAP_SIZE >>> 3 ∧
    (bit_set (minimize_bits MAP_SIZE (List.replicate (MAP_SIZE >>> 3) 0) src) i ↔
      (i < MAP_SIZE ∧ src.getD i 0 ≠ 0)) := by
  have hlen : MAP_SIZE ≤ 8 * (List.replicate (MAP_SIZE >>> 3) 0).length := by
    rw [List.length_replicate, Nat.shiftRight_eq_div_pow]
    have : (2 : Nat) ^ 3 = 8 := by decide
    rw [this]; omega
  have h := minimize_bits_upto (List.replicate (MAP_SIZE >>> 3) 0) src i MAP_SIZE hlen
  unfold minimize_bits
  refine ⟨by rw [h.1, List.length_replicate], ?_⟩
  rw [h.2]
  constructor
  · rintro (h1 | h1)
    · exact absurd h1 (not_bit_set_replicate_zero _ _)
    · exact h1
  · exact fun h1 => Or.inr h1

theorem wins_none (top_rated : Nat → Option Nat) (e : Nat) (h : ∀ i, top_rated i = none) :
    ∀ n, wins top_rated e n = 0 := by
  intro n
  induction n with
  | zero => rfl
  | succ n ih => simp [wins, ih, h n]

theorem new_winner_cases (tb : List Nat) (q : Nat) (s : fuzz_state) (i : Nat) :
    (new_winner tb q s i = some q ∨ new_winner tb q s i = s.top_rated i) ∧
    (tb.getD i 0 ≠ 0 → new_winner tb q s i ≠ none) ∧
    (s.top_rated i ≠ none → new_winner tb q s i ≠ none) := by
  unfold new_winner
  by_cases htb : tb.getD i 0 ≠ 0
  · rw [if_pos htb]
    cases hw : s.top_rated i with
    | none => simp
    | some w =>
      simp only
      split <;> simp
  · rw [if_neg htb]
    exact ⟨Or.inr rfl, fun h => absurd h htb, fun h => h⟩

theorem score_all_spec (MAP_SIZE : Nat) (tr : Nat → List Nat) (s0 : fuzz_state)
    (hM : MAP_SIZE < 2 ^ 32) (htop : ∀ i, s0.top_rated i = none)
    (hfresh : ∀ e, (s0.queue e).tc_ref = 0 ∧ (s0.queue e).trace_mini = none) :
    ∀ n, score_inv MAP_SIZE tr (score_all MAP_SIZE tr s0 n) ∧
      (score_all MAP_SIZE tr s0 n).dumb_mode = s0.dumb_mode ∧
      (score_all MAP_SIZE tr s0 n).queued_paths = s0.queued_paths ∧
      (∀ i < MAP_SIZE, ∀ e, (score_all MAP_SIZE tr s0 n).top_rated i = some e → e < n) ∧
      (∀ i < MAP_SIZE, (∃ k < n, (tr k).getD i 0 ≠ 0) →
        (score_all MAP_SIZE tr s0 n).top_rated i ≠ none ∧
        (score_all MAP_SIZE tr s0 n).score_changed ≠ 0) := by
  intro n
  induction n with
  | zero =>
    refine ⟨⟨?_, ?_, ?_⟩, rfl, rfl, ?_, ?_⟩
    · intro i _ e he
      rw [show (score_all MAP_SIZE tr s0 0).top_rated i = s0.top_rated i from rfl, htop i] at he
      exact absurd he (by simp)
    · intro e
      rw [show (score_all MAP_SIZE tr s0 0) = s0 from rfl, (hfresh e).1, wins_none _ _ htop]
    · intro e
      rw [show (score_all MAP_SIZE tr s0 0) = s0 from rfl, (hfresh e).1, (hfresh e).2]
      rfl
    · intro i _ e he
      rw [show (score_all MAP_SIZE tr s0 0).top_rated i = s0.top_rated i from rfl, htop i] at he
      exact absurd he (by simp)
    · rintro i _ ⟨k, hk, _⟩; omega
  | succ n ih =>
    obtain ⟨i1, i2, i3, i4, i5⟩ := ih
    have hstep : score_all MAP_SIZE tr s0 (n + 1)
        = update_bitmap_score MAP_SIZE (tr n) (score_all MAP_SIZE tr s0 n) n := by
      simp only [score_all, List.range_succ, List.foldl_append, List.foldl_cons, List.foldl_nil]
    rw [hstep]
    have hp := update_bitmap_score_upto MAP_SIZE (tr n) n
      ((((score_all MAP_SIZE tr s0 n).queue n).exec_us *
        ((score_all MAP_SIZE tr s0 n).queue n).len) % 2 ^ 64)
      (score_all MAP_SIZE tr s0 n) MAP_SIZE
    have hinv := update_bitmap_score_upto_inv MAP_SIZE tr n
      ((((score_all MAP_SIZE tr s0 n).queue n).exec_us *
        ((score_all MAP_SIZE tr s0 n).queue n).len) % 2 ^ 64)
      (score_all MAP_SIZE tr s0 n) hM i1 MAP_SIZE (Nat.le_refl _)
    obtain ⟨p1, p2, p3, -, p5, p6⟩ := hp
    refine ⟨hinv, by rw [← i2]; exact p2, by rw [← i3]; exact p3, ?_, ?_⟩
    · intro i hi e he
      have htr : (update_bitmap_score MAP_SIZE (tr n) (score_all MAP_SIZE tr s0 n) n).top_rated i
          = new_winner (tr n) n (score_all MAP_SIZE tr s0 n) i := by
        rw [show (update_bitmap_score MAP_SIZE (tr n) (score_all MAP_SIZE tr s0 n) n).top_rated i
          = _ from p1 i, if_pos hi]
      rw [htr] at he
      rcases (new_winner_cases (tr n) n (score_all MAP_SIZE tr s0 n) i).1 with h | h
      · rw [h] at he
        have := Option.some.inj he
        omega
      · rw [h] at he
        exact Nat.lt_succ_of_lt (i4 i hi e he)
    · rintro i hi ⟨k, hk, hnz⟩
      have htr : (update_bitmap_score MAP_SIZE (tr n) (score_all MAP_SIZE tr s0 n) n).top_rated i
          = new_winner (tr n) n (score_all MAP_SIZE tr s0 n) i := by
        rw [show (update_bitmap_score MAP_SIZE (tr n) (score_all MAP_SIZE tr s0 n) n).top_rated i
          = _ from p1 i, if_pos hi]
      have hnw := new_winner_cases (tr n) n (score_all MAP_SIZE tr s0 n) i
      by_cases hkn : k = n
      · rw [hkn] at hnz
        refine ⟨by rw [htr]; exact hnw.2.1 hnz, ?_⟩
        cases hold : (score_all MAP_SIZE tr s0 n).top_rated i with
        | none => exact p6 i hi hnz hold
        | some w =>
          have hw := i4 i hi w hold
          exact p5 ((i5 i hi ⟨w, hw, i1.1 i hi w hold⟩).2)
      · have hprev := i5 i hi ⟨k, by omega, hnz⟩
        exact ⟨by rw [htr]; exact hnw.2.2 hprev.1, p5 hprev.2⟩

theorem score_inv_winner_mini (MAP_SIZE : Nat) (tr : Nat → List Nat) (s : fuzz_state)
    (h8 : 8 ∣ MAP_SIZE) (hinv : score_inv MAP_SIZE tr s) (i : Nat) (hi : i < MAP_SIZE) (w : Nat)
    (hw : s.top_rated i = some w) :
    ∃ tm, (s.queue w).trace_mini = some tm ∧ bit_set tm i := by
  obtain ⟨j1, j3, j4⟩ := hinv
  have hpos := wins_pos s.top_rated w MAP_SIZE i hi hw
  have htc : (s.queue w).tc_ref ≠ 0 := by rw [j3 w]; omega
  refine ⟨_, by rw [j4 w, if_neg htc], ?_⟩
  exact (bit_set_minimize_bits MAP_SIZE (tr w) i h8).2.mpr ⟨hi, j1 i hi w hw⟩

/-! ### C6 and C7: winners and favourites -/

/-- C6, as the code behaves. For a hit byte `i` with a previous winner `w`, the new entry `q`
is kept out only when its `unique_state_count` is strictly lower than the winner's; otherwise
it displaces `w`. The second `continue` test of the source repeats the `<` comparison, so it
can never fire: on equal `unique_state_count` the challenger always wins, whatever the two
`exec_us * len` products are. -/
theorem update_bitmap_score_tie (MAP_SIZE : Nat) (tb : List Nat) (s : fuzz_state) (q i w : Nat)
    (hi : i < MAP_SIZE) (htb : tb.getD i 0 ≠ 0) (hw : s.top_rated i = some w) :
    (update_bitmap_score MAP_SIZE tb s q).top_rated i =
      if (s.queue q).unique_state_count < (s.queue w).unique_state_count then some w
      else some q := by
  rw [update_bitmap_score_top_rated, if_pos hi]
  unfold new_winner
  rw [if_pos htb, hw]

/-- Evaluation of `update_bitmap_score` at the failing input of C6: entry 0 (10 us, 10 bytes)
holds byte 0, entry 1 (100 us, 100 bytes) has the same `unique_state_count` and a strictly
larger `exec_us * len`, and still takes the slot. -/
theorem update_bitmap_score_tie_witness :
    (tie_state.queue 1).unique_state_count = (tie_state.queue 0).unique_state_count ∧
    (tie_state.queue 1).exec_us * (tie_state.queue 1).len
      > (tie_state.queue 0).exec_us * (tie_state.queue 0).len ∧
    tie_state.top_rated 0 = some 0 ∧
    (update_bitmap_score 8 [1, 0, 0, 0, 0, 0, 0, 0] tie_state 1).top_rated 0 = some 1 :=
  ⟨by decide, by decide, by decide,
    (update_bitmap_score_tie 8 [1, 0, 0, 0, 0, 0, 0, 0] tie_state 1 0 0 (by decide) (by decide)
      (by decide)).trans (by decide)⟩

/-- C7. Favorites cover. In instrumented mode (`dumb_mode == 0`), start from a queue of `n`
entries with no winners, score every entry once with its own trace and run `cull_queue`.
Then `cull_queue` completes, and for every bitmap index `i` that is non-zero in the trace of
some queue entry, `top_rated[i]` is not null and some entry of the queue has `favored == 1`
and a `trace_mini` with bit `i` set. -/
theorem favorites_cover (MAP_SIZE n : Nat) (tr : Nat → List Nat) (s0 : fuzz_state)
    (h8 : 8 ∣ MAP_SIZE) (hM : MAP_SIZE < 2 ^ 32) (hd : s0.dumb_mode = 0)
    (hq : s0.queued_paths = n) (htop : ∀ i, s0.top_rated i = none)
    (hfresh : ∀ e, (s0.queue e).tc_ref = 0 ∧ (s0.queue e).trace_mini = none)
    (i : Nat) (hi : i < MAP_SIZE) (k : Nat) (hk : k < n) (hnz : (tr k).getD i 0 ≠ 0) :
    ∃ s', cull_queue MAP_SIZE (score_all MAP_SIZE tr s0 n) = some s' ∧
      s'.top_rated i ≠ none ∧
      ∃ e < s'.queued_paths, (s'.queue e).favored = 1 ∧
        ∃ tm, (s'.queue e).trace_mini = some tm ∧ bit_set tm i := by
  obtain ⟨hinv, hdm, hqp, hlt, hcov⟩ := score_all_spec MAP_SIZE tr s0 hM htop hfresh n
  have hmini := score_inv_winner_mini MAP_SIZE tr (score_all MAP_SIZE tr s0 n) h8 hinv
  obtain ⟨htopi, hsc⟩ := hcov i hi ⟨k, hk, hnz⟩
  obtain ⟨s', h1, -, h3, h4, h5, -, -⟩ := cull_queue_fields MAP_SIZE (score_all MAP_SIZE tr s0 n) h8
    (by rw [hdm]; exact hd) hsc
    (fun j hj w hw => by
      obtain ⟨tm, htm, -⟩ := hmini j hj w hw
      rw [htm]; simp)
  have hqp' : s'.queued_paths = n := by
    have := cull_queue_eq MAP_SIZE (score_all MAP_SIZE tr s0 n) h8 (by rw [hdm]; exact hd) hsc
      (fun j hj w hw => by
        obtain ⟨tm, htm, -⟩ := hmini j hj w hw
        rw [htm]; simp)
    rw [h1] at this
    rw [Option.some.inj this, for_each_entry_eq]
    show (cull_reset (score_all MAP_SIZE tr s0 n)).queued_paths = n
    rw [(cull_reset_fields _).2.2.2.2.1, hqp, hq]
  refine ⟨s', h1, by rw [h3]; exact htopi, ?_⟩
  rw [hqp']
  have hfavored : ∀ p ∈ greedy_picks (score_all MAP_SIZE tr s0 n) MAP_SIZE, ∀ w,
      (score_all MAP_SIZE tr s0 n).top_rated p = some w → (s'.queue w).favored = 1 := by
    intro p hp w hw
    rw [h5 w, if_pos ⟨p, hp, hw⟩]
  by_cases hpick : i ∈ greedy_picks (score_all MAP_SIZE tr s0 n) MAP_SIZE
  · cases hw : (score_all MAP_SIZE tr s0 n).top_rated i with
    | none => exact absurd hw htopi
    | some w =>
      obtain ⟨tm, htm, hbit⟩ := hmini i hi w hw
      exact ⟨w, hlt i hi w hw, hfavored i hpick w hw, tm, by rw [h4 w]; exact htm, hbit⟩
  · have hnot := (not_congr (greedy_picks_mem (score_all MAP_SIZE tr s0 n) MAP_SIZE i)).mp hpick
    have hex : ∃ p ∈ greedy_picks (score_all MAP_SIZE tr s0 n) MAP_SIZE,
        covers (score_all MAP_SIZE tr s0 n) p i = true := by
      by_contra hno
      apply hnot
      refine ⟨hi, htopi, ?_⟩
      intro p hp _
      cases hc : covers (score_all MAP_SIZE tr s0 n) p i with
      | false => rfl
      | true => exact absurd ⟨p, hp, hc⟩ hno
    obtain ⟨p, hp, hc⟩ := hex
    have hpM := greedy_picks_lt _ _ p hp
    unfold covers at hc
    cases hw : (score_all MAP_SIZE tr s0 n).top_rated p with
    | none => rw [hw] at hc; exact absurd hc (by simp)
    | some w =>
      rw [hw] at hc
      simp only at hc
      cases htm : ((score_all MAP_SIZE tr s0 n).queue w).trace_mini with
      | none => rw [htm] at hc; exact absurd hc (by simp)
      | some tm =>
        rw [htm] at hc
        simp only [decide_eq_true_eq] at hc
        exact ⟨w, hlt p hpM w hw, hfavored p hp w hw, tm, by rw [h4 w]; exact htm, hc⟩

/-- Witness of C7: two entries on an 8-byte map; the second one hits bytes 0 and 2 and covers
byte 2 after culling. -/
theorem favorites_cover_witness :
    ∃ s', cull_queue 8
        (score_all 8 (fun k => if k = 0 then [1, 0, 0, 0, 0, 0, 0, 0] else [1, 0, 1, 0, 0, 0, 0, 0])
          two_entries 2) = some s' ∧
      s'.top_rated 2 ≠ none ∧
      ∃ e < s'.queued_paths, (s'.queue e).favored = 1 ∧
        ∃ tm, (s'.queue e).trace_mini = some tm ∧ bit_set tm 2 :=
  favorites_cover 8 2 (fun k => if k = 0 then [1, 0, 0, 0, 0, 0, 0, 0] else [1, 0, 1, 0, 0, 0, 0, 0])
    two_entries (by decide) (by decide) rfl rfl (fun _ => rfl) (fun _ => ⟨rfl, rfl⟩) 2 (by decide)
    1 (by decide) (by decide)

/-! ### C9: the energy clamp -/

theorem score_speed_bounds (cmp : double_cmp) (exec_us avg_exec_us : Nat) :
    10 ≤ score_speed cmp exec_us avg_exec_us ∧ score_speed cmp exec_us avg_exec_us ≤ 300 := by
  unfold score_speed
  repeat' split
  all_goals omega

theorem score_bitmap_bounds (cmp : double_cmp) (p bitmap_size avg_bitmap_size : Nat)
    (h1 : 10 ≤ p) (h2 : p ≤ 300) :
    2 ≤ score_bitmap cmp p bitmap_size avg_bitmap_size ∧
    score_bitmap cmp p bitmap_size avg_bitmap_size ≤ 900 := by
  unfold score_bitmap
  have hp : (2 : Nat) ^ 32 = 4294967296 := by decide
  repeat' split
  all_goals first
    | omega
    | (rw [Nat.mod_eq_of_lt (by omega)]; omega)

theorem score_handicap_bounds (p : Nat) (q : queue_entry) (h1 : 2 ≤ p) (h2 : p ≤ 900) :
    2 ≤ (score_handicap p q).1 ∧ (score_handicap p q).1 ≤ 3600 ∧
    (score_handicap p q).2.depth = q.depth := by
  unfold score_handicap
  repeat' split
  all_goals simp only [and_true]
  all_goals omega

theorem score_depth_bounds (p depth : Nat) (h1 : 2 ≤ p) (h2 : p ≤ 3600) :
    2 ≤ score_depth p depth ∧ score_depth p depth ≤ 18000 := by
  unfold score_depth
  have hp : (2 : Nat) ^ 32 = 4294967296 := by decide
  repeat' split
  all_goals first
    | omega
    | (rw [Nat.mod_eq_of_lt (by omega)]; omega)

/-- C9. Energy clamp: for every queue entry (any `exec_us`, `bitmap_size`, `handicap`, `depth`),
every outcome of the double-precision comparisons and any totals with `total_cal_cycles > 0`
and `total_bitmap_entries > 0`, `calculate_score` returns a value `r` with
`1 <= r <= HAVOC_MAX_MULT * 100` (for a configuration with `HAVOC_MAX_MULT >= 1`); the
truncation of the fractional multipliers to `u32` is part of the model. -/
theorem calculate_score_clamp (HAVOC_MAX_MULT : Nat) (cmp : double_cmp)
    (total_cal_us total_cal_cycles total_bitmap_size total_bitmap_entries : Nat)
    (q : queue_entry) (hH : 1 ≤ HAVOC_MAX_MULT) (hc : 0 < total_cal_cycles)
    (hb : 0 < total_bitmap_entries) :
    ∃ r q', calculate_score HAVOC_MAX_MULT cmp total_cal_us total_cal_cycles total_bitmap_size
        total_bitmap_entries q = some (r, q') ∧ 1 ≤ r ∧ r ≤ HAVOC_MAX_MULT * 100 := by
  unfold calculate_score
  rw [if_neg (by omega)]
  obtain ⟨a1, a2⟩ := score_speed_bounds cmp q.exec_us ((total_cal_us / total_cal_cycles) % 2 ^ 32)
  obtain ⟨b1, b2⟩ := score_bitmap_bounds cmp _ q.bitmap_size
    ((total_bitmap_size / total_bitmap_entries) % 2 ^ 32) a1 a2
  obtain ⟨c1, c2, -⟩ := score_handicap_bounds _ q b1 b2
  obtain ⟨d1, d2⟩ := score_depth_bounds _
    (score_handicap (score_bitmap cmp (score_speed cmp q.exec_us
      ((total_cal_us / total_cal_cycles) % 2 ^ 32)) q.bitmap_size
      ((total_bitmap_size / total_bitmap_entries) % 2 ^ 32)) q).2.depth c1 c2
  refine ⟨_, _, rfl, ?_, ?_⟩
  · split <;> omega
  · split <;> omega

/-- Witness of C9 with the default `HAVOC_MAX_MULT = 16`: a slow, small entry met late and
deep in the queue. -/
theorem calculate_score_clamp_witness :
    ∃ r q', calculate_score 16 exact_cmp 1000 10 100 1
        { blank_entry with exec_us := 50, bitmap_size := 100, handicap := 5, depth := 30 }
        = some (r, q') ∧ 1 ≤ r ∧ r ≤ 16 * 100 :=
  calculate_score_clamp 16 exact_cmp 1000 10 100 1
    { blank_entry with exec_us := 50, bitmap_size := 100, handicap := 5, depth := 30 }
    (by decide) (by decide) (by decide)

/-! ### C10: state-sequence dedup -/

theorem cap_runs_snoc : ∀ (l : List Nat) (a : Nat),
    cap_runs (l ++ [a]) = cap_runs l ++
      (if 2 ≤ l.length ∧ a = l.getD (l.length - 1) 0 ∧ a = l.getD (l.length - 2) 0 then []
       else [a])
  | [], a => by simp [cap_runs]
  | [x], a => by simp [cap_runs]
  | [x, y], a => by
    simp only [List.cons_append, List.nil_append, cap_runs, List.length_cons, List.length_nil]
    by_cases h : x = y ∧ y = a
    · rw [if_pos h]
      obtain ⟨rfl, rfl⟩ := h
      simp
    · rw [if_neg h]
      have : ¬ (2 ≤ 0 + 1 + 1 ∧ a = [x, y].getD (0 + 1 + 1 - 1) 0 ∧ a = [x, y].getD (0 + 1 + 1 - 2) 0) := by
        rintro ⟨-, h1, h2⟩
        simp at h1 h2
        exact h ⟨by rw [← h2, h1], h1.symm⟩
      rw [if_neg this]
  | x :: y :: z :: rest, a => by
    have ih := cap_runs_snoc (y :: z :: rest) a
    have hcond : (2 ≤ (x :: y :: z :: rest).length ∧
        a = (x :: y :: z :: rest).getD ((x :: y :: z :: rest).length - 1) 0 ∧
        a = (x :: y :: z :: rest).getD ((x :: y :: z :: rest).length - 2) 0) ↔
        (2 ≤ (y :: z :: rest).length ∧
        a = (y :: z :: rest).getD ((y :: z :: rest).length - 1) 0 ∧
        a = (y :: z :: rest).getD ((y :: z :: rest).length - 2) 0) := by
      simp only [List.length_cons]
      have e1 : rest.length + 1 + 1 + 1 - 1 = (rest.length + 1 + 1 - 1) + 1 := by omega
      have e2 : rest.length + 1 + 1 + 1 - 2 = (rest.length + 1 + 1 - 2) + 1 := by omega
      rw [e1, e2, List.getD_cons_succ, List.getD_cons_succ]
      constructor
      · rintro ⟨_, h1, h2⟩; exact ⟨by omega, h1, h2⟩
      · rintro ⟨_, h1, h2⟩; exact ⟨by omega, h1, h2⟩
    simp only [hcond]
    simp only [List.cons_append] at ih ⊢
    simp only [cap_runs]
    rw [ih]
    split
    · rfl
    · rfl

theorem trim_state_sequence_take (s : List Nat) : ∀ n, n ≤ s.length →
    trim_state_sequence s n = cap_runs (s.take n) := by
  intro n
  induction n with
  | zero => intro _; simp [trim_state_sequence, cap_runs]
  | succ n ih =>
    intro hn
    have hn' : n < s.length := by omega
    have htake : s.take (n + 1) = s.take n ++ [s.getD n 0] := by
      rw [List.take_succ, List.getD_eq_getElem?_getD, List.getElem?_eq_getElem hn']
      rfl
    have hlen : (s.take n).length = n := by simp; omega
    have hstep : trim_state_sequence s (n + 1) =
        trim_state_sequence s n ++
          (if n ≥ 2 ∧ s.getD n 0 = s.getD (n - 1) 0 ∧ s.getD n 0 = s.getD (n - 2) 0 then []
           else [s.getD n 0]) := by
      simp only [trim_state_sequence, List.range_succ, List.foldl_append, List.foldl_cons,
        List.foldl_nil]
      split <;> simp
    rw [hstep, htake, cap_runs_snoc, ih (by omega), hlen]
    have h1 : ∀ k, k < n → (s.take n).getD k 0 = s.getD k 0 := by
      intro k hk
      simp only [List.getD_eq_getElem?_getD]
      rw [List.getElem?_take_of_lt hk]
    by_cases h2 : n ≥ 2
    · rw [h1 (n - 1) (by omega), h1 (n - 2) (by omega)]
    · rw [if_neg (fun h => h2 h.1), if_neg (fun h => h2 h.1)]

theorem trim_state_sequence_eq (s : List Nat) :
    trim_state_sequence s s.length = cap_runs s := by
  rw [trim_state_sequence_take s s.length (Nat.le_refl _), List.take_length]

theorem is_state_sequence_interesting_seen (hash32 : List Nat → Nat) (seen a : List Nat) (n : Nat) :
    hash32 (trim_state_sequence a n) ∈ (is_state_sequence_interesting hash32 seen a n).2 := by
  unfold is_state_sequence_interesting
  simp only
  split
  · assumption
  · exact List.mem_cons_self _ _

/-- C10, as the code has it. The trimming loop of `is_state_sequence_interesting` cuts every
run of three or more equal consecutive states down to two (a self-loop is kept once) and
leaves shorter runs alone. Two state sequences whose forms with runs capped at two are equal
are judged to be the same path: once the first has been evaluated, the second returns 0 and
leaves the set of seen paths unchanged, for every hash function and every earlier content of
the set. -/
theorem state_sequence_same_path (hash32 : List Nat → Nat) (seen a b : List Nat)
    (h : cap_runs a = cap_runs b) :
    trim_state_sequence a a.length = cap_runs a ∧
    (is_state_sequence_interesting hash32
      (is_state_sequence_interesting hash32 seen a a.length).2 b b.length).1 = 0 ∧
    (is_state_sequence_interesting hash32
      (is_state_sequence_interesting hash32 seen a a.length).2 b b.length).2
      = (is_state_sequence_interesting hash32 seen a a.length).2 := by
  have hmem := is_state_sequence_interesting_seen hash32 seen a a.length
  rw [trim_state_sequence_eq, h, ← trim_state_sequence_eq b] at hmem
  refine ⟨trim_state_sequence_eq a, ?_, ?_⟩
  · unfold is_state_sequence_interesting at hmem ⊢
    simp only at hmem ⊢
    rw [if_pos hmem]
  · unfold is_state_sequence_interesting at hmem ⊢
    simp only at hmem ⊢
    rw [if_pos hmem]

/-- Witness of the amended C10: `[0,1,1,1,2]` and `[0,1,1,2]` are the same path. -/
theorem state_sequence_same_path_witness :
    (is_state_sequence_interesting (fun l => l.length)
      (is_state_sequence_interesting (fun l => l.length) [] [0, 1, 1, 1, 2] 5).2
      [0, 1, 1, 2] 4).1 = 0 :=
  (state_sequence_same_path (fun l => l.length) [] [0, 1, 1, 1, 2] [0, 1, 1, 2]
    (by decide)).2.1

/-- Counterexample to C10 as stated: `[0,1,1,2]` and `[0,1,2]` have the same form with
consecutive duplicates collapsed, but the code trims neither, so whenever the hash tells the
two apart (and `[0,1,2]` was not seen before) the second one is judged interesting; hence the
claim does not hold for every hash function. -/
theorem state_sequence_dedup_fails :
    collapse_duplicates [0, 1, 1, 2] = collapse_duplicates [0, 1, 2] ∧
    trim_state_sequence [0, 1, 1, 2] 4 = [0, 1, 1, 2] ∧
    trim_state_sequence [0, 1, 2] 3 = [0, 1, 2] ∧
    (∀ (hash32 : List Nat → Nat) (seen : List Nat),
      hash32 [0, 1, 2] ≠ hash32 [0, 1, 1, 2] → hash32 [0, 1, 2] ∉ seen →
      (is_state_sequence_interesting hash32
        (is_state_sequence_interesting hash32 seen [0, 1, 1, 2] 4).2 [0, 1, 2] 3).1 = 1) ∧
    ¬ (∀ (hash32 : List Nat → Nat) (seen a b : List Nat),
      collapse_duplicates a = collapse_duplicates b →
      (is_state_sequence_interesting hash32
        (is_state_sequence_interesting hash32 seen a a.length).2 b b.length).1 = 0) := by
  have ha : trim_state_sequence [0, 1, 1, 2] 4 = [0, 1, 1, 2] := by decide
  have hb : trim_state_sequence [0, 1, 2] 3 = [0, 1, 2] := by decide
  have key : ∀ (hash32 : List Nat → Nat) (seen : List Nat),
      hash32 [0, 1, 2] ≠ hash32 [0, 1, 1, 2] → hash32 [0, 1, 2] ∉ seen →
      (is_state_sequence_interesting hash32
        (is_state_sequence_interesting hash32 seen [0, 1, 1, 2] 4).2 [0, 1, 2] 3).1 = 1 := by
    intro hash32 seen hne hns
    unfold is_state_sequence_interesting
    simp only [ha, hb]
    have hnot : hash32 [0, 1, 2] ∉
        (if hash32 [0, 1, 1, 2] ∈ seen then (0, seen)
          else (1, hash32 [0, 1, 1, 2] :: seen)).2 := by
      split
      · exact hns
      · simp only [List.mem_cons, not_or]
        exact ⟨hne, hns⟩
    rw [if_neg hnot]
  refine ⟨by decide, ha, hb, key, ?_⟩
  intro hall
  have h0 := hall (fun l => l.length) [] [0, 1, 1, 2] [0, 1, 2] (by decide)
  have h1 := key (fun l => l.length) [] (by decide) (by simp)
  rw [show ([0, 1, 1, 2] : List Nat).length = 4 from rfl,
    show ([0, 1, 2] : List Nat).length = 3 from rfl, h1] at h0
  exact absurd h0 (by decide)

/-! ### C11: weighted state selection -/

theorem index_search_from_spec (A : List Nat) (n val : Nat) :
    ∀ fuel index, n ≤ index + fuel → index ≤ n →
      index ≤ index_search_from A n val fuel index ∧
      index_search_from A n val fuel index ≤ n ∧
      (∀ j, index ≤ j → j < index_search_from A n val fuel index →
        A.getD j 0 < val) ∧
      (index_search_from A n val fuel index < n →
        val ≤ A.getD (index_search_from A n val fuel index) 0) := by
  intro fuel
  induction fuel with
  | zero =>
    intro index h1 h2
    have : index = n := by omega
    subst this
    simp only [index_search_from]
    refine ⟨le_refl _, le_refl _, ?_, ?_⟩
    · intro j hj hj'; omega
    · intro h; omega
  | succ fuel ih =>
    intro index h1 h2
    simp only [index_search_from]
    by_cases hn : index < n
    · rw [if_pos hn]
      by_cases hv : val ≤ A.getD index 0
      · rw [if_pos hv]
        refine ⟨le_refl _, h2, ?_, fun _ => hv⟩
        intro j hj hj'; omega
      · rw [if_neg hv]
        obtain ⟨a, b, c, d⟩ := ih (index + 1) (by omega) (by omega)
        refine ⟨by omega, b, ?_, d⟩
        intro j hj hj'
        by_cases hji : j = index
        · subst hji; omega
        · exact c j (by omega) hj'
    · rw [if_neg hn]
      refine ⟨le_refl _, h2, ?_, ?_⟩
      · intro j hj hj'; omega
      · intro h; omega

theorem index_search_spec (A : List Nat) (n val : Nat) :
    index_search A n val ≤ n ∧
    (∀ j, j < index_search A n val → A.getD j 0 < val) ∧
    (index_search A n val < n → val ≤ A.getD (index_search A n val) 0) := by
  obtain ⟨_, b, c, d⟩ := index_search_from_spec A n val n 0 (by omega) (by omega)
  exact ⟨b, fun j hj => c j (Nat.zero_le _) hj, d⟩

/-- On a non-decreasing array `index_search` returns `i < n` exactly for the
values in the half-open interval `(A[i-1], A[i]]` (from 0 for `i = 0`). -/
theorem index_search_eq_iff (A : List Nat) (n val i : Nat) (hi : i < n)
    (hmono : ∀ j k, j ≤ k → k < n → A.getD j 0 ≤ A.getD k 0) :
    index_search A n val = i ↔
      (i = 0 ∨ A.getD (i - 1) 0 < val) ∧ val ≤ A.getD i 0 := by
  obtain ⟨a, b, c⟩ := index_search_spec A n val
  constructor
  · intro h
    rw [h] at b c
    refine ⟨?_, c hi⟩
    by_cases h0 : i = 0
    · exact Or.inl h0
    · exact Or.inr (b (i - 1) (by omega))
  · rintro ⟨h1, h2⟩
    by_contra hne
    rcases Nat.lt_or_gt_of_ne hne with hlt | hgt
    · have h3 := c (by omega)
      have h4 := hmono (index_search A n val) (i - 1) (by omega) (by omega)
      rcases h1 with h0 | h1
      · omega
      · omega
    · have := b i hgt
      omega

theorem fill_state_scores_length :
    ∀ (scores : List Nat) (prev : Nat),
      (fill_state_scores prev scores).length = scores.length
  | [], _ => rfl
  | _ :: rest, _ => by
    simp only [fill_state_scores, List.length_cons, fill_state_scores_length rest]

theorem fill_state_scores_getD :
    ∀ (scores : List Nat) (prev i : Nat), i < scores.length →
      prev + scores.sum < 2 ^ 32 →
      (fill_state_scores prev scores).getD i 0 = prev + (scores.take (i + 1)).sum
  | [], _, _, h, _ => by simp at h
  | s :: rest, prev, 0, _, hs => by
    simp only [List.sum_cons] at hs
    simp only [fill_state_scores, List.getD_cons_zero, List.take_succ_cons, List.take_zero,
      List.sum_cons, List.sum_nil, Nat.add_zero]
    exact Nat.mod_eq_of_lt (by omega)
  | s :: rest, prev, i + 1, h, hs => by
    simp only [List.sum_cons] at hs
    simp only [List.length_cons] at h
    simp only [fill_state_scores, List.getD_cons_succ, List.take_succ_cons, List.sum_cons]
    rw [Nat.mod_eq_of_lt (by omega), fill_state_scores_getD rest (prev + s) i (by omega) (by omega)]
    omega

theorem state_scores_getD (scores : List Nat) (i : Nat) (h : i < scores.length)
    (hs : scores.sum < 2 ^ 32) :
    (state_scores scores).getD i 0 = (scores.take (i + 1)).sum := by
  unfold state_scores
  rw [fill_state_scores_getD scores 0 i h (by omega)]
  omega

theorem sum_take_succ (l : List Nat) (i : Nat) (h : i < l.length) :
    (l.take (i + 1)).sum = (l.take i).sum + l.getD i 0 := by
  rw [List.take_succ, List.sum_append]
  simp [List.getD_eq_getElem?_getD, List.getElem?_eq_getElem h]

theorem sum_take_le (l : List Nat) (i : Nat) : (l.take i).sum ≤ l.sum := by
  conv_rhs => rw [← List.take_append_drop i l, List.sum_append]
  omega

theorem sum_take_mono (l : List Nat) (j k : Nat) (h : j ≤ k) :
    (l.take j).sum ≤ (l.take k).sum := by
  have : l.take j = (l.take k).take j := by
    rw [List.take_take, Nat.min_eq_left h]
  rw [this]
  exact sum_take_le _ _

/-- Number of `r < T` in the closed interval `[lo, hi]`. -/
theorem count_interval (lo hi : Nat) :
    ∀ T, ((List.range T).filter (fun r => decide (lo ≤ r ∧ r ≤ hi))).length
      = min (hi + 1) T - lo := by
  intro T
  induction T with
  | zero => simp
  | succ T ih =>
    rw [List.range_succ, List.filter_append, List.length_append, ih]
    by_cases h : lo ≤ T ∧ T ≤ hi
    · simp only [List.filter_cons, List.filter_nil, h, and_self, decide_True, if_true,
        List.length_singleton]
      omega
    · have hd : decide (lo ≤ T ∧ T ≤ hi) = false := decide_eq_false h
      have hl : (List.filter (fun r => decide (lo ≤ r ∧ r ≤ hi)) [T]).length = 0 := by
        simp only [List.filter_cons, List.filter_nil, hd]
        rfl
      rw [hl]
      omega

theorem getD_pos_of_all_pos (scores : List Nat) (hpos : ∀ s ∈ scores, 0 < s)
    (i : Nat) (h : i < scores.length) : 0 < scores.getD i 0 := by
  rw [List.getD_eq_getElem?_getD, List.getElem?_eq_getElem h]
  exact hpos _ (List.getElem_mem h)

theorem state_scores_last (scores : List Nat) (hne : scores ≠ [])
    (hs : scores.sum < 2 ^ 32) :
    (state_scores scores).getD (scores.length - 1) 0 = scores.sum := by
  have hl : 0 < scores.length := List.length_pos.mpr hne
  rw [state_scores_getD scores _ (by omega) hs]
  rw [show scores.length - 1 + 1 = scores.length by omega, List.take_length]

theorem state_scores_mono (scores : List Nat) (hs : scores.sum < 2 ^ 32)
    (j k : Nat) (hjk : j ≤ k) (hk : k < scores.length) :
    (state_scores scores).getD j 0 ≤ (state_scores scores).getD k 0 := by
  rw [state_scores_getD scores j (by omega) hs, state_scores_getD scores k hk hs]
  exact sum_take_mono _ _ _ (by omega)

theorem select_state_index_lt (scores : List Nat) (hne : scores ≠ [])
    (hpos : ∀ s ∈ scores, 0 < s) (hs : scores.sum < 2 ^ 32) (rnd : Nat) :
    select_state_index scores rnd < scores.length := by
  have hl : 0 < scores.length := List.length_pos.mpr hne
  have hT := state_scores_last scores hne hs
  have hTpos : 0 < scores.sum := by
    have h1 := sum_take_succ scores 0 hl
    have h2 := sum_take_le scores (0 + 1)
    have h3 := getD_pos_of_all_pos scores hpos 0 hl
    simp only [List.take_zero, List.sum_nil] at h1
    omega
  simp only [select_state_index, UR, hT]
  obtain ⟨a, b, c⟩ := index_search_spec (state_scores scores) scores.length
    (rnd % scores.sum)
  by_contra hge
  have heq : index_search (state_scores scores) scores.length (rnd % scores.sum)
      = scores.length := by omega
  have h1 := b (scores.length - 1) (by omega)
  rw [hT] at h1
  have := Nat.mod_lt rnd hTpos
  omega

theorem draws_selecting_eq (scores : List Nat) (hne : scores ≠ [])
    (hpos : ∀ s ∈ scores, 0 < s) (hs : scores.sum < 2 ^ 32)
    (i : Nat) (hi : i < scores.length) :
    draws_selecting scores i
      = scores.getD i 0 + (if i = 0 then 1 else 0)
          - (if i + 1 = scores.length then 1 else 0) := by
  have hT := state_scores_last scores hne hs
  have hAi := state_scores_getD scores i hi hs
  have hsucc := sum_take_succ scores i hi
  have hpi := getD_pos_of_all_pos scores hpos i hi
  -- the filter is an interval
  have hfilter : ∀ lo, (i = 0 → lo = 0) →
      (0 < i → lo = (state_scores scores).getD (i - 1) 0 + 1) →
      draws_selecting scores i
        = min ((state_scores scores).getD i 0 + 1) scores.sum - lo := by
    intro lo h0 h1
    simp only [draws_selecting, hT]
    rw [← count_interval lo ((state_scores scores).getD i 0) scores.sum]
    congr 1
    apply List.filter_congr
    intro r hr
    have hr' : r < scores.sum := List.mem_range.mp hr
    have hiff := index_search_eq_iff (state_scores scores) scores.length r i hi
      (fun j k hjk hk => state_scores_mono scores hs j k hjk hk)
    simp only [select_state_index, UR, hT, Nat.mod_eq_of_lt hr']
    rw [decide_eq_decide, hiff]
    by_cases hi0 : i = 0
    · have := h0 hi0
      constructor
      · rintro ⟨_, h⟩; exact ⟨by omega, h⟩
      · rintro ⟨_, h⟩; exact ⟨Or.inl hi0, h⟩
    · have := h1 (by omega)
      constructor
      · rintro ⟨h | h, h'⟩
        · exact absurd h hi0
        · exact ⟨by omega, h'⟩
      · rintro ⟨h, h'⟩; exact ⟨Or.inr (by omega), h'⟩
  -- bound of the upper end
  have hupper : i + 1 < scores.length →
      (state_scores scores).getD i 0 + 1 ≤ scores.sum := by
    intro hlt
    have h1 := sum_take_succ scores (i + 1) hlt
    have h2 := sum_take_le scores (i + 1 + 1)
    have h3 := getD_pos_of_all_pos scores hpos (i + 1) hlt
    omega
  have hlast : i + 1 = scores.length →
      (state_scores scores).getD i 0 = scores.sum := by
    intro heq
    rw [hAi, heq, List.take_length]
  by_cases hi0 : i = 0
  · rw [hfilter 0 (fun _ => rfl) (fun h => by omega)]
    have hz : (List.take i scores).sum = 0 := by rw [hi0]; rfl
    by_cases hl : i + 1 = scores.length
    · have := hlast hl
      rw [if_pos hi0, if_pos hl]
      omega
    · have := hupper (by omega)
      rw [if_pos hi0, if_neg hl]
      omega
  · have hprev := state_scores_getD scores (i - 1) (by omega) hs
    rw [show i - 1 + 1 = i by omega] at hprev
    rw [hfilter ((state_scores scores).getD (i - 1) 0 + 1) (fun h => by omega) (fun _ => rfl)]
    by_cases hl : i + 1 = scores.length
    · have := hlast hl
      rw [if_neg hi0, if_pos hl]
      omega
    · have := hupper (by omega)
      rw [if_neg hi0, if_neg hl]
      omega

/-- C11 (code behaviour): for positive scores whose sum fits 32 bits the index
chosen by `update_scores_and_select_next_state` is always below the number of
states, but the draws are not split by weight: `index_search` tests
`val <= A[index]`, so index `i` takes the draws of `(A[i-1], A[i]]` and the
first state gets one draw more than its score, the last state one draw less
(a single state gets all draws). -/
theorem index_search_counts (scores : List Nat) (hne : scores ≠ [])
    (hpos : ∀ s ∈ scores, 0 < s) (hs : scores.sum < 2 ^ 32) :
    (∀ rnd, select_state_index scores rnd < scores.length) ∧
    ∀ i, i < scores.length →
      draws_selecting scores i
        = scores.getD i 0 + (if i = 0 then 1 else 0)
            - (if i + 1 = scores.length then 1 else 0) :=
  ⟨select_state_index_lt scores hne hpos hs, draws_selecting_eq scores hne hpos hs⟩

theorem index_search_counts_witness :
    (∀ rnd, select_state_index [3, 4, 5] rnd < 3) ∧
    ∀ i, i < 3 →
      draws_selecting [3, 4, 5] i
        = [3, 4, 5].getD i 0 + (if i = 0 then 1 else 0)
            - (if i + 1 = 3 then 1 else 0) :=
  index_search_counts [3, 4, 5] (by decide) (by decide) (by decide)

/-- C11 (failing input): with the two scores 1 and 1 both draws 0 and 1 choose
state 0 and no draw chooses state 1, although each state has weight 1 of 2. -/
theorem index_search_unfair :
    draws_selecting [1, 1] 0 = 2 ∧ draws_selecting [1, 1] 1 = 0 ∧
    select_state_index [1, 1] 0 = 0 ∧ select_state_index [1, 1] 1 = 0 := by
  decide

/-! ### C12: the scores of scenario S4 -/

theorem log_six_le_two : Real.log 6 ≤ 2 := by
  rw [Real.log_le_iff_le_exp (by norm_num)]
  have h := Real.exp_one_gt_d9
  have : Real.exp 2 = Real.exp 1 * Real.exp 1 := by rw [← Real.exp_add]; norm_num
  rw [this]
  nlinarith

theorem seven_fourths_le_log_six : (7:ℝ) / 4 ≤ Real.log 6 := by
  rw [Real.le_log_iff_exp_le (by norm_num)]
  have h := Real.exp_one_lt_d9
  have h0 : (0:ℝ) < Real.exp 1 := Real.exp_pos 1
  have h4 : Real.exp ((7:ℝ) / 4) ^ 4 = Real.exp 1 ^ 7 := by
    rw [← Real.exp_nat_mul, ← Real.exp_nat_mul]; norm_num
  have h5 : Real.exp 1 ^ 7 ≤ 6 ^ 4 := by
    calc Real.exp 1 ^ 7 ≤ (2.7182818286:ℝ) ^ 7 := by gcongr
      _ ≤ 6 ^ 4 := by norm_num
  by_contra hc
  push_neg at hc
  have : (6:ℝ) ^ 4 < Real.exp ((7:ℝ) / 4) ^ 4 := by gcongr
  linarith

theorem two_rpow_seven_fourths : (3.3:ℝ) ≤ (2:ℝ) ^ ((7:ℝ) / 4) := by
  have h1 : ((2:ℝ) ^ ((7:ℝ) / 4)) ^ (4:ℕ) = 2 ^ 7 := by
    rw [← Real.rpow_natCast, ← Real.rpow_mul (by norm_num)]
    norm_num
  by_contra hc
  push_neg at hc
  have hpos : (0:ℝ) ≤ (2:ℝ) ^ ((7:ℝ) / 4) := Real.rpow_nonneg (by norm_num) _
  have : ((2:ℝ) ^ ((7:ℝ) / 4)) ^ (4:ℕ) < 3.3 ^ 4 := by gcongr
  rw [h1] at this
  norm_num at this

theorem two_rpow_neg_three_fifths : (2:ℝ) ^ (-(3:ℝ) / 5) ≤ 0.7 := by
  have h1 : ((2:ℝ) ^ (-(3:ℝ) / 5)) ^ (5:ℕ) = 1 / 8 := by
    rw [← Real.rpow_natCast, ← Real.rpow_mul (by norm_num)]
    norm_num
  by_contra hc
  push_neg at hc
  have : (0.7:ℝ) ^ 5 < ((2:ℝ) ^ (-(3:ℝ) / 5)) ^ (5:ℕ) := by gcongr
  rw [h1] at this
  norm_num at this

/-- The score of the middle state of S4 in exact arithmetic lies in
`[3300, 4000]`. -/
theorem score_S4_middle :
    (3300:ℝ) ≤ 1000 * (2:ℝ) ^ (-(Real.logb 10 (Real.logb 10 (((0:ℕ):ℝ) + 1) * ((0:ℕ):ℝ) + 1)))
        * (2:ℝ) ^ (Real.log (((5:ℕ):ℝ) + 1)) ∧
    1000 * (2:ℝ) ^ (-(Real.logb 10 (Real.logb 10 (((0:ℕ):ℝ) + 1) * ((0:ℕ):ℝ) + 1)))
        * (2:ℝ) ^ (Real.log (((5:ℕ):ℝ) + 1)) ≤ 4000 := by
  have e1 : Real.logb 10 (((0:ℕ):ℝ) + 1) * ((0:ℕ):ℝ) + 1 = 1 := by norm_num
  have e2 : (((5:ℕ):ℝ) + 1) = 6 := by norm_num
  rw [e1, e2, Real.logb_one, neg_zero, Real.rpow_zero, mul_one]
  have hlo : (2:ℝ) ^ ((7:ℝ) / 4) ≤ (2:ℝ) ^ Real.log 6 :=
    Real.rpow_le_rpow_of_exponent_le (by norm_num) seven_fourths_le_log_six
  have hhi : (2:ℝ) ^ Real.log 6 ≤ (2:ℝ) ^ (2:ℝ) :=
    Real.rpow_le_rpow_of_exponent_le (by norm_num) log_six_le_two
  have h22 : (2:ℝ) ^ (2:ℝ) = 4 := by
    rw [show (2:ℝ) = ((2:ℕ):ℝ) by norm_num, Real.rpow_natCast]; norm_num
  have := two_rpow_seven_fourths
  constructor
  · linarith
  · linarith

/-- The score of the outer states of S4 in exact arithmetic lies in
`[250, 700]`. -/
theorem score_S4_outer :
    (250:ℝ) ≤ 1000 * (2:ℝ) ^ (-(Real.logb 10 (Real.logb 10 (((100:ℕ):ℝ) + 1) * ((10:ℕ):ℝ) + 1)))
        * (2:ℝ) ^ (Real.log (((1:ℕ):ℝ) + 1)) ∧
    1000 * (2:ℝ) ^ (-(Real.logb 10 (Real.logb 10 (((100:ℕ):ℝ) + 1) * ((10:ℕ):ℝ) + 1)))
        * (2:ℝ) ^ (Real.log (((1:ℕ):ℝ) + 1)) ≤ 700 := by
  have e1 : (((100:ℕ):ℝ) + 1) = 101 := by norm_num
  have e2 : (((1:ℕ):ℝ) + 1) = 2 := by norm_num
  have e3 : ((10:ℕ):ℝ) = 10 := by norm_num
  rw [e1, e2, e3]
  -- 2 ≤ log10 101 ≤ 3
  have hl1 : (2:ℝ) ≤ Real.logb 10 101 := by
    rw [Real.le_logb_iff_rpow_le (by norm_num) (by norm_num)]
    rw [show (2:ℝ) = ((2:ℕ):ℝ) by norm_num, Real.rpow_natCast]; norm_num
  have hl2 : Real.logb 10 101 ≤ 3 := by
    rw [Real.logb_le_iff_le_rpow (by norm_num) (by norm_num)]
    rw [show (3:ℝ) = ((3:ℕ):ℝ) by norm_num, Real.rpow_natCast]; norm_num
  have hx1 : (21:ℝ) ≤ Real.logb 10 101 * 10 + 1 := by linarith
  have hx2 : Real.logb 10 101 * 10 + 1 ≤ 100 := by linarith
  have hxpos : (0:ℝ) < Real.logb 10 101 * 10 + 1 := by linarith
  -- 13/10 ≤ log10 x ≤ 2
  have hy1 : (13:ℝ) / 10 ≤ Real.logb 10 (Real.logb 10 101 * 10 + 1) := by
    rw [Real.le_logb_iff_rpow_le (by norm_num) hxpos]
    have h10 : ((10:ℝ) ^ ((13:ℝ) / 10)) ^ (10:ℕ) = 10 ^ 13 := by
      rw [← Real.rpow_natCast, ← Real.rpow_mul (by norm_num)]
      norm_num
    have : (10:ℝ) ^ ((13:ℝ) / 10) ≤ 21 := by
      by_contra hc
      push_neg at hc
      have : (21:ℝ) ^ 10 < ((10:ℝ) ^ ((13:ℝ) / 10)) ^ (10:ℕ) := by gcongr
      rw [h10] at this
      norm_num at this
    linarith
  have hy2 : Real.logb 10 (Real.logb 10 101 * 10 + 1) ≤ 2 := by
    rw [Real.logb_le_iff_le_rpow (by norm_num) hxpos]
    rw [show (2:ℝ) = ((2:ℕ):ℝ) by norm_num, Real.rpow_natCast]; norm_num
    linarith
  -- the two powers
  have ha1 : (2:ℝ) ^ (-(2:ℝ)) ≤ (2:ℝ) ^ (-(Real.logb 10 (Real.logb 10 101 * 10 + 1))) :=
    Real.rpow_le_rpow_of_exponent_le (by norm_num) (by linarith)
  have ha2 : (2:ℝ) ^ (-(Real.logb 10 (Real.logb 10 101 * 10 + 1))) ≤ (2:ℝ) ^ (-((13:ℝ) / 10)) :=
    Real.rpow_le_rpow_of_exponent_le (by norm_num) (by linarith)
  have hlog2a : (0:ℝ) ≤ Real.log 2 := Real.log_nonneg (by norm_num)
  have hlog2b : Real.log 2 ≤ 7 / 10 := by
    have := Real.log_two_lt_d9
    linarith
  have hb1 : (1:ℝ) ≤ (2:ℝ) ^ Real.log 2 := by
    have := Real.rpow_le_rpow_of_exponent_le (show (1:ℝ) ≤ 2 by norm_num) hlog2a
    rwa [Real.rpow_zero] at this
  have hb2 : (2:ℝ) ^ Real.log 2 ≤ (2:ℝ) ^ ((7:ℝ) / 10) :=
    Real.rpow_le_rpow_of_exponent_le (by norm_num) hlog2b
  have hquarter : (2:ℝ) ^ (-(2:ℝ)) = 1 / 4 := by
    rw [Real.rpow_neg (by norm_num), show (2:ℝ) = ((2:ℕ):ℝ) by norm_num, Real.rpow_natCast]
    norm_num
  have hprod : (2:ℝ) ^ (-((13:ℝ) / 10)) * (2:ℝ) ^ ((7:ℝ) / 10) = (2:ℝ) ^ (-(3:ℝ) / 5) := by
    rw [← Real.rpow_add (by norm_num)]
    norm_num
  have hapos : (0:ℝ) < (2:ℝ) ^ (-(Real.logb 10 (Real.logb 10 101 * 10 + 1))) :=
    Real.rpow_pos_of_pos (by norm_num) _
  have hbpos : (0:ℝ) < (2:ℝ) ^ Real.log 2 := Real.rpow_pos_of_pos (by norm_num) _
  have h35 := two_rpow_neg_three_fifths
  constructor
  · have : (1:ℝ) / 4 * 1 ≤ (2:ℝ) ^ (-(Real.logb 10 (Real.logb 10 101 * 10 + 1)))
        * (2:ℝ) ^ Real.log 2 := by
      rw [← hquarter]
      exact mul_le_mul ha1 hb1 (by norm_num) hapos.le
    nlinarith
  · have : (2:ℝ) ^ (-(Real.logb 10 (Real.logb 10 101 * 10 + 1))) * (2:ℝ) ^ Real.log 2
        ≤ (2:ℝ) ^ (-((13:ℝ) / 10)) * (2:ℝ) ^ ((7:ℝ) / 10) :=
      mul_le_mul ha2 hb2 hbpos.le (Real.rpow_nonneg (by norm_num) _)
    rw [hprod] at this
    nlinarith
/-- The selection of S4 for any three scores within the bounds of
`score_S4_outer` and `score_S4_middle`. -/
theorem draws_S4_bounds (s0 s1 : Nat) (h0 : 250 ≤ s0) (h0' : s0 ≤ 700)
    (h1 : 3300 ≤ s1) (h1' : s1 ≤ 4000) :
    draws_selecting [s0, s1, s0] 1 = s1 ∧ total_score [s0, s1, s0] = s0 + s1 + s0 := by
  have hs : [s0, s1, s0].sum < 2 ^ 32 := by
    simp only [List.sum_cons, List.sum_nil]; omega
  have hpos : ∀ s ∈ [s0, s1, s0], 0 < s := by
    intro s hs
    simp only [List.mem_cons, List.mem_singleton, List.not_mem_nil, or_false] at hs
    omega
  constructor
  · rw [draws_selecting_eq _ (by simp) hpos hs 1 (by simp)]
    simp
  · unfold total_score
    rw [state_scores_last _ (by simp) hs]
    simp only [List.sum_cons, List.sum_nil]; omega

theorem ceil_bounds (v : ℝ) (lo hi : Nat) (h1 : (lo:ℝ) ≤ v) (h2 : v ≤ (hi:ℝ)) :
    lo ≤ ⌈v⌉₊ ∧ ⌈v⌉₊ ≤ hi := by
  constructor
  · have := Nat.le_ceil v
    exact_mod_cast h1.trans this
  · exact Nat.ceil_le.mpr h2

theorem favor_scores_S4 (favor_score : Nat → Nat → Nat → Nat)
    (hscore : ∀ f t p, favor_score f t p
      = ⌈1000 * (2:ℝ) ^ (-(Real.logb 10 (Real.logb 10 ((f:ℝ) + 1) * (t:ℝ) + 1)))
          * (2:ℝ) ^ (Real.log ((p:ℝ) + 1))⌉₊) :
    ∃ s0 s1, favor_scores favor_score scenario_S4 = [s0, s1, s0] ∧
      250 ≤ s0 ∧ s0 ≤ 700 ∧ 3300 ≤ s1 ∧ s1 ≤ 4000 := by
  refine ⟨favor_score 100 10 1, favor_score 0 0 5, rfl, ?_⟩
  rw [hscore 100 10 1, hscore 0 0 5]
  obtain ⟨a, b⟩ := ceil_bounds _ 250 700
    ((by norm_num : ((250:ℕ):ℝ) ≤ 250).trans score_S4_outer.1)
    (score_S4_outer.2.trans (by norm_num : (700:ℝ) ≤ ((700:ℕ):ℝ)))
  obtain ⟨c, d⟩ := ceil_bounds _ 3300 4000
    ((by norm_num : ((3300:ℕ):ℝ) ≤ 3300).trans score_S4_middle.1)
    (score_S4_middle.2.trans (by norm_num : (4000:ℝ) ≤ ((4000:ℕ):ℝ)))
  exact ⟨a, b, c, d⟩

theorem favor_S4_share (favor_score : Nat → Nat → Nat → Nat)
    (hscore : ∀ f t p, favor_score f t p
      = ⌈1000 * (2:ℝ) ^ (-(Real.logb 10 (Real.logb 10 ((f:ℝ) + 1) * (t:ℝ) + 1)))
          * (2:ℝ) ^ (Real.log ((p:ℝ) + 1))⌉₊) :
    7 * total_score (favor_scores favor_score scenario_S4)
        < 10 * draws_selecting (favor_scores favor_score scenario_S4) 1 ∧
    10 * draws_selecting (favor_scores favor_score scenario_S4) 1
        < 9 * total_score (favor_scores favor_score scenario_S4) := by
  obtain ⟨s0, s1, he, a, b, c, d⟩ := favor_scores_S4 favor_score hscore
  obtain ⟨h1, h2⟩ := draws_S4_bounds s0 s1 a b c d
  rw [he, h1, h2]
  omega

/-- C12 (amended): in scenario S4, with the score of a state the ceiling of
`1000 * 2^(-log10(log10(fuzzs+1) * selected_times + 1)) * 2^(ln(paths_discovered+1))`
taken in exact real arithmetic, state 1 is selected for more than 70% and for fewer than 90% of the draws
`r` in `[0, total)`. -/
theorem favor_S4_selection (favor_score : Nat → Nat → Nat → Nat)
    (hscore : ∀ f t p, favor_score f t p
      = ⌈1000 * (2:ℝ) ^ (-(Real.logb 10 (Real.logb 10 ((f:ℝ) + 1) * (t:ℝ) + 1)))
          * (2:ℝ) ^ (Real.log ((p:ℝ) + 1))⌉₊) :
    7 * total_score (favor_scores favor_score scenario_S4)
        < 10 * draws_selecting (favor_scores favor_score scenario_S4) 1 ∧
    10 * draws_selecting (favor_scores favor_score scenario_S4) 1
        < 9 * total_score (favor_scores favor_score scenario_S4) :=
  favor_S4_share favor_score hscore

theorem favor_S4_selection_witness :
    7 * total_score (favor_scores (fun f t p =>
        ⌈1000 * (2:ℝ) ^ (-(Real.logb 10 (Real.logb 10 ((f:ℝ) + 1) * (t:ℝ) + 1)))
          * (2:ℝ) ^ (Real.log ((p:ℝ) + 1))⌉₊) scenario_S4)
        < 10 * draws_selecting (favor_scores (fun f t p =>
        ⌈1000 * (2:ℝ) ^ (-(Real.logb 10 (Real.logb 10 ((f:ℝ) + 1) * (t:ℝ) + 1)))
          * (2:ℝ) ^ (Real.log ((p:ℝ) + 1))⌉₊) scenario_S4) 1 ∧
    10 * draws_selecting (favor_scores (fun f t p =>
        ⌈1000 * (2:ℝ) ^ (-(Real.logb 10 (Real.logb 10 ((f:ℝ) + 1) * (t:ℝ) + 1)))
          * (2:ℝ) ^ (Real.log ((p:ℝ) + 1))⌉₊) scenario_S4) 1
        < 9 * total_score (favor_scores (fun f t p =>
        ⌈1000 * (2:ℝ) ^ (-(Real.logb 10 (Real.logb 10 ((f:ℝ) + 1) * (t:ℝ) + 1)))
          * (2:ℝ) ^ (Real.log ((p:ℝ) + 1))⌉₊) scenario_S4) :=
  favor_S4_selection _ (fun _ _ _ => rfl)

/-- C12 (counterexample): with the scores of the formula state 1 of S4 is not
selected for more than 90% of the draws. -/
theorem favor_S4_not_ninety :
    ¬ (9 * total_score (favor_scores (fun f t p =>
        ⌈1000 * (2:ℝ) ^ (-(Real.logb 10 (Real.logb 10 ((f:ℝ) + 1) * (t:ℝ) + 1)))
          * (2:ℝ) ^ (Real.log ((p:ℝ) + 1))⌉₊) scenario_S4)
        < 10 * draws_selecting (favor_scores (fun f t p =>
        ⌈1000 * (2:ℝ) ^ (-(Real.logb 10 (Real.logb 10 ((f:ℝ) + 1) * (t:ℝ) + 1)))
          * (2:ℝ) ^ (Real.log ((p:ℝ) + 1))⌉₊) scenario_S4) 1) := by
  have := (favor_S4_share _ (fun _ _ _ => rfl)).2
  omega

/-! ### Lemmas on the selection of M2 -/

theorem range_drop_cons (n i : Nat) (h : i < n) :
    (List.range n).drop i = i :: (List.range n).drop (i + 1) := by
  rw [List.drop_eq_getElem_cons (by simpa using h)]
  simp

theorem M2_count_loop_spec (regions : List region_t) (region_count first : Nat) :
    ∀ fuel i c, region_count ≤ i + fuel →
      M2_count_loop regions region_count first fuel i c
        = c + (((List.range region_count).drop i).takeWhile
            (fun i => (region_at regions i).state_count
              = (region_at regions first).state_count)).length := by
  intro fuel
  induction fuel with
  | zero =>
    intro i c h
    have : (List.range region_count).drop i = [] := by
      apply List.drop_eq_nil_of_le
      simp only [List.length_range]; omega
    simp [M2_count_loop, this]
  | succ fuel ih =>
    intro i c h
    simp only [M2_count_loop]
    by_cases hi : i < region_count
    · rw [if_pos hi, range_drop_cons region_count i hi]
      by_cases hc : (region_at regions i).state_count = (region_at regions first).state_count
      · rw [if_neg (not_not.mpr hc), ih (i + 1) (c + 1) (by omega)]
        simp only [List.takeWhile_cons, hc, decide_True, if_true, List.length_cons]
        omega
      · rw [if_pos hc]
        simp only [List.takeWhile_cons, hc, decide_False, List.length_nil, Nat.add_zero]
        rfl
    · rw [if_neg hi]
      have : (List.range region_count).drop i = [] := by
        apply List.drop_eq_nil_of_le
        simp only [List.length_range]; omega
      simp [this]

theorem M2_count_loop_eq (regions : List region_t) (region_count first : Nat) :
    M2_count_loop regions region_count first region_count first 0
      = M2_run_length regions region_count first := by
  rw [M2_count_loop_spec regions region_count first region_count first 0 (by omega)]
  simp [M2_run_length]

theorem M2_run_length_bounds (regions : List region_t) (region_count first : Nat)
    (h : first < region_count) :
    1 ≤ M2_run_length regions region_count first ∧
    first + M2_run_length regions region_count first ≤ region_count := by
  unfold M2_run_length
  constructor
  · rw [range_drop_cons region_count first h]
    simp [List.takeWhile_cons]
  · have h1 := (List.takeWhile_sublist
      (fun i => decide ((region_at regions i).state_count
        = (region_at regions first).state_count))
      (l := (List.range region_count).drop first)).length_le
    simp only [List.length_drop, List.length_range] at h1
    omega

/-- What the loop for `M2_start_region_ID` returns, with `M2_start_region_ID`
equal to `i` on entry. -/
theorem M2_start_loop_spec (regions : List region_t) (region_count target : Nat) :
    ∀ fuel i, region_count ≤ i + fuel → i ≤ region_count →
      (M2_start_loop regions region_count target fuel i i = none ∧
        ∃ j, i ≤ j ∧ j < region_count ∧ (region_at regions j).state_count = 0 ∧
          ∀ m, i ≤ m → m < j →
            0 < (region_at regions m).state_count ∧ reachable_state regions m ≠ target) ∨
      (M2_start_loop regions region_count target fuel i i = some region_count ∧
        ∀ m, i ≤ m → m < region_count →
          0 < (region_at regions m).state_count ∧ reachable_state regions m ≠ target) ∨
      (∃ k, M2_start_loop regions region_count target fuel i i = some (k + 1) ∧
        i ≤ k ∧ k < region_count ∧ 0 < (region_at regions k).state_count ∧
        reachable_state regions k = target ∧
        ∀ m, i ≤ m → m < k →
          0 < (region_at regions m).state_count ∧ reachable_state regions m ≠ target) := by
  intro fuel
  induction fuel with
  | zero =>
    intro i h1 h2
    have : i = region_count := by omega
    subst this
    right; left
    refine ⟨rfl, ?_⟩
    intro m hm hm'; omega
  | succ fuel ih =>
    intro i h1 h2
    simp only [M2_start_loop]
    by_cases hi : i < region_count
    · rw [if_pos hi]
      by_cases ha : (region_at regions i).state_count > 0
      · rw [if_pos ha]
        by_cases ht : (region_at regions i).state_sequence.getD
            ((region_at regions i).state_count - 1) 0 = target
        · rw [if_pos ht]
          right; right
          refine ⟨i, rfl, le_refl _, hi, ha, ht, ?_⟩
          intro m hm hm'; omega
        · rw [if_neg ht]
          have hstep : ∀ m, i ≤ m →
              (i + 1 ≤ m → 0 < (region_at regions m).state_count ∧
                reachable_state regions m ≠ target) →
              0 < (region_at regions m).state_count ∧ reachable_state regions m ≠ target := by
            intro m hm hrest
            by_cases hmi : m = i
            · rw [hmi]; exact ⟨ha, ht⟩
            · exact hrest (by omega)
          rcases ih (i + 1) (by omega) (by omega) with ⟨e, j, a, b, c, d⟩ | ⟨e, d⟩ |
            ⟨k, e, a, b, c, c', d⟩
          · left
            exact ⟨e, j, by omega, b, c, fun m hm hm' => hstep m hm (fun h => d m h hm')⟩
          · right; left
            exact ⟨e, fun m hm hm' => hstep m hm (fun h => d m h hm')⟩
          · right; right
            exact ⟨k, e, by omega, b, c, c', fun m hm hm' => hstep m hm (fun h => d m h hm')⟩
      · rw [if_neg ha]
        left
        refine ⟨rfl, i, le_refl _, hi, by omega, ?_⟩
        intro m hm hm'; omega
    · rw [if_neg hi]
      have : i = region_count := by omega
      right; left
      refine ⟨by rw [this], ?_⟩
      intro m hm hm'; omega

/-- The loop for `M2_start_region_ID` stops one past the first region that
reaches the target state. -/
theorem M2_start_loop_first (regions : List region_t) (region_count target k : Nat)
    (hk : k < region_count)
    (hann : ∀ j, j ≤ k → 0 < (region_at regions j).state_count)
    (hbefore : ∀ j, j < k → reachable_state regions j ≠ target)
    (hreach : reachable_state regions k = target) :
    M2_start_loop regions region_count target region_count 0 0 = some (k + 1) := by
  rcases M2_start_loop_spec regions region_count target region_count 0 (by omega) (by omega)
    with ⟨_, j, _, b, c, d⟩ | ⟨_, d⟩ | ⟨k', e, _, b, c, c', d⟩
  · exfalso
    by_cases hjk : j ≤ k
    · have := hann j hjk; omega
    · exact (d k (Nat.zero_le _) (by omega)).2 hreach
  · exact absurd hreach (d k (Nat.zero_le _) hk).2
  · have : k' = k := by
      by_contra hne
      rcases Nat.lt_or_gt_of_ne hne with h | h
      · exact hbefore k' h c'
      · exact (d k (Nat.zero_le _) h).2 hreach
    rw [e, this]

/-! ### C13 and C14: the subsequence M2 -/

theorem select_M2_target (regions : List region_t) (region_count target rnd1 rnd2 : Nat)
    (s : Nat) (ht : target ≠ 0) (hc : region_count ≠ 0)
    (hs : M2_start_loop regions region_count target region_count 0 0 = some s) :
    select_M2 true target regions region_count rnd1 rnd2
      = if s ≥ region_count then M2_selection.skip
        else M2_selection.proceed s (M2_run_length regions region_count s) := by
  simp only [select_M2, if_true, if_neg hc, if_neg ht, hs, M2_count_loop_eq]

theorem select_M2_none (regions : List region_t) (region_count target rnd1 rnd2 : Nat)
    (ht : target ≠ 0) (hc : region_count ≠ 0)
    (hs : M2_start_loop regions region_count target region_count 0 0 = none) :
    select_M2 true target regions region_count rnd1 rnd2 = M2_selection.skip := by
  simp only [select_M2, if_true, if_neg hc, if_neg ht, hs]

/-- C13 (amended): in state-aware mode with a non-zero target state, if region
`k` is the first region whose last annotated state id is the target, the
regions up to `k` are annotated and `k` is not the last region, then M2
starts at index `k + 1`, the region after that one, and extends over the
regions from there whose `state_count` equals that of region `k + 1`. -/
theorem select_M2_state_aware (regions : List region_t)
    (region_count target k rnd1 rnd2 : Nat) (ht : target ≠ 0)
    (hk : k + 1 < region_count)
    (hann : ∀ j, j ≤ k → 0 < (region_at regions j).state_count)
    (hbefore : ∀ j, j < k → reachable_state regions j ≠ target)
    (hreach : reachable_state regions k = target) :
    select_M2 true target regions region_count rnd1 rnd2
      = M2_selection.proceed (k + 1) (M2_run_length regions region_count (k + 1)) := by
  rw [select_M2_target regions region_count target rnd1 rnd2 (k + 1) ht (by omega)
    (M2_start_loop_first regions region_count target k (by omega) hann hbefore hreach)]
  rw [if_neg (by omega)]

theorem select_M2_state_aware_witness :
    select_M2 true 2 regions_123 3 0 0
      = M2_selection.proceed (1 + 1) (M2_run_length regions_123 3 (1 + 1)) :=
  select_M2_state_aware regions_123 3 2 1 0 0 (by decide) (by decide)
    (by intro j hj; interval_cases j <;> decide)
    (by intro j hj; interval_cases j; decide)
    (by decide)

/-- C13 (counterexample): region 1 is the first region whose last state id is
the target 2, and M2 starts at index 2, not at index 1. -/
theorem select_M2_starts_after :
    reachable_state regions_123 0 ≠ 2 ∧ reachable_state regions_123 1 = 2 ∧
    select_M2 true 2 regions_123 3 0 0 = M2_selection.proceed 2 1 := by
  decide

/-- C14: whenever the selection of M2 goes on, `M2_start_region_ID` is below
`region_count`, `M2_region_count` is at least 1 and the subrange ends within
the regions, in both modes and for all random draws; in state-aware mode with
a non-zero target an entry with regions is skipped when an unannotated region
comes before any region reaching the target, and when no region but the last
reaches the target. -/
theorem select_M2_well_formed (state_aware_mode : Bool) (target : Nat)
    (regions : List region_t) (region_count rnd1 rnd2 : Nat) :
    (∀ start count,
      select_M2 state_aware_mode target regions region_count rnd1 rnd2
        = M2_selection.proceed start count →
      start < region_count ∧ 1 ≤ count ∧ start + count ≤ region_count) ∧
    (target ≠ 0 → region_count ≠ 0 →
      (∃ j, j < region_count ∧ (region_at regions j).state_count = 0 ∧
        ∀ i, i < j → 0 < (region_at regions i).state_count →
          reachable_state regions i ≠ target) →
      select_M2 true target regions region_count rnd1 rnd2 = M2_selection.skip) ∧
    (target ≠ 0 → region_count ≠ 0 →
      (∀ i, i + 1 < region_count → 0 < (region_at regions i).state_count →
        reachable_state regions i ≠ target) →
      select_M2 true target regions region_count rnd1 rnd2 = M2_selection.skip) := by
  refine ⟨?_, ?_, ?_⟩
  · intro start count h
    by_cases hc : region_count = 0
    · cases state_aware_mode <;> simp [select_M2, hc] at h
    cases state_aware_mode with
    | false =>
      simp only [select_M2, Bool.false_eq_true, if_false, if_neg hc, UR,
        M2_selection.proceed.injEq] at h
      obtain ⟨h1, h2⟩ := h
      have hlt : rnd1 % region_count < region_count := Nat.mod_lt _ (by omega)
      rw [h1] at h2 hlt
      have hlt2 : rnd2 % (region_count - start) < region_count - start :=
        Nat.mod_lt _ (by omega)
      by_cases hz : rnd2 % (region_count - start) = 0
      · rw [if_pos hz] at h2; omega
      · rw [if_neg hz] at h2; omega
    | true =>
      by_cases ht : target = 0
      · simp only [select_M2, if_true, if_neg hc, if_pos ht, M2_count_loop_eq,
          M2_selection.proceed.injEq] at h
        obtain ⟨h1, h2⟩ := h
        have := M2_run_length_bounds regions region_count 0 (by omega)
        omega
      · cases hs : M2_start_loop regions region_count target region_count 0 0 with
        | none =>
          rw [select_M2_none regions region_count target rnd1 rnd2 ht hc hs] at h
          exact absurd h (by simp)
        | some s =>
          rw [select_M2_target regions region_count target rnd1 rnd2 s ht hc hs] at h
          by_cases hge : s ≥ region_count
          · rw [if_pos hge] at h; exact absurd h (by simp)
          · rw [if_neg hge] at h
            simp only [M2_selection.proceed.injEq] at h
            obtain ⟨h1, h2⟩ := h
            have := M2_run_length_bounds regions region_count s (by omega)
            omega
  · rintro ht hc ⟨j, hj, hj0, hjb⟩
    rcases M2_start_loop_spec regions region_count target region_count 0 (by omega) (by omega)
      with ⟨e, _⟩ | ⟨e, d⟩ | ⟨k, e, _, b, c, c', d⟩
    · exact select_M2_none regions region_count target rnd1 rnd2 ht hc e
    · have := (d j (Nat.zero_le _) hj).1; omega
    · exfalso
      rcases Nat.lt_trichotomy k j with h | h | h
      · exact hjb k h c c'
      · rw [h] at c; omega
      · have := (d j (Nat.zero_le _) h).1; omega
  · intro ht hc hall
    rcases M2_start_loop_spec regions region_count target region_count 0 (by omega) (by omega)
      with ⟨e, _⟩ | ⟨e, d⟩ | ⟨k, e, _, b, c, c', d⟩
    · exact select_M2_none regions region_count target rnd1 rnd2 ht hc e
    · rw [select_M2_target regions region_count target rnd1 rnd2 _ ht hc e, if_pos (le_refl _)]
    · rw [select_M2_target regions region_count target rnd1 rnd2 _ ht hc e]
      by_cases hk : k + 1 < region_count
      · exact absurd c' (hall k hk c)
      · rw [if_pos (by omega)]

theorem select_M2_well_formed_witness :
    select_M2 true 3 regions_123 3 0 0 = M2_selection.skip :=
  (select_M2_well_formed true 3 regions_123 3 0 0).2.2 (by decide) (by decide)
    (by intro i hi; have hi2 : i < 2 := by omega
        interval_cases i <;> decide)

/-! ### Lemmas on the effector map -/

theorem EFF_APOS_eq (S p : Nat) : EFF_APOS S p = p / 2 ^ S := by
  simp [EFF_APOS, Nat.shiftRight_eq_div_pow]

theorem EFF_REM_eq (S x : Nat) : EFF_REM S x = x % 2 ^ S := by
  simp [EFF_REM, Nat.one_shiftLeft, Nat.and_pow_two_sub_one_eq_mod]

theorem EFF_APOS_lt_ALEN (S k len : Nat) (h : k < len) :
    EFF_APOS S k < EFF_ALEN S len := by
  unfold EFF_ALEN
  rw [EFF_APOS_eq, EFF_APOS_eq, EFF_REM_eq]
  have hp : 0 < 2 ^ S := Nat.pos_pow_of_pos S (by omega)
  have hle : k / 2 ^ S ≤ len / 2 ^ S := Nat.div_le_div_right (by omega)
  by_cases hr : len % 2 ^ S ≠ 0
  · rw [if_pos hr]; omega
  · rw [if_neg hr]
    have hr0 : len % 2 ^ S = 0 := by omega
    have hlen : len = 2 ^ S * (len / 2 ^ S) := by
      have := Nat.div_add_mod len (2 ^ S); omega
    have : k / 2 ^ S < len / 2 ^ S := by
      apply Nat.div_lt_of_lt_mul
      rw [← hlen]; exact h
    omega

theorem getD_set_eq (l : List Nat) (i v : Nat) (h : i < l.length) :
    (l.set i v).getD i 0 = v := by
  simp [List.getD_eq_getElem?_getD, List.getElem?_set_self h]

theorem getD_set_ne (l : List Nat) (i j v : Nat) (h : i ≠ j) :
    (l.set i v).getD j 0 = l.getD j 0 := by
  simp [List.getD_eq_getElem?_getD, List.getElem?_set_ne h]

theorem getD_replicate_zero (n b : Nat) : (List.replicate n 0).getD b 0 = 0 := by
  rw [List.getD_eq_getElem?_getD]
  by_cases h : b < n
  · simp [List.getElem?_replicate, h]
  · simp [List.getElem?_replicate, h]

theorem eff_init_inv (S MIN : Nat) (dumb : Bool) (len exec : Nat)
    (flip_run : Nat → Option Nat) (hlen : 1 ≤ len) :
    eff_inv S MIN dumb len exec flip_run 0 (eff_init S len) := by
  have h0 : 0 < EFF_ALEN S len := by
    have := EFF_APOS_lt_ALEN S 0 len (by omega); omega
  have hl : EFF_APOS S (len - 1) < EFF_ALEN S len := EFF_APOS_lt_ALEN S _ len (by omega)
  have hflag : ∀ b, block_flagged S MIN dumb len exec flip_run 0 b
      ↔ (b = 0 ∨ b = EFF_APOS S (len - 1)) := by
    intro b
    unfold block_flagged
    constructor
    · rintro (h | h | ⟨k, hk, _⟩)
      · exact Or.inl h
      · exact Or.inr h
      · omega
    · rintro (h | h)
      · exact Or.inl h
      · exact Or.inr (Or.inl h)
  unfold eff_init
  by_cases hz : EFF_APOS S (len - 1) ≠ 0
  · simp only [if_pos hz]
    refine ⟨by simp, ?_⟩
    intro b hb
    rw [hflag]
    by_cases hb1 : b = EFF_APOS S (len - 1)
    · left
      refine ⟨?_, Or.inr hb1⟩
      rw [hb1]
      exact getD_set_eq _ _ _ (by simpa using hl)
    · rw [getD_set_ne _ _ _ _ (Ne.symm hb1)]
      by_cases hb0 : b = 0
      · left
        refine ⟨?_, Or.inl hb0⟩
        rw [hb0]
        exact getD_set_eq _ _ _ (by simpa using h0)
      · right
        rw [getD_set_ne _ _ _ _ (Ne.symm hb0)]
        refine ⟨getD_replicate_zero _ _, ?_⟩
        rintro (h | h)
        · exact hb0 h
        · exact hb1 h
  · simp only [if_neg hz]
    have hz0 : EFF_APOS S (len - 1) = 0 := by omega
    refine ⟨by simp, ?_⟩
    intro b hb
    rw [hflag]
    by_cases hb0 : b = 0
    · left
      refine ⟨?_, Or.inl hb0⟩
      rw [hb0]
      exact getD_set_eq _ _ _ (by simpa using h0)
    · right
      rw [getD_set_ne _ _ _ _ (Ne.symm hb0)]
      refine ⟨getD_replicate_zero _ _, ?_⟩
      rintro (h | h)
      · exact hb0 h
      · rw [hz0] at h; exact hb0 h

theorem block_flagged_succ (S MIN : Nat) (dumb : Bool) (len exec : Nat)
    (flip_run : Nat → Option Nat) (m b : Nat) :
    block_flagged S MIN dumb len exec flip_run (m + 1) b ↔
      block_flagged S MIN dumb len exec flip_run m b ∨
      (EFF_APOS S m = b ∧ flip_changes MIN dumb len exec flip_run m = true) := by
  unfold block_flagged
  constructor
  · rintro (h | h | ⟨k, hk, h1, h2⟩)
    · exact Or.inl (Or.inl h)
    · exact Or.inl (Or.inr (Or.inl h))
    · by_cases hkm : k = m
      · rw [hkm] at h1 h2; exact Or.inr ⟨h1, h2⟩
      · exact Or.inl (Or.inr (Or.inr ⟨k, by omega, h1, h2⟩))
  · rintro ((h | h | ⟨k, hk, h1, h2⟩) | ⟨h1, h2⟩)
    · exact Or.inl h
    · exact Or.inr (Or.inl h)
    · exact Or.inr (Or.inr ⟨k, by omega, h1, h2⟩)
    · exact Or.inr (Or.inr ⟨m, by omega, h1, h2⟩)

theorem flip8_mark_inv (S MIN : Nat) (dumb : Bool) (len exec : Nat)
    (flip_run : Nat → Option Nat) (m h : Nat) (st : eff_state) (hm : m < len)
    (hrun : flip_run m = some h)
    (hinv : eff_inv S MIN dumb len exec flip_run m st) :
    eff_inv S MIN dumb len exec flip_run (m + 1)
      (flip8_mark S MIN dumb len exec m h st) := by
  obtain ⟨hlen, hall⟩ := hinv
  have hpos : EFF_APOS S m < EFF_ALEN S len := EFF_APOS_lt_ALEN S m len hm
  have hch : flip_changes MIN dumb len exec flip_run m
      = decide ((if !dumb ∧ len ≥ MIN then h else 2 ^ 32 - 1 - exec) ≠ exec) := by
    simp only [flip_changes, hrun]
  unfold flip8_mark
  by_cases he : st.eff_map.getD (EFF_APOS S m) 0 = 0
  · rw [if_pos he]
    by_cases hc : (if !dumb ∧ len ≥ MIN then h else 2 ^ 32 - 1 - exec) ≠ exec
    · simp only [if_pos hc]
      refine ⟨by simp [hlen], ?_⟩
      intro b hb
      rw [block_flagged_succ]
      by_cases hbm : b = EFF_APOS S m
      · left
        rw [hbm]
        refine ⟨getD_set_eq _ _ _ (by rw [hlen]; exact hpos), Or.inr ⟨rfl, ?_⟩⟩
        rw [hch]; exact decide_eq_true hc
      · simp only [getD_set_ne _ _ _ _ (Ne.symm hbm)]
        rcases hall b hb with ⟨h1, h2⟩ | ⟨h1, h2⟩
        · exact Or.inl ⟨h1, Or.inl h2⟩
        · right
          refine ⟨h1, ?_⟩
          rintro (h3 | ⟨h3, _⟩)
          · exact h2 h3
          · exact hbm h3.symm
    · simp only [if_neg hc]
      refine ⟨hlen, ?_⟩
      intro b hb
      rw [block_flagged_succ]
      rcases hall b hb with ⟨h1, h2⟩ | ⟨h1, h2⟩
      · exact Or.inl ⟨h1, Or.inl h2⟩
      · right
        refine ⟨h1, ?_⟩
        rintro (h3 | ⟨_, h3⟩)
        · exact h2 h3
        · rw [hch] at h3
          exact hc (of_decide_eq_true h3)
  · rw [if_neg he]
    refine ⟨hlen, ?_⟩
    intro b hb
    rw [block_flagged_succ]
    rcases hall b hb with ⟨h1, h2⟩ | ⟨h1, h2⟩
    · exact Or.inl ⟨h1, Or.inl h2⟩
    · right
      refine ⟨h1, ?_⟩
      rintro (h3 | ⟨h3, _⟩)
      · exact h2 h3
      · rw [← h3] at h1; exact he h1

theorem flip8_loop_inv (S MIN : Nat) (dumb : Bool) (len exec : Nat)
    (flip_run : Nat → Option Nat) :
    ∀ fuel m st st', len ≤ m + fuel → m ≤ len →
      eff_inv S MIN dumb len exec flip_run m st →
      flip8_loop S MIN dumb len exec flip_run fuel m st = some st' →
      eff_inv S MIN dumb len exec flip_run len st' := by
  intro fuel
  induction fuel with
  | zero =>
    intro m st st' h1 h2 hinv hloop
    have : m = len := by omega
    simp only [flip8_loop, Option.some.injEq] at hloop
    rw [this] at hinv
    rw [← hloop]; exact hinv
  | succ fuel ih =>
    intro m st st' h1 h2 hinv hloop
    simp only [flip8_loop] at hloop
    by_cases hm : m < len
    · rw [if_pos hm] at hloop
      cases hrun : flip_run m with
      | none => rw [hrun] at hloop; exact absurd hloop (by simp)
      | some h =>
        rw [hrun] at hloop
        exact ih (m + 1) _ st' (by omega) (by omega)
          (flip8_mark_inv S MIN dumb len exec flip_run m h st hm hrun hinv) hloop
    · rw [if_neg hm, Option.some.injEq] at hloop
      have : m = len := by omega
      rw [this] at hinv
      rw [← hloop]; exact hinv

theorem flip8_scan_inv (S MIN : Nat) (dumb : Bool) (len exec : Nat)
    (flip_run : Nat → Option Nat) (st : eff_state) (hlen : 1 ≤ len)
    (h : flip8_scan S MIN dumb len exec flip_run = some st) :
    eff_inv S MIN dumb len exec flip_run len st :=
  flip8_loop_inv S MIN dumb len exec flip_run len 0 _ st (by omega) (by omega)
    (eff_init_inv S MIN dumb len exec flip_run hlen) h

/-! ### C16: the effector map -/

theorem arith8_at_fst (ARITH_MAX i orig : Nat) :
    ∀ fuel j e, e ∈ arith8_at ARITH_MAX i orig fuel j → e.1 = i := by
  intro fuel
  induction fuel with
  | zero => intro j e h; simp [arith8_at] at h
  | succ fuel ih =>
    intro j e h
    simp only [arith8_at] at h
    by_cases hj : j ≤ ARITH_MAX
    · rw [if_pos hj] at h
      simp only [List.mem_append] at h
      rcases h with (h | h) | h
      · split at h
        · simp only [List.mem_singleton] at h; rw [h]
        · simp at h
      · split at h
        · simp only [List.mem_singleton] at h; rw [h]
        · simp at h
      · exact ih _ _ h
    · rw [if_neg hj] at h; simp at h

theorem arith8_visits (S ARITH_MAX : Nat) (eff_map out_buf : List Nat) (e : Nat × Nat)
    (h : e ∈ arith8 S ARITH_MAX eff_map out_buf) :
    eff_map.getD (EFF_APOS S e.1) 0 ≠ 0 := by
  simp only [arith8, List.mem_flatMap, List.mem_range] at h
  obtain ⟨i, _, hi⟩ := h
  by_cases hz : eff_map.getD (EFF_APOS S i) 0 = 0
  · rw [if_pos hz] at hi; simp at hi
  · rw [if_neg hz] at hi
    rw [arith8_at_fst _ _ _ _ _ _ hi]; exact hz

theorem eff_finish_entry (S MIN MAX : Nat) (dumb : Bool) (len exec : Nat)
    (flip_run : Nat → Option Nat) (st : eff_state)
    (hinv : eff_inv S MIN dumb len exec flip_run len st) (b : Nat)
    (hb : b < EFF_ALEN S len) :
    ((eff_finish S MAX len st).getD b 0 = 0 ↔
      ¬ eff_dense S MAX len st ∧ ¬ block_flagged S MIN dumb len exec flip_run len b) ∧
    ((eff_finish S MAX len st).getD b 0 = 0 ∨ (eff_finish S MAX len st).getD b 0 = 1) := by
  by_cases hd : eff_dense S MAX len st
  · have hf : eff_finish S MAX len st = List.replicate (EFF_ALEN S len) 1 := by
      have hd' := hd
      unfold eff_dense at hd'
      unfold eff_finish
      rw [if_pos hd']
    rw [hf]
    have : (List.replicate (EFF_ALEN S len) 1).getD b 0 = 1 := by
      simp [List.getD_eq_getElem?_getD, List.getElem?_replicate, hb]
    rw [this]
    exact ⟨⟨fun h => absurd h (by omega), fun h => absurd hd h.1⟩, Or.inr rfl⟩
  · have hf : eff_finish S MAX len st = st.eff_map := by
      have hd' := hd
      unfold eff_dense at hd'
      unfold eff_finish
      rw [if_neg hd']
    rw [hf]
    rcases hinv.2 b hb with ⟨h1, h2⟩ | ⟨h1, h2⟩
    · rw [h1]
      exact ⟨⟨fun h => absurd h (by omega), fun h => absurd h2 h.2⟩, Or.inr rfl⟩
    · rw [h1]
      exact ⟨⟨fun _ => ⟨hd, h2⟩, fun _ => rfl⟩, Or.inl rfl⟩

/-- C16 (amended): if no run of the bitflip 8/8 stage abandons the entry, the
stage ends with an effector map of one entry per block of
`2^EFF_MAP_SCALE2` bytes.  The entry of byte `i` is 0 or 1, and it is 0
exactly when the map is not flagged as a whole for density, the block of `i`
is neither the first block nor the block of the last byte, and no byte of the
block changed the checksum when flipped (in dumb mode and for buffers shorter
than `EFF_MIN_LEN` every byte counts as changing it).  The arith 8/8 stage
performs no execution at a position whose entry is 0. -/
theorem effector_map_blocks (S MIN MAX ARITH_MAX : Nat) (dumb : Bool) (len exec : Nat)
    (flip_run : Nat → Option Nat) (st : eff_state) (out_buf : List Nat)
    (hlen : 1 ≤ len) (hscan : flip8_scan S MIN dumb len exec flip_run = some st)
    (i : Nat) (hi : i < len) :
    flip8_eff_map S MIN MAX dumb len exec flip_run = some (eff_finish S MAX len st) ∧
    ((eff_finish S MAX len st).getD (EFF_APOS S i) 0 = 0 ↔
      ¬ eff_dense S MAX len st ∧
      ¬ block_flagged S MIN dumb len exec flip_run len (EFF_APOS S i)) ∧
    ((eff_finish S MAX len st).getD (EFF_APOS S i) 0 = 0 ∨
      (eff_finish S MAX len st).getD (EFF_APOS S i) 0 = 1) ∧
    ((eff_finish S MAX len st).getD (EFF_APOS S i) 0 = 0 →
      ∀ e, e ∈ arith8 S ARITH_MAX (eff_finish S MAX len st) out_buf → e.1 ≠ i) := by
  have hinv := flip8_scan_inv S MIN dumb len exec flip_run st hlen hscan
  obtain ⟨h1, h2⟩ := eff_finish_entry S MIN MAX dumb len exec flip_run st hinv
    (EFF_APOS S i) (EFF_APOS_lt_ALEN S i len hi)
  refine ⟨by simp only [flip8_eff_map, hscan, Option.map_some'], h1, h2, ?_⟩
  intro hz e he hei
  have := arith8_visits S ARITH_MAX _ out_buf e he
  rw [hei] at this
  exact this hz

theorem effector_map_blocks_witness :
    flip8_eff_map 0 0 100 false 3 77 (fun k => if k = 1 then some 77 else some 5)
      = some (eff_finish 0 100 3 ⟨[1, 0, 1], 2⟩) ∧
    ((eff_finish 0 100 3 ⟨[1, 0, 1], 2⟩).getD (EFF_APOS 0 1) 0 = 0 ↔
      ¬ eff_dense 0 100 3 ⟨[1, 0, 1], 2⟩ ∧
      ¬ block_flagged 0 0 false 3 77 (fun k => if k = 1 then some 77 else some 5) 3
          (EFF_APOS 0 1)) ∧
    ((eff_finish 0 100 3 ⟨[1, 0, 1], 2⟩).getD (EFF_APOS 0 1) 0 = 0 ∨
      (eff_finish 0 100 3 ⟨[1, 0, 1], 2⟩).getD (EFF_APOS 0 1) 0 = 1) ∧
    ((eff_finish 0 100 3 ⟨[1, 0, 1], 2⟩).getD (EFF_APOS 0 1) 0 = 0 →
      ∀ e, e ∈ arith8 0 35 (eff_finish 0 100 3 ⟨[1, 0, 1], 2⟩) [0, 0xAA, 0] → e.1 ≠ 1) :=
  effector_map_blocks 0 0 100 35 false 3 77 (fun k => if k = 1 then some 77 else some 5)
    ⟨[1, 0, 1], 2⟩ [0, 0xAA, 0] (by decide) (by decide) 1 (by decide)

/-- C16 (counterexample): on the buffer of S2, of 3 bytes, with blocks of 8
bytes and `EFF_MIN_LEN = 128` the map has the single entry 1, so byte 1 is
not marked ineffective although its flip leaves the checksum 77 unchanged,
and arith 8/8 executes at position 1; with blocks of one byte and no minimal
length, byte 0 is flagged although its flip leaves the checksum unchanged. -/
theorem effector_map_not_bytewise :
    flip8_eff_map 3 128 90 false 3 77 (fun k => if k = 1 then some 77 else some 5)
      = some [1] ∧
    (1, 0xAA + 5) ∈ arith8 3 35 [1] [0, 0xAA, 0] ∧
    flip8_eff_map 0 0 100 false 3 77 (fun _ => some 77) = some [1, 0, 1] := by
  refine ⟨by decide, ?_, by decide⟩
  decide

/-! ### C18: splicing -/

theorem locate_diffs_loop_spec (ptr1 ptr2 : List Nat) (len : Nat) :
    ∀ fuel pos f l, len ≤ pos + fuel → pos ≤ len →
      diffs_located ptr1 ptr2 pos f l →
      diffs_located ptr1 ptr2 len
        (locate_diffs_loop ptr1 ptr2 len fuel pos f l).1
        (locate_diffs_loop ptr1 ptr2 len fuel pos f l).2 := by
  intro fuel
  induction fuel with
  | zero =>
    intro pos f l h1 h2 hinv
    have : pos = len := by omega
    rw [this] at hinv
    exact hinv
  | succ fuel ih =>
    intro pos f l h1 h2 hinv
    simp only [locate_diffs_loop]
    by_cases hp : pos < len
    · rw [if_pos hp]
      by_cases hd : ptr1.getD pos 0 ≠ ptr2.getD pos 0
      · rw [if_pos hd]
        apply ih (pos + 1) _ _ (by omega) (by omega)
        right
        rcases hinv with ⟨hf, _, hag⟩ | ⟨a, b, hf, hl, hab, hb, hda, hdb, hbe, haf⟩
        · refine ⟨pos, pos, by rw [if_pos hf], rfl, le_refl _, by omega, hd, hd, ?_, ?_⟩
          · intro p hp'; exact hag p hp'
          · intro p hp1 hp2; omega
        · have hne : f ≠ -1 := by rw [hf]; omega
          refine ⟨a, pos, by rw [if_neg hne]; exact hf, rfl, by omega, by omega, hda, hd,
            hbe, ?_⟩
          intro p hp1 hp2; omega
      · rw [if_neg hd]
        have heq : ptr1.getD pos 0 = ptr2.getD pos 0 := not_not.mp hd
        apply ih (pos + 1) _ _ (by omega) (by omega)
        rcases hinv with ⟨hf, hl, hag⟩ | ⟨a, b, hf, hl, hab, hb, hda, hdb, hbe, haf⟩
        · left
          refine ⟨hf, hl, ?_⟩
          intro p hp'
          by_cases hpp : p = pos
          · rw [hpp]; exact heq
          · exact hag p (by omega)
        · right
          refine ⟨a, b, hf, hl, hab, by omega, hda, hdb, hbe, ?_⟩
          intro p hp1 hp2
          by_cases hpp : p = pos
          · rw [hpp]; exact heq
          · exact haf p hp1 (by omega)
    · rw [if_neg hp]
      have : pos = len := by omega
      rw [this] at hinv
      exact hinv

theorem locate_diffs_spec (ptr1 ptr2 : List Nat) (len : Nat) :
    diffs_located ptr1 ptr2 len (locate_diffs ptr1 ptr2 len).1
      (locate_diffs ptr1 ptr2 len).2 := by
  apply locate_diffs_loop_spec ptr1 ptr2 len len 0 (-1) (-1) (by omega) (by omega)
  left
  exact ⟨rfl, rfl, fun p hp => by omega⟩

theorem memcpy_length (dst src : List Nat) (n : Nat) (h1 : n ≤ src.length)
    (h2 : n ≤ dst.length) : (memcpy dst src n).length = dst.length := by
  simp only [memcpy, List.length_append, List.length_take, List.length_drop]
  omega

theorem memcpy_getD_lt (dst src : List Nat) (n p : Nat) (h1 : n ≤ src.length)
    (hp : p < n) : (memcpy dst src n).getD p 0 = src.getD p 0 := by
  simp only [memcpy, List.getD_eq_getElem?_getD]
  rw [List.getElem?_append_left (by simp; omega), List.getElem?_take_of_lt hp]

theorem memcpy_getD_ge (dst src : List Nat) (n p : Nat) (h1 : n ≤ src.length)
    (hp : n ≤ p) : (memcpy dst src n).getD p 0 = dst.getD p 0 := by
  simp only [memcpy, List.getD_eq_getElem?_getD]
  rw [List.getElem?_append_right (by simp; omega)]
  simp only [List.length_take, List.getElem?_drop]
  congr 2
  omega
theorem splice_eq (in_buf new_buf : List Nat) (len target_len rnd : Nat) (f l : Int)
    (hld : locate_diffs in_buf new_buf (min len target_len) = (f, l)) :
    splice in_buf new_buf len target_len rnd
      = if f < 0 ∨ l < 2 ∨ f = l then none
        else some ((f + (UR rnd (l - f).toNat : Int)).toNat,
          memcpy (List.replicate target_len 0)
            (memcpy new_buf in_buf (f + (UR rnd (l - f).toNat : Int)).toNat) target_len) := by
  simp only [splice, hld]

/-- C18: `locate_diffs` returns the first and last offset at which the two
buffers differ within the first `min(len, target.len)` bytes, or `(-1, -1)`
when they agree there; the splice is performed exactly when `f >= 0`,
`l >= 2` and `f != l`; then for every draw `f <= split_at < l`, the new input
has length `target.len`, equals the current buffer on `[0, split_at)` and the
other file on `[split_at, target.len)`. -/
theorem splice_spec (in_buf new_buf : List Nat) (rnd : Nat) :
    diffs_located in_buf new_buf (min in_buf.length new_buf.length)
      (locate_diffs in_buf new_buf (min in_buf.length new_buf.length)).1
      (locate_diffs in_buf new_buf (min in_buf.length new_buf.length)).2 ∧
    (splice in_buf new_buf in_buf.length new_buf.length rnd = none ↔
      (locate_diffs in_buf new_buf (min in_buf.length new_buf.length)).1 < 0 ∨
      (locate_diffs in_buf new_buf (min in_buf.length new_buf.length)).2 < 2 ∨
      (locate_diffs in_buf new_buf (min in_buf.length new_buf.length)).1
        = (locate_diffs in_buf new_buf (min in_buf.length new_buf.length)).2) ∧
    ∀ split_at out_buf,
      splice in_buf new_buf in_buf.length new_buf.length rnd = some (split_at, out_buf) →
      (locate_diffs in_buf new_buf (min in_buf.length new_buf.length)).1 ≤ (split_at : Int) ∧
      (split_at : Int) < (locate_diffs in_buf new_buf (min in_buf.length new_buf.length)).2 ∧
      out_buf.length = new_buf.length ∧
      (∀ p, p < split_at → out_buf.getD p 0 = in_buf.getD p 0) ∧
      (∀ p, split_at ≤ p → p < new_buf.length → out_buf.getD p 0 = new_buf.getD p 0) := by
  have hspec := locate_diffs_spec in_buf new_buf (min in_buf.length new_buf.length)
  rcases hld : locate_diffs in_buf new_buf (min in_buf.length new_buf.length) with ⟨f, l⟩
  rw [hld] at hspec
  simp only at hspec
  have heq := splice_eq in_buf new_buf in_buf.length new_buf.length rnd f l hld
  refine ⟨hspec, ?_, ?_⟩
  · rw [heq]
    by_cases hc : f < 0 ∨ l < 2 ∨ f = l
    · rw [if_pos hc]; exact ⟨fun _ => hc, fun _ => rfl⟩
    · rw [if_neg hc]; exact ⟨fun h => absurd h (by simp), fun h => absurd h hc⟩
  · intro split_at out_buf hs
    rw [heq] at hs
    by_cases hc : f < 0 ∨ l < 2 ∨ f = l
    · rw [if_pos hc] at hs; exact absurd hs (by simp)
    · rw [if_neg hc, Option.some.injEq, Prod.mk.injEq] at hs
      obtain ⟨hs1, hs2⟩ := hs
      rcases hspec with ⟨hf, _, _⟩ | ⟨a, b, hf, hl, hab, hb, _, _, _, _⟩
      · exact absurd (Or.inl (by omega)) hc
      · have hablt : a < b := by
          by_contra hge
          have : a = b := by omega
          exact hc (Or.inr (Or.inr (by rw [hf, hl, this])))
        have hur : UR rnd (l - f).toNat < b - a := by
          have : (l - f).toNat = b - a := by rw [hf, hl]; omega
          rw [this]
          exact Nat.mod_lt _ (by omega)
        have hsa : split_at = a + UR rnd (l - f).toNat := by
          rw [← hs1, hf]; omega
        have hsl1 : split_at ≤ in_buf.length := by omega
        have hsl2 : split_at ≤ new_buf.length := by omega
        have hinner : (memcpy new_buf in_buf split_at).length = new_buf.length :=
          memcpy_length _ _ _ hsl1 hsl2
        rw [hs1] at hs2
        refine ⟨by rw [hf]; omega, by rw [hl]; omega, ?_, ?_, ?_⟩
        · rw [← hs2, memcpy_length _ _ _ (by omega) (by simp)]
          simp
        · intro p hp
          rw [← hs2, memcpy_getD_lt _ _ _ _ (by omega) (by omega),
            memcpy_getD_lt _ _ _ _ hsl1 hp]
        · intro p hp1 hp2
          rw [← hs2, memcpy_getD_lt _ _ _ _ (by omega) hp2,
            memcpy_getD_ge _ _ _ _ hsl1 hp1]

theorem splice_spec_witness :
    diffs_located [1, 2, 3, 4, 5] [1, 9, 3, 9, 5, 6, 7] (min 5 7)
      (locate_diffs [1, 2, 3, 4, 5] [1, 9, 3, 9, 5, 6, 7] (min 5 7)).1
      (locate_diffs [1, 2, 3, 4, 5] [1, 9, 3, 9, 5, 6, 7] (min 5 7)).2 :=
  (splice_spec [1, 2, 3, 4, 5] [1, 9, 3, 9, 5, 6, 7] 1).1

theorem splice_example :
    splice [1, 2, 3, 4, 5] [1, 9, 3, 9, 5, 6, 7] 5 7 1 = some (2, [1, 2, 3, 9, 5, 6, 7]) := by
  decide

/-! ### C19: marking an entry as fuzzed -/

/-- C19 (code behaviour): at `abandon_entry` without a stop request and with a
calibrated entry, the cell of the target state and the entry is 1 afterwards
when the entry was not fuzzed before; for an entry that was fuzzed before
(`was_fuzzed` set, under whatever target state) nothing is written and the
cell of the target state keeps its value. -/
theorem abandon_entry_marks (s : fuzz_state) (queue_cur pending_not_fuzzed : Nat)
    (hcal : (s.queue queue_cur).cal_failed = 0) :
    ((s.queue queue_cur).was_fuzzed = 0 →
      (abandon_entry 0 s queue_cur pending_not_fuzzed).1.was_fuzzed_map
        (get_state_index s.state_ids s.target_state_id) (s.queue queue_cur).index = 1) ∧
    ((s.queue queue_cur).was_fuzzed ≠ 0 →
      (abandon_entry 0 s queue_cur pending_not_fuzzed).1.was_fuzzed_map
        = s.was_fuzzed_map) := by
  constructor
  · intro hw
    have hc : (0 : Nat) = 0 ∧ (s.queue queue_cur).cal_failed = 0 ∧
        (s.queue queue_cur).was_fuzzed = 0 := ⟨rfl, hcal, hw⟩
    have hm : (mark_fuzzed s queue_cur).was_fuzzed_map
        (get_state_index s.state_ids s.target_state_id) (s.queue queue_cur).index = 1 := by
      simp [mark_fuzzed, set_entry]
    unfold abandon_entry
    rw [if_pos hc]
    dsimp only
    by_cases hf : ((mark_fuzzed s queue_cur).queue queue_cur).favored ≠ 0
    · rw [if_pos hf]; exact hm
    · rw [if_neg hf]; exact hm
  · intro hw
    have hc : ¬ ((0 : Nat) = 0 ∧ (s.queue queue_cur).cal_failed = 0 ∧
        (s.queue queue_cur).was_fuzzed = 0) := fun h => hw h.2.2
    unfold abandon_entry
    rw [if_neg hc]

theorem abandon_entry_marks_witness :
    ((two_targets.queue 0).was_fuzzed = 0 →
      (abandon_entry 0 two_targets 0 2).1.was_fuzzed_map
        (get_state_index two_targets.state_ids two_targets.target_state_id)
        (two_targets.queue 0).index = 1) ∧
    ((two_targets.queue 0).was_fuzzed ≠ 0 →
      (abandon_entry 0 two_targets 0 2).1.was_fuzzed_map = two_targets.was_fuzzed_map) :=
  abandon_entry_marks two_targets 0 2 (by decide)

/-- C19 (failing input): entry 0 is fuzzed under target state 1 and then under
target state 2; the cell of state 1 is 1, the cell of state 2 is still 0
after the second `abandon_entry`. -/
theorem abandon_entry_second_target :
    (abandon_entry 0 two_targets 0 2).1.was_fuzzed_map
      (get_state_index two_targets.state_ids 1) 0 = 1 ∧
    (second_target.queue 0).cal_failed = 0 ∧
    second_target.was_fuzzed_map (get_state_index second_target.state_ids 2) 0 = 0 ∧
    (abandon_entry 0 second_target 0 1).1.was_fuzzed_map
      (get_state_index second_target.state_ids second_target.target_state_id)
      (second_target.queue 0).index = 0 := by
  decide

/-! ### Lemmas on `calibrate_case` -/

theorem flag_var_bytes_spec (LONG : Nat) (first_trace trace_bits var_bytes : List Nat)
    (stage_max : Nat) :
    ∀ n,
      (flag_var_bytes n LONG first_trace trace_bits var_bytes stage_max).1.length
        = var_bytes.length ∧
      ((flag_var_bytes n LONG first_trace trace_bits var_bytes stage_max).2 = stage_max ∨
        (flag_var_bytes n LONG first_trace trace_bits var_bytes stage_max).2 = LONG) ∧
      (∀ i, var_bytes.getD i 0 ≠ 0 →
        (flag_var_bytes n LONG first_trace trace_bits var_bytes stage_max).1.getD i 0 ≠ 0) ∧
      (∀ i, i < n → i < var_bytes.length → first_trace.getD i 0 ≠ trace_bits.getD i 0 →
        (flag_var_bytes n LONG first_trace trace_bits var_bytes stage_max).1.getD i 0 ≠ 0) ∧
      ((∀ i, i < n → first_trace.getD i 0 = trace_bits.getD i 0) →
        flag_var_bytes n LONG first_trace trace_bits var_bytes stage_max
          = (var_bytes, stage_max)) := by
  intro n
  induction n with
  | zero =>
    simp only [flag_var_bytes, List.range_zero, List.foldl_nil]
    refine ⟨?_, ?_, ?_, ?_, ?_⟩ <;>
      (first | trivial | exact Or.inl trivial | exact fun _ => trivial | (intro i hi; omega))
  | succ n ih =>
    obtain ⟨h1, h2, h3, h4, h5⟩ := ih
    have hstep : flag_var_bytes (n + 1) LONG first_trace trace_bits var_bytes stage_max
        = if (flag_var_bytes n LONG first_trace trace_bits var_bytes stage_max).1.getD n 0 = 0 ∧
              first_trace.getD n 0 ≠ trace_bits.getD n 0 then
            ((flag_var_bytes n LONG first_trace trace_bits var_bytes stage_max).1.set n 1, LONG)
          else flag_var_bytes n LONG first_trace trace_bits var_bytes stage_max := by
      simp only [flag_var_bytes, List.range_succ, List.foldl_append, List.foldl_cons,
        List.foldl_nil]
    rw [hstep]
    by_cases hc : (flag_var_bytes n LONG first_trace trace_bits var_bytes stage_max).1.getD n 0 = 0 ∧
        first_trace.getD n 0 ≠ trace_bits.getD n 0
    · rw [if_pos hc]
      refine ⟨by simp [h1], Or.inr rfl, ?_, ?_, ?_⟩
      · intro i hi
        by_cases hin : i = n
        · have := h3 i hi
          rw [hin] at this
          exact absurd hc.1 this
        · simp only
          rw [getD_set_ne _ _ _ _ (Ne.symm hin)]
          exact h3 i hi
      · intro i hi hl hd
        by_cases hin : i = n
        · simp only
          rw [hin, getD_set_eq _ _ _ (by rw [h1]; omega)]
          omega
        · simp only
          rw [getD_set_ne _ _ _ _ (Ne.symm hin)]
          exact h4 i (by omega) hl hd
      · intro hall
        exact absurd (hall n (by omega)) hc.2
    · rw [if_neg hc]
      refine ⟨h1, h2, h3, ?_, ?_⟩
      · intro i hi hl hd
        by_cases hin : i = n
        · rw [hin] at hd ⊢
          intro hz
          exact hc ⟨hz, hd⟩
        · exact h4 i (by omega) hl hd
      · intro hall
        exact h5 (fun i hi => hall i (by omega))

theorem calibrate_check_same (env : cal_env) (cksum : Nat) (st : cal_loop_state)
    (h : st.q.exec_cksum = cksum) : calibrate_check env cksum st = st := by
  unfold calibrate_check
  rw [if_neg (not_not.mpr h)]

/-- What `calibrate_check` keeps whatever the checksum is. -/
theorem calibrate_check_keeps (env : cal_env) (cksum : Nat) (st : cal_loop_state) :
    ((calibrate_check env cksum st).stage_max = st.stage_max ∨
      (calibrate_check env cksum st).stage_max = env.CAL_CYCLES_LONG) ∧
    (st.var_detected = 1 → (calibrate_check env cksum st).var_detected = 1) ∧
    (calibrate_check env cksum st).q.var_behavior = st.q.var_behavior ∧
    (calibrate_check env cksum st).g.var_bytes.length = st.g.var_bytes.length ∧
    (∀ i, st.g.var_bytes.getD i 0 ≠ 0 →
      (calibrate_check env cksum st).g.var_bytes.getD i 0 ≠ 0) ∧
    (st.q.exec_cksum ≠ 0 →
      (calibrate_check env cksum st).q.exec_cksum = st.q.exec_cksum ∧
      (calibrate_check env cksum st).g.first_trace = st.g.first_trace) := by
  unfold calibrate_check
  by_cases hc : st.q.exec_cksum ≠ cksum
  · rw [if_pos hc]
    obtain ⟨f1, f2, f3, _, _⟩ := flag_var_bytes_spec env.CAL_CYCLES_LONG st.g.first_trace
      st.g.trace_bits st.g.var_bytes st.stage_max env.MAP_SIZE
    by_cases hn : (has_new_bits env.MAP_SIZE st.g.trace_bits st.g.virgin_bits).ret > st.new_bits
    · by_cases he : st.q.exec_cksum ≠ 0
      · simp only [if_pos hn, if_pos he]
        refine ⟨?_, ?_, ?_, ?_, ?_, ?_⟩ <;>
          (first | trivial | exact fun _ => trivial | exact fun _ => ⟨trivial, trivial⟩)
      · simp only [if_pos hn, if_neg he]
        refine ⟨?_, ?_, ?_, ?_, ?_, ?_⟩ <;>
          (first | trivial | exact Or.inl trivial | exact fun h => h | exact fun h => absurd h he | (intro i hi; omega))
    · by_cases he : st.q.exec_cksum ≠ 0
      · simp only [if_neg hn, if_pos he]
        refine ⟨?_, ?_, ?_, ?_, ?_, ?_⟩ <;>
          (first | trivial | exact fun _ => trivial | exact fun _ => ⟨trivial, trivial⟩)
      · simp only [if_neg hn, if_neg he]
        refine ⟨?_, ?_, ?_, ?_, ?_, ?_⟩ <;>
          (first | trivial | exact Or.inl trivial | exact fun h => h | exact fun h => absurd h he | (intro i hi; omega))
  · rw [if_neg hc]
    refine ⟨?_, ?_, ?_, ?_, ?_, ?_⟩ <;>
      (first | trivial | exact Or.inl rfl | exact fun h => h | exact fun _ => ⟨rfl, rfl⟩ | (intro i hi; omega))

/-- A checksum that differs from an established one flags the differing
bytes. -/
theorem calibrate_check_differs (env : cal_env) (cksum : Nat) (st : cal_loop_state)
    (hd : st.q.exec_cksum ≠ cksum) (he : st.q.exec_cksum ≠ 0) :
    (calibrate_check env cksum st).var_detected = 1 ∧
    ∀ i, i < env.MAP_SIZE → i < st.g.var_bytes.length →
      st.g.first_trace.getD i 0 ≠ st.g.trace_bits.getD i 0 →
      (calibrate_check env cksum st).g.var_bytes.getD i 0 ≠ 0 := by
  unfold calibrate_check
  rw [if_pos hd]
  obtain ⟨_, _, _, f4, _⟩ := flag_var_bytes_spec env.CAL_CYCLES_LONG st.g.first_trace
    st.g.trace_bits st.g.var_bytes st.stage_max env.MAP_SIZE
  by_cases hn : (has_new_bits env.MAP_SIZE st.g.trace_bits st.g.virgin_bits).ret > st.new_bits
  · simp only [if_pos hn, if_pos he]
    refine ⟨?_, ?_⟩ <;>
      (trivial)
  · simp only [if_neg hn, if_pos he]
    refine ⟨?_, ?_⟩ <;>
      (trivial)

/-- The first checksum of an entry without one is stored. -/
theorem calibrate_check_first (env : cal_env) (cksum : Nat) (st : cal_loop_state)
    (he : st.q.exec_cksum = 0) :
    (calibrate_check env cksum st).q.exec_cksum = cksum ∧
    (calibrate_check env cksum st).stage_max = st.stage_max ∧
    (calibrate_check env cksum st).var_detected = st.var_detected ∧
    (calibrate_check env cksum st).g.var_bytes = st.g.var_bytes ∧
    (calibrate_check env cksum st).g.trace_bits = st.g.trace_bits ∧
    (cksum ≠ 0 →
      (calibrate_check env cksum st).g.first_trace = st.g.trace_bits.take env.MAP_SIZE) := by
  unfold calibrate_check
  by_cases hc : st.q.exec_cksum ≠ cksum
  · rw [if_pos hc]
    have he' : ¬ st.q.exec_cksum ≠ 0 := not_not.mpr he
    by_cases hn : (has_new_bits env.MAP_SIZE st.g.trace_bits st.g.virgin_bits).ret > st.new_bits
    · simp only [if_pos hn, if_neg he']
      refine ⟨?_, ?_, ?_, ?_, ?_, ?_⟩ <;>
        (first | trivial | exact fun _ => trivial)
    · simp only [if_neg hn, if_neg he']
      refine ⟨?_, ?_, ?_, ?_, ?_, ?_⟩ <;>
        (first | trivial | exact fun _ => trivial)
  · rw [if_neg hc]
    have : cksum = 0 := by rw [← he]; exact (not_not.mp hc).symm
    refine ⟨?_, ?_, ?_, ?_, ?_, ?_⟩ <;>
      (first | trivial | exact fun h => absurd this h | (rw [he, this]))

/-- The calibration loop ends, after at most `M` runs, when `M` bounds
`stage_max` and `CAL_CYCLES_LONG`. -/
theorem calibrate_loop_ends (env : cal_env) (M : Nat) (hM : env.CAL_CYCLES_LONG ≤ M) :
    ∀ fuel stage_cur st fault, st.stage_max ≤ M → stage_cur ≤ M → M < stage_cur + fuel →
      ∃ e, calibrate_loop env fuel stage_cur st fault = some e ∧ e.runs_made ≤ M := by
  intro fuel
  induction fuel with
  | zero => intro stage_cur st fault h1 h2 h3; omega
  | succ fuel ih =>
    intro stage_cur st fault h1 h2 h3
    simp only [calibrate_loop]
    by_cases hs : stage_cur < st.stage_max
    · rw [if_pos hs]
      by_cases ha : (env.runs stage_cur).stop_soon ≠ 0 ∨ (env.runs stage_cur).fault ≠ env.crash_mode
      · rw [if_pos ha]
        exact ⟨_, rfl, by simp only; omega⟩
      · rw [if_neg ha]
        by_cases hb : env.dumb_mode = 0 ∧ stage_cur = 0 ∧
            count_bytes env.MAP_SIZE (env.runs stage_cur).trace_bits = 0
        · rw [if_pos hb]
          exact ⟨_, rfl, by simp only; omega⟩
        · rw [if_neg hb]
          apply ih
          · rcases (calibrate_check_keeps env _ _).1 with h | h
            · rw [h]; exact h1
            · rw [h]; exact hM
          · omega
          · omega
    · rw [if_neg hs]
      exact ⟨_, rfl, h2⟩

/-- What the loop never undoes: a detected variance, the flagged bytes and
the flag `var_behavior`. -/
theorem calibrate_loop_keeps (env : cal_env) :
    ∀ fuel stage_cur st fault e, calibrate_loop env fuel stage_cur st fault = some e →
      (st.var_detected = 1 → e.st.var_detected = 1) ∧
      e.st.q.var_behavior = st.q.var_behavior ∧
      (∀ i, st.g.var_bytes.getD i 0 ≠ 0 → e.st.g.var_bytes.getD i 0 ≠ 0) := by
  intro fuel
  induction fuel with
  | zero => intro stage_cur st fault e h; simp [calibrate_loop] at h
  | succ fuel ih =>
    intro stage_cur st fault e h
    simp only [calibrate_loop] at h
    by_cases hs : stage_cur < st.stage_max
    · rw [if_pos hs] at h
      by_cases ha : (env.runs stage_cur).stop_soon ≠ 0 ∨ (env.runs stage_cur).fault ≠ env.crash_mode
      · rw [if_pos ha, Option.some.injEq] at h
        rw [← h]
        exact ⟨fun h => h, rfl, fun _ h => h⟩
      · rw [if_neg ha] at h
        by_cases hb : env.dumb_mode = 0 ∧ stage_cur = 0 ∧
            count_bytes env.MAP_SIZE (env.runs stage_cur).trace_bits = 0
        · rw [if_pos hb, Option.some.injEq] at h
          rw [← h]
          exact ⟨fun h => h, rfl, fun _ h => h⟩
        · rw [if_neg hb] at h
          obtain ⟨a, b, c⟩ := ih _ _ _ _ h
          obtain ⟨_, k2, k3, _, k5, _⟩ := calibrate_check_keeps env
            (env.hash32 (env.runs stage_cur).trace_bits)
            { st with g := { st.g with trace_bits := (env.runs stage_cur).trace_bits } }
          exact ⟨fun h => a (k2 h), b.trans k3, fun i h => c i (k5 i h)⟩
    · rw [if_neg hs, Option.some.injEq] at h
      rw [← h]
      exact ⟨fun h => h, rfl, fun _ h => h⟩

theorem abort_calibration_fields (env : cal_env) (st : cal_loop_state) :
    (abort_calibration env st).1.exec_cksum = st.q.exec_cksum ∧
    (abort_calibration env st).2.var_bytes = st.g.var_bytes ∧
    (st.var_detected = 0 → (abort_calibration env st).1.var_behavior = st.q.var_behavior) ∧
    (st.var_detected ≠ 0 → (abort_calibration env st).1.var_behavior ≠ 0) := by
  unfold abort_calibration
  by_cases h1 : st.new_bits = 2 ∧ st.q.has_new_cov = 0
  · by_cases h2 : st.var_detected ≠ 0
    · by_cases h3 : st.q.var_behavior = 0
      · simp [h1, h2, h3]
      · simp [h1, h2, h3]
    · simp [h1, h2]
  · by_cases h2 : st.var_detected ≠ 0
    · by_cases h3 : st.q.var_behavior = 0
      · simp [h1, h2, h3]
      · simp [h1, h2, h3]
    · simp [h1, h2]

/-- Runs that all leave the trace `T` never abort the loop, and the loop
makes `stage_max` runs without detecting variance. -/
theorem calibrate_loop_same (env : cal_env) (T : List Nat)
    (hruns : ∀ k, env.runs k = ⟨0, env.crash_mode, T⟩)
    (hok : env.dumb_mode ≠ 0 ∨ count_bytes env.MAP_SIZE T ≠ 0) :
    ∀ fuel stage_cur st fault,
      (st.q.exec_cksum = 0 ∨ st.q.exec_cksum = env.hash32 T) →
      (0 < stage_cur → st.q.exec_cksum = env.hash32 T) →
      stage_cur ≤ st.stage_max → st.stage_max < stage_cur + fuel →
      ∃ e, calibrate_loop env fuel stage_cur st fault = some e ∧ e.aborted = false ∧
        e.runs_made = st.stage_max ∧ e.st.var_detected = st.var_detected ∧
        e.st.q.var_behavior = st.q.var_behavior ∧ e.st.g.var_bytes = st.g.var_bytes ∧
        (0 < st.stage_max → e.st.q.exec_cksum = env.hash32 T) := by
  intro fuel
  induction fuel with
  | zero => intro stage_cur st fault _ _ h3 h4; omega
  | succ fuel ih =>
    intro stage_cur st fault h1 h2 h3 h4
    simp only [calibrate_loop]
    by_cases hs : stage_cur < st.stage_max
    · rw [if_pos hs]
      have ha : ¬ ((env.runs stage_cur).stop_soon ≠ 0 ∨
          (env.runs stage_cur).fault ≠ env.crash_mode) := by
        rw [hruns stage_cur]; simp
      have hb : ¬ (env.dumb_mode = 0 ∧ stage_cur = 0 ∧
          count_bytes env.MAP_SIZE (env.runs stage_cur).trace_bits = 0) := by
        rw [hruns stage_cur]
        rintro ⟨b1, _, b3⟩
        rcases hok with h | h
        · exact h b1
        · exact h b3
      rw [if_neg ha, if_neg hb]
      have htr : (env.runs stage_cur).trace_bits = T := by rw [hruns stage_cur]
      rw [htr]
      by_cases he : st.q.exec_cksum = env.hash32 T
      · rw [calibrate_check_same env _ { st with g := { st.g with trace_bits := T } } he]
        obtain ⟨e, g1, g2, g3, g4, g5, g6, g7⟩ := ih (stage_cur + 1)
          { st with g := { st.g with trace_bits := T } } (env.runs stage_cur).fault
          (Or.inr he) (fun _ => he) (by simp only; omega) (by simp only; omega)
        exact ⟨e, g1, g2, g3, g4, g5, g6, g7⟩
      · have h0 : st.q.exec_cksum = 0 := by
          rcases h1 with h | h
          · exact h
          · exact absurd h he
        obtain ⟨c1, c2, c3, c4, _, _⟩ := calibrate_check_first env (env.hash32 T)
          { st with g := { st.g with trace_bits := T } } h0
        obtain ⟨_, _, k3, _, _, _⟩ := calibrate_check_keeps env (env.hash32 T)
          { st with g := { st.g with trace_bits := T } }
        obtain ⟨e, g1, g2, g3, g4, g5, g6, g7⟩ := ih (stage_cur + 1)
          (calibrate_check env (env.hash32 T) { st with g := { st.g with trace_bits := T } })
          (env.runs stage_cur).fault
          (Or.inr c1) (fun _ => c1) (by rw [c2]; simp only; omega) (by rw [c2]; simp only; omega)
        refine ⟨e, g1, g2, by rw [g3, c2], by rw [g4, c3], by rw [g5, k3], by rw [g6, c4], ?_⟩
        intro h
        exact g7 (by rw [c2]; exact h)
    · rw [if_neg hs]
      have : stage_cur = st.stage_max := by omega
      refine ⟨_, rfl, rfl, this, rfl, rfl, rfl, ?_⟩
      intro h
      exact h2 (by omega)

/-- Runs that keep the established checksum `E` up to run `k`, whose
checksum differs: variance is detected and the bytes in which the trace of
run `k` differs from `first_trace` are flagged. -/
theorem calibrate_loop_differs (env : cal_env) (E k n : Nat) (hE : E ≠ 0)
    (hk : env.hash32 (env.runs k).trace_bits ≠ E) :
    ∀ fuel stage_cur st fault e, calibrate_loop env fuel stage_cur st fault = some e →
      st.q.exec_cksum = E → stage_cur ≤ k → k < st.stage_max →
      (∀ j, stage_cur ≤ j → j ≤ k → run_ok env j) →
      (∀ j, stage_cur ≤ j → j < k → env.hash32 (env.runs j).trace_bits = E) →
      st.g.var_bytes.length = n →
      e.st.var_detected = 1 ∧
      ∀ i, i < env.MAP_SIZE → i < n →
        st.g.first_trace.getD i 0 ≠ (env.runs k).trace_bits.getD i 0 →
        e.st.g.var_bytes.getD i 0 ≠ 0 := by
  intro fuel
  induction fuel with
  | zero => intro stage_cur st fault e h; simp [calibrate_loop] at h
  | succ fuel ih =>
    intro stage_cur st fault e h h1 h2 h3 hok heq hn
    simp only [calibrate_loop] at h
    rw [if_pos (by omega)] at h
    obtain ⟨o1, o2, o3⟩ := hok stage_cur (le_refl _) h2
    have ha : ¬ ((env.runs stage_cur).stop_soon ≠ 0 ∨
        (env.runs stage_cur).fault ≠ env.crash_mode) := by
      rw [o1, o2]; simp
    have hb : ¬ (env.dumb_mode = 0 ∧ stage_cur = 0 ∧
        count_bytes env.MAP_SIZE (env.runs stage_cur).trace_bits = 0) := by
      rintro ⟨b1, b2, b3⟩
      rcases o3 b2 with h | h
      · exact h b1
      · exact h b3
    rw [if_neg ha, if_neg hb] at h
    by_cases hkc : stage_cur = k
    · rw [hkc] at h
      obtain ⟨d1, d2⟩ := calibrate_check_differs env (env.hash32 (env.runs k).trace_bits)
        { st with g := { st.g with trace_bits := (env.runs k).trace_bits } }
        (by simp only; rw [h1]; exact fun h => hk h.symm) (by simp only; rw [h1]; exact hE)
      obtain ⟨a, _, c⟩ := calibrate_loop_keeps env _ _ _ _ _ h
      refine ⟨a d1, ?_⟩
      intro i hi hin hd
      exact c i (d2 i hi (by simp only; omega) hd)
    · have hsame := heq stage_cur (le_refl _) (by omega)
      rw [calibrate_check_same env _
        { st with g := { st.g with trace_bits := (env.runs stage_cur).trace_bits } }
        (by simp only; rw [h1, hsame])] at h
      exact ih (stage_cur + 1)
        { st with g := { st.g with trace_bits := (env.runs stage_cur).trace_bits } }
        _ e h h1 (by omega) h3
        (fun j hj hj' => hok j (by omega) hj')
        (fun j hj hj' => heq j (by omega) hj') hn

theorem getD_take (l : List Nat) (n i : Nat) (h : i < n) :
    (l.take n).getD i 0 = l.getD i 0 := by
  simp only [List.getD_eq_getElem?_getD, List.getElem?_take_of_lt h]

/-- The state in which `calibrate_case` enters its loop. -/
theorem calibrate_case_of_loop (env : cal_env) (q : queue_entry) (g : cal_globals)
    (handicap : Nat) (e : cal_loop_end)
    (hloop : calibrate_loop env
      ((if env.fast_cal ≠ 0 then 3 else env.CAL_CYCLES) + env.CAL_CYCLES_LONG + 1) 0
      ⟨{ q with cal_failed := (q.cal_failed + 1) % 256 },
        if q.exec_cksum ≠ 0 then { g with first_trace := g.trace_bits.take env.MAP_SIZE }
        else g,
        if env.fast_cal ≠ 0 then 3 else env.CAL_CYCLES, 0, 0⟩ 0 = some e) :
    ∃ r, calibrate_case env q g handicap = some r ∧ r.runs_made = e.runs_made ∧
      r.q.exec_cksum = e.st.q.exec_cksum ∧ r.g.var_bytes = e.st.g.var_bytes ∧
      (e.st.var_detected = 0 → r.q.var_behavior = e.st.q.var_behavior) ∧
      (e.st.var_detected ≠ 0 → r.q.var_behavior ≠ 0) := by
  unfold calibrate_case
  simp only [hloop]
  cases hab : e.aborted with
  | true =>
    obtain ⟨a, b, c, d⟩ := abort_calibration_fields env e.st
    exact ⟨_, rfl, rfl, a, b, c, d⟩
  | false =>
    obtain ⟨a, b, c, d⟩ := abort_calibration_fields env
      { e.st with
        q := { e.st.q with
          bitmap_size := count_bytes env.MAP_SIZE e.st.g.trace_bits
          handicap := handicap
          cal_failed := 0 } }
    exact ⟨_, rfl, rfl, a, b, c, d⟩

theorem calibrate_case_bound (env : cal_env) (q : queue_entry) (g : cal_globals)
    (handicap : Nat) (hc1 : env.CAL_CYCLES ≤ env.CAL_CYCLES_LONG)
    (hc2 : 3 ≤ env.CAL_CYCLES_LONG) :
    ∃ r, calibrate_case env q g handicap = some r ∧ r.runs_made ≤ env.CAL_CYCLES_LONG := by
  have hsm : (if env.fast_cal ≠ 0 then 3 else env.CAL_CYCLES) ≤ env.CAL_CYCLES_LONG := by
    split <;> omega
  obtain ⟨e, he, hb⟩ := calibrate_loop_ends env env.CAL_CYCLES_LONG (le_refl _)
    ((if env.fast_cal ≠ 0 then 3 else env.CAL_CYCLES) + env.CAL_CYCLES_LONG + 1) 0
    ⟨{ q with cal_failed := (q.cal_failed + 1) % 256 },
      if q.exec_cksum ≠ 0 then { g with first_trace := g.trace_bits.take env.MAP_SIZE }
      else g,
      if env.fast_cal ≠ 0 then 3 else env.CAL_CYCLES, 0, 0⟩ 0 hsm (Nat.zero_le _) (by omega)
  obtain ⟨r, h1, h2, _⟩ := calibrate_case_of_loop env q g handicap e he
  exact ⟨r, h1, by rw [h2]; exact hb⟩

theorem calibrate_case_same (env : cal_env) (q : queue_entry) (g : cal_globals)
    (handicap : Nat) (hc0 : 0 < env.CAL_CYCLES) (T : List Nat)
    (hruns : ∀ k, env.runs k = ⟨0, env.crash_mode, T⟩)
    (hok : env.dumb_mode ≠ 0 ∨ count_bytes env.MAP_SIZE T ≠ 0)
    (hq : q.exec_cksum = 0 ∨ q.exec_cksum = env.hash32 T) :
    ∃ r, calibrate_case env q g handicap = some r ∧ r.q.exec_cksum = env.hash32 T ∧
      r.q.var_behavior = q.var_behavior ∧ r.g.var_bytes = g.var_bytes ∧
      r.runs_made = (if env.fast_cal ≠ 0 then 3 else env.CAL_CYCLES) := by
  have hsm : 0 < (if env.fast_cal ≠ 0 then 3 else env.CAL_CYCLES) := by
    split <;> omega
  obtain ⟨e, he, _, e2, e3, e4, e5, e6⟩ := calibrate_loop_same env T hruns hok
    ((if env.fast_cal ≠ 0 then 3 else env.CAL_CYCLES) + env.CAL_CYCLES_LONG + 1) 0
    ⟨{ q with cal_failed := (q.cal_failed + 1) % 256 },
      if q.exec_cksum ≠ 0 then { g with first_trace := g.trace_bits.take env.MAP_SIZE }
      else g,
      if env.fast_cal ≠ 0 then 3 else env.CAL_CYCLES, 0, 0⟩ 0 hq (fun h => by omega)
    (Nat.zero_le _) (by simp only; omega)
  obtain ⟨r, h1, h2, h3, h4, h5, _⟩ := calibrate_case_of_loop env q g handicap e he
  refine ⟨r, h1, by rw [h3]; exact e6 hsm, by rw [h5 e3]; exact e4, ?_, by rw [h2]; exact e2⟩
  rw [h4, e5]
  split <;> rfl

theorem calibrate_case_differs (env : cal_env) (q : queue_entry) (g : cal_globals)
    (handicap k : Nat) (hq : q.exec_cksum ≠ 0) (hlen : g.var_bytes.length = env.MAP_SIZE)
    (hk : k < (if env.fast_cal ≠ 0 then 3 else env.CAL_CYCLES))
    (hok : ∀ j, j ≤ k → run_ok env j)
    (heq : ∀ j, j < k → env.hash32 (env.runs j).trace_bits = q.exec_cksum)
    (hne : env.hash32 (env.runs k).trace_bits ≠ q.exec_cksum)
    (r : cal_result) (hr : calibrate_case env q g handicap = some r) :
    r.q.var_behavior ≠ 0 ∧
    ∀ i, i < env.MAP_SIZE → g.trace_bits.getD i 0 ≠ (env.runs k).trace_bits.getD i 0 →
      r.g.var_bytes.getD i 0 ≠ 0 := by
  cases hl : calibrate_loop env
      ((if env.fast_cal ≠ 0 then 3 else env.CAL_CYCLES) + env.CAL_CYCLES_LONG + 1) 0
      ⟨{ q with cal_failed := (q.cal_failed + 1) % 256 },
        if q.exec_cksum ≠ 0 then { g with first_trace := g.trace_bits.take env.MAP_SIZE }
        else g,
        if env.fast_cal ≠ 0 then 3 else env.CAL_CYCLES, 0, 0⟩ 0 with
  | none =>
    unfold calibrate_case at hr
    simp only [hl] at hr
    exact absurd hr (by simp)
  | some e =>
    obtain ⟨r', h1, _, _, h4, _, h6⟩ := calibrate_case_of_loop env q g handicap e hl
    rw [hr, Option.some.injEq] at h1
    rw [← h1] at h4 h6
    obtain ⟨d1, d2⟩ := calibrate_loop_differs env q.exec_cksum k env.MAP_SIZE hq hne _ _ _ _ e hl
      rfl (Nat.zero_le _) hk (fun j _ hj => hok j hj) (fun j _ hj => heq j hj)
      (by rw [if_pos hq]; exact hlen)
    refine ⟨h6 (by omega), ?_⟩
    intro i hi hd
    rw [h4]
    apply d2 i hi hi
    rw [if_pos hq]
    simp only
    rw [getD_take _ _ _ hi]
    exact hd

/-! ### C20: calibration -/

theorem calibrate_loop_step (env : cal_env) (fuel stage_cur : Nat) (st : cal_loop_state)
    (fault : Nat) (hs : stage_cur < st.stage_max) (hok : run_ok env stage_cur) :
    calibrate_loop env (fuel + 1) stage_cur st fault
      = calibrate_loop env fuel (stage_cur + 1)
          (calibrate_check env (env.hash32 (env.runs stage_cur).trace_bits)
            { st with g := { st.g with trace_bits := (env.runs stage_cur).trace_bits } })
          (env.runs stage_cur).fault := by
  obtain ⟨o1, o2, o3⟩ := hok
  have ha : ¬ ((env.runs stage_cur).stop_soon ≠ 0 ∨
      (env.runs stage_cur).fault ≠ env.crash_mode) := by
    rw [o1, o2]; simp
  have hb : ¬ (env.dumb_mode = 0 ∧ stage_cur = 0 ∧
      count_bytes env.MAP_SIZE (env.runs stage_cur).trace_bits = 0) := by
    rintro ⟨b1, b2, b3⟩
    rcases o3 b2 with h | h
    · exact h b1
    · exact h b3
  simp only [calibrate_loop]
  rw [if_pos hs, if_neg ha, if_neg hb]

theorem calibrate_case_first_differs (env : cal_env) (q : queue_entry) (g : cal_globals)
    (handicap k : Nat) (hq : q.exec_cksum = 0)
    (h0 : env.hash32 (env.runs 0).trace_bits ≠ 0)
    (hlen : g.var_bytes.length = env.MAP_SIZE) (hk0 : 0 < k)
    (hk : k < (if env.fast_cal ≠ 0 then 3 else env.CAL_CYCLES))
    (hok : ∀ j, j ≤ k → run_ok env j)
    (heq : ∀ j, 0 < j → j < k →
      env.hash32 (env.runs j).trace_bits = env.hash32 (env.runs 0).trace_bits)
    (hne : env.hash32 (env.runs k).trace_bits ≠ env.hash32 (env.runs 0).trace_bits)
    (r : cal_result) (hr : calibrate_case env q g handicap = some r) :
    r.q.var_behavior ≠ 0 ∧
    ∀ i, i < env.MAP_SIZE →
      (env.runs 0).trace_bits.getD i 0 ≠ (env.runs k).trace_bits.getD i 0 →
      r.g.var_bytes.getD i 0 ≠ 0 := by
  cases hl : calibrate_loop env
      ((if env.fast_cal ≠ 0 then 3 else env.CAL_CYCLES) + env.CAL_CYCLES_LONG + 1) 0
      ⟨{ q with cal_failed := (q.cal_failed + 1) % 256 },
        if q.exec_cksum ≠ 0 then { g with first_trace := g.trace_bits.take env.MAP_SIZE }
        else g,
        if env.fast_cal ≠ 0 then 3 else env.CAL_CYCLES, 0, 0⟩ 0 with
  | none =>
    unfold calibrate_case at hr
    simp only [hl] at hr
    exact absurd hr (by simp)
  | some e =>
    obtain ⟨r', h1, _, _, h4, _, h6⟩ := calibrate_case_of_loop env q g handicap e hl
    rw [hr, Option.some.injEq] at h1
    rw [← h1] at h4 h6
    rw [calibrate_loop_step env _ 0 _ 0 (by simp only; omega) (hok 0 (Nat.zero_le _))] at hl
    obtain ⟨c1, c2, _, c4, _, c6⟩ := calibrate_check_first env
      (env.hash32 (env.runs 0).trace_bits)
      { ({ q := { q with cal_failed := (q.cal_failed + 1) % 256 },
           g := if q.exec_cksum ≠ 0 then
               { g with first_trace := g.trace_bits.take env.MAP_SIZE }
             else g,
           stage_max := if env.fast_cal ≠ 0 then 3 else env.CAL_CYCLES,
           new_bits := 0, var_detected := 0 } : cal_loop_state) with
        g := { (if q.exec_cksum ≠ 0 then
               { g with first_trace := g.trace_bits.take env.MAP_SIZE }
             else g) with trace_bits := (env.runs 0).trace_bits } } hq
    obtain ⟨d1, d2⟩ := calibrate_loop_differs env (env.hash32 (env.runs 0).trace_bits) k
      env.MAP_SIZE h0 hne _ _ _ _ e hl c1 (by omega) (by rw [c2]; exact hk)
      (fun j _ hj => hok j hj) (fun j hj hj' => heq j (by omega) hj')
      (by rw [c4]; simp only; rw [if_neg (not_not.mpr hq)]; exact hlen)
    refine ⟨h6 (by omega), ?_⟩
    intro i hi hd
    rw [h4]
    apply d2 i hi hi
    rw [c6 h0]
    simp only
    rw [getD_take _ _ _ hi]
    exact hd

/-- C20: with `0 < CAL_CYCLES <= CAL_CYCLES_LONG` and `3 <= CAL_CYCLES_LONG`,
`calibrate_case` ends after at most `CAL_CYCLES_LONG` runs.  If every run
succeeds with the same trace `T` (and the entry has no checksum yet or the
checksum of `T`), the entry ends with `exec_cksum = hash32(T)`, with
`var_behavior` and `var_bytes` unchanged, after exactly `CAL_CYCLES` runs
(3 with `fast_cal`).  If the checksum of run `k` is the first to differ from
the established checksum (that of the entry before the call, or that of run
0 for an entry without one), the entry is marked `var_behavior` and every
byte in which the trace of run `k` differs from the first trace is flagged
in `var_bytes`. -/
theorem calibrate_case_spec (env : cal_env) (q : queue_entry) (g : cal_globals)
    (handicap : Nat) (hc0 : 0 < env.CAL_CYCLES)
    (hc1 : env.CAL_CYCLES ≤ env.CAL_CYCLES_LONG) (hc2 : 3 ≤ env.CAL_CYCLES_LONG) :
    (∃ r, calibrate_case env q g handicap = some r ∧
      r.runs_made ≤ env.CAL_CYCLES_LONG ∧
      (∀ T, (∀ k, env.runs k = ⟨0, env.crash_mode, T⟩) →
        (env.dumb_mode ≠ 0 ∨ count_bytes env.MAP_SIZE T ≠ 0) →
        (q.exec_cksum = 0 ∨ q.exec_cksum = env.hash32 T) →
        r.q.exec_cksum = env.hash32 T ∧ r.q.var_behavior = q.var_behavior ∧
        r.g.var_bytes = g.var_bytes ∧
        r.runs_made = (if env.fast_cal ≠ 0 then 3 else env.CAL_CYCLES)) ∧
      (∀ k, q.exec_cksum ≠ 0 → g.var_bytes.length = env.MAP_SIZE →
        k < (if env.fast_cal ≠ 0 then 3 else env.CAL_CYCLES) →
        (∀ j, j ≤ k → run_ok env j) →
        (∀ j, j < k → env.hash32 (env.runs j).trace_bits = q.exec_cksum) →
        env.hash32 (env.runs k).trace_bits ≠ q.exec_cksum →
        r.q.var_behavior ≠ 0 ∧
        ∀ i, i < env.MAP_SIZE →
          g.trace_bits.getD i 0 ≠ (env.runs k).trace_bits.getD i 0 →
          r.g.var_bytes.getD i 0 ≠ 0) ∧
      (∀ k, q.exec_cksum = 0 → env.hash32 (env.runs 0).trace_bits ≠ 0 →
        g.var_bytes.length = env.MAP_SIZE → 0 < k →
        k < (if env.fast_cal ≠ 0 then 3 else env.CAL_CYCLES) →
        (∀ j, j ≤ k → run_ok env j) →
        (∀ j, 0 < j → j < k →
          env.hash32 (env.runs j).trace_bits = env.hash32 (env.runs 0).trace_bits) →
        env.hash32 (env.runs k).trace_bits ≠ env.hash32 (env.runs 0).trace_bits →
        r.q.var_behavior ≠ 0 ∧
        ∀ i, i < env.MAP_SIZE →
          (env.runs 0).trace_bits.getD i 0 ≠ (env.runs k).trace_bits.getD i 0 →
          r.g.var_bytes.getD i 0 ≠ 0)) := by
  obtain ⟨r, hr, hb⟩ := calibrate_case_bound env q g handicap hc1 hc2
  refine ⟨r, hr, hb, ?_, ?_, ?_⟩
  · intro T hruns hok hq
    obtain ⟨r', hr', a, b, c, d⟩ := calibrate_case_same env q g handicap hc0 T hruns hok hq
    rw [hr, Option.some.injEq] at hr'
    rw [hr']
    exact ⟨a, b, c, d⟩
  · intro k hq hlen hk hok heq hne
    exact calibrate_case_differs env q g handicap k hq hlen hk hok heq hne r hr
  · intro k hq h0 hlen hk0 hk hok heq hne
    exact calibrate_case_first_differs env q g handicap k hq h0 hlen hk0 hk hok heq hne r hr

theorem calibrate_case_spec_witness :
    ∃ r, calibrate_case (cal_env_example (fun _ => ⟨0, 0, [1, 0, 0, 0, 0, 0, 0, 0]⟩))
        blank_entry cal_globals_example 0 = some r ∧ r.runs_made ≤ 40 :=
  let ⟨r, h1, h2, _⟩ :=
    calibrate_case_spec (cal_env_example (fun _ => ⟨0, 0, [1, 0, 0, 0, 0, 0, 0, 0]⟩))
      blank_entry cal_globals_example 0 (by decide) (by decide) (by decide)
  ⟨r, h1, h2⟩

/-! ### C17: havoc and the flag `mutable` -/

theorem set_getD_outside (l : List Nat) (i p v : Nat) (h : p ≠ i) :
    (l.set i v).getD p 0 = l.getD p 0 :=
  getD_set_ne l i p v (Ne.symm h)

theorem store_le_length : ∀ (n v : Nat), (store_le n v).length = n
  | 0, _ => rfl
  | n + 1, v => by simp [store_le, store_le_length n]

theorem store_word_frame (out_buf : List Nat) (pos n v : Nat)
    (h : pos + n ≤ out_buf.length) :
    (store_word out_buf pos n v).length = out_buf.length ∧
    ∀ p, (p < pos ∨ pos + n ≤ p) → (store_word out_buf pos n v).getD p 0 = out_buf.getD p 0 := by
  unfold store_word
  constructor
  · simp only [List.length_append, List.length_take, List.length_drop, store_le_length]
    omega
  · intro p hp
    simp only [List.getD_eq_getElem?_getD]
    rcases hp with hp | hp
    · rw [List.append_assoc, List.getElem?_append_left (by simp; omega),
        List.getElem?_take_of_lt hp]
    · rw [List.getElem?_append_right
        (by simp only [List.length_append, List.length_take, store_le_length]; omega)]
      simp only [List.length_append, List.length_take, store_le_length, List.getElem?_drop]
      congr 2
      omega

theorem havoc_byte_op_frame (env : havoc_env) (op : Nat) (r : range)
    (out_buf : List Nat) (rnd : Nat → Nat) (new_buf : List Nat)
    (hr : r.start + r.len ≤ out_buf.length)
    (h : havoc_byte_op env op r out_buf rnd = some new_buf) :
    new_buf.length = out_buf.length ∧
    ∀ p, (p < r.start ∨ r.start + r.len ≤ p) → new_buf.getD p 0 = out_buf.getD p 0 := by
  have hpos : ∀ x, 0 < r.len → UR x r.len < r.len := fun x h => Nat.mod_lt _ h
  have hpos2 : ∀ x, 2 ≤ r.len → UR x (r.len - 1) < r.len - 1 :=
    fun x h => Nat.mod_lt _ (by omega)
  have hpos4 : ∀ x, 4 ≤ r.len → UR x (r.len - 3) < r.len - 3 :=
    fun x h => Nat.mod_lt _ (by omega)
  have hbit : ∀ x, 0 < r.len → UR x (r.len <<< 3) >>> 3 < r.len := by
    intro x h
    have h8 : r.len <<< 3 = r.len * 8 := by rw [Nat.shiftLeft_eq]
    have : UR x (r.len <<< 3) < r.len * 8 := by
      unfold UR
      rw [h8]
      exact Nat.mod_lt x (by omega)
    rw [Nat.shiftRight_eq_div_pow]
    omega
  have hset : ∀ pos v, pos < r.start + r.len → r.start ≤ pos →
      (out_buf.set pos v).length = out_buf.length ∧
      ∀ p, (p < r.start ∨ r.start + r.len ≤ p) →
        (out_buf.set pos v).getD p 0 = out_buf.getD p 0 := by
    intro pos v h1 h2
    refine ⟨List.length_set _ _ _, ?_⟩
    intro p hp
    exact set_getD_outside _ _ _ _ (by omega)
  have hword : ∀ pos n v, pos + n ≤ r.start + r.len → r.start ≤ pos →
      (store_word out_buf pos n v).length = out_buf.length ∧
      ∀ p, (p < r.start ∨ r.start + r.len ≤ p) →
        (store_word out_buf pos n v).getD p 0 = out_buf.getD p 0 := by
    intro pos n v h1 h2
    obtain ⟨a, b⟩ := store_word_frame out_buf pos n v (by omega)
    exact ⟨a, fun p hp => b p (by omega)⟩
  have hskip : new_buf = out_buf →
      new_buf.length = out_buf.length ∧
      ∀ p, (p < r.start ∨ r.start + r.len ≤ p) → new_buf.getD p 0 = out_buf.getD p 0 :=
    fun h => by rw [h]; exact ⟨rfl, fun _ _ => rfl⟩
  unfold havoc_byte_op at h
  split at h
  · by_cases hl : r.len < 1
    · rw [if_pos hl, Option.some.injEq] at h; exact hskip h.symm
    · rw [if_neg hl, Option.some.injEq] at h
      rw [← h]
      have := hbit (rnd 0) (by omega)
      exact hset _ _ (by omega) (by omega)
  · by_cases hl : r.len < 1
    · rw [if_pos hl, Option.some.injEq] at h; exact hskip h.symm
    · rw [if_neg hl, Option.some.injEq] at h
      rw [← h]
      have := hpos (rnd 0) (by omega)
      exact hset _ _ (by omega) (by omega)
  · by_cases hl : r.len < 2
    · rw [if_pos hl, Option.some.injEq] at h; exact hskip h.symm
    · rw [if_neg hl, Option.some.injEq] at h
      rw [← h]
      have := hpos2 (rnd 1) (by omega)
      exact hword _ _ _ (by omega) (by omega)
  · by_cases hl : r.len < 4
    · rw [if_pos hl, Option.some.injEq] at h; exact hskip h.symm
    · rw [if_neg hl, Option.some.injEq] at h
      rw [← h]
      have := hpos4 (rnd 1) (by omega)
      exact hword _ _ _ (by omega) (by omega)
  · by_cases hl : r.len < 1
    · rw [if_pos hl, Option.some.injEq] at h; exact hskip h.symm
    · rw [if_neg hl, Option.some.injEq] at h
      rw [← h]
      have := hpos (rnd 0) (by omega)
      exact hset _ _ (by omega) (by omega)
  · by_cases hl : r.len < 1
    · rw [if_pos hl, Option.some.injEq] at h; exact hskip h.symm
    · rw [if_neg hl, Option.some.injEq] at h
      rw [← h]
      have := hpos (rnd 0) (by omega)
      exact hset _ _ (by omega) (by omega)
  · by_cases hl : r.len < 2
    · rw [if_pos hl, Option.some.injEq] at h; exact hskip h.symm
    · rw [if_neg hl, Option.some.injEq] at h
      rw [← h]
      have := hpos2 (rnd 1) (by omega)
      exact hword _ _ _ (by omega) (by omega)
  · by_cases hl : r.len < 2
    · rw [if_pos hl, Option.some.injEq] at h; exact hskip h.symm
    · rw [if_neg hl, Option.some.injEq] at h
      rw [← h]
      have := hpos2 (rnd 1) (by omega)
      exact hword _ _ _ (by omega) (by omega)
  · by_cases hl : r.len < 4
    · rw [if_pos hl, Option.some.injEq] at h; exact hskip h.symm
    · rw [if_neg hl, Option.some.injEq] at h
      rw [← h]
      have := hpos4 (rnd 1) (by omega)
      exact hword _ _ _ (by omega) (by omega)
  · by_cases hl : r.len < 4
    · rw [if_pos hl, Option.some.injEq] at h; exact hskip h.symm
    · rw [if_neg hl, Option.some.injEq] at h
      rw [← h]
      have := hpos4 (rnd 1) (by omega)
      exact hword _ _ _ (by omega) (by omega)
  · by_cases hl : r.len < 1
    · rw [if_pos hl, Option.some.injEq] at h; exact hskip h.symm
    · rw [if_neg hl, Option.some.injEq] at h
      rw [← h]
      have := hpos (rnd 0) (by omega)
      exact hset _ _ (by omega) (by omega)
  · exact absurd h (by simp)

/-- C17 (amended): a stacked fixed-width operation of a havoc trial in
exploit mode (bit flip, interesting value, add or subtract, xor, on 8, 16 or
32 bits) acts on the range `ranges[UR(rc)]`, drawn among all ranges of the
decomposition without regard to the flag `mutable`; when that range lies
within the buffer the operation keeps the length of the buffer and changes
no byte outside the drawn range. -/
theorem havoc_step_frame (env : havoc_env) (ranges : List range) (out_buf : List Nat)
    (rnd_range op : Nat) (rnd : Nat → Nat) (new_buf : List Nat)
    (hr : (havoc_range_choice ranges rnd_range).start
      + (havoc_range_choice ranges rnd_range).len ≤ out_buf.length)
    (h : havoc_step env ranges out_buf rnd_range op rnd = some new_buf) :
    new_buf.length = out_buf.length ∧
    ∀ p, (p < (havoc_range_choice ranges rnd_range).start ∨
        (havoc_range_choice ranges rnd_range).start
          + (havoc_range_choice ranges rnd_range).len ≤ p) →
      new_buf.getD p 0 = out_buf.getD p 0 :=
  havoc_byte_op_frame env op (havoc_range_choice ranges rnd_range) out_buf rnd new_buf hr h

theorem havoc_step_frame_witness :
    [1, 2, 3, 4, 5, 6, 0, 8].length = [1, 2, 3, 4, 5, 6, 7, 8].length ∧
    ∀ p, (p < (havoc_range_choice header_decomposition 1).start ∨
        (havoc_range_choice header_decomposition 1).start
          + (havoc_range_choice header_decomposition 1).len ≤ p) →
      [1, 2, 3, 4, 5, 6, 0, 8].getD p 0 = [1, 2, 3, 4, 5, 6, 7, 8].getD p 0 :=
  havoc_step_frame havoc_env_example header_decomposition [1, 2, 3, 4, 5, 6, 7, 8] 1 10
    (fun k => if k = 0 then 2 else 6) [1, 2, 3, 4, 5, 6, 0, 8] (by decide) (by decide)

/-- C17 (counterexample): on a decomposition whose first range, the header,
is not mutable, the draw 0 chooses that range; the xor operation changes
byte 0 of the header and the 16-bit addition changes its byte 1. -/
theorem havoc_modifies_header :
    (havoc_range_choice header_decomposition 0).mutable = 0 ∧
    havoc_step havoc_env_example header_decomposition [1, 2, 3, 4, 5, 6, 7, 8] 0 10
      (fun k => if k = 0 then 0 else 6) = some [6, 2, 3, 4, 5, 6, 7, 8] ∧
    havoc_step havoc_env_example header_decomposition [1, 2, 3, 4, 5, 6, 7, 8] 0 7
      (fun k => if k = 2 then 254 else 1) = some [1, 12, 3, 4, 5, 6, 7, 8] := by
  decide

/-! ### Lemmas on linked nodes -/

theorem linked_head (next : Nat → Nat) (s : Nat) (l : List Nat) (e : Nat)
    (h : linked next s l e) : s = l.headD e := by
  cases l with
  | nil => exact h
  | cons a rest => exact h.1

theorem linked_append (next : Nat → Nat) :
    ∀ (l1 l2 : List Nat) (s e : Nat),
      linked next s (l1 ++ l2) e ↔
        linked next s l1 (l2.headD e) ∧ linked next (l2.headD e) l2 e
  | [], l2, s, e => by
    simp only [List.nil_append, linked]
    constructor
    · intro h
      have := linked_head next s l2 e h
      exact ⟨this, this ▸ h⟩
    · rintro ⟨h1, h2⟩
      rw [h1]; exact h2
  | a :: l1, l2, s, e => by
    have ih := linked_append next l1 l2 (next a) e
    show (s = a ∧ linked next (next a) (l1 ++ l2) e) ↔
      (s = a ∧ linked next (next a) l1 (l2.headD e)) ∧ linked next (l2.headD e) l2 e
    rw [ih]
    tauto

theorem linked_congr (next next' : Nat → Nat) :
    ∀ (l : List Nat) (s e : Nat), (∀ a, a ∈ l → next' a = next a) →
      (linked next' s l e ↔ linked next s l e)
  | [], _, _, _ => Iff.rfl
  | a :: l, s, e, h => by
    simp only [linked]
    rw [h a (List.mem_cons_self _ _),
      linked_congr next next' l (next a) e (fun b hb => h b (List.mem_cons_of_mem _ hb))]

theorem linked_snoc (next : Nat → Nat) (l : List Nat) (s a e : Nat) :
    linked next s (l ++ [a]) e ↔ linked next s l a ∧ next a = e := by
  rw [linked_append]
  show linked next s l a ∧ (a = a ∧ next a = e) ↔ linked next s l a ∧ next a = e
  constructor
  · rintro ⟨h1, _, h2⟩; exact ⟨h1, h2⟩
  · rintro ⟨h1, h2⟩; exact ⟨h1, rfl, h2⟩

/-- The node after a linked node is a linked node or the end. -/
theorem linked_next_mem (next : Nat → Nat) :
    ∀ (l : List Nat) (s e a : Nat), linked next s l e → a ∈ l → next a ∈ l ++ [e]
  | [], _, _, _, _, h => by simp at h
  | b :: l, s, e, a, hl, h => by
    simp only [linked] at hl
    rcases List.mem_cons.mp h with hab | hal
    · rw [hab]
      have := linked_head next (next b) l e hl.2
      rw [this]
      cases l with
      | nil => simp
      | cons c l => simp
    · have := linked_next_mem next l (next b) e a hl.2 hal
      exact List.mem_cons_of_mem _ this

theorem get_last_message_from_spec (kl : klist) :
    ∀ (l : List Nat) (z it fuel : Nat), linked kl.next it (l ++ [z]) kl.tail →
      (∀ a, a ∈ l ++ [z] → 0 < a ∧ a ≠ kl.tail) → l.length ≤ fuel →
      get_last_message_from kl fuel it = z
  | [], z, it, fuel, hl, hn, _ => by
    simp only [List.nil_append, linked] at hl
    cases fuel with
    | zero => simp only [get_last_message_from]; exact hl.1
    | succ fuel =>
      simp only [get_last_message_from]
      rw [if_neg (by rw [hl.1]; intro h; exact h.2 hl.2)]
      exact hl.1
  | a :: l, z, it, fuel, hl, hn, hf => by
    simp only [List.cons_append, linked] at hl
    cases fuel with
    | zero => simp at hf
    | succ fuel =>
      simp only [get_last_message_from]
      have hnext : kl.next a = (l ++ [z]).headD kl.tail :=
        linked_head kl.next (kl.next a) (l ++ [z]) kl.tail hl.2
      have hmem : (l ++ [z]).headD kl.tail ∈ l ++ [z] := by
        cases l with
        | nil => simp
        | cons c l => simp
      have hc : it ≠ 0 ∧ kl.next it ≠ kl.tail := by
        rw [hl.1]
        refine ⟨?_, ?_⟩
        · have := (hn a (by simp)).1; omega
        · rw [hnext]
          exact (hn _ (List.mem_cons_of_mem _ hmem)).2
      rw [if_pos hc, hl.1]
      exact get_last_message_from_spec kl l z (kl.next a) fuel hl.2
        (fun b hb => hn b (List.mem_cons_of_mem _ hb))
        (by simp only [List.length_cons] at hf; omega)

theorem kl_wf_not_tail (kl : klist) (nodes : List Nat) (h : kl_wf kl nodes) :
    ∀ a, a ∈ nodes → 0 < a ∧ a ≠ kl.tail := by
  intro a ha
  obtain ⟨_, hnd, hb, _⟩ := h
  refine ⟨(hb a (List.mem_append_left _ ha)).1, ?_⟩
  intro heq
  rw [List.nodup_append] at hnd
  exact hnd.2.2 ha (by rw [heq]; exact List.mem_cons_self _ _)

theorem get_last_message_spec (kl : klist) (l : List Nat) (z : Nat)
    (h : kl_wf kl (l ++ [z])) : get_last_message kl = z := by
  unfold get_last_message
  apply get_last_message_from_spec kl l z kl.head kl.size h.1 (kl_wf_not_tail kl _ h)
  rw [h.2.2.2]; simp

theorem kl_messages_from_spec (kl : klist) :
    ∀ (l : List Nat) (it fuel : Nat), linked kl.next it l kl.tail →
      (∀ a, a ∈ l → 0 < a ∧ a ≠ kl.tail) → l.length ≤ fuel →
      kl_messages_from kl fuel it = l.map kl.data
  | [], it, fuel, hl, _, _ => by
    simp only [linked] at hl
    cases fuel with
    | zero => rfl
    | succ fuel => simp [kl_messages_from, hl]
  | a :: l, it, fuel, hl, hn, hf => by
    simp only [linked] at hl
    cases fuel with
    | zero => simp at hf
    | succ fuel =>
      have ha := hn a (List.mem_cons_self _ _)
      have hc : ¬ (it = kl.tail ∨ it = 0) := by
        rw [hl.1]; rintro (h | h)
        · exact ha.2 h
        · omega
      simp only [kl_messages_from, if_neg hc, List.map_cons]
      rw [hl.1, kl_messages_from_spec kl l (kl.next a) fuel hl.2
        (fun b hb => hn b (List.mem_cons_of_mem _ hb))
        (by simp only [List.length_cons] at hf; omega)]

theorem kl_messages_of_spec (kl : klist) (nodes : List Nat) (h : kl_wf kl nodes) :
    kl_messages_of kl = nodes.map kl.data := by
  unfold kl_messages_of
  exact kl_messages_from_spec kl nodes kl.head kl.size h.1 (kl_wf_not_tail kl _ h)
    (by rw [h.2.2.2])

/-! ### Lemmas on `kl_pushp` and the pushes of `common_fuzz_stuff` -/

theorem kl_pushp_pool (kl : klist) (m : List Nat) (p : Nat) (rest : List Nat)
    (hp : kl.pool = p :: rest) :
    kl_pushp kl m =
      { next := Function.update (Function.update kl.next p 0) kl.tail p
        data := Function.update kl.data kl.tail m
        head := kl.head, tail := p, size := kl.size + 1, pool := rest, fresh := kl.fresh } := by
  simp only [kl_pushp, kmp_alloc, hp]

theorem kl_pushp_fresh (kl : klist) (m : List Nat) (hp : kl.pool = []) :
    kl_pushp kl m =
      { next := Function.update
          (Function.update (Function.update kl.next kl.fresh 0) kl.fresh 0) kl.tail kl.fresh
        data := Function.update (Function.update kl.data kl.fresh []) kl.tail m
        head := kl.head, tail := kl.fresh, size := kl.size + 1, pool := []
        fresh := kl.fresh + 1 } := by
  simp only [kl_pushp, kmp_alloc, hp]

/-- A push keeps the nodes, stores the message in the old tail, which becomes
the last node, and makes an unused node the tail. -/
theorem kl_pushp_spec (kl : klist) (nodes : List Nat) (m : List Nat) (h : kl_wf kl nodes) :
    kl_wf (kl_pushp kl m) (nodes ++ [kl.tail]) ∧
    (kl_pushp kl m).head = kl.head ∧
    (kl_pushp kl m).data kl.tail = m ∧
    (kl_pushp kl m).next kl.tail = (kl_pushp kl m).tail ∧
    (∀ a, a ∈ nodes → (kl_pushp kl m).data a = kl.data a) ∧
    (∀ a, a ∈ nodes → (kl_pushp kl m).next a = kl.next a) := by
  obtain ⟨hl, hnd, hb, hs⟩ := h
  have hnt := kl_wf_not_tail kl nodes ⟨hl, hnd, hb, hs⟩
  cases hp : kl.pool with
  | cons p rest =>
    rw [kl_pushp_pool kl m p rest hp]
    rw [hp] at hnd hb
    have hpn : ∀ a, a ∈ nodes → a ≠ p := by
      intro a ha heq
      rw [List.nodup_append] at hnd
      exact hnd.2.2 ha (by rw [heq]; simp)
    have hpt : kl.tail ≠ p := by
      intro heq
      have := (List.nodup_append.mp hnd).2.1
      rw [heq] at this
      simp at this
    have hnext : ∀ a, a ∈ nodes →
        Function.update (Function.update kl.next p 0) kl.tail p a = kl.next a := by
      intro a ha
      rw [Function.update_noteq (hnt a ha).2, Function.update_noteq (hpn a ha)]
    refine ⟨⟨?_, ?_, ?_, ?_⟩, rfl, ?_, ?_, ?_, hnext⟩
    · simp only
      rw [linked_snoc]
      exact ⟨(linked_congr kl.next _ nodes kl.head kl.tail hnext).mpr hl,
        Function.update_same _ _ _⟩
    · simp only
      rw [List.append_assoc]
      exact hnd
    · simp only
      intro a ha
      rw [List.append_assoc] at ha
      exact hb a ha
    · simp only [List.length_append, List.length_singleton, hs]
    · simp only [Function.update_same]
    · simp only [Function.update_same]
    · intro a ha
      simp only
      rw [Function.update_noteq (hnt a ha).2]
  | nil =>
    rw [kl_pushp_fresh kl m hp]
    rw [hp] at hnd hb
    have hfn : ∀ a, a ∈ nodes → a ≠ kl.fresh := by
      intro a ha heq
      have := (hb a (List.mem_append_left _ ha)).2
      omega
    have hft : kl.tail ≠ kl.fresh := by
      intro heq
      have := (hb kl.tail (by simp)).2
      omega
    have hnext : ∀ a, a ∈ nodes →
        Function.update (Function.update (Function.update kl.next kl.fresh 0) kl.fresh 0)
          kl.tail kl.fresh a = kl.next a := by
      intro a ha
      rw [Function.update_noteq (hnt a ha).2, Function.update_noteq (hfn a ha),
        Function.update_noteq (hfn a ha)]
    refine ⟨⟨?_, ?_, ?_, ?_⟩, rfl, ?_, ?_, ?_, hnext⟩
    · simp only
      rw [linked_snoc]
      exact ⟨(linked_congr kl.next _ nodes kl.head kl.tail hnext).mpr hl,
        Function.update_same _ _ _⟩
    · simp only
      rw [List.append_assoc, List.nodup_append]
      rw [List.nodup_append] at hnd
      refine ⟨hnd.1, ?_, ?_⟩
      · simp only [List.singleton_append, List.nodup_cons, List.mem_singleton,
          List.not_mem_nil, not_false_eq_true, List.nodup_nil, and_true]
        exact hft
      · intro a ha hb'
        simp only [List.singleton_append, List.mem_cons, List.mem_singleton,
          List.not_mem_nil, or_false] at hb'
        rcases hb' with h1 | h1
        · exact (hnt a ha).2 h1
        · exact hfn a ha h1
    · simp only
      intro a ha
      simp only [List.mem_append, List.mem_singleton, List.mem_cons, List.not_mem_nil,
        or_false] at ha
      rcases ha with (h1 | h1) | h1
      · have := hb a (List.mem_append_left _ h1); omega
      · have := hb a (by rw [h1]; simp); omega
      · have := hb kl.tail (by simp); omega
    · simp only [List.length_append, List.length_singleton, hs]
    · simp only [Function.update_same]
    · simp only [Function.update_same]
    · intro a ha
      simp only
      rw [Function.update_noteq (hnt a ha).2, Function.update_noteq (hfn a ha)]

/-- The pushes of `common_fuzz_stuff` append one node per message, the first
of them the old tail, and move `M2_next` along when it is the tail. -/
theorem push_messages_spec :
    ∀ (msgs : List (List Nat)) (kl : klist) (nodes : List Nat) (N : Nat),
      kl_wf kl nodes → (N = kl.tail ∨ N ∈ nodes) →
      ∃ ts, ts.length = msgs.length ∧
        kl_wf (push_messages kl N msgs).1 (nodes ++ ts) ∧
        ts.map (push_messages kl N msgs).1.data = msgs ∧
        (push_messages kl N msgs).1.head = kl.head ∧
        ts.headD (push_messages kl N msgs).1.tail = kl.tail ∧
        (∀ a, a ∈ nodes → (push_messages kl N msgs).1.data a = kl.data a) ∧
        (∀ a, a ∈ nodes → (push_messages kl N msgs).1.next a = kl.next a) ∧
        (push_messages kl N msgs).2
          = (if N = kl.tail then (push_messages kl N msgs).1.tail else N)
  | [], kl, nodes, N, h, _ => by
    refine ⟨[], rfl, by simpa [push_messages] using h, rfl, rfl, rfl, fun _ _ => rfl,
      fun _ _ => rfl, ?_⟩
    simp only [push_messages]
    split
    · assumption
    · rfl
  | m :: msgs, kl, nodes, N, h, hN => by
    obtain ⟨p1, p2, p3, p4, p5, p6⟩ := kl_pushp_spec kl nodes m h
    have hnt := kl_wf_not_tail kl nodes h
    have hnt' := kl_wf_not_tail _ _ p1
    -- the new value of M2_next
    have hN' : (if (kl_pushp kl m).next N = (kl_pushp kl m).tail then (kl_pushp kl m).tail
        else N) = (if N = kl.tail then (kl_pushp kl m).tail else N) := by
      by_cases hNt : N = kl.tail
      · rw [if_pos hNt, hNt, if_pos p4]
      · rw [if_neg hNt]
        have hmem : N ∈ nodes := by
          rcases hN with h1 | h1
          · exact absurd h1 hNt
          · exact h1
        have h1 : kl.next N ∈ nodes ++ [kl.tail] := linked_next_mem kl.next nodes kl.head _ N h.1 hmem
        have h2 : (kl_pushp kl m).next N ≠ (kl_pushp kl m).tail := by
          rw [p6 N hmem]
          exact (hnt' _ h1).2
        rw [if_neg h2]
    have hNmem : (if N = kl.tail then (kl_pushp kl m).tail else N) = (kl_pushp kl m).tail ∨
        (if N = kl.tail then (kl_pushp kl m).tail else N) ∈ nodes ++ [kl.tail] := by
      by_cases hNt : N = kl.tail
      · rw [if_pos hNt]; exact Or.inl rfl
      · rw [if_neg hNt]
        rcases hN with h1 | h1
        · exact absurd h1 hNt
        · exact Or.inr (List.mem_append_left _ h1)
    obtain ⟨ts, q1, q2, q3, q4, q5, q6, q7, q8⟩ := push_messages_spec msgs (kl_pushp kl m)
      (nodes ++ [kl.tail]) (if N = kl.tail then (kl_pushp kl m).tail else N) p1 hNmem
    have hunf : push_messages kl N (m :: msgs)
        = push_messages (kl_pushp kl m) (if N = kl.tail then (kl_pushp kl m).tail else N)
            msgs := by
      simp only [push_messages]
      rw [hN']
    rw [hunf]
    refine ⟨kl.tail :: ts, by simp [q1], by simpa using q2, ?_, by rw [q4, p2], rfl, ?_, ?_, ?_⟩
    · simp only [List.map_cons, q3]
      rw [q6 kl.tail (by simp), p3]
    · intro a ha
      rw [q6 a (List.mem_append_left _ ha), p5 a ha]
    · intro a ha
      rw [q7 a (List.mem_append_left _ ha), p6 a ha]
    · rw [q8]
      by_cases hNt : N = kl.tail
      · simp only [if_pos hNt, if_true]
      · simp only [if_neg hNt]
        have hne : N ≠ (kl_pushp kl m).tail := by
          rcases hN with h1 | h1
          · exact absurd h1 hNt
          · exact (hnt' N (List.mem_append_left _ h1)).2
        rw [if_neg hne]

/-! ### Lemmas on the relinking and the freeing of the previous M2 -/

/-- The loop that frees the previous M2 frees exactly the nodes linked from
`old_M2_start` up to `M2_next`: they go to the pool, the node freed last on
top, and no link and no other message changes. -/
theorem free_previous_M2_spec (N : Nat) :
    ∀ (l : List Nat) (b : Nat) (kl : klist) (fuel : Nat),
      linked kl.next b (b :: l) N → N ∉ b :: l → l.length < fuel →
      (free_previous_M2 N fuel kl b (kl.next b)).next = kl.next ∧
      (free_previous_M2 N fuel kl b (kl.next b)).head = kl.head ∧
      (free_previous_M2 N fuel kl b (kl.next b)).tail = kl.tail ∧
      (free_previous_M2 N fuel kl b (kl.next b)).fresh = kl.fresh ∧
      (free_previous_M2 N fuel kl b (kl.next b)).pool = (b :: l).reverse ++ kl.pool ∧
      (free_previous_M2 N fuel kl b (kl.next b)).size = kl.size - (l.length + 1) ∧
      ∀ a, a ∉ b :: l → (free_previous_M2 N fuel kl b (kl.next b)).data a = kl.data a
  | [], b, kl, fuel, hl, hN, hf => by
    cases fuel with
    | zero => omega
    | succ fuel =>
      simp only [linked] at hl
      have hc : ¬ (kl.next b ≠ N) := not_not.mpr hl.2
      simp only [free_previous_M2, if_neg hc]
      refine ⟨trivial, trivial, trivial, trivial, by simp, by simp, ?_⟩
      intro a ha
      rw [Function.update_noteq (by simpa using ha)]
  | c :: l, b, kl, fuel, hl, hN, hf => by
    cases fuel with
    | zero => omega
    | succ fuel =>
      simp only [linked] at hl
      obtain ⟨_, hbc, hrest⟩ := hl
      have hcN : kl.next b ≠ N := by
        rw [hbc]; intro h; exact hN (by rw [← h]; simp)
      simp only [free_previous_M2, if_pos hcN]
      obtain ⟨i1, i2, i3, i4, i5, i6, i7⟩ := free_previous_M2_spec N l c
        { kl with
          data := Function.update kl.data b []
          pool := b :: kl.pool
          size := kl.size - 1 } fuel
        (by simp only [linked]; exact ⟨trivial, hrest⟩)
        (fun h => hN (List.mem_cons_of_mem _ h))
        (by simp only [List.length_cons] at hf; omega)
      rw [hbc]
      refine ⟨i1, i2, i3, i4, ?_, ?_, ?_⟩
      · rw [i5]; simp
      · rw [i6]; simp only [List.length_cons]; omega
      · intro a ha
        rw [i7 a (fun h => ha (List.mem_cons_of_mem _ h))]
        simp only
        rw [Function.update_noteq (fun h => ha (by rw [h]; simp))]

theorem linked_split_last (next : Nat → Nat) (l : List Nat) (z s e : Nat)
    (h : linked next s (l ++ [z]) e) : linked next s l z ∧ next z = e :=
  (linked_snoc next l s z e).mp h

theorem list_eq_dropLast_append :
    ∀ (l : List Nat), l ≠ [] → l = l.dropLast ++ [l.getLastD 0]
  | [], h => absurd rfl h
  | [_], _ => rfl
  | a :: b :: l, _ => by
    have ih := list_eq_dropLast_append (b :: l) (by simp)
    show a :: b :: l = a :: ((b :: l).dropLast ++ [(b :: l).getLastD 0])
    rw [← ih]

theorem relink_M2_fields (kl : klist) (P z zt N : Nat) :
    (relink_M2 kl P z zt N).tail = kl.tail ∧ (relink_M2 kl P z zt N).data = kl.data ∧
    (relink_M2 kl P z zt N).pool = kl.pool ∧ (relink_M2 kl P z zt N).fresh = kl.fresh ∧
    (relink_M2 kl P z zt N).size = kl.size ∧
    (relink_M2 kl P z zt N).head = (if P = 0 then kl.next z else kl.head) := by
  unfold relink_M2
  by_cases hP : P = 0
  · simp only [if_pos hP]
    exact ⟨trivial, trivial, trivial, trivial, trivial, trivial⟩
  · simp only [if_neg hP]
    exact ⟨trivial, trivial, trivial, trivial, trivial, trivial⟩

/-- The links after the relinking. -/
theorem relink_M2_next (kl : klist) (P z zt N : Nat) (h1 : z ≠ zt) (h2 : P ≠ z)
    (h3 : P ≠ zt) :
    (relink_M2 kl P z zt N).next z = kl.tail ∧
    (relink_M2 kl P z zt N).next zt = N ∧
    (P ≠ 0 → (relink_M2 kl P z zt N).next P = kl.next z) ∧
    (∀ a, a ≠ z → a ≠ zt → (a ≠ P ∨ P = 0) → (relink_M2 kl P z zt N).next a = kl.next a) := by
  unfold relink_M2
  by_cases hP : P = 0
  · simp only [if_pos hP]
    refine ⟨Function.update_same _ _ _, ?_, fun h => absurd hP h, ?_⟩
    · rw [Function.update_noteq (Ne.symm h1), Function.update_same]
    · intro a a1 a2 _
      rw [Function.update_noteq a1, Function.update_noteq a2]
  · simp only [if_neg hP]
    refine ⟨Function.update_same _ _ _, ?_, ?_, ?_⟩
    · rw [Function.update_noteq (Ne.symm h1), Function.update_same]
    · intro _
      rw [Function.update_noteq h2, Function.update_noteq h3, Function.update_same]
    · intro a a1 a2 a3
      have a3' : a ≠ P := by
        rcases a3 with h | h
        · exact h
        · exact absurd h hP
      rw [Function.update_noteq a1, Function.update_noteq a2, Function.update_noteq a3']

/-- A linked segment stays linked when the links of all its nodes but the
last are kept, and it then ends where the last node points. -/
theorem linked_relast (next next' : Nat → Nat) (l : List Nat) (y s e e' : Nat)
    (h : linked next s (l ++ [y]) e) (hk : ∀ a, a ∈ l → next' a = next a)
    (hy : next' y = e') : linked next' s (l ++ [y]) e' := by
  rw [linked_snoc] at h ⊢
  exact ⟨(linked_congr next next' l s y hk).mpr h.1, hy⟩

theorem ne_of_nodup_append {l1 l2 : List Nat} (h : (l1 ++ l2).Nodup) {a b : Nat}
    (ha : a ∈ l1) (hb : b ∈ l2) : a ≠ b := by
  intro hab
  rw [List.nodup_append] at h
  exact h.2.2 ha (hab ▸ hb)

theorem ne_last_of_nodup {l : List Nat} {y a : Nat} (h : (l ++ [y]).Nodup) (ha : a ∈ l) :
    a ≠ y :=
  ne_of_nodup_append h ha (List.mem_singleton_self y)

theorem headD_of_ne_nil (l : List Nat) (x y : Nat) (h : l ≠ []) : l.headD x = l.headD y := by
  cases l with
  | nil => exact absurd rfl h
  | cons a l => rfl

theorem headD_mem_of_ne_nil (l : List Nat) (x : Nat) (h : l ≠ []) : l.headD x ∈ l := by
  cases l with
  | nil => exact absurd rfl h
  | cons a l => simp

/-- The relinking and the freeing on a list that holds the nodes of M1, the
previous M2, M3 and the pushed messages in this order: afterwards the list
holds M1, the pushed messages and M3, and the previous M2 is in the pool. -/
theorem relink_free_spec (kl1 : klist) (A n2i C tsi : List Nat) (y z zt P fuel : Nat)
    (hw : kl_wf kl1 (A ++ (n2i ++ [y]) ++ C ++ (tsi ++ [zt])))
    (hA : (A = [] ∧ P = 0) ∨ ∃ Ai, A = Ai ++ [P])
    (hC : (C = [] ∧ z = y) ∨ ∃ Ci, C = Ci ++ [z])
    (hfuel : n2i.length < fuel) :
    kl_wf
      (free_previous_M2 (C.headD kl1.tail) fuel
        (relink_M2 kl1 P z zt (C.headD kl1.tail))
        (if P = 0 then kl1.head else kl1.next P)
        ((relink_M2 kl1 P z zt (C.headD kl1.tail)).next
          (if P = 0 then kl1.head else kl1.next P)))
      (A ++ (tsi ++ [zt]) ++ C) ∧
    (free_previous_M2 (C.headD kl1.tail) fuel
        (relink_M2 kl1 P z zt (C.headD kl1.tail))
        (if P = 0 then kl1.head else kl1.next P)
        ((relink_M2 kl1 P z zt (C.headD kl1.tail)).next
          (if P = 0 then kl1.head else kl1.next P))).tail = kl1.tail ∧
    ∀ a, a ∉ n2i ++ [y] →
      (free_previous_M2 (C.headD kl1.tail) fuel
        (relink_M2 kl1 P z zt (C.headD kl1.tail))
        (if P = 0 then kl1.head else kl1.next P)
        ((relink_M2 kl1 P z zt (C.headD kl1.tail)).next
          (if P = 0 then kl1.head else kl1.next P))).data a = kl1.data a := by
  obtain ⟨hl, hnd, hb, hs⟩ := hw
  have hnt := kl_wf_not_tail kl1 _ ⟨hl, hnd, hb, hs⟩
  generalize hN' : C.headD kl1.tail = N'
  obtain ⟨b, rest, hcons⟩ : ∃ b rest, n2i ++ [y] = b :: rest := by
    cases n2i with
    | nil => exact ⟨_, _, rfl⟩
    | cons c l => exact ⟨_, _, rfl⟩
  have hbh : ∀ x, (n2i ++ [y]).headD x = b := by
    intro x; rw [hcons]; rfl
  have hrest : rest.length = n2i.length := by
    have := congrArg List.length hcons
    rw [List.length_append, List.length_singleton, List.length_cons] at this
    omega
  -- the four segments of the list after the pushes
  have hD : tsi ++ [zt] ≠ [] := by simp
  rw [linked_append, linked_append, linked_append] at hl
  obtain ⟨⟨⟨lA, lB⟩, lC⟩, lD⟩ := hl
  rw [hbh] at lA lB
  -- all nodes are different
  have hnd' : (A ++ (n2i ++ [y]) ++ C ++ (tsi ++ [zt])).Nodup :=
    (List.nodup_append.mp hnd).1
  have ndABC : (A ++ (n2i ++ [y]) ++ C).Nodup := (List.nodup_append.mp hnd').1
  have ndAB : (A ++ (n2i ++ [y])).Nodup := (List.nodup_append.mp ndABC).1
  have ndA : A.Nodup := (List.nodup_append.mp ndAB).1
  have ndB : (n2i ++ [y]).Nodup := (List.nodup_append.mp ndAB).2.1
  have ndC : C.Nodup := (List.nodup_append.mp ndABC).2.1
  have ndD : (tsi ++ [zt]).Nodup := (List.nodup_append.mp hnd').2.1
  have dABC_D : ∀ a b, a ∈ A ++ (n2i ++ [y]) ++ C → b ∈ tsi ++ [zt] → a ≠ b :=
    fun a b ha hb => ne_of_nodup_append hnd' ha hb
  have dAB_C : ∀ a b, a ∈ A ++ (n2i ++ [y]) → b ∈ C → a ≠ b :=
    fun a b ha hb => ne_of_nodup_append ndABC ha hb
  have dA_B : ∀ a b, a ∈ A → b ∈ n2i ++ [y] → a ≠ b :=
    fun a b ha hb => ne_of_nodup_append ndAB ha hb
  have hpos : ∀ a, a ∈ A ++ (n2i ++ [y]) ++ C ++ (tsi ++ [zt]) → 0 < a :=
    fun a ha => (hnt a ha).1
  -- where the special nodes are
  have hzt : zt ∈ tsi ++ [zt] := by simp
  have hy : y ∈ n2i ++ [y] := by simp
  have hzBC : (z ∈ n2i ++ [y] ∧ C = []) ∨ (z ∈ C) := by
    rcases hC with ⟨h1, h2⟩ | ⟨Ci, h1⟩
    · exact Or.inl ⟨by rw [h2]; exact hy, h1⟩
    · exact Or.inr (by rw [h1]; simp)
  have hzABC : z ∈ A ++ (n2i ++ [y]) ++ C := by
    rcases hzBC with ⟨h, _⟩ | h
    · exact List.mem_append_left _ (List.mem_append_right _ h)
    · exact List.mem_append_right _ h
  have hPA : P = 0 ∨ P ∈ A := by
    rcases hA with ⟨_, h⟩ | ⟨Ai, h⟩
    · exact Or.inl h
    · exact Or.inr (by rw [h]; simp)
  have hz_zt : z ≠ zt := dABC_D z zt hzABC hzt
  have hP_z : P ≠ z := by
    rcases hPA with h | h
    · have := hpos z (List.mem_append_left _ hzABC); omega
    · rcases hzBC with ⟨h1, _⟩ | h1
      · exact dA_B P z h h1
      · exact dAB_C P z (List.mem_append_left _ h) h1
  have hP_zt : P ≠ zt := by
    rcases hPA with h | h
    · have := hpos zt (List.mem_append_right _ hzt); omega
    · exact dABC_D P zt (List.mem_append_left _ (List.mem_append_left _ h)) hzt
  have hNC : C ≠ [] → N' = C.headD ((tsi ++ [zt]).headD kl1.tail) := by
    intro hCne
    rw [← hN']; exact headD_of_ne_nil C _ _ hCne
  obtain ⟨r1, r2, r3, r4⟩ := relink_M2_next kl1 P z zt N' hz_zt hP_z hP_zt
  obtain ⟨f1, f2, f3, f4, f5, f6⟩ := relink_M2_fields kl1 P z zt N'
  -- the node after the last node of M1 ++ M2 ++ M3 is the first pushed node
  have hnz : kl1.next z = (tsi ++ [zt]).headD kl1.tail := by
    rcases hC with ⟨h1, h2⟩ | ⟨Ci, h1⟩
    · rw [h1] at lB
      rw [h2]
      exact ((linked_snoc _ _ _ _ _).mp lB).2
    · rw [h1] at lC
      exact ((linked_snoc _ _ _ _ _).mp lC).2
  -- M1 is still linked, now to the first pushed node
  have B1 : linked (relink_M2 kl1 P z zt N').next (relink_M2 kl1 P z zt N').head A
      ((tsi ++ [zt]).headD kl1.tail) := by
    rcases hA with ⟨h1, h2⟩ | ⟨Ai, h1⟩
    · rw [h1, f6, if_pos h2]
      exact hnz
    · have hP0 : P ≠ 0 := by
        have := hpos P (by rw [h1]; simp); omega
      rw [f6, if_neg hP0]
      rw [h1] at lA
      rw [h1]
      refine linked_relast kl1.next _ Ai P _ _ _ lA ?_ (by rw [r3 hP0]; exact hnz)
      intro a ha
      have haA : a ∈ A := by rw [h1]; exact List.mem_append_left _ ha
      refine r4 a ?_ ?_ (Or.inl ?_)
      · rcases hzBC with ⟨hz1, _⟩ | hz1
        · exact dA_B a z haA hz1
        · exact dAB_C a z (List.mem_append_left _ haA) hz1
      · exact dABC_D a zt (List.mem_append_left _ (List.mem_append_left _ haA)) hzt
      · rw [h1] at ndA
        exact ne_last_of_nodup ndA ha
  -- the pushed nodes are linked to M3
  have B2 : linked (relink_M2 kl1 P z zt N').next
      ((tsi ++ [zt]).headD kl1.tail) (tsi ++ [zt]) N' := by
    refine linked_relast kl1.next _ tsi zt _ _ _ lD ?_ r2
    intro a ha
    have haD : a ∈ tsi ++ [zt] := List.mem_append_left _ ha
    refine r4 a ?_ ?_ ?_
    · exact fun h => dABC_D z a hzABC haD h.symm
    · exact ne_last_of_nodup ndD ha
    · rcases hPA with h | h
      · exact Or.inr h
      · exact Or.inl (fun heq => dABC_D P a
          (List.mem_append_left _ (List.mem_append_left _ h)) haD heq.symm)
  -- M3 is linked to the tail
  have B3 : linked (relink_M2 kl1 P z zt N').next N' C kl1.tail := by
    rcases hC with ⟨h1, _⟩ | ⟨Ci, h1⟩
    · rw [← hN', h1]; rfl
    · have hCne : C ≠ [] := by rw [h1]; simp
      have hNC' := hNC hCne
      rw [h1] at lC hNC'
      rw [h1]
      rw [← hNC'] at lC
      refine linked_relast kl1.next _ Ci z _ _ _ lC ?_ r1
      intro a ha
      have haC : a ∈ C := by rw [h1]; exact List.mem_append_left _ ha
      refine r4 a ?_ ?_ ?_
      · rw [h1] at ndC
        exact ne_last_of_nodup ndC ha
      · exact dABC_D a zt (List.mem_append_right _ haC) hzt
      · rcases hPA with h | h
        · exact Or.inr h
        · exact Or.inl (fun heq => dAB_C P a (List.mem_append_left _ h) haC heq.symm)
  -- the previous M2 is linked up to M2_next
  have BF : linked (relink_M2 kl1 P z zt N').next b (n2i ++ [y]) N' := by
    refine linked_relast kl1.next _ n2i y _ _ _ lB ?_ ?_
    · intro a ha
      have haB : a ∈ n2i ++ [y] := List.mem_append_left _ ha
      refine r4 a ?_ ?_ ?_
      · rcases hC with ⟨_, h2⟩ | ⟨Ci, h1⟩
        · rw [h2]; exact ne_last_of_nodup ndB ha
        · exact dAB_C a z (List.mem_append_right _ haB) (by rw [h1]; simp)
      · exact dABC_D a zt (List.mem_append_left _ (List.mem_append_right _ haB)) hzt
      · rcases hPA with h | h
        · exact Or.inr h
        · exact Or.inl (fun heq => dA_B P a h haB heq.symm)
    · rcases hC with ⟨h1, h2⟩ | ⟨Ci, h1⟩
      · rw [← h2, r1, ← hN', h1]; rfl
      · have hCne : C ≠ [] := by rw [h1]; simp
        have hyz : y ≠ z := dAB_C y z (List.mem_append_right _ hy) (by rw [h1]; simp)
        have hyzt : y ≠ zt :=
          dABC_D y zt (List.mem_append_left _ (List.mem_append_right _ hy)) hzt
        have hyP : y ≠ P ∨ P = 0 := by
          rcases hPA with h | h
          · exact Or.inr h
          · exact Or.inl (fun heq => dA_B P y h hy heq.symm)
        rw [r4 y hyz hyzt hyP, ((linked_snoc _ _ _ _ _).mp lB).2]
        exact (hNC hCne).symm
  -- the first node of the previous M2
  have hold : (if P = 0 then kl1.head else kl1.next P) = b := by
    rcases hA with ⟨h1, h2⟩ | ⟨Ai, h1⟩
    · rw [if_pos h2]
      rw [h1] at lA
      exact lA
    · have hP0 : P ≠ 0 := by
        have := hpos P (by rw [h1]; simp); omega
      rw [if_neg hP0]
      rw [h1] at lA
      exact ((linked_snoc _ _ _ _ _).mp lA).2
  have hNB : N' ∉ n2i ++ [y] := by
    intro hmem
    by_cases hCne : C = []
    · rw [← hN', hCne] at hmem
      exact (hnt kl1.tail (List.mem_append_left _ (List.mem_append_left _
        (List.mem_append_right _ hmem)))).2 rfl
    · have hin : N' ∈ C := by rw [← hN']; exact headD_mem_of_ne_nil C _ hCne
      exact dAB_C _ _ (List.mem_append_right _ hmem) hin rfl
  -- the loop that frees the previous M2
  rw [hold]
  rw [hcons] at BF hNB
  obtain ⟨g1, g2, g3, g4, g5, g6, g7⟩ := free_previous_M2_spec N'
    rest b (relink_M2 kl1 P z zt N') fuel BF hNB (by omega)
  rw [← hcons] at g5 g7
  have hperm : List.Perm (A ++ (n2i ++ [y]) ++ C ++ (tsi ++ [zt]) ++ kl1.tail :: kl1.pool)
      (A ++ (tsi ++ [zt]) ++ C ++ kl1.tail :: ((n2i ++ [y]).reverse ++ kl1.pool)) := by
    rw [List.perm_iff_count]
    intro a
    simp only [List.count_append, List.count_cons, List.count_reverse, List.count_nil]
    omega
  refine ⟨⟨?_, ?_, ?_, ?_⟩, by rw [g3, f1], ?_⟩
  · rw [g1, g2, g3, f1, linked_append, linked_append]
    rw [hN', headD_of_ne_nil (tsi ++ [zt]) N' kl1.tail hD]
    exact ⟨⟨B1, B2⟩, B3⟩
  · rw [g3, g5, f1, f3]
    exact (List.Perm.nodup_iff hperm).mp hnd
  · rw [g3, g4, g5, f1, f3, f4]
    intro a ha
    exact hb a (hperm.mem_iff.mpr ha)
  · rw [g6, f5, hs, hrest]
    simp only [List.length_append, List.length_singleton]
    omega
  · intro a ha
    rw [g7 a ha, f2]

theorem new_messages_ne_nil (out_buf : List Nat) (regions : List region_t)
    (region_count max_seed_region_count fuel : Nat) (h : 0 < region_count) :
    new_messages out_buf regions region_count max_seed_region_count (fuel + 1) 0 ≠ [] := by
  simp only [new_messages, if_pos h]
  split <;> simp

theorem getLastD_mem_of_ne_nil (l : List Nat) (h : l ≠ []) : l.getLastD 0 ∈ l := by
  have := list_eq_dropLast_append l h
  rw [this]
  simp

/-- One update of the list: M1 and M3 keep their nodes and messages, M2 is
replaced by the pushed messages, and `M2_prev` and `M2_next` delimit the new
M2. -/
theorem update_kl_messages_spec (kl : klist) (n1 n2 n3 : List Nat) (P N : Nat)
    (msgs : List (List Nat)) (h : M2_delimited kl n1 n2 n3 P N) (hm : msgs ≠ []) :
    ∃ ts, M2_delimited (update_kl_messages kl P N msgs).1 n1 ts n3 P
        (update_kl_messages kl P N msgs).2 ∧
      ts.map (update_kl_messages kl P N msgs).1.data = msgs ∧
      n1.map (update_kl_messages kl P N msgs).1.data = n1.map kl.data ∧
      n3.map (update_kl_messages kl P N msgs).1.data = n3.map kl.data := by
  obtain ⟨hw, hn2, hP, hN⟩ := h
  have hnt := kl_wf_not_tail kl _ hw
  -- the pushes
  have hNmem : N = kl.tail ∨ N ∈ n1 ++ n2 ++ n3 := by
    by_cases h3 : n3 = []
    · rw [hN, h3]; exact Or.inl rfl
    · rw [hN]; exact Or.inr (List.mem_append_right _ (headD_mem_of_ne_nil n3 _ h3))
  obtain ⟨ts, q1, q2, q3, q4, q5, q6, q7, q8⟩ :=
    push_messages_spec msgs kl (n1 ++ n2 ++ n3) N hw hNmem
  have hts : ts ≠ [] := by
    intro h0
    rw [h0] at q1
    exact hm (List.length_eq_zero.mp q1.symm)
  have hnt1 := kl_wf_not_tail _ _ q2
  -- the last nodes
  have e2 := list_eq_dropLast_append n2 hn2
  have et := list_eq_dropLast_append ts hts
  obtain ⟨z, hC, hz⟩ : ∃ z, ((n3 = [] ∧ z = n2.getLastD 0) ∨ ∃ Ci, n3 = Ci ++ [z]) ∧
      get_last_message kl = z := by
    by_cases h3 : n3 = []
    · refine ⟨n2.getLastD 0, Or.inl ⟨h3, rfl⟩, ?_⟩
      apply get_last_message_spec kl (n1 ++ n2.dropLast)
      rw [List.append_assoc, ← e2]
      rw [h3, List.append_nil] at hw
      exact hw
    · refine ⟨n3.getLastD 0, Or.inr ⟨n3.dropLast, list_eq_dropLast_append n3 h3⟩, ?_⟩
      apply get_last_message_spec kl (n1 ++ n2 ++ n3.dropLast)
      rw [List.append_assoc, ← list_eq_dropLast_append n3 h3]
      exact hw
  have hzt : get_last_message (push_messages kl N msgs).1 = ts.getLastD 0 := by
    apply get_last_message_spec _ (n1 ++ n2 ++ n3 ++ ts.dropLast)
    rw [List.append_assoc, ← et]
    exact q2
  -- M2_next after the pushes
  have hN1 : (push_messages kl N msgs).2 = n3.headD (push_messages kl N msgs).1.tail := by
    rw [q8]
    by_cases h3 : n3 = []
    · rw [hN, h3]; simp
    · have hmem : N ∈ n1 ++ n2 ++ n3 := by
        rw [hN]; exact List.mem_append_right _ (headD_mem_of_ne_nil n3 _ h3)
      rw [if_neg (hnt N hmem).2, hN]
      exact headD_of_ne_nil n3 _ _ h3
  -- the relinking and the freeing
  have hw1 : kl_wf (push_messages kl N msgs).1
      (n1 ++ (n2.dropLast ++ [n2.getLastD 0]) ++ n3 ++ (ts.dropLast ++ [ts.getLastD 0])) := by
    rw [← e2, ← et]; exact q2
  have hA : (n1 = [] ∧ P = 0) ∨ ∃ Ai, n1 = Ai ++ [P] := by
    by_cases h1 : n1 = []
    · exact Or.inl ⟨h1, by rw [hP, h1]; rfl⟩
    · exact Or.inr ⟨n1.dropLast, by rw [hP]; exact list_eq_dropLast_append n1 h1⟩
  have hfuel : n2.dropLast.length < kl.size + 1 := by
    rw [hw.2.2.2]
    simp only [List.length_append, List.length_dropLast]
    omega
  obtain ⟨c1, c2, c3⟩ := relink_free_spec (push_messages kl N msgs).1 n1 n2.dropLast n3
    ts.dropLast (n2.getLastD 0) z (ts.getLastD 0) P (kl.size + 1) hw1 hA
    (by
      rcases hC with ⟨a, b⟩ | ⟨Ci, a⟩
      · exact Or.inl ⟨a, b⟩
      · exact Or.inr ⟨Ci, a⟩) hfuel
  rw [← et] at c1
  rw [← e2] at c3
  have hunf : update_kl_messages kl P N msgs
      = (free_previous_M2 (n3.headD (push_messages kl N msgs).1.tail) (kl.size + 1)
          (relink_M2 (push_messages kl N msgs).1 P z (ts.getLastD 0)
            (n3.headD (push_messages kl N msgs).1.tail))
          (if P = 0 then (push_messages kl N msgs).1.head
            else (push_messages kl N msgs).1.next P)
          ((relink_M2 (push_messages kl N msgs).1 P z (ts.getLastD 0)
            (n3.headD (push_messages kl N msgs).1.tail)).next
            (if P = 0 then (push_messages kl N msgs).1.head
              else (push_messages kl N msgs).1.next P)),
        n3.headD (push_messages kl N msgs).1.tail) := by
    simp only [update_kl_messages, hz, hzt, hN1]
  rw [hunf]
  -- the nodes of M1, M3 and of the pushed messages are not among the nodes of M2
  have hnd1 : (n1 ++ n2 ++ n3 ++ ts).Nodup := (List.nodup_append.mp q2.2.1).1
  have hnd0 : (n1 ++ n2 ++ n3).Nodup := (List.nodup_append.mp hnd1).1
  have h1n2 : ∀ a, a ∈ n1 → a ∉ n2 := by
    intro a ha hb
    exact ne_of_nodup_append (List.nodup_append.mp hnd0).1 ha hb rfl
  have h3n2 : ∀ a, a ∈ n3 → a ∉ n2 := by
    intro a ha hb
    exact ne_of_nodup_append hnd0 (List.mem_append_right _ hb) ha rfl
  have htn2 : ∀ a, a ∈ ts → a ∉ n2 := by
    intro a ha hb
    exact ne_of_nodup_append hnd1
      (List.mem_append_left _ (List.mem_append_right _ hb)) ha rfl
  refine ⟨ts, ⟨c1, hts, hP, ?_⟩, ?_, ?_, ?_⟩
  · simp only
    rw [c2]
  · simp only
    refine Eq.trans ?_ q3
    exact List.map_congr_left (fun a ha => c3 a (htn2 a ha))
  · simp only
    apply List.map_congr_left
    intro a ha
    rw [c3 a (h1n2 a ha), q6 a (List.mem_append_left _ (List.mem_append_left _ ha))]
  · simp only
    apply List.map_congr_left
    intro a ha
    rw [c3 a (h3n2 a ha), q6 a (List.mem_append_right _ ha)]

/-! ### C15: the M2 invariant -/

theorem common_fuzz_stuff_list_spec (max_seed_region_count : Nat) (kl : klist)
    (n1 n2 n3 : List Nat) (P N : Nat) (c : fuzz_call)
    (h : M2_delimited kl n1 n2 n3 P N) (hc : 0 < c.region_count) :
    ∃ ts, M2_delimited (common_fuzz_stuff_list max_seed_region_count (kl, P, N) c).1 n1 ts n3
        P (common_fuzz_stuff_list max_seed_region_count (kl, P, N) c).2.2 ∧
      (common_fuzz_stuff_list max_seed_region_count (kl, P, N) c).2.1 = P ∧
      ts.map (common_fuzz_stuff_list max_seed_region_count (kl, P, N) c).1.data
        = new_messages c.out_buf c.regions c.region_count max_seed_region_count
            c.region_count 0 ∧
      n1.map (common_fuzz_stuff_list max_seed_region_count (kl, P, N) c).1.data
        = n1.map kl.data ∧
      n3.map (common_fuzz_stuff_list max_seed_region_count (kl, P, N) c).1.data
        = n3.map kl.data := by
  have hne : new_messages c.out_buf c.regions c.region_count max_seed_region_count
      c.region_count 0 ≠ [] := by
    obtain ⟨k, hk⟩ := Nat.exists_eq_succ_of_ne_zero (Nat.pos_iff_ne_zero.mp hc)
    have := new_messages_ne_nil c.out_buf c.regions c.region_count max_seed_region_count k hc
    rw [hk] at this ⊢
    exact this
  obtain ⟨ts, a, b, c', d⟩ := update_kl_messages_spec kl n1 n2 n3 P N _ h hne
  exact ⟨ts, a, rfl, b, c', d⟩

theorem common_fuzz_stuff_calls_spec (max_seed_region_count : Nat) :
    ∀ (calls : List fuzz_call) (kl : klist) (n1 n2 n3 : List Nat) (P N : Nat),
      M2_delimited kl n1 n2 n3 P N → (∀ c, c ∈ calls → 0 < c.region_count) →
      ∃ ts,
        M2_delimited (common_fuzz_stuff_calls max_seed_region_count (kl, P, N) calls).1
          n1 ts n3 P (common_fuzz_stuff_calls max_seed_region_count (kl, P, N) calls).2.2 ∧
        (common_fuzz_stuff_calls max_seed_region_count (kl, P, N) calls).2.1 = P ∧
        n1.map (common_fuzz_stuff_calls max_seed_region_count (kl, P, N) calls).1.data
          = n1.map kl.data ∧
        n3.map (common_fuzz_stuff_calls max_seed_region_count (kl, P, N) calls).1.data
          = n3.map kl.data ∧
        (∀ c, calls.getLast? = some c →
          ts.map (common_fuzz_stuff_calls max_seed_region_count (kl, P, N) calls).1.data
            = new_messages c.out_buf c.regions c.region_count max_seed_region_count
                c.region_count 0)
  | [], kl, n1, n2, n3, P, N, h, _ => by
    refine ⟨n2, h, rfl, rfl, rfl, ?_⟩
    intro c hc
    simp at hc
  | c :: calls, kl, n1, n2, n3, P, N, h, hall => by
    obtain ⟨ts, a1, a2, a3, a4, a5⟩ := common_fuzz_stuff_list_spec max_seed_region_count kl
      n1 n2 n3 P N c h (hall c (List.mem_cons_self _ _))
    have hstep : common_fuzz_stuff_calls max_seed_region_count (kl, P, N) (c :: calls)
        = common_fuzz_stuff_calls max_seed_region_count
            ((common_fuzz_stuff_list max_seed_region_count (kl, P, N) c).1, P,
              (common_fuzz_stuff_list max_seed_region_count (kl, P, N) c).2.2) calls := by
      simp only [common_fuzz_stuff_calls, List.foldl_cons]
      congr 1
    rw [hstep]
    obtain ⟨ts', b1, b2, b3, b4, b5⟩ := common_fuzz_stuff_calls_spec max_seed_region_count
      calls _ n1 ts n3 P _ a1 (fun d hd => hall d (List.mem_cons_of_mem _ hd))
    refine ⟨ts', b1, b2, b3.trans a4, b4.trans a5, ?_⟩
    intro d hd
    cases calls with
    | nil =>
      simp only [List.getLast?_singleton, Option.some.injEq] at hd
      rw [← hd]
      -- no further call: the messages are those of this call
      simp only [common_fuzz_stuff_calls, List.foldl_nil] at b1 b5 ⊢
      have hts : ts' = ts := by
        -- both lists of nodes are linked from the same head to the same tail
        have hlen : (n1 ++ ts' ++ n3).length = (n1 ++ ts ++ n3).length := by
          rw [← b1.1.2.2.2, ← a1.1.2.2.2]
        have key : ∀ (l l' : List Nat) (s : Nat), l.length = l'.length →
            linked (common_fuzz_stuff_list max_seed_region_count (kl, P, N) c).1.next s l
              (common_fuzz_stuff_list max_seed_region_count (kl, P, N) c).1.tail →
            linked (common_fuzz_stuff_list max_seed_region_count (kl, P, N) c).1.next s l'
              (common_fuzz_stuff_list max_seed_region_count (kl, P, N) c).1.tail →
            l = l' := by
          intro l
          induction l with
          | nil =>
            intro l' s hl _ _
            exact (List.length_eq_zero.mp hl.symm).symm
          | cons x l ih =>
            intro l' s hl h1 h2
            cases l' with
            | nil => simp at hl
            | cons x' l' =>
              simp only [linked] at h1 h2
              have hx : x = x' := by rw [← h1.1, ← h2.1]
              rw [hx] at h1 ⊢
              rw [ih l' _ (by simpa using hl) h1.2 h2.2]
        have hall' := key _ _ _ hlen b1.1.1 a1.1.1
        have := List.append_cancel_right hall'
        exact List.append_cancel_left this
      rw [hts]
      exact a3
    | cons e calls =>
      exact b5 d (by simpa [List.getLast?_cons_cons] using hd)

/-- C15: with `kl_messages` holding M1, M2 and M3 in the nodes `n1`, `n2`
and `n3`, M2 not empty and delimited by `M2_prev` and `M2_next`, every
sequence of calls of `common_fuzz_stuff` (each with at least one region)
leaves a list that holds M1, a new M2 and M3: the messages of M1 and M3 are
the same byte sequences in the same order as before, also when M1 or M3 is
empty, M2 consists of the messages cut from the buffer of the last call, and
`M2_prev` and `M2_next` delimit it again. -/
theorem M2_invariant (max_seed_region_count : Nat) (calls : List fuzz_call) (kl : klist)
    (n1 n2 n3 : List Nat) (M2_prev M2_next : Nat)
    (h : M2_delimited kl n1 n2 n3 M2_prev M2_next)
    (hcalls : ∀ c, c ∈ calls → 0 < c.region_count) :
    kl_messages_of kl = n1.map kl.data ++ n2.map kl.data ++ n3.map kl.data ∧
    ∃ ts,
      M2_delimited
        (common_fuzz_stuff_calls max_seed_region_count (kl, M2_prev, M2_next) calls).1
        n1 ts n3
        (common_fuzz_stuff_calls max_seed_region_count (kl, M2_prev, M2_next) calls).2.1
        (common_fuzz_stuff_calls max_seed_region_count (kl, M2_prev, M2_next) calls).2.2 ∧
      kl_messages_of
          (common_fuzz_stuff_calls max_seed_region_count (kl, M2_prev, M2_next) calls).1
        = n1.map kl.data
          ++ ts.map
            (common_fuzz_stuff_calls max_seed_region_count (kl, M2_prev, M2_next) calls).1.data
          ++ n3.map kl.data ∧
      (∀ c, calls.getLast? = some c →
        ts.map
            (common_fuzz_stuff_calls max_seed_region_count (kl, M2_prev, M2_next) calls).1.data
          = new_messages c.out_buf c.regions c.region_count max_seed_region_count
              c.region_count 0) := by
  refine ⟨?_, ?_⟩
  · rw [kl_messages_of_spec kl _ h.1]
    simp only [List.map_append]
  · obtain ⟨ts, b1, b2, b3, b4, b5⟩ := common_fuzz_stuff_calls_spec max_seed_region_count
      calls kl n1 n2 n3 M2_prev M2_next h hcalls
    refine ⟨ts, by rw [b2]; exact b1, ?_, b5⟩
    rw [kl_messages_of_spec _ _ b1.1]
    simp only [List.map_append, b3, b4]

theorem M2_invariant_witness :
    kl_messages_of (construct_kl_messages [[1], [2, 2], [3]])
      = [1].map (construct_kl_messages [[1], [2, 2], [3]]).data
        ++ [2].map (construct_kl_messages [[1], [2, 2], [3]]).data
        ++ [3].map (construct_kl_messages [[1], [2, 2], [3]]).data ∧
    ∃ ts,
      M2_delimited
        (common_fuzz_stuff_calls 10 (construct_kl_messages [[1], [2, 2], [3]], 1, 3)
          [⟨[7, 8, 9], [⟨0, 0, [], 0⟩, ⟨1, 2, [], 0⟩], 2⟩]).1
        [1] ts [3]
        (common_fuzz_stuff_calls 10 (construct_kl_messages [[1], [2, 2], [3]], 1, 3)
          [⟨[7, 8, 9], [⟨0, 0, [], 0⟩, ⟨1, 2, [], 0⟩], 2⟩]).2.1
        (common_fuzz_stuff_calls 10 (construct_kl_messages [[1], [2, 2], [3]], 1, 3)
          [⟨[7, 8, 9], [⟨0, 0, [], 0⟩, ⟨1, 2, [], 0⟩], 2⟩]).2.2 ∧
      kl_messages_of
          (common_fuzz_stuff_calls 10 (construct_kl_messages [[1], [2, 2], [3]], 1, 3)
            [⟨[7, 8, 9], [⟨0, 0, [], 0⟩, ⟨1, 2, [], 0⟩], 2⟩]).1
        = [1].map (construct_kl_messages [[1], [2, 2], [3]]).data
          ++ ts.map
            (common_fuzz_stuff_calls 10 (construct_kl_messages [[1], [2, 2], [3]], 1, 3)
              [⟨[7, 8, 9], [⟨0, 0, [], 0⟩, ⟨1, 2, [], 0⟩], 2⟩]).1.data
          ++ [3].map (construct_kl_messages [[1], [2, 2], [3]]).data ∧
      (∀ c, [(⟨[7, 8, 9], [⟨0, 0, [], 0⟩, ⟨1, 2, [], 0⟩], 2⟩ : fuzz_call)].getLast? = some c →
        ts.map
            (common_fuzz_stuff_calls 10 (construct_kl_messages [[1], [2, 2], [3]], 1, 3)
              [⟨[7, 8, 9], [⟨0, 0, [], 0⟩, ⟨1, 2, [], 0⟩], 2⟩]).1.data
          = new_messages c.out_buf c.regions c.region_count 10 c.region_count 0) :=
  M2_invariant 10 [⟨[7, 8, 9], [⟨0, 0, [], 0⟩, ⟨1, 2, [], 0⟩], 2⟩]
    (construct_kl_messages [[1], [2, 2], [3]]) [1] [2] [3] 1 3 (by decide)
    (by intro c hc; simp only [List.mem_singleton] at hc; rw [hc]; decide)

/-- C15 (example): in the list of the messages `[1]`, `[2, 2]`, `[3]`, whose
head is node 1 and whose tail is node 4, the loop of `fuzz_one` finds
`M2_prev = 1` and `M2_next = 3` for the second message as M2; a call that
cuts the buffer `[7, 8, 9]` into the messages `[7]` and `[8, 9]` leaves the
messages `[1]`, `[7]`, `[8, 9]`, `[3]`. -/
theorem M2_invariant_example :
    find_M2_bounds (construct_kl_messages [[1], [2, 2], [3]]) 1 1 3 1 0 (0, 4) = (1, 3) ∧
    kl_messages_of
        (common_fuzz_stuff_calls 10 (construct_kl_messages [[1], [2, 2], [3]], 1, 3)
          [⟨[7, 8, 9], [⟨0, 0, [], 0⟩, ⟨1, 2, [], 0⟩], 2⟩]).1
      = [[1], [7], [8, 9], [3]] := by
  decide

/-! ### C24: choose_block_len -/

theorem UR_draw_some (rnd limit : Nat) (h : 0 < limit) :
    UR_draw rnd limit = some (rnd % limit) := by
  unfold UR_draw UR
  rw [if_neg (by omega)]

/-- The size class drawn by `choose_block_len` when `rlim` is not zero: no
draw faults and the class is one of the four of the source; with `rlim = 1`
it is the small class. -/
theorem block_class_spec (env : block_env) (rlim rnd0 rnd1 : Nat) (h : 0 < rlim) :
    ∃ c, block_class env rlim rnd0 rnd1 = some c ∧
      (c = (1, env.HAVOC_BLK_SMALL) ∨
        (1 < rlim ∧ (c = (env.HAVOC_BLK_SMALL, env.HAVOC_BLK_MEDIUM) ∨
          c = (env.HAVOC_BLK_MEDIUM, env.HAVOC_BLK_LARGE) ∨
          c = (env.HAVOC_BLK_LARGE, env.HAVOC_BLK_XL)))) := by
  unfold block_class
  rw [UR_draw_some rnd0 rlim h]
  have hlt : rnd0 % rlim < rlim := Nat.mod_lt _ h
  rcases hc : rnd0 % rlim with _ | _ | n
  · exact ⟨_, rfl, Or.inl rfl⟩
  · exact ⟨_, rfl, Or.inr ⟨by omega, Or.inl rfl⟩⟩
  · rw [UR_draw_some rnd1 10 (by decide)]
    by_cases hd : rnd1 % 10 ≠ 0
    · exact ⟨_, if_pos hd, Or.inr ⟨by omega, Or.inr (Or.inl rfl)⟩⟩
    · exact ⟨_, if_neg hd, Or.inr ⟨by omega, Or.inr (Or.inr rfl)⟩⟩

/-- The last two statements of `choose_block_len` for a class with
`1 <= min_value <= max_value`: the draw is not `UR(0)` and the result lies in
`1 .. min(max_value, limit)`. -/
theorem block_len_draw (min_value max_value limit rnd2 : Nat) (h1 : 1 ≤ min_value)
    (h2 : min_value ≤ max_value) (hm : max_value < 2 ^ 32) (hl : 1 ≤ limit)
    (hl32 : limit < 2 ^ 32) :
    ∃ r, (match UR_draw rnd2
          ((min max_value limit + 2 ^ 32 - (if min_value ≥ limit then 1 else min_value) + 1)
            % 2 ^ 32) with
        | none => none
        | some r => some (((if min_value ≥ limit then 1 else min_value) + r) % 2 ^ 32))
        = some r ∧ 1 ≤ r ∧ r ≤ limit ∧ r ≤ max_value := by
  have hmin : min max_value limit ≤ limit := Nat.min_le_right _ _
  have hmin' : min max_value limit ≤ max_value := Nat.min_le_left _ _
  have hmin1 : 1 ≤ min max_value limit := by
    rw [Nat.le_min]; exact ⟨by omega, hl⟩
  by_cases hc : min_value ≥ limit
  · rw [if_pos hc]
    have e : (min max_value limit + 2 ^ 32 - 1 + 1) % 2 ^ 32 = min max_value limit := by
      have : min max_value limit + 2 ^ 32 - 1 + 1 = min max_value limit + 2 ^ 32 := by omega
      rw [this, Nat.add_mod_right, Nat.mod_eq_of_lt (by omega)]
    rw [e, UR_draw_some _ _ (by omega)]
    have hr : rnd2 % min max_value limit < min max_value limit := Nat.mod_lt _ (by omega)
    refine ⟨_, rfl, ?_, ?_, ?_⟩ <;> rw [Nat.mod_eq_of_lt (by omega)] <;> omega
  · rw [if_neg hc]
    have hml : min_value ≤ min max_value limit := by
      rw [Nat.le_min]; exact ⟨h2, by omega⟩
    have e : (min max_value limit + 2 ^ 32 - min_value + 1) % 2 ^ 32
        = min max_value limit - min_value + 1 := by
      have : min max_value limit + 2 ^ 32 - min_value + 1
          = (min max_value limit - min_value + 1) + 2 ^ 32 := by omega
      rw [this, Nat.add_mod_right, Nat.mod_eq_of_lt (by omega)]
    rw [e, UR_draw_some _ _ (by omega)]
    have hr : rnd2 % (min max_value limit - min_value + 1)
        < min max_value limit - min_value + 1 := Nat.mod_lt _ (by omega)
    refine ⟨_, rfl, ?_, ?_, ?_⟩ <;> rw [Nat.mod_eq_of_lt (by omega)] <;> omega

/-- Bounds of `choose_block_len` with the class bound made explicit: the
result is at least 1, at most `limit` and at most `HAVOC_BLK_XL`, and at
most `HAVOC_BLK_SMALL` while `run_over10m` is clear. -/
theorem choose_block_len_spec (env : block_env) (queue_cycle run_over10m limit : Nat)
    (rnd : Nat → Nat) (hl : 1 ≤ limit) (hl32 : limit < 2 ^ 32) (hq : 1 ≤ queue_cycle)
    (hS : 1 ≤ env.HAVOC_BLK_SMALL) (hSM : env.HAVOC_BLK_SMALL ≤ env.HAVOC_BLK_MEDIUM)
    (hML : env.HAVOC_BLK_MEDIUM ≤ env.HAVOC_BLK_LARGE)
    (hLX : env.HAVOC_BLK_LARGE ≤ env.HAVOC_BLK_XL) (hX : env.HAVOC_BLK_XL < 2 ^ 32) :
    ∃ r, choose_block_len env queue_cycle run_over10m limit rnd = some r ∧ 1 ≤ r ∧
      r ≤ limit ∧ r ≤ env.HAVOC_BLK_XL ∧ (run_over10m = 0 → r ≤ env.HAVOC_BLK_SMALL) := by
  unfold choose_block_len
  have hrl : 0 < (if run_over10m = 0 then 1 else min queue_cycle 3) := by
    split
    · exact Nat.one_pos
    · rw [Nat.lt_min]; exact ⟨by omega, by decide⟩
  have hrl1 : run_over10m = 0 → ¬ 1 < (if run_over10m = 0 then 1 else min queue_cycle 3) := by
    intro h; rw [if_pos h]; decide
  obtain ⟨c, hc, hcl⟩ := block_class_spec env _ (rnd 0) (rnd 1) hrl
  simp only [hc]
  rcases hcl with rfl | ⟨h1, rfl | rfl | rfl⟩
  · obtain ⟨r, e, a, b, d⟩ := block_len_draw 1 env.HAVOC_BLK_SMALL limit (rnd 2)
      (le_refl _) hS (by omega) hl hl32
    exact ⟨r, e, a, b, by omega, fun _ => d⟩
  · obtain ⟨r, e, a, b, d⟩ := block_len_draw env.HAVOC_BLK_SMALL env.HAVOC_BLK_MEDIUM limit
      (rnd 2) hS hSM (by omega) hl hl32
    exact ⟨r, e, a, b, by omega, fun h => absurd h1 (hrl1 h)⟩
  · obtain ⟨r, e, a, b, d⟩ := block_len_draw env.HAVOC_BLK_MEDIUM env.HAVOC_BLK_LARGE limit
      (rnd 2) (by omega) hML (by omega) hl hl32
    exact ⟨r, e, a, b, by omega, fun h => absurd h1 (hrl1 h)⟩
  · obtain ⟨r, e, a, b, d⟩ := block_len_draw env.HAVOC_BLK_LARGE env.HAVOC_BLK_XL limit
      (rnd 2) (by omega) hLX (by omega) hl hl32
    exact ⟨r, e, a, b, by omega, fun h => absurd h1 (hrl1 h)⟩

/-- C24: for a limit of at least 1 (a `u32`), a queue cycle of at least 1,
either value of `run_over10m`, every outcome of the draws and block sizes
with `1 <= SMALL <= MEDIUM <= LARGE <= XL`, `choose_block_len` makes no draw
`UR(0)` and returns a length `r` with `1 <= r <= limit`; while `run_over10m`
is clear, `r <= HAVOC_BLK_SMALL`. -/
theorem choose_block_len_bounds (env : block_env) (queue_cycle run_over10m limit : Nat)
    (rnd : Nat → Nat) (hl : 1 ≤ limit) (hl32 : limit < 2 ^ 32) (hq : 1 ≤ queue_cycle)
    (hS : 1 ≤ env.HAVOC_BLK_SMALL) (hSM : env.HAVOC_BLK_SMALL ≤ env.HAVOC_BLK_MEDIUM)
    (hML : env.HAVOC_BLK_MEDIUM ≤ env.HAVOC_BLK_LARGE)
    (hLX : env.HAVOC_BLK_LARGE ≤ env.HAVOC_BLK_XL) (hX : env.HAVOC_BLK_XL < 2 ^ 32) :
    ∃ r, choose_block_len env queue_cycle run_over10m limit rnd = some r ∧ 1 ≤ r ∧
      r ≤ limit ∧ (run_over10m = 0 → r ≤ env.HAVOC_BLK_SMALL) := by
  obtain ⟨r, e, a, b, _, d⟩ := choose_block_len_spec env queue_cycle run_over10m limit rnd
    hl hl32 hq hS hSM hML hLX hX
  exact ⟨r, e, a, b, d⟩

/-- C24 at a concrete input: limit 5 in queue cycle 3 after ten minutes, with
the draws 2 (third class), 0 (large blocks) and 7. -/
theorem choose_block_len_bounds_witness :
    ∃ r, choose_block_len block_env_example 3 1 5 (fun k => [2, 0, 7].getD k 0) = some r ∧
      1 ≤ r ∧ r ≤ 5 ∧ ((1 : Nat) = 0 → r ≤ block_env_example.HAVOC_BLK_SMALL) :=
  choose_block_len_bounds block_env_example 3 1 5 (fun k => [2, 0, 7].getD k 0)
    (by decide) (by decide) (by decide) (by decide) (by decide) (by decide) (by decide)
    (by decide)

/-! ### C26: could_be_arith -/

theorem arith_scan_one (w old_val new_val : Nat) (st : Nat × Nat × Nat) :
    arith_scan w 1 old_val new_val st
      = if old_val % 2 ^ w ≠ new_val % 2 ^ w then
          (st.1 + 1, old_val % 2 ^ w, new_val % 2 ^ w)
        else st := by
  unfold arith_scan
  simp [List.range_succ]

theorem arith_scan_symm (w n a b : Nat) (d x y : Nat) :
    arith_scan w n b a (d, y, x)
      = ((arith_scan w n a b (d, x, y)).1, (arith_scan w n a b (d, x, y)).2.2,
          (arith_scan w n a b (d, x, y)).2.1) := by
  induction n with
  | zero => rfl
  | succ n ih =>
    unfold arith_scan at ih ⊢
    rw [List.range_succ, List.foldl_append, List.foldl_append, ih]
    simp only [List.foldl_cons, List.foldl_nil]
    by_cases h : (a >>> (w * n)) % 2 ^ w = (b >>> (w * n)) % 2 ^ w
    · rw [if_neg (by rw [h]; exact fun h => h rfl), if_neg (by exact fun h' => h' h)]
    · rw [if_pos (Ne.symm h), if_pos h]

theorem arith_near_comm (m w x y : Nat) : arith_near m w x y ↔ arith_near m w y x := by
  unfold arith_near
  exact or_comm

theorem arith_near_add8 (m ov j : Nat) (hj : j ≤ m) :
    arith_near m 8 ov (arith_add 8 ov j) := by
  unfold arith_near arith_add
  right
  norm_num
  omega

theorem arith_near_sub8 (m ov j : Nat) (hj : j ≤ m) :
    arith_near m 8 ov (arith_sub 8 ov j) := by
  unfold arith_near arith_sub
  left
  norm_num
  omega

theorem arith_near_add16 (m ov j : Nat) (hj : j ≤ m) :
    arith_near m 16 ov (arith_add 16 ov j) := by
  unfold arith_near arith_add
  right
  norm_num
  omega

theorem arith_near_sub16 (m ov j : Nat) (hj : j ≤ m) :
    arith_near m 16 ov (arith_sub 16 ov j) := by
  unfold arith_near arith_sub
  left
  norm_num
  omega

theorem arith_near_add32 (m ov j : Nat) (hj : j ≤ m) :
    arith_near m 32 ov (arith_add 32 ov j) := by
  unfold arith_near arith_add
  right
  norm_num
  omega

theorem arith_near_sub32 (m ov j : Nat) (hj : j ≤ m) :
    arith_near m 32 ov (arith_sub 32 ov j) := by
  unfold arith_near arith_sub
  left
  norm_num
  omega

theorem arith_add_lt (w old j : Nat) : arith_add w old j < 2 ^ w :=
  Nat.mod_lt _ (Nat.two_pow_pos w)

theorem arith_sub_lt (w old j : Nat) : arith_sub w old j < 2 ^ w :=
  Nat.mod_lt _ (Nat.two_pow_pos w)
/-- A value equal to the old one, or one byte away by at most `ARITH_MAX`,
is accepted at width 1. -/
theorem could_be_arith_byte (env : havoc_env) (old_val new_val : Nat)
    (ho : old_val < 2 ^ 8) (hn : new_val < 2 ^ 8)
    (h : arith_near env.ARITH_MAX 8 old_val new_val) :
    could_be_arith env old_val new_val 1 = 1 := by
  unfold could_be_arith
  by_cases he : old_val = new_val
  · rw [if_pos he]
  · rw [if_neg he, arith_scan_one, Nat.mod_eq_of_lt ho, Nat.mod_eq_of_lt hn, if_pos he]
    rw [if_pos ⟨rfl, h⟩]

/-- A 16-bit value that passes one of the two word tests is accepted at
width 2. -/
theorem could_be_arith_word (env : havoc_env) (old_val new_val : Nat)
    (ho : old_val < 2 ^ 16) (hn : new_val < 2 ^ 16)
    (h : arith_near env.ARITH_MAX 16 old_val new_val ∨
      arith_near env.ARITH_MAX 16 (env.SWAP16 old_val) (env.SWAP16 new_val)) :
    could_be_arith env old_val new_val 2 = 1 := by
  unfold could_be_arith
  by_cases he : old_val = new_val
  · rw [if_pos he]
  · rw [if_neg he]
    have h16 : ∀ st : Nat × Nat × Nat,
        arith_scan 16 (2 / 2) old_val new_val st = (st.1 + 1, old_val, new_val) := by
      intro st
      rw [show 2 / 2 = 1 from rfl, arith_scan_one, Nat.mod_eq_of_lt ho,
        Nat.mod_eq_of_lt hn, if_pos he]
    simp only [h16]
    split_ifs <;> first | rfl | (exfalso; simp_all)

/-- A 32-bit value that passes one of the two dword tests is accepted at
width 4. -/
theorem could_be_arith_dword (env : havoc_env) (old_val new_val : Nat)
    (h : arith_near env.ARITH_MAX 32 old_val new_val ∨
      arith_near env.ARITH_MAX 32 (env.SWAP32 old_val) (env.SWAP32 new_val)) :
    could_be_arith env old_val new_val 4 = 1 := by
  unfold could_be_arith
  dsimp only
  split_ifs <;> first | rfl | (exfalso; simp_all)

theorem could_be_arith_refl (env : havoc_env) (old_val blen : Nat) :
    could_be_arith env old_val old_val blen = 1 := by
  unfold could_be_arith
  rw [if_pos rfl]

theorem could_be_arith_symm (env : havoc_env) (a b blen : Nat) :
    could_be_arith env a b blen = could_be_arith env b a blen := by
  unfold could_be_arith
  by_cases he : a = b
  · rw [if_pos he, if_pos he.symm]
  · rw [if_neg he, if_neg (Ne.symm he)]
    have h8 := arith_scan_symm 8 blen a b 0 0 0
    have h16 := arith_scan_symm 16 (blen / 2) a b 0
      (arith_scan 8 blen a b (0, 0, 0)).2.1 (arith_scan 8 blen a b (0, 0, 0)).2.2
    simp only [h8, h16]
    simp only [arith_near_comm env.ARITH_MAX _ (arith_scan 8 blen a b (0, 0, 0)).2.2,
      arith_near_comm env.ARITH_MAX _
        (arith_scan 16 (blen / 2) a b (0, _, _)).2.2,
      arith_near_comm env.ARITH_MAX _
        (env.SWAP16 (arith_scan 16 (blen / 2) a b (0, _, _)).2.2),
      arith_near_comm env.ARITH_MAX 32 b a,
      arith_near_comm env.ARITH_MAX 32 (env.SWAP32 b) (env.SWAP32 a)]
/-- C26: for a width `blen` of 1, 2 or 4 bytes, an old value of that width
and a step `j <= ARITH_MAX`, `could_be_arith` returns 1 for `old + j` and
`old - j` modulo `2 ^ (8 * blen)`, and for widths 2 and 4 also for the
results computed on the byte-swapped value and swapped back (with `SWAP16`
and `SWAP32` involutions on 16 and 32 bits); it returns 1 for equal values
and does not depend on the order of its two values. -/
theorem could_be_arith_complete (env : havoc_env) (blen old_val j : Nat)
    (hb : blen = 1 ∨ blen = 2 ∨ blen = 4) (ho : old_val < 2 ^ (8 * blen))
    (hj : j ≤ env.ARITH_MAX)
    (h16 : ∀ x, x < 2 ^ 16 → env.SWAP16 x < 2 ^ 16 ∧ env.SWAP16 (env.SWAP16 x) = x)
    (h32 : ∀ x, x < 2 ^ 32 → env.SWAP32 x < 2 ^ 32 ∧ env.SWAP32 (env.SWAP32 x) = x) :
    could_be_arith env old_val (arith_add (8 * blen) old_val j) blen = 1 ∧
    could_be_arith env old_val (arith_sub (8 * blen) old_val j) blen = 1 ∧
    (blen = 2 →
      could_be_arith env old_val
          (env.SWAP16 (arith_add 16 (env.SWAP16 old_val) j)) 2 = 1 ∧
        could_be_arith env old_val
          (env.SWAP16 (arith_sub 16 (env.SWAP16 old_val) j)) 2 = 1) ∧
    (blen = 4 →
      could_be_arith env old_val
          (env.SWAP32 (arith_add 32 (env.SWAP32 old_val) j)) 4 = 1 ∧
        could_be_arith env old_val
          (env.SWAP32 (arith_sub 32 (env.SWAP32 old_val) j)) 4 = 1) ∧
    could_be_arith env old_val old_val blen = 1 ∧
    ∀ a b, could_be_arith env a b blen = could_be_arith env b a blen := by
  refine ⟨?_, ?_, ?_, ?_, could_be_arith_refl env old_val blen,
    fun a b => could_be_arith_symm env a b blen⟩
  · rcases hb with rfl | rfl | rfl
    · exact could_be_arith_byte env _ _ ho (arith_add_lt _ _ _) (arith_near_add8 _ _ _ hj)
    · exact could_be_arith_word env _ _ ho (arith_add_lt _ _ _)
        (Or.inl (arith_near_add16 _ _ _ hj))
    · exact could_be_arith_dword env _ _ (Or.inl (arith_near_add32 _ _ _ hj))
  · rcases hb with rfl | rfl | rfl
    · exact could_be_arith_byte env _ _ ho (arith_sub_lt _ _ _) (arith_near_sub8 _ _ _ hj)
    · exact could_be_arith_word env _ _ ho (arith_sub_lt _ _ _)
        (Or.inl (arith_near_sub16 _ _ _ hj))
    · exact could_be_arith_dword env _ _ (Or.inl (arith_near_sub32 _ _ _ hj))
  · intro h2
    subst h2
    constructor
    · refine could_be_arith_word env _ _ ho (h16 _ (arith_add_lt _ _ _)).1 (Or.inr ?_)
      rw [(h16 _ (arith_add_lt 16 _ _)).2]
      exact arith_near_add16 _ _ _ hj
    · refine could_be_arith_word env _ _ ho (h16 _ (arith_sub_lt _ _ _)).1 (Or.inr ?_)
      rw [(h16 _ (arith_sub_lt 16 _ _)).2]
      exact arith_near_sub16 _ _ _ hj
  · intro h4
    subst h4
    constructor
    · refine could_be_arith_dword env _ _ (Or.inr ?_)
      rw [(h32 _ (arith_add_lt 32 _ _)).2]
      exact arith_near_add32 _ _ _ hj
    · refine could_be_arith_dword env _ _ (Or.inr ?_)
      rw [(h32 _ (arith_sub_lt 32 _ _)).2]
      exact arith_near_sub32 _ _ _ hj

theorem swap16_example (x : Nat) (h : x < 2 ^ 16) :
    havoc_env_example.SWAP16 x < 2 ^ 16 ∧
      havoc_env_example.SWAP16 (havoc_env_example.SWAP16 x) = x := by
  show (x % 256) * 256 + x / 256 % 256 < 2 ^ 16 ∧
    (((x % 256) * 256 + x / 256 % 256) % 256) * 256
      + ((x % 256) * 256 + x / 256 % 256) / 256 % 256 = x
  have hx : x = x % 256 + 256 * (x / 256 % 256) := by
    have : (2 : Nat) ^ 16 = 65536 := rfl
    omega
  have h0 : x % 256 < 256 := Nat.mod_lt _ (by decide)
  have h1 : x / 256 % 256 < 256 := Nat.mod_lt _ (by decide)
  generalize x % 256 = b0 at hx h0 ⊢
  generalize x / 256 % 256 = b1 at hx h1 ⊢
  have e1 : (b0 * 256 + b1) % 256 = b1 := by omega
  have e2 : (b0 * 256 + b1) / 256 % 256 = b0 := by omega
  rw [e1, e2]
  have : (2 : Nat) ^ 16 = 65536 := rfl
  omega

theorem swap32_example (x : Nat) (h : x < 2 ^ 32) :
    havoc_env_example.SWAP32 x < 2 ^ 32 ∧
      havoc_env_example.SWAP32 (havoc_env_example.SWAP32 x) = x := by
  have p16 : (2 : Nat) ^ 16 = 65536 := rfl
  have p24 : (2 : Nat) ^ 24 = 16777216 := rfl
  have p32 : (2 : Nat) ^ 32 = 4294967296 := rfl
  show (x % 256) * 2 ^ 24 + (x / 256 % 256) * 2 ^ 16 + (x / 2 ^ 16 % 256) * 256
      + x / 2 ^ 24 % 256 < 2 ^ 32 ∧
    (((x % 256) * 2 ^ 24 + (x / 256 % 256) * 2 ^ 16 + (x / 2 ^ 16 % 256) * 256
      + x / 2 ^ 24 % 256) % 256) * 2 ^ 24
    + (((x % 256) * 2 ^ 24 + (x / 256 % 256) * 2 ^ 16 + (x / 2 ^ 16 % 256) * 256
      + x / 2 ^ 24 % 256) / 256 % 256) * 2 ^ 16
    + (((x % 256) * 2 ^ 24 + (x / 256 % 256) * 2 ^ 16 + (x / 2 ^ 16 % 256) * 256
      + x / 2 ^ 24 % 256) / 2 ^ 16 % 256) * 256
    + ((x % 256) * 2 ^ 24 + (x / 256 % 256) * 2 ^ 16 + (x / 2 ^ 16 % 256) * 256
      + x / 2 ^ 24 % 256) / 2 ^ 24 % 256 = x
  rw [p16, p24, p32] at *
  have hx : x = x % 256 + 256 * (x / 256 % 256) + 65536 * (x / 65536 % 256)
      + 16777216 * (x / 16777216 % 256) := by omega
  have h0 : x % 256 < 256 := Nat.mod_lt _ (by decide)
  have h1 : x / 256 % 256 < 256 := Nat.mod_lt _ (by decide)
  have h2 : x / 65536 % 256 < 256 := Nat.mod_lt _ (by decide)
  have h3 : x / 16777216 % 256 < 256 := Nat.mod_lt _ (by decide)
  generalize x % 256 = b0 at hx h0 ⊢
  generalize x / 256 % 256 = b1 at hx h1 ⊢
  generalize x / 65536 % 256 = b2 at hx h2 ⊢
  generalize x / 16777216 % 256 = b3 at hx h3 ⊢
  have d1 : (b0 * 16777216 + b1 * 65536 + b2 * 256 + b3) / 256
      = b0 * 65536 + b1 * 256 + b2 := Nat.div_eq_of_lt_le (by omega) (by omega)
  have d2 : (b0 * 16777216 + b1 * 65536 + b2 * 256 + b3) / 65536
      = b0 * 256 + b1 := Nat.div_eq_of_lt_le (by omega) (by omega)
  have d3 : (b0 * 16777216 + b1 * 65536 + b2 * 256 + b3) / 16777216
      = b0 := Nat.div_eq_of_lt_le (by omega) (by omega)
  have e0 : (b0 * 16777216 + b1 * 65536 + b2 * 256 + b3) % 256 = b3 := by omega
  have e1 : (b0 * 16777216 + b1 * 65536 + b2 * 256 + b3) / 256 % 256 = b2 := by
    rw [d1]; omega
  have e2 : (b0 * 16777216 + b1 * 65536 + b2 * 256 + b3) / 65536 % 256 = b1 := by
    rw [d2]; omega
  have e3 : (b0 * 16777216 + b1 * 65536 + b2 * 256 + b3) / 16777216 % 256 = b0 := by
    rw [d3]; omega
  rw [e0, e1, e2, e3]
  omega

/-- C26 at a concrete input: the 16-bit value `0xff00` and the step 2, with
the byte swaps of the examples. -/
theorem could_be_arith_complete_witness :
    could_be_arith havoc_env_example 0xff00 (arith_add (8 * 2) 0xff00 2) 2 = 1 ∧
    could_be_arith havoc_env_example 0xff00 (arith_sub (8 * 2) 0xff00 2) 2 = 1 ∧
    ((2 : Nat) = 2 →
      could_be_arith havoc_env_example 0xff00
          (havoc_env_example.SWAP16 (arith_add 16 (havoc_env_example.SWAP16 0xff00) 2)) 2 = 1 ∧
        could_be_arith havoc_env_example 0xff00
          (havoc_env_example.SWAP16 (arith_sub 16 (havoc_env_example.SWAP16 0xff00) 2)) 2
          = 1) ∧
    ((2 : Nat) = 4 →
      could_be_arith havoc_env_example 0xff00
          (havoc_env_example.SWAP32 (arith_add 32 (havoc_env_example.SWAP32 0xff00) 2)) 4 = 1 ∧
        could_be_arith havoc_env_example 0xff00
          (havoc_env_example.SWAP32 (arith_sub 32 (havoc_env_example.SWAP32 0xff00) 2)) 4
          = 1) ∧
    could_be_arith havoc_env_example 0xff00 0xff00 2 = 1 ∧
    ∀ a b, could_be_arith havoc_env_example a b 2 = could_be_arith havoc_env_example b a 2 :=
  could_be_arith_complete havoc_env_example 2 0xff00 2 (by decide) (by decide) (by decide)
    swap16_example swap32_example

/-! ### C27: the havoc budget -/

theorem to_s32_id (x : Int) (h0 : 0 ≤ x) (h1 : x < 2 ^ 31) : to_s32 x = x := by
  unfold to_s32
  have e31 : (2 : Int) ^ 31 = 2147483648 := by norm_num
  have e32 : (2 : Int) ^ 32 = 4294967296 := by norm_num
  rw [e31, e32] at *
  omega

/-- The invariant of the trial loop: after `d` doublings `stage_max` and
`perf_score` are the initial values times `2 ^ d`, and the last doubling
took place at a score of at most `HAVOC_MAX_MULT * 100`. -/
theorem havoc_extend_inv (env : budget_env) (s0 p q : Nat) (st : havoc_budget)
    (hM : 2 * (env.HAVOC_MAX_MULT * 100) < 2 ^ 32)
    (hfit : ∀ d, p * 2 ^ d ≤ env.HAVOC_MAX_MULT * 100 → s0 * 2 ^ (d + 1) < 2 ^ 31)
    (h1 : st.stage_max = ((s0 * 2 ^ st.doublings : Nat) : Int))
    (h2 : st.perf_score = p * 2 ^ st.doublings)
    (h3 : st.doublings = 0 ∨ p * 2 ^ (st.doublings - 1) ≤ env.HAVOC_MAX_MULT * 100) :
    (havoc_extend env q st).stage_max
        = ((s0 * 2 ^ (havoc_extend env q st).doublings : Nat) : Int) ∧
      (havoc_extend env q st).perf_score = p * 2 ^ (havoc_extend env q st).doublings ∧
      ((havoc_extend env q st).doublings = 0 ∨
        p * 2 ^ ((havoc_extend env q st).doublings - 1) ≤ env.HAVOC_MAX_MULT * 100) ∧
      (havoc_extend env q st).stage_cur = st.stage_cur ∧
      st.stage_max ≤ (havoc_extend env q st).stage_max := by
  unfold havoc_extend
  by_cases hq : q ≠ st.havoc_queued
  · rw [if_pos hq]
    by_cases hs : st.perf_score ≤ env.HAVOC_MAX_MULT * 100
    · rw [if_pos hs]
      dsimp only
      rw [h2] at hs
      have hf := hfit st.doublings hs
      have e : ((s0 * 2 ^ st.doublings : Nat) : Int) * 2
          = ((s0 * 2 ^ (st.doublings + 1) : Nat) : Int) := by
        rw [pow_succ]; push_cast; ring
      have hlt : ((s0 * 2 ^ (st.doublings + 1) : Nat) : Int) < 2 ^ 31 := by
        exact_mod_cast hf
      refine ⟨?_, ?_, Or.inr ?_, rfl, ?_⟩
      · rw [h1, e, to_s32_id _ (Int.natCast_nonneg _) hlt]
      · have e2 : p * 2 ^ (st.doublings + 1) = p * 2 ^ st.doublings * 2 := by
          rw [pow_succ, Nat.mul_assoc]
        rw [h2, e2]
        exact Nat.mod_eq_of_lt (by omega)
      · rw [Nat.add_sub_cancel]; exact hs
      · rw [h1, e, to_s32_id _ (Int.natCast_nonneg _) hlt]
        apply Int.ofNat_le.mpr
        exact Nat.mul_le_mul_left _ (Nat.pow_le_pow_right (by decide) (Nat.le_succ _))
    · rw [if_neg hs]
      exact ⟨h1, h2, h3, rfl, le_refl _⟩
  · rw [if_neg hq]
    exact ⟨h1, h2, h3, rfl, le_refl _⟩

/-- The trial loop ends within `S - stage_cur + 1` iterations when `S` bounds
every value `stage_max` can take, and the invariant holds at its end. -/
theorem havoc_loop_ends (env : budget_env) (trial : Nat → havoc_trial) (s0 p S : Nat)
    (hM : 2 * (env.HAVOC_MAX_MULT * 100) < 2 ^ 32)
    (hfit : ∀ d, p * 2 ^ d ≤ env.HAVOC_MAX_MULT * 100 → s0 * 2 ^ (d + 1) < 2 ^ 31)
    (hS : ∀ d, (d = 0 ∨ p * 2 ^ (d - 1) ≤ env.HAVOC_MAX_MULT * 100) → s0 * 2 ^ d ≤ S)
    (hS31 : S < 2 ^ 31) :
    ∀ (fuel n : Nat) (st : havoc_budget),
      st.stage_max = ((s0 * 2 ^ st.doublings : Nat) : Int) →
      st.perf_score = p * 2 ^ st.doublings →
      (st.doublings = 0 ∨ p * 2 ^ (st.doublings - 1) ≤ env.HAVOC_MAX_MULT * 100) →
      0 ≤ st.stage_cur → st.stage_cur ≤ st.stage_max → (S : Int) - st.stage_cur < fuel →
      ∃ st', havoc_loop env trial fuel n st = some st' ∧
        st'.stage_max = ((s0 * 2 ^ st'.doublings : Nat) : Int) ∧
        st'.perf_score = p * 2 ^ st'.doublings ∧
        (st'.doublings = 0 ∨ p * 2 ^ (st'.doublings - 1) ≤ env.HAVOC_MAX_MULT * 100) := by
  intro fuel
  induction fuel with
  | zero =>
    intro n st h1 _ h3 _ hm hf
    exfalso
    have := hS st.doublings h3
    have h' : st.stage_max ≤ (S : Int) := by rw [h1]; exact_mod_cast this
    simp only [Nat.cast_zero] at hf
    omega
  | succ fuel ih =>
    intro n st h1 h2 h3 h0 hm hf
    unfold havoc_loop
    by_cases hc : st.stage_cur < st.stage_max
    · rw [if_pos hc]
      by_cases hb : (trial n).bail ≠ 0
      · rw [if_pos hb]
        exact ⟨st, rfl, h1, h2, h3⟩
      · rw [if_neg hb]
        obtain ⟨i1, i2, i3, i4, i5⟩ :=
          havoc_extend_inv env s0 p (trial n).queued_paths st hM hfit h1 h2 h3
        have hle := hS _ i3
        have hle' : (havoc_extend env (trial n).queued_paths st).stage_max ≤ (S : Int) := by
          rw [i1]; exact_mod_cast hle
        have hS' : (S : Int) < 2 ^ 31 := by exact_mod_cast hS31
        have hcur : to_s32 ((havoc_extend env (trial n).queued_paths st).stage_cur + 1)
            = st.stage_cur + 1 := by
          rw [i4]
          exact to_s32_id _ (by omega) (by omega)
        dsimp only
        rw [hcur]
        apply ih
        · exact i1
        · exact i2
        · exact i3
        · show 0 ≤ st.stage_cur + 1
          omega
        · show st.stage_cur + 1 ≤ (havoc_extend env (trial n).queued_paths st).stage_max
          omega
        · show (S : Int) - (st.stage_cur + 1) < fuel
          push_cast at hf
          omega
    · rw [if_neg hc]
      exact ⟨st, rfl, h1, h2, h3⟩
/-- The number of doublings allowed by the invariant of the trial loop. -/
theorem doublings_le_log (M p d : Nat) (hp : 1 ≤ p)
    (h : d = 0 ∨ p * 2 ^ (d - 1) ≤ M) : d ≤ Nat.log 2 (M / p) + 1 := by
  rcases h with h | h
  · omega
  · have h2 : 2 ^ (d - 1) ≤ M / p := by
      rw [Nat.le_div_iff_mul_le (by omega)]
      rw [Nat.mul_comm]; exact h
    have := Nat.le_log_of_pow_le (by decide : 1 < 2) h2
    omega

theorem havoc_stage_max_nonneg (env : budget_env)
    (doing_det splice_cycle perf_score havoc_div : Nat) :
    0 ≤ havoc_stage_max env doing_det splice_cycle perf_score havoc_div := by
  unfold havoc_stage_max
  dsimp only
  split
  · exact Int.natCast_nonneg _
  · have := Int.natCast_nonneg env.HAVOC_MIN
    omega

theorem havoc_stage_max_eq_max (env : budget_env)
    (doing_det splice_cycle perf_score havoc_div : Nat) :
    havoc_stage_max env doing_det splice_cycle perf_score havoc_div
      = max (env.HAVOC_MIN : Int)
          (havoc_stage_init env doing_det splice_cycle perf_score havoc_div) := by
  unfold havoc_stage_max
  dsimp only
  split
  · rw [max_eq_left (by omega)]
  · rw [max_eq_right (by omega)]

/-- C27: a havoc stage entered with a score `p` in the range of
`calculate_score` (`1 <= p <= HAVOC_MAX_MULT * 100`, with constants for
which the doubled values fit their 32-bit variables) ends, whatever the
trials report: the trial loop stops within
`max(HAVOC_MIN, initial) * 2 ^ (floor(log2(HAVOC_MAX_MULT * 100 / p)) + 1)`
iterations, with at most `floor(log2(HAVOC_MAX_MULT * 100 / p)) + 1`
doublings, every doubling taken at a score of at most
`HAVOC_MAX_MULT * 100`, a final `perf_score` of `p` times two to the
number of doublings and at most `2 * HAVOC_MAX_MULT * 100`, and a final
`stage_max` of `max(HAVOC_MIN, initial)` times two to the number of
doublings, which is at most the bound on the iterations.  A trial that
makes `common_fuzz_stuff` return non-zero ends the loop in its current
state, so the bounds hold for the state before every trial as well. -/
theorem havoc_budget_capped (env : budget_env) (trial : Nat → havoc_trial)
    (doing_det splice_cycle p havoc_div queued_paths : Nat)
    (hp : 1 ≤ p) (hpM : p ≤ env.HAVOC_MAX_MULT * 100)
    (hM : 2 * (env.HAVOC_MAX_MULT * 100) < 2 ^ 32)
    (hfit : max (env.HAVOC_MIN : Int) (havoc_stage_init env doing_det splice_cycle p havoc_div)
        * 2 ^ (Nat.log 2 (env.HAVOC_MAX_MULT * 100 / p) + 1) < 2 ^ 31) :
    ∃ st,
      havoc_loop env trial
        ((max (env.HAVOC_MIN : Int) (havoc_stage_init env doing_det splice_cycle p havoc_div)
          * 2 ^ (Nat.log 2 (env.HAVOC_MAX_MULT * 100 / p) + 1)).toNat + 1) 0
        { stage_cur := 0
          stage_max := havoc_stage_max env doing_det splice_cycle p havoc_div
          perf_score := p, havoc_queued := queued_paths, doublings := 0 } = some st ∧
      st.doublings ≤ Nat.log 2 (env.HAVOC_MAX_MULT * 100 / p) + 1 ∧
      (st.doublings = 0 ∨ p * 2 ^ (st.doublings - 1) ≤ env.HAVOC_MAX_MULT * 100) ∧
      st.perf_score = p * 2 ^ st.doublings ∧
      st.perf_score ≤ 2 * (env.HAVOC_MAX_MULT * 100) ∧
      st.stage_max
        = max (env.HAVOC_MIN : Int) (havoc_stage_init env doing_det splice_cycle p havoc_div)
          * 2 ^ st.doublings ∧
      st.stage_max
        ≤ max (env.HAVOC_MIN : Int) (havoc_stage_init env doing_det splice_cycle p havoc_div)
          * 2 ^ (Nat.log 2 (env.HAVOC_MAX_MULT * 100 / p) + 1) := by
  rw [← havoc_stage_max_eq_max] at hfit ⊢
  have h0 := havoc_stage_max_nonneg env doing_det splice_cycle p havoc_div
  generalize havoc_stage_max env doing_det splice_cycle p havoc_div = sm at hfit h0 ⊢
  obtain ⟨s0, rfl⟩ := Int.eq_ofNat_of_zero_le h0
  generalize hk : Nat.log 2 (env.HAVOC_MAX_MULT * 100 / p) + 1 = k at hfit ⊢
  have hfitN : s0 * 2 ^ k < 2 ^ 31 := by exact_mod_cast hfit
  have hmono : ∀ d, d ≤ k → s0 * 2 ^ d ≤ s0 * 2 ^ k := fun d hd =>
    Nat.mul_le_mul_left _ (Nat.pow_le_pow_right (by decide) hd)
  have hdk : ∀ d, (d = 0 ∨ p * 2 ^ (d - 1) ≤ env.HAVOC_MAX_MULT * 100) → d ≤ k :=
    fun d hd => hk ▸ doublings_le_log _ p d hp hd
  have hfit' : ∀ d, p * 2 ^ d ≤ env.HAVOC_MAX_MULT * 100 → s0 * 2 ^ (d + 1) < 2 ^ 31 := by
    intro d hd
    have := hdk (d + 1) (Or.inr (by rw [Nat.add_sub_cancel]; exact hd))
    exact lt_of_le_of_lt (hmono _ this) hfitN
  have hS : ∀ d, (d = 0 ∨ p * 2 ^ (d - 1) ≤ env.HAVOC_MAX_MULT * 100) →
      s0 * 2 ^ d ≤ s0 * 2 ^ k := fun d hd => hmono d (hdk d hd)
  have hfuel : ((s0 : Int) * 2 ^ k).toNat = s0 * 2 ^ k := by
    have : ((s0 : Int) * 2 ^ k) = ((s0 * 2 ^ k : Nat) : Int) := by push_cast; ring
    rw [this, Int.toNat_ofNat]
  rw [hfuel]
  obtain ⟨st, e, i1, i2, i3⟩ := havoc_loop_ends env trial s0 p (s0 * 2 ^ k) hM hfit' hS hfitN
    (s0 * 2 ^ k + 1) 0
    { stage_cur := 0, stage_max := (s0 : Int), perf_score := p, havoc_queued := queued_paths
      doublings := 0 }
    (by simp) (by simp) (Or.inl rfl) (le_refl _) (Int.natCast_nonneg _)
    (by show ((s0 * 2 ^ k : Nat) : Int) - 0 < ((s0 * 2 ^ k + 1 : Nat) : Int); push_cast; omega)
  refine ⟨st, e, hdk _ i3, i3, i2, ?_, ?_, ?_⟩
  · rw [i2]
    rcases hd : st.doublings with _ | d
    · rw [pow_zero]; omega
    · rw [hd, Nat.add_sub_cancel] at i3
      have e2 : p * 2 ^ (d + 1) = p * 2 ^ d * 2 := by rw [pow_succ, Nat.mul_assoc]
      rcases i3 with h | h
      · omega
      · rw [e2]; omega
  · rw [i1]; push_cast; ring
  · rw [i1]
    have := hS _ i3
    have h' : ((s0 * 2 ^ st.doublings : Nat) : Int) ≤ ((s0 * 2 ^ k : Nat) : Int) := by
      exact_mod_cast this
    push_cast at h' ⊢
    exact h'

/-- C27 at a concrete input: a score of 400 with a multiplier of 16 and 256
havoc cycles, every trial finding a new entry. -/
theorem havoc_budget_capped_witness :
    ∃ st,
      havoc_loop budget_env_example (fun n => ⟨0, n + 1⟩)
        ((max (budget_env_example.HAVOC_MIN : Int) (havoc_stage_init budget_env_example 0 0 400 1)
          * 2 ^ (Nat.log 2 (budget_env_example.HAVOC_MAX_MULT * 100 / 400) + 1)).toNat + 1) 0
        { stage_cur := 0
          stage_max := havoc_stage_max budget_env_example 0 0 400 1
          perf_score := 400, havoc_queued := 0, doublings := 0 } = some st ∧
      st.doublings ≤ Nat.log 2 (budget_env_example.HAVOC_MAX_MULT * 100 / 400) + 1 ∧
      (st.doublings = 0 ∨
        400 * 2 ^ (st.doublings - 1) ≤ budget_env_example.HAVOC_MAX_MULT * 100) ∧
      st.perf_score = 400 * 2 ^ st.doublings ∧
      st.perf_score ≤ 2 * (budget_env_example.HAVOC_MAX_MULT * 100) ∧
      st.stage_max
        = max (budget_env_example.HAVOC_MIN : Int)
            (havoc_stage_init budget_env_example 0 0 400 1) * 2 ^ st.doublings ∧
      st.stage_max
        ≤ max (budget_env_example.HAVOC_MIN : Int)
            (havoc_stage_init budget_env_example 0 0 400 1)
          * 2 ^ (Nat.log 2 (budget_env_example.HAVOC_MAX_MULT * 100 / 400) + 1) :=
  havoc_budget_capped budget_env_example (fun n => ⟨0, n + 1⟩) 0 0 400 1 0 (by decide)
    (by decide) (by decide) (by
      have h1 : havoc_stage_init budget_env_example 0 0 400 1 = 1024 := by decide
      have h2 : Nat.log 2 (budget_env_example.HAVOC_MAX_MULT * 100 / 400) = 2 := by
        simp [budget_env_example, Nat.log]
      rw [h1, h2]
      decide)

/-! ### C30: the messages cut from the buffer by common_fuzz_stuff -/

/-- The messages cut from region `i` on: their number, their concatenation
and, when the limit is met, the last one. -/
theorem new_messages_from (out_buf : List Nat) (regions : List region_t)
    (region_count max_seed_region_count : Nat)
    (hne : ∀ i, i < region_count →
      (region_at regions i).start_byte ≤ (region_at regions i).end_byte)
    (hcont : ∀ i, i + 1 < region_count →
      (region_at regions (i + 1)).start_byte = (region_at regions i).end_byte + 1)
    (hlast : (region_at regions (region_count - 1)).end_byte + 1 = out_buf.length) :
    ∀ (fuel i : Nat), i < region_count → region_count - i ≤ fuel →
      i ≤ max_seed_region_count →
      (new_messages out_buf regions region_count max_seed_region_count fuel i).length
          = min (region_count - i) (max_seed_region_count + 1 - i) ∧
        (new_messages out_buf regions region_count max_seed_region_count fuel i).flatten
          = out_buf.drop (region_at regions i).start_byte ∧
        (max_seed_region_count < region_count →
          (new_messages out_buf regions region_count max_seed_region_count fuel i).getLast?
            = some (out_buf.drop (region_at regions max_seed_region_count).start_byte)) ∧
        (∀ k, i + k < region_count → i + k < max_seed_region_count →
          (new_messages out_buf regions region_count max_seed_region_count fuel i)[k]?
            = some (region_bytes out_buf regions (i + k))) := by
  intro fuel
  induction fuel with
  | zero => intro i hi hf _; omega
  | succ fuel ih =>
    intro i hi hf him
    have hfull : ∀ s : Nat,
        (out_buf.drop s).take ((region_at regions (region_count - 1)).end_byte - s + 1)
          = out_buf.drop s := by
      intro s
      apply List.take_of_length_le
      rw [List.length_drop]
      omega
    simp only [new_messages, if_pos hi]
    by_cases hm : i = max_seed_region_count
    · rw [if_pos hm, if_pos hm]
      refine ⟨?_, ?_, ?_, ?_⟩
      · rw [List.length_singleton]; omega
      · rw [List.flatten_singleton, hfull]
      · intro _
        rw [List.getLast?_singleton, hfull, hm]
      · intro k _ hk; omega
    · rw [if_neg hm, if_neg hm]
      by_cases hi1 : i + 1 < region_count
      · obtain ⟨l1, l2, l3, l4⟩ := ih (i + 1) hi1 (by omega) (by omega)
        refine ⟨?_, ?_, ?_, ?_⟩
        · rw [List.length_cons, l1]; omega
        · rw [List.flatten_cons, l2, hcont i hi1]
          have e : (region_at regions i).end_byte + 1
              = (region_at regions i).start_byte
                + ((region_at regions i).end_byte - (region_at regions i).start_byte + 1) := by
            have := hne i hi
            omega
          rw [e, ← List.drop_drop, List.take_append_drop]
        · intro hlt
          have hl := l3 hlt
          rw [List.getLast?_cons, hl]
          rfl
        · intro k hk1 hk2
          rcases k with _ | k
          · rw [List.getElem?_cons_zero]; rfl
          · rw [List.getElem?_cons_succ]
            have := l4 k (by omega) (by omega)
            rw [this]
            have e : i + 1 + k = i + (k + 1) := by omega
            rw [e]
      · have hrest : new_messages out_buf regions region_count max_seed_region_count fuel
            (i + 1) = [] := by
          cases fuel with
          | zero => rfl
          | succ f => simp only [new_messages, if_neg hi1]
        have hil : i = region_count - 1 := by omega
        rw [hrest]
        refine ⟨?_, ?_, ?_, ?_⟩
        · rw [List.length_singleton]; omega
        · rw [List.flatten_singleton]
          have := hfull (region_at regions i).start_byte
          rw [← hil] at this
          exact this
        · intro hlt; omega
        · intro k hk1 hk2
          have hk0 : k = 0 := by omega
          subst hk0
          rw [List.getElem?_cons_zero]; rfl

/-- C30: when the regions cut `[0, len)` of `out_buf` into consecutive
pieces, with at least one region, the loop of `common_fuzz_stuff` inserts
`min(region_count, max_seed_region_count + 1)` messages; each message below
the limit holds the bytes of its region, the message at the limit reaches
from the start of region `max_seed_region_count` to the end of the buffer,
and the messages concatenated in order are `out_buf`. -/
theorem new_messages_lossless (out_buf : List Nat) (regions : List region_t)
    (region_count max_seed_region_count : Nat)
    (h : regions_partition regions region_count out_buf.length) :
    (new_messages out_buf regions region_count max_seed_region_count region_count 0).length
        = min region_count (max_seed_region_count + 1) ∧
      (new_messages out_buf regions region_count max_seed_region_count region_count 0).flatten
        = out_buf ∧
      (max_seed_region_count < region_count →
        (new_messages out_buf regions region_count max_seed_region_count
            region_count 0).getLast?
          = some (out_buf.drop (region_at regions max_seed_region_count).start_byte)) ∧
      (∀ k, k < region_count → k < max_seed_region_count →
        (new_messages out_buf regions region_count max_seed_region_count region_count 0)[k]?
          = some (region_bytes out_buf regions k)) := by
  obtain ⟨h1, h0, hne, hcont, hlast⟩ := h
  obtain ⟨l1, l2, l3, l4⟩ := new_messages_from out_buf regions region_count
    max_seed_region_count hne (fun i hi => hcont i (by omega)) hlast region_count 0 (by omega) (by omega) (by omega)
  refine ⟨?_, ?_, l3, ?_⟩
  · rw [l1]; rfl
  · rw [l2, h0]; rfl
  · intro k hk1 hk2
    have := l4 k (by omega) (by omega)
    rw [Nat.zero_add] at this
    exact this

/-- C30 at a concrete input: ten bytes in the three regions `[0, 3]`,
`[4, 6]` and `[7, 9]` with a limit of one region: two messages, the second
holding the bytes of the last two regions. -/
theorem new_messages_lossless_witness :
    (new_messages [0, 1, 2, 3, 4, 5, 6, 7, 8, 9]
        [⟨0, 3, [], 0⟩, ⟨4, 6, [], 0⟩, ⟨7, 9, [], 0⟩] 3 1 3 0).length = min 3 (1 + 1) ∧
      (new_messages [0, 1, 2, 3, 4, 5, 6, 7, 8, 9]
        [⟨0, 3, [], 0⟩, ⟨4, 6, [], 0⟩, ⟨7, 9, [], 0⟩] 3 1 3 0).flatten
        = [0, 1, 2, 3, 4, 5, 6, 7, 8, 9] ∧
      (1 < 3 →
        (new_messages [0, 1, 2, 3, 4, 5, 6, 7, 8, 9]
            [⟨0, 3, [], 0⟩, ⟨4, 6, [], 0⟩, ⟨7, 9, [], 0⟩] 3 1 3 0).getLast?
          = some (([0, 1, 2, 3, 4, 5, 6, 7, 8, 9] : List Nat).drop
              (region_at [⟨0, 3, [], 0⟩, ⟨4, 6, [], 0⟩, ⟨7, 9, [], 0⟩] 1).start_byte)) ∧
      (∀ k, k < 3 → k < 1 →
        (new_messages [0, 1, 2, 3, 4, 5, 6, 7, 8, 9]
            [⟨0, 3, [], 0⟩, ⟨4, 6, [], 0⟩, ⟨7, 9, [], 0⟩] 3 1 3 0)[k]?
          = some (region_bytes [0, 1, 2, 3, 4, 5, 6, 7, 8, 9]
              [⟨0, 3, [], 0⟩, ⟨4, 6, [], 0⟩, ⟨7, 9, [], 0⟩] k)) :=
  new_messages_lossless [0, 1, 2, 3, 4, 5, 6, 7, 8, 9]
    [⟨0, 3, [], 0⟩, ⟨4, 6, [], 0⟩, ⟨7, 9, [], 0⟩] 3 1 (by decide)

/-! ### C22: the flag likely_buggy -/

theorem last_silent_cons (e s s2 : Nat) (rest : List Nat) :
    last_silent e (s :: s2 :: rest) ↔ last_silent s (s2 :: rest) := by
  unfold last_silent size_before
  have e1 : (s :: s2 :: rest).length - 1 = rest.length + 1 := rfl
  have e2 : (s2 :: rest).length - 1 = rest.length := rfl
  rw [e1, e2, List.getD_cons_succ, List.getD_cons_succ]
  simp only [ne_eq, reduceCtorEq, not_false_eq_true, true_and]

theorem last_silent_single (e s : Nat) : last_silent e [s] ↔ e = s := by
  unfold last_silent size_before
  simp

/-- The loop over the messages stops at the first message that is not sent
in full or not answered. -/
theorem send_messages_answered (msgs : List message_io) :
    ∀ (size likely_buggy : Nat),
      send_messages msgs size likely_buggy = send_messages (answered msgs) size likely_buggy := by
  induction msgs with
  | nil => intro _ _; rfl
  | cons m ms ih =>
    intro size b
    unfold answered
    by_cases h : m.n = m.msize ∧ m.recv_failed = 0
    · rw [List.takeWhile_cons_of_pos (by simpa using h)]
      simp only [send_messages, if_neg (not_not.mpr h.1), if_neg (not_not.mpr h.2)]
      exact ih _ _
    · rw [List.takeWhile_cons_of_neg (by simpa using h)]
      simp only [send_messages]
      by_cases h1 : m.n = m.msize
      · have h2 : m.recv_failed ≠ 0 := fun h2 => h ⟨h1, h2⟩
        rw [if_neg (not_not.mpr h1), if_pos h2]
      · rw [if_pos h1]

/-- After a run of messages that are all sent in full and answered, the flag
tells whether the last of them left the size of the response buffer as it
was. -/
theorem send_messages_last (msgs : List message_io) :
    ∀ (size likely_buggy : Nat),
      (∀ m ∈ msgs, m.n = m.msize ∧ m.recv_failed = 0) →
      send_messages msgs size likely_buggy
        = if msgs = [] then likely_buggy
          else if last_silent size (msgs.map (fun m => m.response_buf_size)) then 1 else 0 := by
  induction msgs with
  | nil => intro _ _ _; rfl
  | cons m ms ih =>
    intro size b hall
    have hm := hall m (List.mem_cons_self _ _)
    simp only [send_messages, if_neg (not_not.mpr hm.1), if_neg (not_not.mpr hm.2)]
    rw [ih _ _ (fun x hx => hall x (List.mem_cons_of_mem _ hx)), if_neg (List.cons_ne_nil _ _)]
    cases ms with
    | nil =>
      rw [if_pos rfl]
      simp only [List.map_cons, List.map_nil, last_silent_single]
    | cons m2 ms2 =>
      rw [if_neg (List.cons_ne_nil _ _)]
      simp only [List.map_cons, last_silent_cons]

/-- C22 (as the code has it): once connected, `send_over_network` ends with
`likely_buggy` set exactly when the early receive did not fail, there is a
message sent in full and answered, and the last such message added no byte
to the response buffer; the function returns early exactly when the flag is
set and `false_negative_reduction` is on. -/
theorem likely_buggy_last (false_negative_reduction early_failed early_size : Nat)
    (msgs : List message_io) :
    ((send_over_network false_negative_reduction early_failed early_size msgs).likely_buggy
          ≠ 0 ↔
        early_failed = 0 ∧
          last_silent early_size ((answered msgs).map (fun m => m.response_buf_size))) ∧
      ((send_over_network false_negative_reduction early_failed early_size msgs).early_return
          = true ↔
        (send_over_network false_negative_reduction early_failed early_size msgs).likely_buggy
            ≠ 0 ∧
          false_negative_reduction ≠ 0) := by
  constructor
  · unfold send_over_network
    by_cases he : early_failed = 0
    · simp only [if_neg (not_not.mpr he)]
      rw [send_messages_answered, send_messages_last]
      · by_cases hn : answered msgs = []
        · rw [if_pos hn, hn]
          simp [last_silent]
        · rw [if_neg hn]
          by_cases hl : last_silent early_size
              ((answered msgs).map (fun m => m.response_buf_size))
          · rw [if_pos hl]; simp [hl, he]
          · rw [if_neg hl]; simp [hl]
      · intro m hm
        have := List.mem_takeWhile_imp hm
        simpa using this
    · simp only [if_pos he]
      simp [he]
  · unfold send_over_network
    simp

/-- C22 (the claim fails): in a session of two messages, both sent in full
and answered, where the first adds no byte to the response buffer and the
second adds five, some message was silent, yet `likely_buggy` is clear at
the end and the function does not return early. -/
theorem likely_buggy_not_some :
    some_silent 0 [0, 5] ∧ answered (full_session [0, 5]) = full_session [0, 5] ∧
      (send_over_network 1 0 0 (full_session [0, 5])).likely_buggy = 0 ∧
      (send_over_network 1 0 0 (full_session [0, 5])).early_return = false := by
  decide

/-! ### C21: the seek along next_100 -/

theorem add_to_queue_first : ∃ s, add_to_queue queue_empty = some s ∧ queue_built 1 s := by
  refine ⟨_, rfl, rfl, rfl, rfl, rfl, rfl, ?_⟩
  intro k hk
  have : k = 0 := by omega
  subst this
  exact ⟨rfl, rfl, rfl⟩

theorem next_100_built_succ (n k : Nat) (hk : k < n) :
    next_100_built (n + 1) k
      = if (n + 1) % 100 = 0 ∧ k = q_prev100_built n then some n else next_100_built n k := by
  unfold next_100_built q_prev100_built
  split_ifs <;> first | rfl | omega | (congr 1; omega)

theorem q_prev100_built_succ (n : Nat) :
    q_prev100_built (n + 1) = if (n + 1) % 100 = 0 then n else q_prev100_built n := by
  unfold q_prev100_built
  split_ifs <;> omega

theorem q_prev100_built_lt (n : Nat) (hn : 1 ≤ n) : q_prev100_built n < n := by
  unfold q_prev100_built
  split_ifs <;> omega

theorem add_to_queue_built (n : Nat) (s : queue_list) (hn : 1 ≤ n) (h32 : n + 1 < 2 ^ 32)
    (h : queue_built n s) : ∃ s', add_to_queue s = some s' ∧ queue_built (n + 1) s' := by
  obtain ⟨node, allocated, queue, queue_top, q_prev100, queued_paths⟩ := s
  obtain ⟨ha, hq, ht, hp, hqp, hnodes⟩ := h
  simp only at ha hq ht hp hqp hnodes
  subst allocated queue queue_top q_prev100 queued_paths
  unfold add_to_queue
  have hmod : (n + 1) % 2 ^ 32 = n + 1 := Nat.mod_eq_of_lt h32
  have hpl := q_prev100_built_lt n hn
  simp only [hmod]
  by_cases hc : (n + 1) % 100 = 0
  · rw [if_pos hc]
    refine ⟨_, rfl, rfl, rfl, rfl, ?_, rfl, ?_⟩
    · show some n = some (q_prev100_built (n + 1))
      rw [q_prev100_built_succ, if_pos hc]
    · intro k hk
      simp only [Function.update_apply]
      by_cases hkn : k = n
      · subst hkn
        rw [if_neg (by omega), if_neg (by omega), if_pos rfl]
        refine ⟨rfl, ?_, ?_⟩
        · rw [if_neg (by omega)]
        · unfold next_100_built
          rw [if_neg (by omega), if_neg (by omega)]
      · have hk' : k < n := by omega
        obtain ⟨i1, i2, i3⟩ := hnodes k hk'
        rw [next_100_built_succ _ _ hk']
        have e1 : ¬ n - 1 = n := by omega
        have e2 : ¬ q_prev100_built n = n := by omega
        simp only [if_neg e1, if_neg e2, if_neg hkn]
        by_cases hkp : k = q_prev100_built n
        · subst hkp
          rw [if_pos rfl, if_pos (show _ ∧ _ from ⟨hc, rfl⟩)]
          by_cases hkt : q_prev100_built n = n - 1
          · rw [if_pos hkt]
            refine ⟨?_, ?_, rfl⟩
            · show (node (n - 1)).index = _
              rw [← hkt]; exact i1
            · show some n = _
              rw [if_pos (by omega)]; congr 1; omega
          · rw [if_neg hkt]
            refine ⟨i1, ?_, rfl⟩
            show (node (q_prev100_built n)).next = _
            rw [i2, if_pos (by omega), if_pos (by omega)]
        · rw [if_neg hkp,
            if_neg (show ¬ ((n + 1) % 100 = 0 ∧ k = q_prev100_built n) from fun h => hkp h.2)]
          by_cases hkt : k = n - 1
          · rw [if_pos hkt]
            refine ⟨?_, ?_, ?_⟩
            · show (node (n - 1)).index = _
              rw [← hkt]; exact i1
            · show some n = _
              rw [if_pos (by omega)]; congr 1; omega
            · show (node (n - 1)).next_100 = _
              rw [← hkt]; exact i3
          · rw [if_neg hkt]
            refine ⟨i1, ?_, i3⟩
            rw [i2, if_pos (by omega), if_pos (by omega)]
  · rw [if_neg hc]
    refine ⟨_, rfl, rfl, rfl, rfl, ?_, rfl, ?_⟩
    · show some (q_prev100_built n) = some (q_prev100_built (n + 1))
      rw [q_prev100_built_succ, if_neg hc]
    · intro k hk
      simp only [Function.update_apply]
      have e1 : ¬ n - 1 = n := by omega
      by_cases hkn : k = n
      · subst hkn
        rw [if_neg (by omega), if_pos rfl]
        refine ⟨rfl, ?_, ?_⟩
        · rw [if_neg (by omega)]
        · unfold next_100_built
          rw [if_neg (by omega), if_neg (by omega)]
      · have hk' : k < n := by omega
        obtain ⟨i1, i2, i3⟩ := hnodes k hk'
        rw [next_100_built_succ _ _ hk',
          if_neg (show ¬ ((n + 1) % 100 = 0 ∧ k = q_prev100_built n) from fun h => hc h.1)]
        simp only [if_neg e1, if_neg hkn]
        by_cases hkt : k = n - 1
        · rw [if_pos hkt]
          refine ⟨?_, ?_, ?_⟩
          · show (node (n - 1)).index = _
            rw [← hkt]; exact i1
          · show some n = _
            rw [if_pos (by omega)]; congr 1; omega
          · show (node (n - 1)).next_100 = _
            rw [← hkt]; exact i3
        · rw [if_neg hkt]
          refine ⟨i1, ?_, i3⟩
          rw [i2, if_pos (by omega), if_pos (by omega)]
theorem build_queue_built (n : Nat) (hn : 1 ≤ n) (h32 : n < 2 ^ 32) :
    ∃ s, build_queue n = some s ∧ queue_built n s := by
  induction n with
  | zero => omega
  | succ n ih =>
    rcases Nat.eq_zero_or_pos n with h0 | hpos
    · subst h0
      exact add_to_queue_first
    · obtain ⟨s, e, hs⟩ := ih hpos (by omega)
      obtain ⟨s', e', hs'⟩ := add_to_queue_built n s hpos h32 hs
      refine ⟨s', ?_, hs'⟩
      show (match build_queue n with
        | some s => add_to_queue s
        | none => none) = some s'
      rw [e]
      exact e'

/-- The walk along `next` in a built queue: `tid` steps from entry `a` end
at entry `a + tid`, when that entry exists. -/
theorem seek_next_built (n : Nat) (s : queue_list) (h : queue_built n s) :
    ∀ (tid a : Nat), a + tid < n → seek_next s tid (some a) = some (some (a + tid)) := by
  intro tid
  induction tid with
  | zero => intro a _; rfl
  | succ t ih =>
    intro a ha
    have hnode := (h.2.2.2.2.2 a (by omega)).2.1
    show seek_next s t (s.node a).next = _
    rw [hnode, if_pos (by omega), ih (a + 1) (by omega)]
    congr 2
    omega

/-- The entry reached after `j` steps along `next_100`. -/
theorem seek_next_100_built (n : Nat) (s : queue_list) (h : queue_built n s) :
    ∀ (fuel j tid : Nat), 100 * j + tid < n → tid / 100 < fuel →
      seek_next_100 s fuel (some (if j = 0 then 0 else 100 * j - 1)) tid
        = some (some (if j + tid / 100 = 0 then 0 else 100 * (j + tid / 100) - 1),
            tid % 100) := by
  intro fuel
  induction fuel with
  | zero => intro j tid _ hf; omega
  | succ fuel ih =>
    intro j tid hlt hf
    unfold seek_next_100
    by_cases hc : tid ≥ 100
    · rw [if_pos hc]
      have hnode := (h.2.2.2.2.2 (if j = 0 then 0 else 100 * j - 1)
        (by split <;> omega)).2.2
      dsimp only
      rw [hnode]
      have e : next_100_built n (if j = 0 then 0 else 100 * j - 1)
          = some (if j + 1 = 0 then 0 else 100 * (j + 1) - 1) := by
        unfold next_100_built
        by_cases hj : j = 0
        · subst hj
          rw [if_pos rfl, if_pos rfl, if_pos (by omega), if_neg (by omega)]
        · rw [if_neg hj, if_neg (by omega), if_pos ⟨by omega, by omega⟩, if_neg (by omega)]
          congr 1; omega
      rw [e, ih (j + 1) (tid - 100) (by omega) (by omega)]
      have e1 : j + 1 + (tid - 100) / 100 = j + tid / 100 := by omega
      have e2 : (tid - 100) % 100 = tid % 100 := by omega
      rw [e1, e2]
    · rw [if_neg hc]
      have e1 : tid / 100 = 0 := by omega
      have e2 : tid % 100 = tid := by omega
      rw [e1, e2, Nat.add_zero]

/-- The seek of the splice in a queue built by `add_to_queue`: no null
pointer is read, and the entry reached is number `tid` below 100 and number
`tid - 1` from 100 on. -/
theorem splice_seek_built (n tid : Nat) (s : queue_list) (h : queue_built n s)
    (ht : tid < n) :
    splice_seek s tid = some (some (if tid < 100 then tid else tid - 1)) := by
  unfold splice_seek
  rw [h.2.1]
  have := seek_next_100_built n s h (tid / 100 + 1) 0 tid (by omega) (by omega)
  rw [if_pos rfl] at this
  rw [this]
  dsimp only
  rw [seek_next_built n s h _ _ (by split <;> omega)]
  congr 2
  split <;> split <;> omega
/-- The index of the entry that the seek of the splice arrives at. -/
theorem splice_seek_index_eq (n tid : Nat) (ht : tid < n) (h32 : n < 2 ^ 32) :
    splice_seek_index n tid = some (if tid < 100 then tid else tid - 1) := by
  obtain ⟨s, e, hs⟩ := build_queue_built n (by omega) h32
  unfold splice_seek_index
  rw [e]
  dsimp only
  rw [splice_seek_built n tid s hs ht]
  dsimp only
  rw [(hs.2.2.2.2.2 _ (by split <;> omega)).1]

/-- C21 (code behaviour): in a queue of `n` entries built by successive
calls of `add_to_queue`, the seek of the splice to `tid < n` reads no null
pointer and arrives at the entry whose index is `tid` when `tid < 100`, and
at the entry whose index is `tid - 1` when `tid >= 100`. -/
theorem splice_seek_index_spec (n tid : Nat) (ht : tid < n) (h32 : n < 2 ^ 32) :
    splice_seek_index n tid = some (if tid < 100 then tid else tid - 1) :=
  splice_seek_index_eq n tid ht h32

/-- C21 at a concrete input: entry 250 of a queue of 301 entries. -/
theorem splice_seek_index_spec_witness :
    splice_seek_index 301 250 = some (if 250 < 100 then 250 else 250 - 1) :=
  splice_seek_index_spec 301 250 (by decide) (by decide)

/-- C21 (the claim fails): in a queue of 101 entries the seek to `tid = 100`
arrives at the entry with index 99, which is also where the seek to
`tid = 99` arrives. -/
theorem splice_seek_off_by_one :
    splice_seek_index 101 100 = some 99 ∧ splice_seek_index 101 99 = some 99 := by
  constructor
  · have := splice_seek_index_eq 101 100 (by decide) (by decide)
    rw [this]; rfl
  · have := splice_seek_index_eq 101 99 (by decide) (by decide)
    rw [this]; rfl

/-! ### C23: the bound and the eviction of the auto dictionary -/

theorem sort_a_extras_perm (env : auto_env)
    (hq : ∀ cmp l, (env.qsort cmp l).Perm l) (l : List extra_data) :
    (sort_a_extras env l).Perm l := by
  unfold sort_a_extras
  dsimp only
  refine List.Perm.trans ?_ (hq compare_extras_use_d l)
  refine List.Perm.trans (List.Perm.append_right _ (hq compare_extras_len _)) ?_
  rw [List.take_append_drop]

theorem auto_evict_index_bounds (env : auto_env) (rnd : Nat) (h : 0 < env.MAX_AUTO_EXTRAS) :
    env.MAX_AUTO_EXTRAS / 2 ≤ auto_evict_index env rnd ∧
      auto_evict_index env rnd < env.MAX_AUTO_EXTRAS := by
  unfold auto_evict_index UR
  have := Nat.mod_lt rnd (show 0 < (env.MAX_AUTO_EXTRAS + 1) / 2 by omega)
  omega

theorem maybe_add_auto_length (env : auto_env) (tables : havoc_env)
    (extras a_extras : List extra_data) (mem : List Nat) (len rnd : Nat)
    (hq : ∀ cmp l, (env.qsort cmp l).Perm l)
    (h : a_extras.length ≤ env.MAX_AUTO_EXTRAS) :
    (maybe_add_auto env tables extras a_extras mem len rnd).length ≤ env.MAX_AUTO_EXTRAS := by
  unfold maybe_add_auto
  split
  · exact h
  · split
    · rw [(sort_a_extras_perm env hq _).length_eq, List.length_set]
      exact h
    · split
      · rw [(sort_a_extras_perm env hq _).length_eq, List.length_append, List.length_singleton]
        omega
      · rw [(sort_a_extras_perm env hq _).length_eq, List.length_set]
        exact h

theorem maybe_add_auto_calls_length (env : auto_env) (tables : havoc_env)
    (extras : List extra_data) (hq : ∀ cmp l, (env.qsort cmp l).Perm l)
    (calls : List auto_call) :
    ∀ a_extras : List extra_data, a_extras.length ≤ env.MAX_AUTO_EXTRAS →
      (maybe_add_auto_calls env tables extras a_extras calls).length
        ≤ env.MAX_AUTO_EXTRAS := by
  induction calls with
  | nil => intro a h; exact h
  | cons c cs ih =>
    intro a h
    exact ih _ (maybe_add_auto_length env tables extras a c.mem c.mem.length c.rnd hq h)

/-- C23 (as the code has it): with a `qsort` that permutes its array, the
number of auto extras never exceeds `MAX_AUTO_EXTRAS` over a sequence of
calls of `maybe_add_auto`; and when a token that passes the filters and is
not in the array arrives at a full array, the entry it replaces is the one
at index `MAX_AUTO_EXTRAS / 2 + UR((MAX_AUTO_EXTRAS + 1) / 2)`, in the
bottom half of the array: the new array holds the new token with `hit_cnt`
0 in place of that entry and all other entries as they were, up to order. -/
theorem maybe_add_auto_evicts (env : auto_env) (tables : havoc_env)
    (extras : List extra_data) (hq : ∀ cmp l, (env.qsort cmp l).Perm l) :
    (∀ (a_extras : List extra_data) (calls : List auto_call),
      a_extras.length ≤ env.MAX_AUTO_EXTRAS →
      (maybe_add_auto_calls env tables extras a_extras calls).length
        ≤ env.MAX_AUTO_EXTRAS) ∧
    (∀ (a_extras : List extra_data) (mem : List Nat) (len rnd : Nat),
      a_extras.length = env.MAX_AUTO_EXTRAS →
      auto_rejected env tables extras mem len = false →
      auto_find env mem len a_extras 0 = none →
      env.MAX_AUTO_EXTRAS / 2 ≤ auto_evict_index env rnd ∧
        auto_evict_index env rnd < env.MAX_AUTO_EXTRAS ∧
        (maybe_add_auto env tables extras a_extras mem len rnd).Perm
          (a_extras.set (auto_evict_index env rnd)
            { data := mem.take len, len := len, hit_cnt := 0 })) := by
  refine ⟨fun a calls h => maybe_add_auto_calls_length env tables extras hq calls a h, ?_⟩
  intro a mem len rnd hlen hrej hfind
  have hpos : 0 < env.MAX_AUTO_EXTRAS := by
    rcases Nat.eq_zero_or_pos env.MAX_AUTO_EXTRAS with h0 | h
    · exfalso
      unfold auto_rejected at hrej
      rw [if_pos (Or.inl h0)] at hrej
      exact Bool.noConfusion hrej
    · exact h
  obtain ⟨b1, b2⟩ := auto_evict_index_bounds env rnd hpos
  refine ⟨b1, b2, ?_⟩
  unfold maybe_add_auto
  rw [hrej, hfind]
  simp only [Bool.false_eq_true, if_false]
  rw [if_neg (by omega)]
  exact sort_a_extras_perm env hq _

theorem auto_env_example_qsort (cmp : extra_data → extra_data → Int) (l : List extra_data) :
    (auto_env_example.qsort cmp l).Perm l :=
  List.perm_insertionSort _ l

/-- C23 at a concrete input: the settings of the examples. -/
theorem maybe_add_auto_evicts_witness :
    (∀ (a_extras : List extra_data) (calls : List auto_call),
      a_extras.length ≤ auto_env_example.MAX_AUTO_EXTRAS →
      (maybe_add_auto_calls auto_env_example havoc_env_example [] a_extras calls).length
        ≤ auto_env_example.MAX_AUTO_EXTRAS) ∧
    (∀ (a_extras : List extra_data) (mem : List Nat) (len rnd : Nat),
      a_extras.length = auto_env_example.MAX_AUTO_EXTRAS →
      auto_rejected auto_env_example havoc_env_example [] mem len = false →
      auto_find auto_env_example mem len a_extras 0 = none →
      auto_env_example.MAX_AUTO_EXTRAS / 2 ≤ auto_evict_index auto_env_example rnd ∧
        auto_evict_index auto_env_example rnd < auto_env_example.MAX_AUTO_EXTRAS ∧
        (maybe_add_auto auto_env_example havoc_env_example [] a_extras mem len rnd).Perm
          (a_extras.set (auto_evict_index auto_env_example rnd)
            { data := mem.take len, len := len, hit_cnt := 0 })) :=
  maybe_add_auto_evicts auto_env_example havoc_env_example [] auto_env_example_qsort

/-- C23 (the claim fails): four tokens are stored with the use counts 3, 2,
1 and 0, the array is full, and a fifth token arrives; with the draw 0 the
entry at index 2 is evicted, whose use count is 1, while the entry with
use count 0 stays. -/
theorem maybe_add_auto_not_least :
    maybe_add_auto_calls auto_env_example havoc_env_example [] []
        ((auto_calls_example 0).take 10)
      = [⟨[97, 98], 2, 3⟩, ⟨[99, 100], 2, 2⟩, ⟨[101, 102], 2, 1⟩, ⟨[103, 104], 2, 0⟩] ∧
    auto_evict_index auto_env_example 0 = 2 ∧
    maybe_add_auto_calls auto_env_example havoc_env_example [] [] (auto_calls_example 0)
      = [⟨[97, 98], 2, 3⟩, ⟨[99, 100], 2, 2⟩, ⟨[105, 106], 2, 0⟩, ⟨[103, 104], 2, 0⟩] := by
  decide

/-! ### C25 and C28: the havoc operations that change the length -/

theorem u32_sub_eq (a b : Nat) (hb : b ≤ a) (ha : a < 2 ^ 32) : u32_sub a b = a - b := by
  unfold u32_sub
  have e : (2 : Nat) ^ 32 = 4294967296 := by norm_num
  rw [e] at *
  omega

theorem memcpy_at_ok (dst : List Nat) (d : Nat) (src : List Nat) (s n : Nat)
    (h1 : d + n ≤ dst.length) (h2 : s + n ≤ src.length) :
    ∃ b, memcpy_at dst d src s n = some b ∧ b.length = dst.length ∧
      b = dst.take d ++ (src.drop s).take n ++ dst.drop (d + n) := by
  unfold memcpy_at
  rw [if_pos ⟨h1, h2⟩]
  refine ⟨_, rfl, ?_, rfl⟩
  simp only [List.length_append, List.length_take, List.length_drop]
  omega

theorem memset_at_ok (dst : List Nat) (d v n : Nat) (h1 : d + n ≤ dst.length) :
    ∃ b, memset_at dst d v n = some b ∧ b.length = dst.length := by
  unfold memset_at
  rw [if_pos h1]
  refine ⟨_, rfl, ?_⟩
  simp only [List.length_append, List.length_take, List.length_drop, List.length_replicate]
  omega

theorem move_starts_zero (f : Nat → Nat) (r : range) (rs : List range) :
    move_starts f (r :: rs) 0 = r :: rs.map (fun r => { r with start := f r.start }) := rfl

theorem move_starts_succ (f : Nat → Nat) (r : range) (rs : List range) (i : Nat) :
    move_starts f (r :: rs) (i + 1) = r :: move_starts f rs i := rfl

theorem set_len_zero (r : range) (rs : List range) (len : Nat) :
    set_len (r :: rs) 0 len = { r with len := len } :: rs := rfl

theorem set_len_succ (r : range) (rs : List range) (i len : Nat) :
    set_len (r :: rs) (i + 1) len = r :: set_len rs i len := rfl

theorem ranges_from_le : ∀ (rs : List range) (pos stop : Nat),
    ranges_from rs pos stop → pos ≤ stop
  | [], pos, stop, h => by unfold ranges_from at h; omega
  | r :: rs, pos, stop, h => by
    unfold ranges_from at h
    have := ranges_from_le rs _ _ h.2
    omega

theorem ranges_from_get : ∀ (rs : List range) (pos stop i : Nat) (r : range),
    ranges_from rs pos stop → rs[i]? = some r → pos ≤ r.start ∧ r.start + r.len ≤ stop
  | [], _, _, i, r, _, hr => by simp at hr
  | r0 :: rs, pos, stop, 0, r, h, hr => by
    unfold ranges_from at h
    simp only [List.getElem?_cons_zero, Option.some.injEq] at hr
    subst hr
    have := ranges_from_le rs _ _ h.2
    omega
  | r0 :: rs, pos, stop, i + 1, r, h, hr => by
    unfold ranges_from at h
    rw [List.getElem?_cons_succ] at hr
    have := ranges_from_get rs _ _ i r h.2 hr
    omega

theorem ranges_from_add (d : Nat) : ∀ (rs : List range) (pos stop : Nat),
    ranges_from rs pos stop →
      ranges_from (rs.map (fun r => { r with start := r.start + d })) (pos + d) (stop + d)
  | [], pos, stop, h => by
    unfold ranges_from at h
    show pos + d = stop + d
    omega
  | r :: rs, pos, stop, h => by
    unfold ranges_from at h
    rw [List.map_cons]
    unfold ranges_from
    refine ⟨by show r.start + d = pos + d; omega, ?_⟩
    have := ranges_from_add d rs _ _ h.2
    have e : pos + r.len + d = pos + d + r.len := by omega
    rw [e] at this
    exact this

theorem ranges_from_sub (d : Nat) : ∀ (rs : List range) (pos stop : Nat),
    ranges_from rs pos stop → d ≤ pos →
      ranges_from (rs.map (fun r => { r with start := r.start - d })) (pos - d) (stop - d)
  | [], pos, stop, h, _ => by
    unfold ranges_from at h
    show pos - d = stop - d
    omega
  | r :: rs, pos, stop, h, hd => by
    unfold ranges_from at h
    rw [List.map_cons]
    unfold ranges_from
    refine ⟨by show r.start - d = pos - d; omega, ?_⟩
    have := ranges_from_sub d rs _ _ h.2 (by omega)
    have e : pos + r.len - d = pos - d + r.len := by omega
    rw [e] at this
    exact this

/-- The bookkeeping after an insertion of `d` bytes into range
`range_choice` keeps the ranges contiguous. -/
theorem ranges_from_grow (d : Nat) : ∀ (rs : List range) (pos stop i : Nat) (r : range),
    ranges_from rs pos stop → rs[i]? = some r →
      ranges_from (set_len (move_starts (fun s => s + d) rs i) i (r.len + d)) pos (stop + d)
  | [], _, _, i, r, _, hr => by simp at hr
  | r0 :: rs, pos, stop, 0, r, h, hr => by
    unfold ranges_from at h
    simp only [List.getElem?_cons_zero, Option.some.injEq] at hr
    subst hr
    rw [move_starts_zero, set_len_zero]
    unfold ranges_from
    refine ⟨h.1, ?_⟩
    have := ranges_from_add d rs _ _ h.2
    have e : pos + r0.len + d = pos + (r0.len + d) := by omega
    rw [e] at this
    exact this
  | r0 :: rs, pos, stop, i + 1, r, h, hr => by
    unfold ranges_from at h
    rw [List.getElem?_cons_succ] at hr
    rw [move_starts_succ, set_len_succ]
    unfold ranges_from
    exact ⟨h.1, ranges_from_grow d rs _ _ i r h.2 hr⟩

/-- The bookkeeping after the removal of `d` bytes from range
`range_choice` keeps the ranges contiguous. -/
theorem ranges_from_shrink (d : Nat) : ∀ (rs : List range) (pos stop i : Nat) (r : range),
    ranges_from rs pos stop → rs[i]? = some r → d ≤ r.len →
      ranges_from (set_len (move_starts (fun s => s - d) rs i) i (r.len - d)) pos (stop - d)
  | [], _, _, i, r, _, hr, _ => by simp at hr
  | r0 :: rs, pos, stop, 0, r, h, hr, hd => by
    unfold ranges_from at h
    simp only [List.getElem?_cons_zero, Option.some.injEq] at hr
    subst hr
    rw [move_starts_zero, set_len_zero]
    unfold ranges_from
    refine ⟨h.1, ?_⟩
    have := ranges_from_sub d rs _ _ h.2 (by omega)
    have e : pos + r0.len - d = pos + (r0.len - d) := by omega
    rw [e] at this
    exact this
  | r0 :: rs, pos, stop, i + 1, r, h, hr, hd => by
    unfold ranges_from at h
    rw [List.getElem?_cons_succ] at hr
    rw [move_starts_succ, set_len_succ]
    unfold ranges_from
    have hle := ranges_from_get rs _ _ i r h.2 hr
    have := ranges_from_shrink d rs _ _ i r h.2 hr hd
    exact ⟨h.1, this⟩

theorem set_len_getElem (rs : List range) (i len : Nat) (r : range) (h : rs[i]? = some r) :
    (set_len rs i len)[i]? = some { r with len := len } := by
  unfold set_len
  have hi : i < rs.length := by
    rcases Nat.lt_or_ge i rs.length with h' | h'
    · exact h'
    · rw [List.getElem?_eq_none h'] at h; exact Option.noConfusion h
  rw [List.getElem?_set_self hi, List.getD_eq_getElem?_getD, h]
  rfl
theorem havoc_inv_range (ctx : havoc_ctx) (st : havoc_state) (i : Nat) (r : range)
    (hinv : havoc_inv ctx st) (hr : st.ranges[i]? = some r) :
    r.start + r.len ≤ st.temp_len :=
  (ranges_from_get st.ranges 0 st.temp_len i r hinv.2.2.2 hr).2

/-- The block that the delete operation draws lies inside the range and
leaves at least one byte of it. -/
theorem havoc_delete_block_spec (ctx : havoc_ctx) (r : range) (rnd : Nat → Nat)
    (hctx : havoc_ctx_ok ctx) (hL : 2 ≤ r.len) (h32 : r.start + r.len < 2 ^ 32) :
    ∃ del_from del_len, havoc_delete_block ctx r rnd = some (del_from, del_len) ∧
      1 ≤ del_len ∧ del_len ≤ r.len - 1 ∧ r.start ≤ del_from ∧
      del_from + del_len ≤ r.start + r.len := by
  obtain ⟨hS, hSM, hML, hLX, hfile, hq, _, _⟩ := hctx
  have e1 : u32_sub r.len 1 = r.len - 1 := u32_sub_eq _ _ (by omega) (by omega)
  obtain ⟨del_len, hdl, h1, h2, _, _⟩ := choose_block_len_spec ctx.blk ctx.queue_cycle
    ctx.run_over10m (r.len - 1) rnd (by omega) (by omega) hq hS hSM hML hLX (by omega)
  unfold havoc_delete_block
  rw [e1, hdl]
  dsimp only
  have e2 : u32_sub r.len del_len = r.len - del_len := u32_sub_eq _ _ (by omega) (by omega)
  have e3 : (r.len - del_len + 1) % 2 ^ 32 = r.len - del_len + 1 :=
    Nat.mod_eq_of_lt (by omega)
  rw [e2, e3, UR_draw_some _ _ (by omega)]
  have hoff : rnd 3 % (r.len - del_len + 1) < r.len - del_len + 1 := Nat.mod_lt _ (by omega)
  have e4 : (r.start + rnd 3 % (r.len - del_len + 1)) % 2 ^ 32
      = r.start + rnd 3 % (r.len - del_len + 1) := Nat.mod_eq_of_lt (by omega)
  refine ⟨_, _, rfl, h1, h2, ?_, ?_⟩
  · rw [e4]; omega
  · rw [e4]; omega

theorem take_append_take_drop (l : List Nat) (a b : Nat) (h : a + b ≤ l.length) :
    (l.take a ++ (l.drop (a + b)).take (l.length - a - b)
        ++ l.drop (a + (l.length - a - b))).take (l.length - b)
      = l.take a ++ l.drop (a + b) := by
  have h1 : (l.drop (a + b)).take (l.length - a - b) = l.drop (a + b) := by
    apply List.take_of_length_le
    rw [List.length_drop]; omega
  rw [h1, List.take_append_of_le_length]
  · apply List.take_of_length_le
    rw [List.length_append, List.length_take, List.length_drop]
    omega
  · rw [List.length_append, List.length_take, List.length_drop]
    omega

/-- The delete operation on a range of at least two bytes that lies inside
the buffer. -/
theorem havoc_delete_spec (ctx : havoc_ctx) (st : havoc_state) (i : Nat) (rnd : Nat → Nat)
    (r : range) (hctx : havoc_ctx_ok ctx) (hlen : st.out_buf.length = st.temp_len)
    (hfile : st.temp_len ≤ ctx.MAX_FILE) (hr : st.ranges[i]? = some r)
    (hrange : r.start + r.len ≤ st.temp_len) (hL : 2 ≤ r.len) :
    ∃ del_from del_len st', havoc_delete_block ctx r rnd = some (del_from, del_len) ∧
      havoc_delete ctx st i rnd = some st' ∧
      1 ≤ del_len ∧ del_len ≤ r.len - 1 ∧ r.start ≤ del_from ∧
      del_from + del_len ≤ r.start + r.len ∧
      st'.out_buf = st.out_buf.take del_from ++ st.out_buf.drop (del_from + del_len) ∧
      st'.temp_len = st.temp_len - del_len ∧
      st'.ranges = set_len (move_starts (fun s => s - del_len) st.ranges i) i
        (r.len - del_len) ∧
      st'.ranges[i]? = some { r with len := r.len - del_len } := by
  have hmax : ctx.MAX_FILE + ctx.blk.HAVOC_BLK_XL < 2 ^ 31 := hctx.2.2.2.2.1
  have e31 : (2 : Nat) ^ 31 = 2147483648 := by norm_num
  have e32 : (2 : Nat) ^ 32 = 4294967296 := by norm_num
  obtain ⟨del_from, del_len, hb, b1, b2, b3, b4⟩ :=
    havoc_delete_block_spec ctx r rnd hctx hL (by omega)
  have en : u32_sub (u32_sub st.temp_len del_from) del_len
      = st.out_buf.length - del_from - del_len := by
    have ei : u32_sub st.temp_len del_from = st.temp_len - del_from :=
      u32_sub_eq _ _ (by omega) (by omega)
    rw [ei, u32_sub_eq _ _ (by omega) (by omega), hlen]
  obtain ⟨buf, hbuf, hbl, hbe⟩ := memcpy_at_ok st.out_buf del_from st.out_buf
    (del_from + del_len) (st.out_buf.length - del_from - del_len) (by omega) (by omega)
  unfold havoc_delete
  rw [hr]
  dsimp only
  rw [if_neg (by omega), hb]
  dsimp only
  rw [en, hbuf]
  dsimp only
  have hout : buf.take (st.temp_len - del_len)
      = st.out_buf.take del_from ++ st.out_buf.drop (del_from + del_len) := by
    rw [hbe, ← hlen]
    exact take_append_take_drop st.out_buf del_from del_len (by omega)
  refine ⟨del_from, del_len, _, rfl, rfl, b1, b2, b3, b4, hout, rfl, rfl, ?_⟩
  show (set_len (move_starts (fun s => s - del_len) st.ranges i) i (r.len - del_len))[i]? = _
  have hm : (move_starts (fun s => s - del_len) st.ranges i)[i]? = some r := by
    unfold move_starts
    rw [List.getElem?_append_left (by
      rw [List.length_take]
      have : i < st.ranges.length := by
        rcases Nat.lt_or_ge i st.ranges.length with h' | h'
        · exact h'
        · rw [List.getElem?_eq_none h'] at hr; exact Option.noConfusion hr
      omega)]
    rw [List.getElem?_take_of_lt (by omega)]
    exact hr
  exact set_len_getElem _ i _ r hm

/-- Havoc cases 11 and 12 under the precondition: no access outside the
buffer, no draw `UR(0)`, and the precondition holds again afterwards. -/
theorem havoc_delete_inv (ctx : havoc_ctx) (st : havoc_state) (i : Nat) (rnd : Nat → Nat)
    (r : range) (hctx : havoc_ctx_ok ctx) (hinv : havoc_inv ctx st)
    (hr : st.ranges[i]? = some r) :
    ∃ st', havoc_delete ctx st i rnd = some st' ∧ havoc_inv ctx st' := by
  by_cases hL : 2 ≤ r.len
  · have hrange := havoc_inv_range ctx st i r hinv hr
    obtain ⟨hlen, h1, hfile, hrs⟩ := hinv
    obtain ⟨del_from, del_len, st', _, hd, b1, b2, b3, b4, ho, ht, hrg, _⟩ :=
      havoc_delete_spec ctx st i rnd r hctx hlen hfile hr hrange hL
    refine ⟨st', hd, ?_, ?_, ?_, ?_⟩
    · rw [ho, ht, List.length_append, List.length_take, List.length_drop]
      omega
    · rw [ht]; omega
    · rw [ht]; omega
    · rw [ht, hrg]
      exact ranges_from_shrink del_len st.ranges 0 st.temp_len i r hrs hr (by omega)
  · refine ⟨st, ?_, hinv⟩
    unfold havoc_delete
    rw [hr]
    dsimp only
    rw [if_pos (by omega)]
theorem insert_block_ok (st : havoc_state) (pos n : Nat) (ins : List Nat → Option (List Nat))
    (hlen : st.out_buf.length = st.temp_len) (hpos : pos ≤ st.temp_len)
    (h32 : st.temp_len + n < 2 ^ 32)
    (hins : ∀ b : List Nat, b.length = st.temp_len + n →
      ∃ b', ins b = some b' ∧ b'.length = st.temp_len + n) :
    ∃ b, insert_block st pos n ins = some b ∧ b.length = st.temp_len + n := by
  unfold insert_block
  rw [Nat.mod_eq_of_lt h32]
  obtain ⟨b1, e1, l1, _⟩ := memcpy_at_ok (List.replicate (st.temp_len + n) 0) 0 st.out_buf 0 pos
    (by rw [List.length_replicate]; omega) (by omega)
  rw [List.length_replicate] at l1
  rw [e1]
  dsimp only
  obtain ⟨b2, e2, l2⟩ := hins b1 l1
  rw [e2]
  dsimp only
  have e3 : u32_sub st.temp_len pos = st.temp_len - pos := u32_sub_eq _ _ hpos (by omega)
  rw [e3]
  obtain ⟨b3, e4, l3, _⟩ := memcpy_at_ok b2 (pos + n) st.out_buf pos (st.temp_len - pos)
    (by omega) (by omega)
  exact ⟨b3, e4, by omega⟩

theorem grow_range_inv (ctx : havoc_ctx) (st : havoc_state) (i : Nat) (r : range)
    (new_buf : List Nat) (n : Nat) (hinv : havoc_inv ctx st) (hr : st.ranges[i]? = some r)
    (hl : new_buf.length = st.temp_len + n) (hfile : st.temp_len + n ≤ ctx.MAX_FILE) :
    havoc_inv ctx (grow_range st i r new_buf n) := by
  obtain ⟨_, h1, _, hrs⟩ := hinv
  refine ⟨hl, ?_, hfile, ?_⟩
  · show 1 ≤ st.temp_len + n
    omega
  · exact ranges_from_grow n st.ranges 0 st.temp_len i r hrs hr

theorem havoc_fill_byte_ok (st : havoc_state) (rnd2 rnd256 rnd_pos : Nat)
    (hlen : st.out_buf.length = st.temp_len) (h1 : 1 ≤ st.temp_len) :
    ∃ v, havoc_fill_byte st rnd2 rnd256 rnd_pos = some v := by
  unfold havoc_fill_byte
  by_cases h : UR rnd2 2 ≠ 0
  · rw [if_pos h]; exact ⟨_, rfl⟩
  · rw [if_neg h, UR_draw_some _ _ (by omega)]
    have hlt : rnd_pos % st.temp_len < st.temp_len := Nat.mod_lt _ (by omega)
    dsimp only
    rw [if_pos hlt, List.getElem?_eq_getElem (by omega)]
    exact ⟨_, rfl⟩

theorem havoc_clone_block_ok (ctx : havoc_ctx) (st : havoc_state) (actually_clone : Nat)
    (rnd : Nat → Nat) (hctx : havoc_ctx_ok ctx) (h1 : 1 ≤ st.temp_len)
    (h32 : st.temp_len < 2 ^ 32) :
    ∃ clone_len clone_from,
      havoc_clone_block ctx st actually_clone rnd = some (clone_len, clone_from) ∧
      1 ≤ clone_len ∧ clone_len ≤ ctx.blk.HAVOC_BLK_XL ∧
      (actually_clone ≠ 0 → clone_from + clone_len ≤ st.temp_len) := by
  obtain ⟨hS, hSM, hML, hLX, hfile, hq, _, _⟩ := hctx
  have e31 : (2 : Nat) ^ 31 = 2147483648 := by norm_num
  have e32 : (2 : Nat) ^ 32 = 4294967296 := by norm_num
  unfold havoc_clone_block
  by_cases hac : actually_clone ≠ 0
  · rw [if_pos hac]
    obtain ⟨clone_len, hcl, c1, c2, c3, _⟩ := choose_block_len_spec ctx.blk ctx.queue_cycle
      ctx.run_over10m st.temp_len rnd h1 h32 hq hS hSM hML hLX (by omega)
    rw [hcl]
    dsimp only
    have e2 : u32_sub st.temp_len clone_len = st.temp_len - clone_len :=
      u32_sub_eq _ _ c2 h32
    have e3 : (st.temp_len - clone_len + 1) % 2 ^ 32 = st.temp_len - clone_len + 1 :=
      Nat.mod_eq_of_lt (by omega)
    rw [e2, e3, UR_draw_some _ _ (by omega)]
    have hoff : rnd 4 % (st.temp_len - clone_len + 1) < st.temp_len - clone_len + 1 :=
      Nat.mod_lt _ (by omega)
    exact ⟨_, _, rfl, c1, c3, fun _ => by omega⟩
  · rw [if_neg hac]
    obtain ⟨clone_len, hcl, c1, c2, _, _⟩ := choose_block_len_spec ctx.blk ctx.queue_cycle
      ctx.run_over10m ctx.blk.HAVOC_BLK_XL rnd (by omega) (by omega) hq hS hSM hML hLX
      (by omega)
    rw [hcl]
    exact ⟨_, _, rfl, c1, c2, fun h => absurd h hac⟩

/-- Havoc case 13 under the precondition: no access outside a buffer, no
draw `UR(0)`, and the precondition holds again afterwards. -/
theorem havoc_clone_inv (ctx : havoc_ctx) (st : havoc_state) (i : Nat) (rnd : Nat → Nat)
    (r : range) (hctx : havoc_ctx_ok ctx) (hinv : havoc_inv ctx st)
    (hr : st.ranges[i]? = some r) :
    ∃ st', havoc_clone ctx st i rnd = some st' ∧ havoc_inv ctx st' := by
  have hrange := havoc_inv_range ctx st i r hinv hr
  have hmax : ctx.MAX_FILE + ctx.blk.HAVOC_BLK_XL < 2 ^ 31 := hctx.2.2.2.2.1
  have e31 : (2 : Nat) ^ 31 = 2147483648 := by norm_num
  have e32 : (2 : Nat) ^ 32 = 4294967296 := by norm_num
  have hlen := hinv.1
  have h1 := hinv.2.1
  have hfile := hinv.2.2.1
  unfold havoc_clone
  rw [hr]
  dsimp only
  have hs : to_s32 ((st.temp_len : Int) + (ctx.blk.HAVOC_BLK_XL : Int))
      = ((st.temp_len + ctx.blk.HAVOC_BLK_XL : Nat) : Int) := by
    rw [to_s32_id _ (by omega) (by
      have : ((st.temp_len + ctx.blk.HAVOC_BLK_XL : Nat) : Int) < ((2 ^ 31 : Nat) : Int) :=
        Int.ofNat_lt.mpr (by omega)
      push_cast at this
      exact this)]
    push_cast
    rfl
  rw [hs]
  by_cases hg : ((st.temp_len + ctx.blk.HAVOC_BLK_XL : Nat) : Int) < (ctx.MAX_FILE : Int)
  · rw [if_pos hg]
    have hgN : st.temp_len + ctx.blk.HAVOC_BLK_XL < ctx.MAX_FILE := Int.ofNat_lt.mp hg
    obtain ⟨clone_len, clone_from, hb, c1, c2, c3⟩ :=
      havoc_clone_block_ok ctx st (UR (rnd 3) 4 % 256) rnd hctx h1 (by omega)
    rw [hb]
    dsimp only
    have hoff : ∃ off, (if r.len = 0 then some 0 else UR_draw (rnd 5) r.len) = some off ∧
        r.start + off ≤ st.temp_len := by
      by_cases h0 : r.len = 0
      · rw [if_pos h0]; exact ⟨0, rfl, by omega⟩
      · rw [if_neg h0, UR_draw_some _ _ (by omega)]
        have := Nat.mod_lt (rnd 5) (show 0 < r.len by omega)
        exact ⟨_, rfl, by omega⟩
    obtain ⟨off, ho, hol⟩ := hoff
    rw [ho]
    dsimp only
    obtain ⟨buf, hbuf, hbl⟩ := insert_block_ok st (r.start + off) clone_len
      (havoc_clone_part st (UR (rnd 3) 4 % 256) (r.start + off) clone_len clone_from rnd)
      hlen hol (by omega) (by
        intro b hb'
        unfold havoc_clone_part
        by_cases hac : UR (rnd 3) 4 % 256 ≠ 0
        · rw [if_pos hac]
          obtain ⟨b', e', l', _⟩ := memcpy_at_ok b (r.start + off) st.out_buf clone_from clone_len
            (by omega) (by have := c3 hac; omega)
          exact ⟨b', e', by omega⟩
        · rw [if_neg hac]
          obtain ⟨v, hv⟩ := havoc_fill_byte_ok st (rnd 6) (rnd 7) (rnd 8) hlen h1
          rw [hv]
          obtain ⟨b', e', l'⟩ := memset_at_ok b (r.start + off) v clone_len (by omega)
          exact ⟨b', e', by omega⟩)
    rw [hbuf]
    exact ⟨_, rfl, grow_range_inv ctx st i r buf clone_len hinv hr hbl (by omega)⟩
  · rw [if_neg hg]
    exact ⟨st, rfl, hinv⟩

theorem havoc_pick_extra_ok (ctx : havoc_ctx) (rnd2 rnd_use : Nat)
    (hne : ctx.extras.length + ctx.a_extras.length ≠ 0) :
    ∃ e, havoc_pick_extra ctx rnd2 rnd_use = some e ∧ e ∈ ctx.extras ++ ctx.a_extras := by
  unfold havoc_pick_extra
  by_cases h : ctx.extras.length = 0 ∨ (ctx.a_extras.length ≠ 0 ∧ UR rnd2 2 ≠ 0)
  · rw [if_pos h]
    have hpos : 0 < ctx.a_extras.length := by
      rcases h with h | h
      · omega
      · omega
    rw [UR_draw_some _ _ hpos]
    have hlt := Nat.mod_lt rnd_use hpos
    dsimp only
    rw [List.getElem?_eq_getElem hlt]
    exact ⟨_, rfl, List.mem_append_right _ (List.getElem_mem hlt)⟩
  · rw [if_neg h]
    have hpos : 0 < ctx.extras.length := by
      rcases Nat.eq_zero_or_pos ctx.extras.length with h0 | h0
      · exact absurd (Or.inl h0) h
      · exact h0
    rw [UR_draw_some _ _ hpos]
    have hlt := Nat.mod_lt rnd_use hpos
    dsimp only
    rw [List.getElem?_eq_getElem hlt]
    exact ⟨_, rfl, List.mem_append_left _ (List.getElem_mem hlt)⟩

/-- Havoc case 16 under the precondition. -/
theorem havoc_insert_extra_inv (ctx : havoc_ctx) (st : havoc_state) (i : Nat)
    (rnd : Nat → Nat) (r : range) (hctx : havoc_ctx_ok ctx) (hinv : havoc_inv ctx st)
    (hr : st.ranges[i]? = some r) :
    ∃ st', havoc_insert_extra ctx st i rnd = some st' ∧ havoc_inv ctx st' := by
  have hrange := havoc_inv_range ctx st i r hinv hr
  have hmax : ctx.MAX_FILE + ctx.blk.HAVOC_BLK_XL < 2 ^ 31 := hctx.2.2.2.2.1
  have hcnt := hctx.2.2.2.2.2.2.1
  have htok := hctx.2.2.2.2.2.2.2
  have e31 : (2 : Nat) ^ 31 = 2147483648 := by norm_num
  have e32 : (2 : Nat) ^ 32 = 4294967296 := by norm_num
  have hlen := hinv.1
  have h1 := hinv.2.1
  have hfile := hinv.2.2.1
  unfold havoc_insert_extra
  rw [Nat.mod_eq_of_lt hcnt]
  by_cases h0 : ctx.extras.length + ctx.a_extras.length = 0
  · rw [if_pos h0]; exact ⟨st, rfl, hinv⟩
  · rw [if_neg h0, hr]
    dsimp only
    rw [Nat.mod_eq_of_lt (show r.len + 1 < 2 ^ 32 by omega), UR_draw_some _ _ (by omega)]
    have hoff := Nat.mod_lt (rnd 0) (show 0 < r.len + 1 by omega)
    dsimp only
    obtain ⟨e, he, hmem⟩ := havoc_pick_extra_ok ctx (rnd 1) (rnd 2) h0
    obtain ⟨t1, t2⟩ := htok e hmem
    rw [he]
    dsimp only
    rw [Nat.mod_eq_of_lt (show st.temp_len + e.len < 2 ^ 32 by omega)]
    by_cases hg : st.temp_len + e.len ≥ ctx.MAX_FILE
    · rw [if_pos hg]; exact ⟨st, rfl, hinv⟩
    · rw [if_neg hg]
      obtain ⟨buf, hbuf, hbl⟩ := insert_block_ok st (r.start + rnd 0 % (r.len + 1)) e.len
        (fun new_buf => memcpy_at new_buf (r.start + rnd 0 % (r.len + 1)) e.data 0 e.len)
        hlen (by omega) (by omega) (by
          intro b hb'
          obtain ⟨b', e', l', _⟩ := memcpy_at_ok b (r.start + rnd 0 % (r.len + 1)) e.data 0
            e.len (by omega) (by omega)
          exact ⟨b', e', by omega⟩)
      rw [hbuf]
      exact ⟨_, rfl, grow_range_inv ctx st i r buf e.len hinv hr hbl (by omega)⟩

/-- Havoc cases 23 and 24 under the precondition. -/
theorem havoc_duplicate_inv (ctx : havoc_ctx) (st : havoc_state) (i : Nat)
    (r : range) (hctx : havoc_ctx_ok ctx) (hinv : havoc_inv ctx st)
    (hr : st.ranges[i]? = some r) :
    ∃ st', havoc_duplicate ctx st i = some st' ∧ havoc_inv ctx st' := by
  have hrange := havoc_inv_range ctx st i r hinv hr
  have hmax : ctx.MAX_FILE + ctx.blk.HAVOC_BLK_XL < 2 ^ 31 := hctx.2.2.2.2.1
  have e31 : (2 : Nat) ^ 31 = 2147483648 := by norm_num
  have e32 : (2 : Nat) ^ 32 = 4294967296 := by norm_num
  have hlen := hinv.1
  have h1 := hinv.2.1
  have hfile := hinv.2.2.1
  unfold havoc_duplicate
  rw [hr]
  dsimp only
  rw [Nat.mod_eq_of_lt (show st.temp_len + r.len < 2 ^ 32 by omega)]
  by_cases hg : st.temp_len + r.len ≥ ctx.MAX_FILE
  · rw [if_pos hg]; exact ⟨st, rfl, hinv⟩
  · rw [if_neg hg]
    unfold duplicate_block
    rw [Nat.mod_eq_of_lt (show st.temp_len + r.len < 2 ^ 32 by omega)]
    obtain ⟨b1, e1, l1, _⟩ := memcpy_at_ok (List.replicate (st.temp_len + r.len) 0) 0
      st.out_buf 0 r.start (by rw [List.length_replicate]; omega) (by omega)
    rw [List.length_replicate] at l1
    rw [e1]
    dsimp only
    obtain ⟨b2, e2, l2, _⟩ := memcpy_at_ok b1 r.start st.out_buf r.start r.len
      (by omega) (by omega)
    rw [e2]
    dsimp only
    obtain ⟨b3, e3, l3, _⟩ := memcpy_at_ok b2 (r.start + r.len) st.out_buf r.start r.len
      (by omega) (by omega)
    rw [e3]
    dsimp only
    have es : u32_sub st.temp_len (r.start + r.len) = st.temp_len - (r.start + r.len) :=
      u32_sub_eq _ _ hrange (by omega)
    rw [es]
    obtain ⟨b4, e4, l4, _⟩ := memcpy_at_ok b3 (r.start + r.len + r.len) st.out_buf
      (r.start + r.len) (st.temp_len - (r.start + r.len)) (by omega) (by omega)
    rw [e4]
    refine ⟨_, rfl, ?_, ?_, ?_, ?_⟩
    · show b4.length = st.temp_len + r.len
      omega
    · show 1 ≤ st.temp_len + r.len
      omega
    · show st.temp_len + r.len ≤ ctx.MAX_FILE
      omega
    · show ranges_from (set_len (move_starts (fun s => s + r.len) st.ranges i) i (r.len * 2))
        0 (st.temp_len + r.len)
      rw [show r.len * 2 = r.len + r.len by omega]
      exact ranges_from_grow r.len st.ranges 0 st.temp_len i r hinv.2.2.2 hr
/-- C25: on a range of `L >= 2` bytes that lies inside the buffer, the
havoc delete operation draws a block of `del_len` bytes at `del_from` with
`1 <= del_len <= L - 1` that lies inside the range, and removes it: the
buffer is the old one without the block, so it is `del_len` bytes shorter
and the bytes before the range are where they were; `temp_len` drops by
`del_len` and the range keeps `L - del_len >= 1` bytes.  The constants are
such that `choose_block_len` is defined and the lengths fit in 32 bits. -/
theorem havoc_delete_inside (ctx : havoc_ctx) (st : havoc_state) (i : Nat)
    (rnd : Nat → Nat) (r : range) (hctx : havoc_ctx_ok ctx)
    (hlen : st.out_buf.length = st.temp_len) (hfile : st.temp_len ≤ ctx.MAX_FILE)
    (hr : st.ranges[i]? = some r) (hrange : r.start + r.len ≤ st.temp_len)
    (hL : 2 ≤ r.len) :
    ∃ del_from del_len st', havoc_delete_block ctx r rnd = some (del_from, del_len) ∧
      havoc_delete ctx st i rnd = some st' ∧
      1 ≤ del_len ∧ del_len ≤ r.len - 1 ∧ r.start ≤ del_from ∧
      del_from + del_len ≤ r.start + r.len ∧
      st'.out_buf = st.out_buf.take del_from ++ st.out_buf.drop (del_from + del_len) ∧
      st'.out_buf.length = st.out_buf.length - del_len ∧
      st'.out_buf.take r.start = st.out_buf.take r.start ∧
      st'.temp_len = st.temp_len - del_len ∧
      st'.ranges[i]? = some { r with len := r.len - del_len } ∧ 1 ≤ r.len - del_len := by
  obtain ⟨del_from, del_len, st', hb, hd, b1, b2, b3, b4, ho, ht, _, hg⟩ :=
    havoc_delete_spec ctx st i rnd r hctx hlen hfile hr hrange hL
  refine ⟨del_from, del_len, st', hb, hd, b1, b2, b3, b4, ho, ?_, ?_, ht, hg, by omega⟩
  · rw [ho, List.length_append, List.length_take, List.length_drop]
    omega
  · rw [ho, List.take_append_of_le_length (by rw [List.length_take]; omega),
      List.take_take, Nat.min_eq_left b3]

/-- C25 at a concrete input, scenario S3: the six bytes of M2 in one range,
with draws that give `del_len = 2` and `del_from = 2`. -/
theorem havoc_delete_inside_witness :
    ∃ del_from del_len st',
      havoc_delete_block havoc_ctx_example ⟨0, 6, 1⟩ (fun k => [0, 0, 1, 2].getD k 0)
        = some (del_from, del_len) ∧
      havoc_delete havoc_ctx_example ⟨[14, 15, 16, 17, 18, 19], 6, [⟨0, 6, 1⟩]⟩ 0
        (fun k => [0, 0, 1, 2].getD k 0) = some st' ∧
      1 ≤ del_len ∧ del_len ≤ (⟨0, 6, 1⟩ : range).len - 1 ∧
      (⟨0, 6, 1⟩ : range).start ≤ del_from ∧
      del_from + del_len ≤ (⟨0, 6, 1⟩ : range).start + (⟨0, 6, 1⟩ : range).len ∧
      st'.out_buf = ([14, 15, 16, 17, 18, 19] : List Nat).take del_from
        ++ ([14, 15, 16, 17, 18, 19] : List Nat).drop (del_from + del_len) ∧
      st'.out_buf.length = ([14, 15, 16, 17, 18, 19] : List Nat).length - del_len ∧
      st'.out_buf.take (⟨0, 6, 1⟩ : range).start
        = ([14, 15, 16, 17, 18, 19] : List Nat).take (⟨0, 6, 1⟩ : range).start ∧
      st'.temp_len = 6 - del_len ∧
      st'.ranges[0]? = some { (⟨0, 6, 1⟩ : range) with len := (⟨0, 6, 1⟩ : range).len - del_len } ∧
      1 ≤ (⟨0, 6, 1⟩ : range).len - del_len :=
  havoc_delete_inside havoc_ctx_example ⟨[14, 15, 16, 17, 18, 19], 6, [⟨0, 6, 1⟩]⟩ 0
    (fun k => [0, 0, 1, 2].getD k 0) ⟨0, 6, 1⟩ (by decide) (by decide) (by decide)
    (by decide) (by decide) (by decide)

/-- Scenario S3 evaluated: an entry of ten bytes with the regions `[0, 3]`
and `[4, 9]`; M1 is the first region and M2 the second, whose six bytes are
the buffer of the havoc stage.  Deleting two bytes of M2 leaves four, so
the sequence sent has eight bytes and starts with the four bytes of M1. -/
theorem havoc_delete_S3 :
    (havoc_delete havoc_ctx_example ⟨[14, 15, 16, 17, 18, 19], 6, [⟨0, 6, 1⟩]⟩ 0
        (fun k => [0, 0, 1, 2].getD k 0)).map
      (fun st => [10, 11, 12, 13] ++ st.out_buf)
      = some [10, 11, 12, 13, 14, 15, 18, 19] := by
  decide
/-- C28: when the buffer holds `temp_len >= 1` bytes (at most `MAX_FILE`)
and the ranges are contiguous, start at 0 and end at `temp_len`, each of the
havoc operations that change the length (delete, clone or constant insert,
dictionary insert, duplicate range), applied to any range of the array with
any draws, runs without an access outside the buffer it addresses and
without a draw `UR(0)`, and leaves a state in which the same holds for the
new `temp_len`.  The constants are such that `choose_block_len` is defined
and the lengths fit in 32 bits. -/
theorem havoc_length_ops_inv (ctx : havoc_ctx) (st : havoc_state) (range_choice : Nat)
    (rnd : Nat → Nat) (hctx : havoc_ctx_ok ctx) (hinv : havoc_inv ctx st)
    (hi : range_choice < st.ranges.length) :
    (∃ st', havoc_delete ctx st range_choice rnd = some st' ∧ havoc_inv ctx st') ∧
      (∃ st', havoc_clone ctx st range_choice rnd = some st' ∧ havoc_inv ctx st') ∧
      (∃ st', havoc_insert_extra ctx st range_choice rnd = some st' ∧ havoc_inv ctx st') ∧
      (∃ st', havoc_duplicate ctx st range_choice = some st' ∧ havoc_inv ctx st') := by
  have hr : st.ranges[range_choice]? = some (st.ranges.get ⟨range_choice, hi⟩) :=
    List.getElem?_eq_getElem hi
  exact ⟨havoc_delete_inv ctx st range_choice rnd _ hctx hinv hr,
    havoc_clone_inv ctx st range_choice rnd _ hctx hinv hr,
    havoc_insert_extra_inv ctx st range_choice rnd _ hctx hinv hr,
    havoc_duplicate_inv ctx st range_choice _ hctx hinv hr⟩

/-- C28 at a concrete input: six bytes in the ranges `[0, 2)`, `[2, 5)` and
`[5, 6)`, the operations applied to the middle range. -/
theorem havoc_length_ops_inv_witness :
    (∃ st', havoc_delete havoc_ctx_example
        ⟨[10, 11, 12, 13, 14, 15], 6, [⟨0, 2, 1⟩, ⟨2, 3, 0⟩, ⟨5, 1, 1⟩]⟩ 1
        (fun k => [0, 0, 1, 1].getD k 0) = some st' ∧ havoc_inv havoc_ctx_example st') ∧
      (∃ st', havoc_clone havoc_ctx_example
        ⟨[10, 11, 12, 13, 14, 15], 6, [⟨0, 2, 1⟩, ⟨2, 3, 0⟩, ⟨5, 1, 1⟩]⟩ 1
        (fun k => [0, 0, 1, 1].getD k 0) = some st' ∧ havoc_inv havoc_ctx_example st') ∧
      (∃ st', havoc_insert_extra havoc_ctx_example
        ⟨[10, 11, 12, 13, 14, 15], 6, [⟨0, 2, 1⟩, ⟨2, 3, 0⟩, ⟨5, 1, 1⟩]⟩ 1
        (fun k => [0, 0, 1, 1].getD k 0) = some st' ∧ havoc_inv havoc_ctx_example st') ∧
      (∃ st', havoc_duplicate havoc_ctx_example
        ⟨[10, 11, 12, 13, 14, 15], 6, [⟨0, 2, 1⟩, ⟨2, 3, 0⟩, ⟨5, 1, 1⟩]⟩ 1 = some st' ∧
        havoc_inv havoc_ctx_example st') :=
  havoc_length_ops_inv havoc_ctx_example
    ⟨[10, 11, 12, 13, 14, 15], 6, [⟨0, 2, 1⟩, ⟨2, 3, 0⟩, ⟨5, 1, 1⟩]⟩ 1
    (fun k => [0, 0, 1, 1].getD k 0) (by decide) (by decide) (by decide)

/-! ### C29: the counter pending_favored -/

/-- C29 (the claim fails): in the session of the example the dry run of one
seed leaves `pending_favored = 1`; the first pass of the loop, on state 0,
fuzzes the seed, keeps a new entry generated under state 0 whose trace
covers that of the seed, and takes `pending_favored` from 1 to 0; in the
second pass, on state 5, `cull_queue` marks the new entry as favored
without counting it, `choose_seed` draws it, and the bookkeeping at the end
of `fuzz_one` executes `pending_favored--` on the value 0, which leaves
`2 ^ 32 - 1` in the `u32` counter. -/
theorem pending_favored_wraps :
    session_example.map
        (fun r =>
          (r.1.fs.pending_favored, r.2.1.pending_favored_before, r.2.1.s.fs.pending_favored,
            r.2.2.s.fs.target_state_id, r.2.2.pending_favored_before,
            r.2.2.s.fs.pending_favored))
      = some (1, some 1, 0, 5, some 0, 4294967295) := by
  decide!

end S2AFL
